import Mathlib

/-!
# dht-sched: server selection of the libmemcached fork

A shallow embedding of `libmemcached/hash.cc`, `libmemcached/hosts.cc` and
`libmemcached/sched.h`, followed by theorems about it.

Conventions of the embedding.
* `uint32_t` values are natural numbers; arithmetic that can wrap is written
  with `u32` (reduction modulo `2^32`).
* `double` is an abstract type `D`; the floating point operations the code
  performs are fields of `Externals`.
* Arrays are lists. A pointer into an array is an offset. A read outside the
  list (undefined in C) yields a fixed default.
* What the sources use but do not define (header constants, helper functions,
  the clock) is a field of `Externals`.
-/

namespace DhtSched

/-! ## Machine integers -/

/-- Reduction to `uint32_t`. -/
def u32 (n : Nat) : Nat := n % 4294967296

/-- Conversion of a signed value to `uint32_t`. -/
def u32_of_int (z : Int) : Nat := (z % 4294967296).toNat

/-- The cast `(int32_t)x` of a `uint32_t`. -/
def i32 (n : Nat) : Int :=
  if u32 n < 2147483648 then (u32 n : Int) else (u32 n : Int) - 4294967296

/-! ## Data model (`sched.h` and the declarations the sources rely on) -/

inductive memcached_return_t where
  | MEMCACHED_SUCCESS
  | MEMCACHED_FAILURE
  | MEMCACHED_ERRNO
  | MEMCACHED_MEMORY_ALLOCATION_FAILURE
  | MEMCACHED_NOTFOUND
  | MEMCACHED_SOME_ERRORS
  | MEMCACHED_INVALID_ARGUMENTS
  | MEMCACHED_DEPRECATED
  deriving DecidableEq, Repr

inductive memcached_server_distribution_t where
  | MEMCACHED_DISTRIBUTION_MODULA
  | MEMCACHED_DISTRIBUTION_CONSISTENT
  | MEMCACHED_DISTRIBUTION_CONSISTENT_KETAMA
  | MEMCACHED_DISTRIBUTION_RANDOM
  | MEMCACHED_DISTRIBUTION_CONSISTENT_KETAMA_SPY
  | MEMCACHED_DISTRIBUTION_CONSISTENT_WEIGHTED
  | MEMCACHED_DISTRIBUTION_VIRTUAL_BUCKET
  | MEMCACHED_DISTRIBUTION_DYNAMIC
  | MEMCACHED_DISTRIBUTION_DYNAMIC_WEIGHTED
  | MEMCACHED_DISTRIBUTION_CONSISTENT_MAX
  deriving DecidableEq, Repr

open memcached_return_t memcached_server_distribution_t

/-- The per point and per server counters, `struct sched_context`. -/
structure sched_context (D : Type) where
  get : Nat
  set : Nat
  sum : Nat
  hashsize : Nat
  hitrate : D
  nhitrate : D
  usagerate : D
  psum : Nat

/-- One virtual node, `memcached_continuum_item_st`. -/
structure memcached_continuum_item_st (D : Type) where
  index : Nat
  value : Nat
  sched : sched_context D

/-- The statistics block of the ketama strategies, `struct ketama_stat`.
The `continuum` pointer of the C struct aliases the ketama ring and is not
kept. -/
structure ketama_stat (D : Type) where
  continuum_count : Nat
  max : Nat
  maxid : Nat
  servers : Option (List (sched_context D))
  continuum_points_counter : Nat

/-- The dynamic ring, `struct sched_dynamic`. -/
structure sched_dynamic (D : Type) where
  initialized_ : Bool
  weighted_ : Bool
  continuum_count : Nat
  servers : List (sched_context D)
  continuum_points_counter : Nat
  continuum : List (memcached_continuum_item_st D)
  next_distribution_rebuild : Int
  max : Nat
  maxid : Nat
  alpha : D
  beta : D
  removing_idx : Int

/-- The member `ketama` of `memcached_st`. -/
structure ketama_t (D : Type) where
  weighted_ : Bool
  continuum_count : Nat
  continuum_points_counter : Nat
  next_distribution_rebuild : Int
  continuum : List (memcached_continuum_item_st D)

/-- One server, `org::libmemcached::Instance` (the fields the sources read). -/
structure Instance where
  hostname : String
  port : Nat
  weight : Nat
  next_retry : Int
  deriving DecidableEq, Repr, Inhabited

/-- The member `flags` of `memcached_st`. -/
structure flags_t where
  hash_with_namespace : Bool
  use_sort_hosts : Bool
  auto_eject_hosts : Bool
  deriving DecidableEq, Repr

/-- The selector, `memcached_st`. Keys and the namespace are byte strings. -/
structure memcached_st (D : Type) where
  distribution : memcached_server_distribution_t
  flags : flags_t
  hashkit : List Nat → Nat
  _namespace : List Nat
  number_of_hosts : Nat
  servers : List Instance
  ketama : ketama_t D
  ketama_stat : Option (ketama_stat D)
  dynamic : sched_dynamic D

/-- What the sources use but do not define: header constants, the clock, the
random generator, the digest library and the `double` operations. -/
structure Externals (D : Type) where
  MEMCACHED_MAX_KEY : Nat
  MEMCACHED_POINTS_PER_SERVER : Nat
  MEMCACHED_POINTS_PER_SERVER_KETAMA : Nat
  MEMCACHED_CONTINUUM_ADDITION : Nat
  MEMCACHED_DEFAULT_PORT : Nat
  MEMCACHED_DYNAMIC_SET_REPETITION : Nat
  MEMCACHED_NI_MAXHOST : Nat
  MEMCACHED_NI_MAXSERV : Nat
  MEMCACHED_CMD_GET : Nat
  MEMCACHED_CMD_SET : Nat
  /-- The second of `gettimeofday`, `none` when the call fails. -/
  gettimeofday : Option Int
  /-- The value `random()` returns at this call. -/
  random : Nat
  memcached_virtual_bucket_get : Nat → Nat
  libhashkit_md5_signature : List Nat → List Nat
  /-- Whether the allocator serves the request of this call. -/
  alloc_ok : Bool
  get_hitrate : Nat → Nat → D
  /-- The `double` constant `0`. -/
  dzero : D
  /-- The quotient `(double)a / (double)b` of two `uint32_t`. -/
  ddiv : Nat → Nat → D
  /-- The comparison `a > b` of two `double`. -/
  dgt : D → D → Bool
  /-- The value of
  `floor((float)(pct * MEMCACHED_POINTS_PER_SERVER_KETAMA / 4 * (float)live_servers + 0.0000000001))`
  for `pct = (float)weight / (float)total_weight`, given `weight`,
  `total_weight` and `live_servers`. -/
  weighted_floor : Nat → Nat → Nat → Nat
  /-- The largest value of the unsigned integer type of the field `hashsize`
  of `struct sched_context`. -/
  hashsize_max : Nat
  /-- The cost function `scost` of a counter block. -/
  scost : sched_context D → D
  /-- The difference `a - b` of two `double`. -/
  dsub : D → D → D
  /-- The product `val * (-1)` of a `double`. -/
  dneg : D → D
  /-- The quotient `a / b` of two `double`. -/
  ddivd : D → D → D
  /-- The comparison `a == b` of two `double`. -/
  deq : D → D → Bool
  /-- The `double` with the value of an integer constant. -/
  dnat : Nat → D
  /-- The value of `beta * (1.0 - rate) * d` converted to `uint32_t`, given
  `beta`, `rate` and the `uint32_t` distance `d`. -/
  move_amount : D → D → Nat → Nat
  /-- The macro `memcached_is_consistent_distribution` on the distribution. -/
  memcached_is_consistent_distribution : memcached_server_distribution_t → Bool
  /-- The function `memcached_is_valid_servername`. -/
  memcached_is_valid_servername : String → Bool
  /-- The instance that `__instance_create_with` builds from a host name, a
  port and a weight; `none` when it returns `NULL`. -/
  __instance_create_with : String → Nat → Nat → Option Instance

variable {D : Type}

/-- The macro `memcached_server_count`. -/
def memcached_server_count (ptr : memcached_st D) : Nat := ptr.number_of_hosts

/-- The helper `_is_auto_eject_host`. -/
def _is_auto_eject_host (ptr : memcached_st D) : Bool := ptr.flags.auto_eject_hosts

/-- The macro `memcached_is_weighted_ketama`. -/
def memcached_is_weighted_ketama (ptr : memcached_st D) : Bool := ptr.ketama.weighted_

/-- The read `continuum[i].value`. -/
def value_at (continuum : List (memcached_continuum_item_st D)) (i : Nat) : Nat :=
  match continuum[i]? with
  | some p => p.value
  | none => 0

/-- The read `continuum[i].index`. -/
def index_at (continuum : List (memcached_continuum_item_st D)) (i : Nat) : Nat :=
  match continuum[i]? with
  | some p => p.index
  | none => 0

/-- The in place update `a[i] = f(a[i])`. -/
def modify_at {α : Type} (f : α → α) : List α → Nat → List α
  | [], _ => []
  | x :: xs, 0 => f x :: xs
  | x :: xs, n + 1 => x :: modify_at f xs n

/-! ## `hash.cc` -/

/-- The helper `generate_hash`. -/
def generate_hash (ptr : memcached_st D) (key : List Nat) : Nat := ptr.hashkit key

/-- The loop `while (left < right)` of `dispatch_host`, run for at most `fuel`
iterations; `left` and `right` are offsets from `begin`. -/
def search_loop (continuum : List (memcached_continuum_item_st D)) (hash : Nat) :
    Nat → Nat → Nat → Nat
  | 0, _, right => right
  | fuel + 1, left, right =>
    if left < right then
      let middle := left + (right - left) / 2
      if value_at continuum middle < hash then
        search_loop continuum hash fuel (middle + 1) right
      else
        search_loop continuum hash fuel left middle
    else right

/-- The binary search of `dispatch_host` with the wrap `if (right == end) right= begin`:
the offset of `right` on exit. The loop halves `right - left`, so `num`
iterations are enough (`bsearch_unfold`). -/
def dispatch_position (continuum : List (memcached_continuum_item_st D))
    (continuum_points_counter hash : Nat) : Nat :=
  let num := u32 (continuum_points_counter + 4294967295)
  let right := search_loop continuum hash num 0 num
  if right = num then 0 else right

/-- The counter update `get++` or `set++` by command. -/
def record_cmd (E : Externals D) (cmd : Nat) (s : sched_context D) : sched_context D :=
  if cmd = E.MEMCACHED_CMD_GET then { s with get := u32 (s.get + 1) }
  else if cmd = E.MEMCACHED_CMD_SET then { s with set := u32 (s.set + 1) }
  else s

/-- The ketama branch of `dispatch_host`. -/
def dispatch_ketama (E : Externals D) (ptr : memcached_st D) (hash cmd : Nat) :
    memcached_st D × Nat :=
  let right := dispatch_position ptr.ketama.continuum ptr.ketama.continuum_points_counter hash
  let idx := index_at ptr.ketama.continuum right
  match ptr.ketama_stat with
  | none => (ptr, idx)
  | some ks =>
    ({ ptr with ketama_stat := some { ks with
          servers := ks.servers.map (fun l => modify_at (record_cmd E cmd) l idx) } }, idx)

/-- The update of the selected point in the dynamic branch of `dispatch_host`. -/
def dynamic_hit (E : Externals D) (cmd : Nat) (p : memcached_continuum_item_st D) :
    memcached_continuum_item_st D :=
  let s1 := record_cmd E cmd p.sched
  let s2 := { s1 with sum := u32 (s1.get + s1.set) }
  let s3 :=
    if s2.get ≠ 0 ∧ i32 s2.set ≤ i32 (u32 (s2.get + 4294967296 - s2.set)) then
      { s2 with hitrate := E.get_hitrate s2.get s2.set,
                nhitrate := E.get_hitrate s2.get s2.set }
    else s2
  { p with sched := s3 }

/-- The assignment `p.sched.usagerate = (double)p.sched.sum / (double)max`. -/
def set_usagerate (E : Externals D) (max : Nat) (p : memcached_continuum_item_st D) :
    memcached_continuum_item_st D :=
  { p with sched := { p.sched with usagerate := E.ddiv p.sched.sum max } }

/-- The loop `for (i = 0; i < num; i++) continuum[i].sched.usagerate = sum / max`. -/
def refresh_usagerate (E : Externals D) (num max : Nat)
    (continuum : List (memcached_continuum_item_st D)) :
    List (memcached_continuum_item_st D) :=
  (List.range num).foldl (fun c i => modify_at (set_usagerate E max) c i) continuum

/-- The dynamic branch of `dispatch_host`. -/
def dispatch_dynamic (E : Externals D) (ptr : memcached_st D) (hash cmd : Nat) :
    memcached_st D × Nat :=
  let dyn := ptr.dynamic
  let num := u32 (dyn.continuum_points_counter + 4294967295)
  let right := dispatch_position dyn.continuum dyn.continuum_points_counter hash
  let c1 := modify_at (dynamic_hit E cmd) dyn.continuum right
  let sum := match c1[right]? with
    | some p => p.sched.sum
    | none => 0
  let max_changes : Bool := decide (sum > dyn.max ∧ sum > 0)
  let c2 := if max_changes then refresh_usagerate E num sum c1 else c1
  ({ ptr with dynamic := { dyn with
        continuum := c2,
        max := if max_changes then sum else dyn.max,
        maxid := if max_changes then index_at c1 right else dyn.maxid } },
   index_at c2 right)

/-- The function `dispatch_host`: the state after the call and the returned
server index. -/
def dispatch_host (E : Externals D) (ptr : memcached_st D) (hash cmd : Nat) :
    memcached_st D × Nat :=
  match ptr.distribution with
  | MEMCACHED_DISTRIBUTION_CONSISTENT
  | MEMCACHED_DISTRIBUTION_CONSISTENT_WEIGHTED
  | MEMCACHED_DISTRIBUTION_CONSISTENT_KETAMA
  | MEMCACHED_DISTRIBUTION_CONSISTENT_KETAMA_SPY => dispatch_ketama E ptr hash cmd
  | MEMCACHED_DISTRIBUTION_DYNAMIC
  | MEMCACHED_DISTRIBUTION_DYNAMIC_WEIGHTED => dispatch_dynamic E ptr hash cmd
  | MEMCACHED_DISTRIBUTION_MODULA => (ptr, hash % memcached_server_count ptr)
  | MEMCACHED_DISTRIBUTION_RANDOM => (ptr, u32 E.random % memcached_server_count ptr)
  | MEMCACHED_DISTRIBUTION_VIRTUAL_BUCKET => (ptr, E.memcached_virtual_bucket_get hash)
  | MEMCACHED_DISTRIBUTION_CONSISTENT_MAX => (ptr, hash % memcached_server_count ptr)

/-- The library function `strncpy(dst, src, n)`: the `n` bytes written to
`dst`, the bytes of `src` up to its first NUL and NUL padding after them. -/
def strncpy (src : List Nat) (n : Nat) : List Nat :=
  let s := (src.take n).takeWhile (fun b => b ≠ 0)
  s ++ List.replicate (n - s.length) 0

/-- The function `_generate_hash_wrapper`; `key_length` is the length of `key`. -/
def _generate_hash_wrapper (E : Externals D) (ptr : memcached_st D) (key : List Nat) : Nat :=
  if memcached_server_count ptr = 1 then 0
  else if ptr.flags.hash_with_namespace then
    let temp_length := ptr._namespace.length + key.length
    if temp_length > E.MEMCACHED_MAX_KEY - 1 then 0
    else
      generate_hash ptr
        (strncpy ptr._namespace ptr._namespace.length ++ strncpy key key.length)
  else generate_hash ptr key

/-- The function `memcached_generate_hash`. -/
def memcached_generate_hash (E : Externals D) (ptr : memcached_st D) (key : List Nat)
    (cmd : Nat) : memcached_st D × Nat :=
  dispatch_host E ptr (_generate_hash_wrapper E ptr key) cmd

/-! ## `hosts.cc`: helpers -/

/-- The function `hs_round`. The difference `big - small` is taken in
`uint32_t` before the cast to `int64_t`. -/
def hs_round (small big : Nat) : Nat :=
  let diff : Int := (u32 (u32 big + 4294967296 - u32 small) : Nat)
  if diff < 0 then u32_of_int (diff + 4294967295) else u32_of_int diff

/-- The library function `strcmp` on host names, by sign. -/
def strcmp (a b : String) : Int :=
  if a < b then -1 else if a = b then 0 else 1

/-- The comparator `compare_servers`. -/
def compare_servers (a b : Instance) : Int :=
  let return_value := strcmp a.hostname b.hostname
  if return_value = 0 then (a.port : Int) - (b.port : Int) else return_value

/-- The comparator `continuum_item_cmp`. -/
def continuum_item_cmp (ct1 ct2 : memcached_continuum_item_st D) : Int :=
  if ct1.value = ct2.value then 0
  else if ct1.value > ct2.value then 1
  else -1

/-- The library function `qsort(base, nmemb, size, compar)`: the first `nmemb`
elements are put in ascending order of `compar`. The order `qsort` gives to
elements that compare equal is unspecified; this model keeps their order. -/
def qsort {α : Type} (compar : α → α → Int) (base : List α) (nmemb : Nat) : List α :=
  (base.take nmemb).insertionSort (fun a b => compar a b ≤ 0) ++ base.drop nmemb

/-- The function `sort_hosts`. -/
def sort_hosts (ptr : memcached_st D) : memcached_st D :=
  if memcached_server_count ptr ≠ 0 then
    { ptr with servers := qsort compare_servers ptr.servers (memcached_server_count ptr) }
  else ptr

/-- The bytes of a C string (host names and labels are ASCII, one byte per
character). -/
def bytes_of (s : String) : List Nat := s.toList.map Char.toNat

/-- The function `ketama_server_hash`. -/
def ketama_server_hash (E : Externals D) (key : List Nat) (alignment : Nat) : Nat :=
  let results := E.libhashkit_md5_signature key
  ((results.getD (3 + alignment * 4) 0 &&& 255) <<< 24)
    ||| ((results.getD (2 + alignment * 4) 0 &&& 255) <<< 16)
    ||| ((results.getD (1 + alignment * 4) 0 &&& 255) <<< 8)
    ||| (results.getD (0 + alignment * 4) 0 &&& 255)

/-- The read `list[host_index]` of the instance array. -/
def instance_at (ptr : memcached_st D) (host_index : Nat) : Instance :=
  ptr.servers.getD host_index default

/-- A slot of freshly allocated memory (its contents are indeterminate in C). -/
def fresh_item (E : Externals D) : memcached_continuum_item_st D :=
  { index := 0, value := 0,
    sched := { get := 0, set := 0, sum := 0, hashsize := 0, hitrate := E.dzero,
               nhitrate := E.dzero, usagerate := E.dzero, psum := 0 } }

/-- The read `continuum[j]` of a whole item. -/
def slot (E : Externals D) (continuum : List (memcached_continuum_item_st D)) (j : Nat) :
    memcached_continuum_item_st D :=
  continuum.getD j (fresh_item E)

/-- The writes `continuum[k] = upd(continuum[k], points[k])` for `k = 0, 1, ...`
in order, one per `(value, index)` pair; slots beyond the initialised part of
the buffer start from `fresh`. -/
def write_points (upd : memcached_continuum_item_st D → Nat × Nat → memcached_continuum_item_st D)
    (fresh : memcached_continuum_item_st D) :
    List (Nat × Nat) → List (memcached_continuum_item_st D) →
      List (memcached_continuum_item_st D)
  | [], buf => buf
  | p :: ps, [] => upd fresh p :: write_points upd fresh ps []
  | p :: ps, b :: bs => upd b p :: write_points upd fresh ps bs

/-- The two assignments `continuum[k].index= ...; continuum[k].value= ...` of
`update_continuum`. -/
def set_point (b : memcached_continuum_item_st D) (p : Nat × Nat) :
    memcached_continuum_item_st D :=
  { b with index := p.2, value := p.1 }

/-- The live server count and `next_distribution_rebuild` computed by the
first loop of `update_continuum` and `update_dynamic` under auto eject. -/
def count_live_servers (ptr : memcached_st D) (now : Int) : Nat × Int :=
  (List.range (memcached_server_count ptr)).foldl
    (fun (acc : Nat × Int) host_index =>
      if (instance_at ptr host_index).next_retry ≤ now then (acc.1 + 1, acc.2)
      else if acc.2 = 0 ∨ (instance_at ptr host_index).next_retry < acc.2 then
        (acc.1, (instance_at ptr host_index).next_retry)
      else acc)
    (0, 0)

/-- The value of `live_servers` after the counting step. -/
def live_servers_of (ptr : memcached_st D) (now : Int) : Nat :=
  if _is_auto_eject_host ptr then (count_live_servers ptr now).1
  else memcached_server_count ptr

/-- The loop that sums `total_weight` (kept in `uint64_t`). -/
def total_weight_of (ptr : memcached_st D) (now : Int) : Nat :=
  if memcached_is_weighted_ketama ptr then
    (List.range (memcached_server_count ptr)).foldl
      (fun total host_index =>
        if _is_auto_eject_host ptr = false ∨ (instance_at ptr host_index).next_retry ≤ now then
          (total + (instance_at ptr host_index).weight) % 18446744073709551616
        else total)
      0
  else 0

/-! ## `hosts.cc`: `update_continuum` -/

/-- The output of the `snprintf` calls of `update_continuum`. In the loop of
the non Spy branch `pointer_index` starts at 1 and the label shows
`pointer_index - 1`. -/
def sort_host_label (E : Externals D) (spy : Bool) (inst : Instance) (pointer_index : Nat) :
    String :=
  if spy then
    "/" ++ inst.hostname ++ ":" ++ toString inst.port ++ "-" ++ toString pointer_index
  else if inst.port = E.MEMCACHED_DEFAULT_PORT then
    inst.hostname ++ "-" ++ toString (pointer_index - 1)
  else
    inst.hostname ++ ":" ++ toString inst.port ++ "-" ++ toString (pointer_index - 1)

/-- The size `sizeof(sort_host)` of the label buffer. -/
def sizeof_sort_host (E : Externals D) (spy : Bool) : Nat :=
  (if spy then 1 else 0) + E.MEMCACHED_NI_MAXHOST + 1 + E.MEMCACHED_NI_MAXSERV + 1
    + E.MEMCACHED_NI_MAXSERV

/-- The `(value, index)` pairs written for one label. -/
def label_points (E : Externals D) (ptr : memcached_st D) (host_index : Nat) (label : String)
    (pointer_per_hash : Nat) : List (Nat × Nat) :=
  if memcached_is_weighted_ketama ptr then
    (List.range pointer_per_hash).map
      (fun x => (ketama_server_hash E (bytes_of label) x, host_index))
  else [(ptr.hashkit (bytes_of label), host_index)]

/-- The label of iteration `k` (counted from 0) of the loop over
`pointer_index` for one server: the Spy branch runs `pointer_index` from 0,
the other branch from 1. -/
def label_of (E : Externals D) (ptr : memcached_st D) (host_index k : Nat) : String :=
  sort_host_label E (decide (ptr.distribution = MEMCACHED_DISTRIBUTION_CONSISTENT_KETAMA_SPY))
    (instance_at ptr host_index)
    (if ptr.distribution = MEMCACHED_DISTRIBUTION_CONSISTENT_KETAMA_SPY then k else k + 1)

/-- One iteration of the loop over `pointer_index` for one server; the state is
the points written so far and whether `snprintf` overflowed the label buffer
(the function then returns). -/
def emit_label (E : Externals D) (ptr : memcached_st D) (host_index pointer_per_hash : Nat)
    (st : List (Nat × Nat) × Bool) (k : Nat) : List (Nat × Nat) × Bool :=
  if st.2 then st
  else if (label_of E ptr host_index k).length ≥
      sizeof_sort_host E
        (decide (ptr.distribution = MEMCACHED_DISTRIBUTION_CONSISTENT_KETAMA_SPY)) then
    (st.1, true)
  else
    (st.1 ++ label_points E ptr host_index (label_of E ptr host_index k) pointer_per_hash, false)

/-- The loop over `pointer_index` for one server. -/
def emit_host (E : Externals D) (ptr : memcached_st D) (host_index : Nat)
    (pointer_per_server pointer_per_hash : Nat) (written : List (Nat × Nat)) :
    List (Nat × Nat) × Bool :=
  (List.range (pointer_per_server / pointer_per_hash)).foldl
    (emit_label E ptr host_index pointer_per_hash) (written, false)

/-- The locals carried by the server loop of `update_continuum`; `points`
are the pairs written so far, so `continuum_index` is their number. -/
structure continuum_build where
  points : List (Nat × Nat)
  pointer_counter : Nat
  pointer_per_server : Nat
  pointer_per_hash : Nat
  failed : Bool

/-- The value of `pointer_per_server` in an iteration of the server loop that
reaches the point loop: recomputed under weights, carried over otherwise. -/
def step_pointer_per_server (E : Externals D) (ptr : memcached_st D) (now : Int)
    (b : continuum_build) (host_index : Nat) : Nat :=
  if memcached_is_weighted_ketama ptr then
    u32 (E.weighted_floor (instance_at ptr host_index).weight (total_weight_of ptr now)
          (live_servers_of ptr now) * 4)
  else b.pointer_per_server

/-- The value of `pointer_per_hash` in an iteration of the server loop that
reaches the point loop. -/
def step_pointer_per_hash (ptr : memcached_st D) (b : continuum_build) : Nat :=
  if memcached_is_weighted_ketama ptr then 4 else b.pointer_per_hash

/-- One iteration of the server loop of `update_continuum`. -/
def continuum_step (E : Externals D) (ptr : memcached_st D) (now : Int)
    (b : continuum_build) (host_index : Nat) : continuum_build :=
  if b.failed then b
  else if _is_auto_eject_host ptr = true ∧ (instance_at ptr host_index).next_retry > now then b
  else if (emit_host E ptr host_index (step_pointer_per_server E ptr now b host_index)
            (step_pointer_per_hash ptr b) b.points).2 then
    { b with
      points := (emit_host E ptr host_index (step_pointer_per_server E ptr now b host_index)
                  (step_pointer_per_hash ptr b) b.points).1
      pointer_per_server := step_pointer_per_server E ptr now b host_index
      pointer_per_hash := step_pointer_per_hash ptr b
      failed := true }
  else
    { points := (emit_host E ptr host_index (step_pointer_per_server E ptr now b host_index)
                  (step_pointer_per_hash ptr b) b.points).1
      pointer_counter := u32 (b.pointer_counter + step_pointer_per_server E ptr now b host_index)
      pointer_per_server := step_pointer_per_server E ptr now b host_index
      pointer_per_hash := step_pointer_per_hash ptr b
      failed := false }

/-- The server loop of `update_continuum`. -/
def continuum_loop (E : Externals D) (ptr : memcached_st D) (now : Int) (n : Nat) :
    continuum_build :=
  (List.range n).foldl (continuum_step E ptr now)
    { points := [], pointer_counter := 0,
      pointer_per_server := E.MEMCACHED_POINTS_PER_SERVER, pointer_per_hash := 1,
      failed := false }

/-- The statistics block after `update_continuum`: filled the first time only. -/
def init_ketama_stat (E : Externals D) (live_servers pointer_counter : Nat)
    (ks : ketama_stat D) : ketama_stat D :=
  match ks.servers with
  | some _ => ks
  | none =>
    { ks with continuum_count := live_servers,
              servers := some (List.replicate live_servers (fresh_item E).sched),
              continuum_points_counter := pointer_counter }

/-- The function `update_continuum`. -/
def update_continuum (E : Externals D) (ptr : memcached_st D) :
    memcached_return_t × memcached_st D :=
  match E.gettimeofday with
  | none => (MEMCACHED_ERRNO, ptr)
  | some now =>
    let live_servers := live_servers_of ptr now
    let rebuild :=
      if _is_auto_eject_host ptr then (count_live_servers ptr now).2
      else ptr.ketama.next_distribution_rebuild
    let ptr1 := { ptr with ketama := { ptr.ketama with next_distribution_rebuild := rebuild } }
    if live_servers = 0 then (MEMCACHED_SUCCESS, ptr1)
    else if live_servers > ptr.ketama.continuum_count ∧ E.alloc_ok = false then
      (MEMCACHED_MEMORY_ALLOCATION_FAILURE, ptr1)
    else
      let continuum_count :=
        if live_servers > ptr.ketama.continuum_count then
          u32 (live_servers + E.MEMCACHED_CONTINUUM_ADDITION)
        else ptr.ketama.continuum_count
      let b := continuum_loop E ptr now (memcached_server_count ptr)
      let buf := write_points set_point (fresh_item E) b.points ptr.ketama.continuum
      if b.failed then
        (MEMCACHED_MEMORY_ALLOCATION_FAILURE,
          { ptr1 with ketama := { ptr1.ketama with continuum_count := continuum_count,
                                                   continuum := buf } })
      else
        (MEMCACHED_SUCCESS,
          { ptr1 with
            ketama_stat := ptr.ketama_stat.map (init_ketama_stat E live_servers b.pointer_counter)
            ketama := { ptr1.ketama with
              continuum_count := continuum_count
              continuum_points_counter := b.pointer_counter
              continuum := qsort continuum_item_cmp buf b.pointer_counter } })

/-! ## `hosts.cc`: `update_dynamic` -/

/-- The locals of the incipient algorithm: the array `set`, the matrix `bak`
of used edges, and the cursors. -/
structure incipient_state where
  set : List Nat
  bak : Nat → Nat → Nat
  cur_nd : Nat
  set_id : Nat
  cur_frow : Nat

/-- The state before the first iteration: `set` zeroed, `bak` the identity
matrix, `set_id = 1`. -/
def incipient_init (set_size : Nat) : incipient_state :=
  { set := List.replicate set_size 0
    bak := fun i j => if i = j then 1 else 0
    cur_nd := 0
    set_id := 1
    cur_frow := 0 }

/-- One iteration of the outer loop of the incipient algorithm: the inner loop
takes the first `j` whose edge is unused and breaks. -/
def incipient_step (live_servers : Nat) (st : incipient_state) : incipient_state :=
  match (List.range live_servers).find?
      (fun j => st.bak st.cur_nd (u32 (st.cur_frow + j) % live_servers) == 0) with
  | none => st
  | some j =>
    { set := st.set.set st.set_id (u32 (st.cur_frow + j) % live_servers)
      bak := fun a b =>
        if a = st.cur_nd ∧ b = u32 (st.cur_frow + j) % live_servers then 1 else st.bak a b
      cur_nd := u32 (st.cur_frow + j) % live_servers
      set_id := u32 (st.set_id + 1)
      cur_frow := u32 (u32 (st.cur_frow + j) % live_servers + 1) % live_servers }

/-- The array `set` the incipient algorithm builds. -/
def incipient_set (live_servers set_size : Nat) : List Nat :=
  ((List.range (set_size - 1)).foldl (fun st _ => incipient_step live_servers st)
    (incipient_init set_size)).set

/-- The assignments of the incipient assignment loop to one slot. -/
def init_point (E : Externals D) (b : memcached_continuum_item_st D) (p : Nat × Nat) :
    memcached_continuum_item_st D :=
  { index := p.2, value := p.1,
    sched := { b.sched with get := 0, set := 0, sum := 0, hitrate := E.dzero,
                            usagerate := E.dzero } }

/-- The `(value, index)` pairs of the initial assignment. -/
def initial_points (live_servers set_size total_points : Nat) : List (Nat × Nat) :=
  (List.range total_points).map
    (fun index =>
      (u32 (4294967295 / total_points * (index + 1)),
       (incipient_set live_servers set_size).getD (index % set_size) 0))

/-- The array `servers` allocated by `update_dynamic`. -/
def new_servers (E : Externals D) (live_servers : Nat) : List (sched_context D) :=
  List.replicate live_servers (fresh_item E).sched

/-- The server chosen by an addition: the loop over `usagerate`. -/
def max_usage_server (E : Externals D) (dyn : sched_dynamic D) : Nat :=
  ((List.range dyn.continuum_count).foldl
    (fun (acc : D × Nat) host_index =>
      if E.dgt (dyn.servers.getD host_index (fresh_item E).sched).usagerate acc.1 then
        ((dyn.servers.getD host_index (fresh_item E).sched).usagerate, host_index)
      else acc)
    (E.dzero, 0)).2

/-- The ring an addition builds in `new_ptr`. -/
def addition_ring (E : Externals D) (dyn : sched_dynamic D) (live_servers : Nat) :
    List (memcached_continuum_item_st D) :=
  (List.range dyn.continuum_points_counter).flatMap
    (fun j =>
      let i := u32 (u32 (j + 4294967295) + dyn.continuum_points_counter)
                 % dyn.continuum_points_counter
      if (slot E dyn.continuum j).index = max_usage_server E dyn then
        [ { fresh_item E with
              index := u32 (live_servers + 4294967295)
              value := hs_round
                (hs_round (value_at dyn.continuum i) (value_at dyn.continuum j) / 2)
                (value_at dyn.continuum j) },
          slot E dyn.continuum j ]
      else [slot E dyn.continuum j])

/-- The number `srv_num` of points of the chosen server. -/
def addition_srv_num (E : Externals D) (dyn : sched_dynamic D) : Nat :=
  ((List.range dyn.continuum_points_counter).filter
    (fun index => (slot E dyn.continuum index).index = max_usage_server E dyn)).length

/-- The ring a removal builds in `new_ptr`; `removing_idx` is an `int`
compared as `uint32_t`. -/
def removal_ring (E : Externals D) (dyn : sched_dynamic D) :
    List (memcached_continuum_item_st D) :=
  (List.range dyn.continuum_points_counter).flatMap
    (fun index =>
      if (slot E dyn.continuum index).index ≠ u32_of_int dyn.removing_idx then
        if (slot E dyn.continuum index).index > u32_of_int dyn.removing_idx then
          [ { slot E dyn.continuum index with
                index := (slot E dyn.continuum index).index - 1 } ]
        else [slot E dyn.continuum index]
      else [])

/-- The number `removing_points`. -/
def removal_points (E : Externals D) (dyn : sched_dynamic D) : Nat :=
  ((List.range dyn.continuum_points_counter).filter
    (fun index => (slot E dyn.continuum index).index = u32_of_int dyn.removing_idx)).length

/-- The value of `set_size` in the initial build. -/
def initial_set_size (live_servers : Nat) : Nat :=
  u32 (live_servers * (if live_servers = 1 then 1 else live_servers - 1))

/-- The value of `total_points` in the initial build. -/
def initial_total_points (E : Externals D) (live_servers : Nat) : Nat :=
  u32 (initial_set_size live_servers * E.MEMCACHED_DYNAMIC_SET_REPETITION)

/-- The buffer after the incipient assignment loop. -/
def initial_ring (E : Externals D) (dyn : sched_dynamic D) (live_servers : Nat) :
    List (memcached_continuum_item_st D) :=
  write_points (init_point E) (fresh_item E)
    (initial_points live_servers (initial_set_size live_servers)
      (initial_total_points E live_servers))
    dyn.continuum

/-- The function `update_dynamic`. The sum `total_weight` it computes is never
read and is left out. -/
def update_dynamic (E : Externals D) (ptr : memcached_st D) :
    memcached_return_t × memcached_st D :=
  match E.gettimeofday with
  | none => (MEMCACHED_ERRNO, ptr)
  | some now =>
    let live_servers := live_servers_of ptr now
    let rebuild :=
      if _is_auto_eject_host ptr then (count_live_servers ptr now).2
      else ptr.dynamic.next_distribution_rebuild
    let dyn := ptr.dynamic
    if live_servers = 0 ∨ dyn.continuum_count = live_servers then
      (MEMCACHED_SUCCESS, { ptr with dynamic := { dyn with next_distribution_rebuild := rebuild } })
    else if E.alloc_ok = false then
      (MEMCACHED_MEMORY_ALLOCATION_FAILURE,
        { ptr with dynamic := { dyn with next_distribution_rebuild := rebuild } })
    else if dyn.continuum_points_counter = 0 then
      (MEMCACHED_SUCCESS,
        { ptr with dynamic := { dyn with
            next_distribution_rebuild := rebuild
            continuum :=
              if live_servers > dyn.continuum_count then
                (initial_ring E dyn live_servers).take (initial_total_points E live_servers)
              else initial_ring E dyn live_servers
            continuum_count :=
              if live_servers > dyn.continuum_count then live_servers else dyn.continuum_count
            servers := new_servers E live_servers
            max := 0
            maxid := 0
            continuum_points_counter := initial_total_points E live_servers
            initialized_ := true } })
    else if live_servers > dyn.continuum_count then
      (MEMCACHED_SUCCESS,
        { ptr with dynamic := { dyn with
            next_distribution_rebuild := rebuild
            continuum_points_counter := u32 (dyn.continuum_points_counter + addition_srv_num E dyn)
            continuum := qsort continuum_item_cmp (addition_ring E dyn live_servers)
              (u32 (dyn.continuum_points_counter + addition_srv_num E dyn))
            continuum_count := live_servers
            servers := new_servers E live_servers
            initialized_ := true } })
    else
      (MEMCACHED_SUCCESS,
        { ptr with dynamic := { dyn with
            next_distribution_rebuild := rebuild
            continuum_points_counter :=
              u32 (dyn.continuum_points_counter + 4294967296 - removal_points E dyn)
            continuum := qsort continuum_item_cmp (removal_ring E dyn)
              (u32 (dyn.continuum_points_counter + 4294967296 - removal_points E dyn))
            continuum_count := live_servers
            servers := new_servers E live_servers
            initialized_ := true } })

/-- The fleet as `run_distribution` hands it to the rebuild: sorted when
`use_sort_hosts` is set. -/
def hosts_in_order (ptr : memcached_st D) : memcached_st D :=
  if ptr.flags.use_sort_hosts then sort_hosts ptr else ptr

/-- The function `run_distribution`. The call `srandom` of the Random strategy
acts on the generator, which is an external. -/
def run_distribution (E : Externals D) (ptr : memcached_st D) :
    memcached_return_t × memcached_st D :=
  match (hosts_in_order ptr).distribution with
  | MEMCACHED_DISTRIBUTION_CONSISTENT
  | MEMCACHED_DISTRIBUTION_CONSISTENT_KETAMA
  | MEMCACHED_DISTRIBUTION_CONSISTENT_KETAMA_SPY
  | MEMCACHED_DISTRIBUTION_CONSISTENT_WEIGHTED => update_continuum E (hosts_in_order ptr)
  | MEMCACHED_DISTRIBUTION_DYNAMIC
  | MEMCACHED_DISTRIBUTION_DYNAMIC_WEIGHTED => update_dynamic E (hosts_in_order ptr)
  | _ => (MEMCACHED_SUCCESS, hosts_in_order ptr)

/-! ## `hash.cc`: selection with redistribution -/

/-- The function `_regen_for_auto_eject`. The clock read here and the one
inside `run_distribution` belong to the same call and return the same second. -/
def _regen_for_auto_eject (E : Externals D) (ptr : memcached_st D) : memcached_st D :=
  if _is_auto_eject_host ptr = true ∧ ptr.ketama.next_distribution_rebuild ≠ 0 then
    match E.gettimeofday with
    | some now =>
      if now > ptr.ketama.next_distribution_rebuild then (run_distribution E ptr).2 else ptr
    | none => ptr
  else ptr

/-- The function `memcached_autoeject`. -/
def memcached_autoeject (E : Externals D) (ptr : memcached_st D) : memcached_st D :=
  _regen_for_auto_eject E ptr

/-- The function `memcached_generate_hash_with_redistribution`: the hash is
taken first, then the rebuild check, then the dispatch. -/
def memcached_generate_hash_with_redistribution (E : Externals D) (ptr : memcached_st D)
    (key : List Nat) (cmd : Nat) : memcached_st D × Nat :=
  dispatch_host E (_regen_for_auto_eject E ptr) (_generate_hash_wrapper E ptr key) cmd

/-! ## `hosts.cc`: `memcached_server_remove` -/

/-- One entry of a `memcached_server_list_st` (the fields the sources read).
The field `number_of_hosts` of the first entry holds the count of the list. -/
structure memcached_server_st where
  hostname : String
  port : Nat
  weight : Nat
  number_of_hosts : Nat
  deriving DecidableEq, Repr, Inhabited

/-- The macro `memcached_server_list_count`. -/
def memcached_server_list_count (list : List memcached_server_st) : Nat :=
  (list.headD default).number_of_hosts

/-- The search loop of `memcached_server_remove`: whether an instance among the
first `memcached_server_count` carries the host name. -/
def find_instance (ptr : memcached_st D) (hostname : String) : Option Nat :=
  (List.range (memcached_server_count ptr)).find?
    (fun i => decide (strcmp (instance_at ptr i).hostname hostname = 0))

/-- The copy loop of `memcached_server_remove`: the instances it keeps. -/
def remove_copy (ptr : memcached_st D) (hostname : String) : List Instance :=
  ((List.range ptr.number_of_hosts).map (instance_at ptr)).filter
    (fun inst => decide (strcmp inst.hostname hostname ≠ 0))

/-- The copy loop of `memcached_server_remove`: the value of `removing_idx`
after it, `-1` or the position assigned last. -/
def remove_idx (ptr : memcached_st D) (hostname : String) : Int :=
  (List.range ptr.number_of_hosts).foldl
    (fun (removing_idx : Int) i =>
      if strcmp (instance_at ptr i).hostname hostname ≠ 0 then removing_idx else (i : Int))
    (-1)

/-- The function `memcached_server_remove`; `none` is the `NULL` list. The
difference `memcached_server_count(ptr) - count` is taken in `uint32_t`. -/
def memcached_server_remove (E : Externals D) (ptr : memcached_st D)
    (list : Option (List memcached_server_st)) : memcached_return_t × memcached_st D :=
  match list with
  | none => (MEMCACHED_SUCCESS, ptr)
  | some l =>
    match find_instance ptr (l.headD default).hostname with
    | none => (MEMCACHED_NOTFOUND, ptr)
    | some _ =>
      if u32 (memcached_server_count ptr + 4294967296 - u32 (memcached_server_list_count l)) ≤ 0
      then (MEMCACHED_SOME_ERRORS, ptr)
      else if E.alloc_ok = false then (MEMCACHED_MEMORY_ALLOCATION_FAILURE, ptr)
      else
        run_distribution E
          { ptr with
            servers := remove_copy ptr (l.headD default).hostname
            number_of_hosts :=
              u32 (ptr.number_of_hosts + 4294967296 - u32 (memcached_server_list_count l))
            dynamic := { ptr.dynamic with
              removing_idx := remove_idx ptr (l.headD default).hostname } }

/-! ## `hosts.cc`: the loops of `mem_hs_sched_dynamic` -/

/-- The function `abs_int`: the `int` argument is negated when negative and the
result converted to `uint32_t`. -/
def abs_int (val : Int) : Nat :=
  u32_of_int (if val < 0 then val * (-1) else val)

/-- The body of the first loop of the controller tick on one server. -/
def sched_clear_host (E : Externals D) (host : sched_context D) : sched_context D :=
  { host with get := 0, set := 0, sum := 0, usagerate := E.dzero, hashsize := 0 }

/-- The first loop of the controller tick: the counters of the servers below
`continuum_count` are cleared. -/
def sched_clear_servers (E : Externals D) (dyn : sched_dynamic D) : List (sched_context D) :=
  (List.range dyn.continuum_count).foldl
    (fun servers h => modify_at (sched_clear_host E) servers h) dyn.servers

/-- The position after `j` on a ring of `P` points, `(j + 1) % P` in
`uint32_t`. -/
def ring_next (P j : Nat) : Nat :=
  u32 (j + 1) % P

/-- The position before `j` on a ring of `P` points, `(j - 1 + P) % P` in
`uint32_t`. -/
def ring_prev (P j : Nat) : Nat :=
  u32 (u32 (j + 4294967295) + P) % P

/-- The additions of the second loop of the controller tick to the server of
point `j`. The sum `hashsize` wraps at the width of its field; `get`, `set`
and `sum` are `uint32_t`. -/
def sched_add_point (E : Externals D) (dyn : sched_dynamic D) (j : Nat)
    (curr : memcached_continuum_item_st D) (host : sched_context D) : sched_context D :=
  { host with
    hashsize := (host.hashsize +
      hs_round (value_at dyn.continuum j)
        (value_at dyn.continuum (ring_next dyn.continuum_points_counter j))) %
      (E.hashsize_max + 1)
    get := u32 (host.get + curr.sched.get)
    set := u32 (host.set + curr.sched.set)
    sum := u32 (host.sum + curr.sched.sum) }

/-- One iteration of the second loop of the controller tick; the state is the
array `servers` and the local `max`. -/
def sched_accumulate_step (E : Externals D) (dyn : sched_dynamic D)
    (st : List (sched_context D) × Nat) (j : Nat) : List (sched_context D) × Nat :=
  (modify_at (sched_add_point E dyn j (slot E dyn.continuum j)) st.1 (slot E dyn.continuum j).index,
   if ((modify_at (sched_add_point E dyn j (slot E dyn.continuum j)) st.1
          (slot E dyn.continuum j).index).getD (slot E dyn.continuum j).index
        (fresh_item E).sched).sum > st.2 then
     ((modify_at (sched_add_point E dyn j (slot E dyn.continuum j)) st.1
          (slot E dyn.continuum j).index).getD (slot E dyn.continuum j).index
        (fresh_item E).sched).sum
   else st.2)

/-- The second loop of the controller tick: `hashsize`, `get`, `set` and `sum`
of every point are added to its server. -/
def sched_accumulate (E : Externals D) (dyn : sched_dynamic D)
    (servers : List (sched_context D)) : List (sched_context D) × Nat :=
  (List.range dyn.continuum_points_counter).foldl (sched_accumulate_step E dyn) (servers, 0)

/-- The actual move of the controller tick on the ring, for the chosen
positions `max_i`, `max_j`, `max_k`, the direction `max_cw` and the value of
`amount`. -/
def controller_move (ring : List (memcached_continuum_item_st D)) (max_i max_j max_k : Nat)
    (max_cw : Bool) (amount : Nat) : List (memcached_continuum_item_st D) :=
  if max_cw then
    if abs_int (i32 (u32 (value_at ring max_k + 4294967296 - value_at ring max_j))) > amount then
      modify_at (fun p => { p with value := u32 (p.value + amount) }) ring max_j
    else ring
  else
    if abs_int (i32 (u32 (value_at ring max_j + 4294967296 - value_at ring max_i))) > amount then
      modify_at (fun p => { p with value := u32 (p.value + 4294967296 - amount) }) ring max_j
    else ring


/-- The function `abs_double`. -/
def abs_double (E : Externals D) (val : D) : D :=
  if E.dgt E.dzero val then E.dneg val else val

/-- The body of the third loop of the controller tick on one server: the
`hitrate` is refreshed when `get != 0 && (int32_t)set <= (int32_t)(get - set)`. -/
def sched_hitrate_host (E : Externals D) (host : sched_context D) : sched_context D :=
  if host.get ≠ 0 ∧ i32 host.set ≤ i32 (u32 (host.get + 4294967296 - host.set)) then
    { host with hitrate := E.get_hitrate host.get host.set }
  else host

/-- One iteration of the third loop of the controller tick; the state is the
array `servers` and the local `max_hr`. -/
def sched_hitrate_step (E : Externals D) (st : List (sched_context D) × D) (h : Nat) :
    List (sched_context D) × D :=
  (modify_at (sched_hitrate_host E) st.1 h,
   if E.dgt ((modify_at (sched_hitrate_host E) st.1 h).getD h (fresh_item E).sched).hitrate st.2
   then ((modify_at (sched_hitrate_host E) st.1 h).getD h (fresh_item E).sched).hitrate
   else st.2)

/-- The third loop of the controller tick: the hit rates of the servers and
their maximum `max_hr`. -/
def sched_hitrates (E : Externals D) (continuum_count : Nat) (servers : List (sched_context D)) :
    List (sched_context D) × D :=
  (List.range continuum_count).foldl (sched_hitrate_step E) (servers, E.dzero)

/-- The value of `max_hr` after `if (max_hr == 0) max_hr = 1`. -/
def sched_max_hr (E : Externals D) (max_hr : D) : D :=
  if E.deq max_hr E.dzero then E.dnat 1 else max_hr

/-- The body of the fourth loop of the controller tick on one server; `max` is
the local of the second loop. -/
def sched_normalise_host (E : Externals D) (max : Nat) (max_hr : D) (host : sched_context D) :
    sched_context D :=
  { host with
    nhitrate := E.ddivd host.hitrate max_hr
    usagerate := E.ddiv host.sum max
    psum := host.sum }

/-- The fourth loop of the controller tick: `nhitrate`, `usagerate` and `psum`
of the servers. The local `readiness` it sets is not read afterwards. -/
def sched_normalise (E : Externals D) (continuum_count max : Nat)
    (st : List (sched_context D) × D) : List (sched_context D) :=
  ((List.range continuum_count).foldl
    (fun (acc : List (sched_context D) × D) h =>
      (modify_at (sched_normalise_host E max (sched_max_hr E acc.2)) acc.1 h,
       sched_max_hr E acc.2))
    st).1

/-- The locals `srv_min_id`, `srv_max_id`, `maxcost` and `mincost` of the
controller tick. -/
structure sched_min_max_state (D : Type) where
  srv_min_id : Nat
  srv_max_id : Nat
  maxcost : D
  mincost : D

/-- One iteration of the loop of the controller tick over the servers that
finds the servers of largest and smallest cost. -/
def sched_min_max_step (E : Externals D) (servers : List (sched_context D))
    (st : sched_min_max_state D) (j : Nat) : sched_min_max_state D :=
  { srv_max_id :=
      if E.dgt (E.scost (servers.getD j (fresh_item E).sched)) st.maxcost then j
      else st.srv_max_id
    maxcost :=
      if E.dgt (E.scost (servers.getD j (fresh_item E).sched)) st.maxcost then
        E.scost (servers.getD j (fresh_item E).sched)
      else st.maxcost
    srv_min_id :=
      if E.dgt st.mincost (E.scost (servers.getD j (fresh_item E).sched)) then j
      else st.srv_min_id
    mincost :=
      if E.dgt st.mincost (E.scost (servers.getD j (fresh_item E).sched)) then
        E.scost (servers.getD j (fresh_item E).sched)
      else st.mincost }

/-- The loop of the controller tick over the servers that finds the servers of
largest and smallest cost, from `maxcost = 0` and `mincost = 1000`. -/
def sched_min_max (E : Externals D) (continuum_count : Nat) (servers : List (sched_context D)) :
    sched_min_max_state D :=
  (List.range continuum_count).foldl (sched_min_max_step E servers)
    { srv_min_id := 0, srv_max_id := 0, maxcost := E.dzero, mincost := E.dnat 1000 }

/-- The locals of the controller tick that describe the chosen move. -/
structure sched_choice (D : Type) where
  max_cost : D
  max_cost_i : D
  max_cost_j : D
  max_cost_k : D
  max_i : Nat
  max_j : Nat
  max_k : Nat
  max_cw : Bool
  schedulable : Bool

/-- The macro `cost(_i)`: the cost of the counters of point `_i`. -/
def point_cost (E : Externals D) (ring : List (memcached_continuum_item_st D)) (i : Nat) : D :=
  E.scost (slot E ring i).sched

/-- The assignments under `if (cost > max_cost)` in the pair loops. -/
def sched_take_pair (E : Externals D) (ring : List (memcached_continuum_item_st D)) (P : Nat)
    (cost : D) (cw : Bool) (j : Nat) : sched_choice D :=
  { max_cost := cost
    max_cost_i := point_cost E ring (ring_prev P j)
    max_cost_j := point_cost E ring j
    max_cost_k := point_cost E ring (ring_next P j)
    max_i := ring_prev P j
    max_j := j
    max_k := ring_next P j
    max_cw := cw
    schedulable := true }

/-- One iteration of the pair loop of the controller tick when the servers of
largest and smallest cost differ. -/
def sched_pair_step (E : Externals D) (ring : List (memcached_continuum_item_st D)) (P : Nat)
    (srv_min_id srv_max_id : Nat) (st : sched_choice D) (j : Nat) : sched_choice D :=
  if (srv_max_id = index_at ring j ∧ srv_min_id = index_at ring (ring_next P j)) ∨
      (srv_min_id = index_at ring j ∧ srv_max_id = index_at ring (ring_next P j)) then
    if E.dgt (abs_double E (E.dsub (point_cost E ring j) (point_cost E ring (ring_next P j))))
        st.max_cost then
      sched_take_pair E ring P
        (abs_double E (E.dsub (point_cost E ring j) (point_cost E ring (ring_next P j))))
        (decide (srv_min_id = index_at ring j)) j
    else st
  else st

/-- One iteration of the pair loop of the controller tick when one server has
both the largest and the smallest cost. -/
def sched_any_pair_step (E : Externals D) (ring : List (memcached_continuum_item_st D)) (P : Nat)
    (st : sched_choice D) (j : Nat) : sched_choice D :=
  if E.dgt (abs_double E (E.dsub (point_cost E ring j) (point_cost E ring (ring_next P j))))
      st.max_cost then
    sched_take_pair E ring P
      (abs_double E (E.dsub (point_cost E ring j) (point_cost E ring (ring_next P j))))
      (E.dgt E.dzero (E.dsub (point_cost E ring j) (point_cost E ring (ring_next P j)))) j
  else st

/-- The locals of the controller tick before the pair loop. -/
def sched_choice_init (E : Externals D) : sched_choice D :=
  { max_cost := E.dzero, max_cost_i := E.dzero, max_cost_j := E.dzero, max_cost_k := E.dzero,
    max_i := 0, max_j := 0, max_k := 0, max_cw := true, schedulable := false }

/-- The pair loop of the controller tick: with `srv_succ` the adjacent pair of
points of the two chosen servers with the largest cost difference, otherwise
the adjacent pair with the largest cost difference. -/
def sched_choose (E : Externals D) (ring : List (memcached_continuum_item_st D)) (P : Nat)
    (mm : sched_min_max_state D) : sched_choice D :=
  if mm.srv_max_id = mm.srv_min_id then
    (List.range P).foldl (sched_any_pair_step E ring P) (sched_choice_init E)
  else
    (List.range P).foldl (sched_pair_step E ring P mm.srv_min_id mm.srv_max_id)
      (sched_choice_init E)

/-- The value of `amount` in the controller tick for the chosen move. -/
def sched_amount (E : Externals D) (beta : D) (ring : List (memcached_continuum_item_st D))
    (ch : sched_choice D) : Nat :=
  if ch.max_cw then
    E.move_amount beta
      (if E.dgt ch.max_cost_k ch.max_cost_j then E.ddivd ch.max_cost_j ch.max_cost_k
       else E.ddivd ch.max_cost_k ch.max_cost_j)
      (abs_int (i32 (u32 (value_at ring ch.max_j + 4294967296 - value_at ring ch.max_k))))
  else
    E.move_amount beta
      (if E.dgt ch.max_cost_j ch.max_cost_i then E.ddivd ch.max_cost_i ch.max_cost_j
       else E.ddivd ch.max_cost_j ch.max_cost_i)
      (abs_int (i32 (u32 (value_at ring ch.max_i + 4294967296 - value_at ring ch.max_j))))

/-- The reset of the counters of one point at the end of the controller tick. -/
def sched_reset_point (E : Externals D) (curr : memcached_continuum_item_st D) :
    memcached_continuum_item_st D :=
  { curr with sched := { curr.sched with get := 0, set := 0, sum := 0, usagerate := E.dzero } }

/-- The reset of the counters of the server of a point at the end of the
controller tick. -/
def sched_reset_host (E : Externals D) (host : sched_context D) : sched_context D :=
  { host with get := 0, set := 0, usagerate := E.dzero, hashsize := 0 }

/-- One iteration of the reset loop of the controller tick; the state is the
ring and the array `servers`. -/
def sched_reset_step (E : Externals D)
    (st : List (memcached_continuum_item_st D) × List (sched_context D)) (h : Nat) :
    List (memcached_continuum_item_st D) × List (sched_context D) :=
  (modify_at (sched_reset_point E) st.1 h,
   modify_at (sched_reset_host E) st.2 (slot E st.1 h).index)

/-- The reset loop of the controller tick. -/
def sched_reset (E : Externals D) (P : Nat)
    (st : List (memcached_continuum_item_st D) × List (sched_context D)) :
    List (memcached_continuum_item_st D) × List (sched_context D) :=
  (List.range P).foldl (sched_reset_step E) st

/-- The array `servers` of the controller tick after its loops over the
servers: cleared, accumulated from the points, hit rates refreshed and
normalised. -/
def sched_servers (E : Externals D) (dyn : sched_dynamic D) : List (sched_context D) :=
  sched_normalise E dyn.continuum_count
    (sched_accumulate E dyn (sched_clear_servers E dyn)).2
    (sched_hitrates E dyn.continuum_count (sched_accumulate E dyn (sched_clear_servers E dyn)).1)

/-- The move the controller tick chooses. -/
def sched_chosen (E : Externals D) (dyn : sched_dynamic D) : sched_choice D :=
  sched_choose E dyn.continuum dyn.continuum_points_counter
    (sched_min_max E dyn.continuum_count (sched_servers E dyn))

/-- The function `mem_hs_sched_dynamic` on the block that `get_dynamic()`
returns (with `NULL` the function returns at once). -/
def mem_hs_sched_dynamic (E : Externals D) (dyn : sched_dynamic D) : sched_dynamic D :=
  if dyn.continuum_points_counter = 1 then dyn
  else if (sched_chosen E dyn).schedulable then
    { dyn with
      continuum :=
        (sched_reset E dyn.continuum_points_counter
          (controller_move dyn.continuum (sched_chosen E dyn).max_i (sched_chosen E dyn).max_j
             (sched_chosen E dyn).max_k (sched_chosen E dyn).max_cw
             (sched_amount E dyn.beta dyn.continuum (sched_chosen E dyn)),
           sched_servers E dyn)).1
      servers :=
        (sched_reset E dyn.continuum_points_counter
          (controller_move dyn.continuum (sched_chosen E dyn).max_i (sched_chosen E dyn).max_j
             (sched_chosen E dyn).max_k (sched_chosen E dyn).max_cw
             (sched_amount E dyn.beta dyn.continuum (sched_chosen E dyn)),
           sched_servers E dyn)).2
      max := 0
      maxid := 0 }
  else { dyn with servers := sched_servers E dyn }

/-! ## `hosts.cc`: `mem_hs_sched_ketama` -/

/-- The addition of the first loop of the ketama tick to the server of point
`j` of the ring `continuum` with `continuum_points_counter` points. -/
def ketama_add_point (E : Externals D) (continuum : List (memcached_continuum_item_st D))
    (continuum_points_counter j : Nat) (host : sched_context D) : sched_context D :=
  { host with
    hashsize := (host.hashsize +
      hs_round (value_at continuum j)
        (value_at continuum (ring_next continuum_points_counter j))) % (E.hashsize_max + 1) }

/-- The first loop of the ketama tick: the arc after each point is added to the
`hashsize` of its server. -/
def ketama_accumulate (E : Externals D) (continuum : List (memcached_continuum_item_st D))
    (continuum_points_counter : Nat) (servers : List (sched_context D)) :
    List (sched_context D) :=
  (List.range continuum_points_counter).foldl
    (fun acc j =>
      modify_at (ketama_add_point E continuum continuum_points_counter j) acc
        (slot E continuum j).index)
    servers

/-- One iteration of the second loop of the ketama tick; the state is the
array `servers` and the local `max`. -/
def ketama_sum_step (E : Externals D) (st : List (sched_context D) × Nat) (i : Nat) :
    List (sched_context D) × Nat :=
  (modify_at (fun host => { host with sum := u32 (host.get + host.set) }) st.1 i,
   if ((modify_at (fun host => { host with sum := u32 (host.get + host.set) }) st.1 i).getD i
        (fresh_item E).sched).sum > st.2 then
     ((modify_at (fun host => { host with sum := u32 (host.get + host.set) }) st.1 i).getD i
        (fresh_item E).sched).sum
   else st.2)

/-- The second loop of the ketama tick: `sum = get + set` of every server and
the maximum `max` of the sums. -/
def ketama_sums (E : Externals D) (continuum_count : Nat) (servers : List (sched_context D)) :
    List (sched_context D) × Nat :=
  (List.range continuum_count).foldl (ketama_sum_step E) (servers, 0)

/-- The body of the third loop of the ketama tick on one server: the rates are
refreshed for the statistics line, then the counters are reset. -/
def ketama_report_host (E : Externals D) (max : Nat) (host : sched_context D) :
    sched_context D :=
  let host1 :=
    if host.get ≠ 0 ∧ i32 host.set ≤ i32 (u32 (host.get + 4294967296 - host.set)) then
      { host with hitrate := E.get_hitrate host.get host.set,
                  nhitrate := E.get_hitrate host.get host.set }
    else host
  let host2 := { host1 with usagerate := E.ddiv host1.sum max }
  { host2 with get := 0, set := 0, sum := 0, hitrate := E.dzero, usagerate := E.dzero,
               hashsize := 0 }

/-- The three loops of the ketama tick on the array `servers`. -/
def ketama_servers (E : Externals D) (ks : ketama_stat D)
    (continuum : List (memcached_continuum_item_st D)) (servers : List (sched_context D)) :
    List (sched_context D) :=
  (List.range ks.continuum_count).foldl
    (fun acc i =>
      modify_at
        (ketama_report_host E
          (ketama_sums E ks.continuum_count
            (ketama_accumulate E continuum ks.continuum_points_counter servers)).2)
        acc i)
    (ketama_sums E ks.continuum_count
      (ketama_accumulate E continuum ks.continuum_points_counter servers)).1

/-- The function `mem_hs_sched_ketama` on the selector whose statistics block
`get_ketama_stat()` returns; `ketama_stat->continuum` is the ketama ring. -/
def mem_hs_sched_ketama (E : Externals D) (ptr : memcached_st D) : memcached_st D :=
  match ptr.ketama_stat with
  | none => ptr
  | some ks =>
    if ks.continuum_points_counter = 1 then ptr
    else
      { ptr with ketama_stat := some { ks with
          servers := ks.servers.map (ketama_servers E ks ptr.ketama.continuum)
          max := 0
          maxid := 0 } }


/-! ## `hosts.cc`: `server_add`, `memcached_server_add_with_weight`, `memcached_server_push` -/

/-- The instance array after `realloc` and the store of `instance` at index
`memcached_server_count(ptr)`. -/
def store_instance (ptr : memcached_st D) (inst : Instance) : List Instance :=
  (List.range (memcached_server_count ptr)).map (instance_at ptr) ++ [inst]

/-- The function `server_add`. The transport type it passes on is not part of
`Instance`. -/
def server_add (E : Externals D) (ptr : memcached_st D) (hostname : String)
    (port weight : Nat) : memcached_return_t × memcached_st D :=
  if E.alloc_ok = false then (MEMCACHED_MEMORY_ALLOCATION_FAILURE, ptr)
  else
    match E.__instance_create_with hostname port weight with
    | none => (MEMCACHED_MEMORY_ALLOCATION_FAILURE, ptr)
    | some inst =>
      run_distribution E
        { ptr with
          servers := store_instance ptr inst
          ketama := { ptr.ketama with
            weighted_ :=
              if weight > 1 ∧ E.memcached_is_consistent_distribution ptr.distribution = true
              then true else ptr.ketama.weighted_ }
          number_of_hosts := u32 (ptr.number_of_hosts + 1) }

/-- The function `memcached_server_add_with_weight` on a selector that is not
`NULL`; the empty host name stands for `NULL` and for `""`. -/
def memcached_server_add_with_weight (E : Externals D) (ptr : memcached_st D)
    (hostname : String) (port weight : Nat) : memcached_return_t × memcached_st D :=
  if E.memcached_is_valid_servername (if hostname.length = 0 then "localhost" else hostname)
      = false then
    (MEMCACHED_INVALID_ARGUMENTS, ptr)
  else
    server_add E ptr (if hostname.length = 0 then "localhost" else hostname)
      (if port = 0 then E.MEMCACHED_DEFAULT_PORT else port) weight

/-- One iteration of the loop of `memcached_server_push` on the entry `s` of
the list; the first component tells whether `__instance_create_with` has
returned `NULL`. -/
def push_step (E : Externals D) (st : Bool × memcached_st D) (s : memcached_server_st) :
    Bool × memcached_st D :=
  if st.1 then st
  else
    match E.__instance_create_with s.hostname s.port s.weight with
    | none => (true, st.2)
    | some inst =>
      (false,
        { st.2 with
          servers := store_instance st.2 inst
          ketama := { st.2.ketama with
            weighted_ := if s.weight > 1 then true else st.2.ketama.weighted_ }
          number_of_hosts := u32 (st.2.number_of_hosts + 1) })

/-- The entries `list[0 .. count)` that `memcached_server_push` reads. -/
def push_entries (l : List memcached_server_st) : List memcached_server_st :=
  (List.range (u32 (memcached_server_list_count l))).map (fun x => l.getD x default)

/-- The function `memcached_server_push`; `none` is the `NULL` list. -/
def memcached_server_push (E : Externals D) (ptr : memcached_st D)
    (list : Option (List memcached_server_st)) : memcached_return_t × memcached_st D :=
  match list with
  | none => (MEMCACHED_SUCCESS, ptr)
  | some l =>
    if E.alloc_ok = false then (MEMCACHED_MEMORY_ALLOCATION_FAILURE, ptr)
    else if ((push_entries l).foldl (push_step E) (false, ptr)).1 then
      (MEMCACHED_MEMORY_ALLOCATION_FAILURE, ((push_entries l).foldl (push_step E) (false, ptr)).2)
    else run_distribution E ((push_entries l).foldl (push_step E) (false, ptr)).2


/-! ## Views used by the statements -/

/-- The `(value, index)` pairs of a ring, in order. -/
def points_of (c : List (memcached_continuum_item_st D)) : List (Nat × Nat) :=
  c.map (fun p => (p.value, p.index))

/-- The first `P` points of `c` are in ascending order of `value`. -/
def ring_sorted (c : List (memcached_continuum_item_st D)) (P : Nat) : Prop :=
  ∀ j < P, ∀ i ≤ j, value_at c i ≤ value_at c j

/-- The binary search of `dispatch_host` written with the fuel its bounds need. -/
def bsearch (c : List (memcached_continuum_item_st D)) (hash left right : Nat) : Nat :=
  search_loop c hash (right - left) left right

/-- The ring `dispatch_host` searches and its point counter, by strategy. -/
def active_ring (ptr : memcached_st D) :
    Option (List (memcached_continuum_item_st D) × Nat) :=
  match ptr.distribution with
  | MEMCACHED_DISTRIBUTION_CONSISTENT
  | MEMCACHED_DISTRIBUTION_CONSISTENT_WEIGHTED
  | MEMCACHED_DISTRIBUTION_CONSISTENT_KETAMA
  | MEMCACHED_DISTRIBUTION_CONSISTENT_KETAMA_SPY =>
    some (ptr.ketama.continuum, ptr.ketama.continuum_points_counter)
  | MEMCACHED_DISTRIBUTION_DYNAMIC
  | MEMCACHED_DISTRIBUTION_DYNAMIC_WEIGHTED =>
    some (ptr.dynamic.continuum, ptr.dynamic.continuum_points_counter)
  | _ => none

/-- The part of the selector that selection depends on: strategy, fleet
size, flags, hash function, namespace and the `(value, index)` pairs and
counters of both rings. -/
def same_selection_state {D1 D2 : Type} (s1 : memcached_st D1) (s2 : memcached_st D2) : Prop :=
  s1.distribution = s2.distribution ∧
  s1.number_of_hosts = s2.number_of_hosts ∧
  s1.flags = s2.flags ∧
  s1.hashkit = s2.hashkit ∧
  s1._namespace = s2._namespace ∧
  points_of s1.ketama.continuum = points_of s2.ketama.continuum ∧
  s1.ketama.continuum_points_counter = s2.ketama.continuum_points_counter ∧
  points_of s1.dynamic.continuum = points_of s2.dynamic.continuum ∧
  s1.dynamic.continuum_points_counter = s2.dynamic.continuum_points_counter

/-- Every one of the first `P` points of `c` has an index below `L`. -/
def ring_index_bound (c : List (memcached_continuum_item_st D)) (P L : Nat) : Prop :=
  ∀ j < P, index_at c j < L

/-- The number of the first `P` points of `c` that carry index `i`. -/
def ring_count (c : List (memcached_continuum_item_st D)) (P i : Nat) : Nat :=
  ((c.take P).filter (fun p => p.index = i)).length

/-- Server `i` passes the test of the server loop of `update_continuum`: auto
eject is off or its retry time is not in the future. -/
def host_live (ptr : memcached_st D) (now : Int) (i : Nat) : Bool :=
  !(_is_auto_eject_host ptr && decide ((instance_at ptr i).next_retry > now))

/-- The value of `pointer_per_server` in the iteration of server `i`. -/
def pointer_per_server_of (E : Externals D) (ptr : memcached_st D) (now : Int) (i : Nat) : Nat :=
  if memcached_is_weighted_ketama ptr then
    u32 (E.weighted_floor (instance_at ptr i).weight (total_weight_of ptr now)
          (live_servers_of ptr now) * 4)
  else E.MEMCACHED_POINTS_PER_SERVER

/-- The sum of `pointer_per_server` over the live servers among the first `n`. -/
def points_expected (E : Externals D) (ptr : memcached_st D) (now : Int) (n : Nat) : Nat :=
  (((List.range n).filter (host_live ptr now)).map (pointer_per_server_of E ptr now)).sum

/-- The labels hashed for one server, in the order of the loop over
`pointer_index`. -/
def host_labels (E : Externals D) (ptr : memcached_st D)
    (host_index pointer_per_server pointer_per_hash : Nat) : List String :=
  (List.range (pointer_per_server / pointer_per_hash)).map (label_of E ptr host_index)

/-- The part of a non Spy label before the index. -/
def label_prefix (E : Externals D) (inst : Instance) : String :=
  if inst.port = E.MEMCACHED_DEFAULT_PORT then inst.hostname ++ "-"
  else inst.hostname ++ ":" ++ toString inst.port ++ "-"

/-- The expression under `floor` in the weighted branch of
`update_continuum`, `pct * K / 4 * live_servers + 0.0000000001` with
`pct = weight / total_weight`, evaluated in exact rational arithmetic, and its
floor. -/
def weighted_floor_exact (K weight total_weight live_servers : Nat) : Nat :=
  Nat.floor ((weight : ℚ) / (total_weight : ℚ) * (K : ℚ) / 4 * (live_servers : ℚ)
    + 1 / 10000000000)

/-- The strategies that `run_distribution` rebuilds with `update_continuum`. -/
def ketama_family (d : memcached_server_distribution_t) : Prop :=
  d = MEMCACHED_DISTRIBUTION_CONSISTENT ∨ d = MEMCACHED_DISTRIBUTION_CONSISTENT_KETAMA ∨
  d = MEMCACHED_DISTRIBUTION_CONSISTENT_KETAMA_SPY ∨
  d = MEMCACHED_DISTRIBUTION_CONSISTENT_WEIGHTED

/-- The strategies that `run_distribution` rebuilds with `update_dynamic`. -/
def dynamic_family (d : memcached_server_distribution_t) : Prop :=
  d = MEMCACHED_DISTRIBUTION_DYNAMIC ∨ d = MEMCACHED_DISTRIBUTION_DYNAMIC_WEIGHTED

/-- The invariant of the server loop of `update_continuum` after `n` servers:
every written pair carries a server index below `n`; without weights the
per hash count stays 1 and the per server count stays
`MEMCACHED_POINTS_PER_SERVER`; and unless `snprintf` failed, `pointer_counter`
is the number of written pairs (in `uint32_t`), that number is the sum of
`pointer_per_server` over the live servers, and each server index occurs
`pointer_per_server` times if the server is live and not at all otherwise. -/
def continuum_inv (E : Externals D) (ptr : memcached_st D) (now : Int) (n : Nat)
    (b : continuum_build) : Prop :=
  (∀ p ∈ b.points, p.2 < n) ∧
  (memcached_is_weighted_ketama ptr = false →
    b.pointer_per_hash = 1 ∧ b.pointer_per_server = E.MEMCACHED_POINTS_PER_SERVER) ∧
  (b.failed = false →
    b.pointer_counter = u32 b.points.length ∧
    b.points.length = points_expected E ptr now n ∧
    ∀ i, (b.points.filter (fun p => p.2 = i)).length =
      if i < n ∧ host_live ptr now i = true then pointer_per_server_of E ptr now i else 0)

/-- Two selectors with the same fleet, flags, strategy, hash function and
weighting: what a rebuild reads besides the ring it replaces. -/
def same_fleet (s1 s2 : memcached_st D) : Prop :=
  s1.servers = s2.servers ∧ s1.number_of_hosts = s2.number_of_hosts ∧ s1.flags = s2.flags ∧
  s1.distribution = s2.distribution ∧ s1.hashkit = s2.hashkit ∧
  s1.ketama.weighted_ = s2.ketama.weighted_

instance : IsTotal Instance (fun a b => compare_servers a b ≤ 0) :=
  ⟨fun a b => by
    have key : ∀ x y : Instance, compare_servers x y ≤ 0 ↔
        x.hostname < y.hostname ∨ (x.hostname = y.hostname ∧ x.port ≤ y.port) := by
      intro x y
      unfold compare_servers strcmp
      by_cases h1 : x.hostname < y.hostname
      · simp [h1]
      · by_cases h2 : x.hostname = y.hostname
        · simp [h2]
        · simp [h1, h2]
    show compare_servers a b ≤ 0 ∨ compare_servers b a ≤ 0
    rw [key a b, key b a]
    rcases lt_trichotomy a.hostname b.hostname with h | h | h
    · exact Or.inl (Or.inl h)
    · rcases Nat.le_total a.port b.port with hp | hp
      · exact Or.inl (Or.inr ⟨h, hp⟩)
      · exact Or.inr (Or.inr ⟨h.symm, hp⟩)
    · exact Or.inr (Or.inl h)⟩

instance : IsTrans Instance (fun a b => compare_servers a b ≤ 0) :=
  ⟨fun a b c => by
    have key : ∀ x y : Instance, compare_servers x y ≤ 0 ↔
        x.hostname < y.hostname ∨ (x.hostname = y.hostname ∧ x.port ≤ y.port) := by
      intro x y
      unfold compare_servers strcmp
      by_cases h1 : x.hostname < y.hostname
      · simp [h1]
      · by_cases h2 : x.hostname = y.hostname
        · simp [h2]
        · simp [h1, h2]
    show compare_servers a b ≤ 0 → compare_servers b c ≤ 0 → compare_servers a c ≤ 0
    rw [key a b, key b c, key a c]
    intro h1 h2
    rcases h1 with h1 | ⟨h1, p1⟩
    · rcases h2 with h2 | ⟨h2, -⟩
      · exact Or.inl (lt_trans h1 h2)
      · exact Or.inl (h2 ▸ h1)
    · rcases h2 with h2 | ⟨h2, p2⟩
      · exact Or.inl (h1 ▸ h2)
      · exact Or.inr ⟨h1.trans h2, Nat.le_trans p1 p2⟩⟩

instance : IsTotal (memcached_continuum_item_st D) (fun a b => continuum_item_cmp a b ≤ 0) :=
  ⟨fun a b => by
    unfold continuum_item_cmp
    split_ifs <;> omega⟩

instance : IsTrans (memcached_continuum_item_st D) (fun a b => continuum_item_cmp a b ≤ 0) :=
  ⟨fun a b c => by
    unfold continuum_item_cmp
    split_ifs <;> omega⟩

instance (c : List (memcached_continuum_item_st D)) (P L : Nat) :
    Decidable (ring_index_bound c P L) := by
  unfold ring_index_bound
  infer_instance

instance (c : List (memcached_continuum_item_st D)) (P : Nat) : Decidable (ring_sorted c P) := by
  unfold ring_sorted
  infer_instance

/-- The first `continuum_points_counter` points of the dynamic ring, as the
loops of `update_dynamic` read them. -/
def old_points (E : Externals D) (dyn : sched_dynamic D) :
    List (memcached_continuum_item_st D) :=
  (List.range dyn.continuum_points_counter).map (slot E dyn.continuum)

/-- A point with its index lowered by one if it is above `r`. -/
def renumber (r : Nat) (p : memcached_continuum_item_st D) : memcached_continuum_item_st D :=
  if p.index > r then { p with index := p.index - 1 } else p


/-- The point a dynamic addition inserts before the old point at position `j`. -/
def addition_point (E : Externals D) (dyn : sched_dynamic D) (live_servers j : Nat) :
    memcached_continuum_item_st D :=
  { fresh_item E with
    index := u32 (live_servers + 4294967295)
    value := hs_round
      (hs_round (value_at dyn.continuum (ring_prev dyn.continuum_points_counter j))
        (value_at dyn.continuum j) / 2)
      (value_at dyn.continuum j) }

/-- The `usagerate` of server `h` as the addition reads it. -/
def usage_of (E : Externals D) (dyn : sched_dynamic D) (h : Nat) : D :=
  (dyn.servers.getD h (fresh_item E).sched).usagerate

/-- The comparison `>` of `double` is a strict weak order (as it is on the
values that are not NaN). -/
def dgt_strict_weak (E : Externals D) : Prop :=
  (∀ a, E.dgt a a = false) ∧
  (∀ a b c, E.dgt a b = true → E.dgt b c = true → E.dgt a c = true) ∧
  (∀ a b c, E.dgt a c = true → E.dgt a b = true ∨ E.dgt b c = true)


/-- The arc from the point before position `j` to the point at `j`, as the
addition computes it with `hs_round`. -/
def arc_before (dyn : sched_dynamic D) (j : Nat) : Nat :=
  hs_round (value_at dyn.continuum (ring_prev dyn.continuum_points_counter j))
    (value_at dyn.continuum j)


/-- The arc the controller tick credits to the server of point `j`: from the
value at `j` to the value at the next position, by `hs_round`. -/
def ring_arc (dyn : sched_dynamic D) (j : Nat) : Nat :=
  hs_round (value_at dyn.continuum j)
    (value_at dyn.continuum (ring_next dyn.continuum_points_counter j))

/-- The sum of the arcs of the points of server `h` among the first `n`
points. -/
def arcs_of (E : Externals D) (dyn : sched_dynamic D) (n h : Nat) : Nat :=
  (((List.range n).filter (fun j => decide ((slot E dyn.continuum j).index = h))).map
    (ring_arc dyn)).sum

/-- The `hashsize` of server `h` after the first two loops of the controller
tick. -/
def hashsize_after (E : Externals D) (dyn : sched_dynamic D) (h : Nat) : Nat :=
  ((sched_accumulate E dyn (sched_clear_servers E dyn)).1.getD h (fresh_item E).sched).hashsize


/-- The inner scan of the incipient algorithm: the first `j` whose edge from
the current node is not marked. -/
def incipient_scan (live_servers : Nat) (st : incipient_state) : Option Nat :=
  (List.range live_servers).find?
    (fun j => st.bak st.cur_nd (u32 (st.cur_frow + j) % live_servers) == 0)

/-- The locals of the incipient algorithm after `t` iterations of its outer
loop. -/
def incipient_walk (live_servers set_size t : Nat) : incipient_state :=
  (List.range t).foldl (fun st _ => incipient_step live_servers st) (incipient_init set_size)

/-- The targets of the marked edges that leave `v`. -/
def out_edges (L : Nat) (st : incipient_state) (v : Nat) : Finset Nat :=
  (Finset.range L).filter (fun w => w ≠ v ∧ st.bak v w ≠ 0)

/-- The sources of the marked edges that enter `v`. -/
def in_edges (L : Nat) (st : incipient_state) (v : Nat) : Finset Nat :=
  (Finset.range L).filter (fun u => u ≠ v ∧ st.bak u v ≠ 0)

/-- The invariant of the outer loop of the incipient algorithm after `t`
iterations over `L` servers with `set` of size `N`: the walk stands on
`set[t]`; the scan starts at the current node or right after it; the diagonal
is marked; a node whose edge to its predecessor `v - 1` is marked has all its
edges marked; every node has been left as often as entered, the current node
and node 0 apart; `t` edges are marked; the pairs `(set[i], set[i+1])` are
marked edges, and no two of them are equal. -/
def walk_inv (L N t : Nat) (st : incipient_state) : Prop :=
  st.cur_nd < L ∧
  (st.cur_frow = st.cur_nd ∨ st.cur_frow = (st.cur_nd + 1) % L) ∧
  st.set_id = t + 1 ∧
  st.set.length = N ∧
  st.set.getD 0 0 = 0 ∧
  st.set.getD t 0 = st.cur_nd ∧
  (∀ v, st.bak v v ≠ 0) ∧
  (∀ v < L, st.bak v ((v + L - 1) % L) ≠ 0 → ∀ w < L, st.bak v w ≠ 0) ∧
  (∀ v < L, (out_edges L st v).card + (if v = st.cur_nd then 1 else 0) =
    (in_edges L st v).card + (if v = 0 then 1 else 0)) ∧
  (Finset.range L).sum (fun v => (out_edges L st v).card) = t ∧
  (∀ i < t, st.set.getD i 0 < L ∧ st.set.getD (i + 1) 0 < L ∧
    st.bak (st.set.getD i 0) (st.set.getD (i + 1) 0) ≠ 0 ∧
    st.set.getD i 0 ≠ st.set.getD (i + 1) 0) ∧
  (∀ i < t, ∀ k < i,
    (st.set.getD k 0, st.set.getD (k + 1) 0) ≠ (st.set.getD i 0, st.set.getD (i + 1) 0))


/-- The `get` and `set` counters of a counter block. -/
def hits (s : sched_context D) : Nat × Nat :=
  (s.get, s.set)


/-- The shorter of the arc from the value `a` to the value `b` and the arc
back from `b` to `a`. -/
def arc_distance (a b : Nat) : Nat :=
  if hs_round a b ≤ 2147483648 then hs_round a b else 4294967296 - hs_round a b

/-- The quotient of two costs as the controller tick takes it: `a / b` when
`b > a`, otherwise `b / a`. -/
def cost_rate (E : Externals D) (a b : D) : D :=
  if E.dgt b a then E.ddivd a b else E.ddivd b a

/-- The locals `srv_min_id`, `srv_max_id` of the controller tick. -/
def sched_extremes (E : Externals D) (dyn : sched_dynamic D) : sched_min_max_state D :=
  sched_min_max E dyn.continuum_count (sched_servers E dyn)


/-- The counters of a block agree: `sum = get + set` in `uint32_t`. -/
def sums_ok (s : sched_context D) : Prop :=
  s.sum = u32 (s.get + s.set)

/-- Every one of the first `P` points of the ring has `sum = get + set`. -/
def ring_sums_ok (E : Externals D) (ring : List (memcached_continuum_item_st D)) (P : Nat) :
    Prop :=
  ∀ k < P, sums_ok (slot E ring k).sched


/-- The selector after the calls
`memcached_server_add_with_weight(ptr, e.hostname, e.port, e.weight)` for the
elements `e` of a list in order. -/
def add_each (E : Externals D) (ptr : memcached_st D) (l : List memcached_server_st) :
    memcached_st D :=
  l.foldl (fun s e => (memcached_server_add_with_weight E s e.hostname e.port e.weight).2) ptr


/-- The selector after one iteration of the loop of `memcached_server_push` on
the entry `e`, when `__instance_create_with` returns an instance. -/
def stored (E : Externals D) (ptr : memcached_st D) (e : memcached_server_st) : memcached_st D :=
  match E.__instance_create_with e.hostname e.port e.weight with
  | none => ptr
  | some inst =>
    { ptr with
      servers := store_instance ptr inst
      ketama := { ptr.ketama with
        weighted_ := if e.weight > 1 then true else ptr.ketama.weighted_ }
      number_of_hosts := u32 (ptr.number_of_hosts + 1) }

/-- An entry of a server list that `memcached_server_add_with_weight` passes on
as it is: the port is not 0, the host name is not empty and is valid, a weight
above 1 comes with a consistent distribution `d`, and `__instance_create_with`
returns an instance for it. -/
def plain_entry (E : Externals D) (d : memcached_server_distribution_t)
    (e : memcached_server_st) : Prop :=
  e.port ≠ 0 ∧ e.hostname.length ≠ 0 ∧ E.memcached_is_valid_servername e.hostname = true ∧
  (e.weight > 1 → E.memcached_is_consistent_distribution d = true) ∧
  (E.__instance_create_with e.hostname e.port e.weight).isSome = true


instance (E : Externals D) (d : memcached_server_distribution_t) (e : memcached_server_st) :
    Decidable (plain_entry E d e) := by
  unfold plain_entry
  infer_instance


/-! ## Sample states -/

/-- A counter block with every field zero. -/
def sched_zero (z : D) : sched_context D :=
  { get := 0, set := 0, sum := 0, hashsize := 0, hitrate := z, nhitrate := z, usagerate := z,
    psum := 0 }

/-- A point with zeroed counters. -/
def sample_point (value index : Nat) : memcached_continuum_item_st ℚ :=
  { index := index, value := value, sched := sched_zero 0 }

/-- Externals with rational numbers for `double`, a clock reading `1000`, the
header values `MEMCACHED_MAX_KEY = 251`, `MEMCACHED_DEFAULT_PORT = 11211`, and
`160` points per server. -/
def sample_externals : Externals ℚ :=
  { MEMCACHED_MAX_KEY := 251
    MEMCACHED_POINTS_PER_SERVER := 160
    MEMCACHED_POINTS_PER_SERVER_KETAMA := 160
    MEMCACHED_CONTINUUM_ADDITION := 10
    MEMCACHED_DEFAULT_PORT := 11211
    MEMCACHED_DYNAMIC_SET_REPETITION := 1
    MEMCACHED_NI_MAXHOST := 1025
    MEMCACHED_NI_MAXSERV := 32
    MEMCACHED_CMD_GET := 1
    MEMCACHED_CMD_SET := 2
    gettimeofday := some 1000
    random := 0
    memcached_virtual_bucket_get := fun _ => 0
    libhashkit_md5_signature := fun key => List.replicate 16 (key.length % 256)
    alloc_ok := true
    get_hitrate := fun get set => 2 * (set : ℚ) / (get : ℚ) - 1
    dzero := 0
    ddiv := fun a b => (a : ℚ) / (b : ℚ)
    dgt := fun a b => decide (a > b)
    weighted_floor := fun weight total_weight live_servers =>
      weight * 40 * live_servers / total_weight
    hashsize_max := 18446744073709551615
    scost := fun s => s.usagerate
    dsub := fun a b => a - b
    dneg := fun a => a * (-1)
    ddivd := fun a b => a / b
    deq := fun a b => decide (a = b)
    dnat := fun n => (n : ℚ)
    move_amount := fun beta rate d => (Rat.floor (beta * (1 - rate) * (d : ℚ))).toNat
    memcached_is_consistent_distribution := fun d =>
      decide (d = MEMCACHED_DISTRIBUTION_CONSISTENT ∨
        d = MEMCACHED_DISTRIBUTION_CONSISTENT_KETAMA)
    memcached_is_valid_servername := fun hostname => decide (hostname.length ≤ 1025)
    __instance_create_with := fun hostname port weight =>
      some { hostname := hostname, port := port, weight := weight, next_retry := 0 } }

/-- The sample externals with `MEMCACHED_MAX_KEY = 4`. -/
def short_key_externals : Externals ℚ :=
  { sample_externals with MEMCACHED_MAX_KEY := 4 }

/-- A selector with no server and empty rings; the hash of a key is the sum
of its bytes. -/
def sample_st : memcached_st ℚ :=
  { distribution := MEMCACHED_DISTRIBUTION_MODULA
    flags := { hash_with_namespace := false, use_sort_hosts := false, auto_eject_hosts := false }
    hashkit := fun key => u32 key.sum
    _namespace := []
    number_of_hosts := 0
    servers := []
    ketama := { weighted_ := false, continuum_count := 0, continuum_points_counter := 0,
                next_distribution_rebuild := 0, continuum := [] }
    ketama_stat := none
    dynamic := { initialized_ := false, weighted_ := false, continuum_count := 0, servers := [],
                 continuum_points_counter := 0, continuum := [], next_distribution_rebuild := 0,
                 max := 0, maxid := 0, alpha := 1, beta := 1 / 10, removing_idx := 0 } }

/-- A ketama selector over the given ring. -/
def sample_ketama (number_of_hosts : Nat) (ring : List (memcached_continuum_item_st ℚ)) :
    memcached_st ℚ :=
  { sample_st with
    distribution := MEMCACHED_DISTRIBUTION_CONSISTENT_KETAMA
    number_of_hosts := number_of_hosts
    ketama := { sample_st.ketama with continuum := ring,
                                      continuum_points_counter := ring.length } }

/-- A dynamic selector over the given ring. -/
def sample_dynamic (number_of_hosts : Nat) (ring : List (memcached_continuum_item_st ℚ)) :
    memcached_st ℚ :=
  { sample_st with
    distribution := MEMCACHED_DISTRIBUTION_DYNAMIC
    number_of_hosts := number_of_hosts
    dynamic := { sample_st.dynamic with continuum := ring,
                                        continuum_points_counter := ring.length,
                                        continuum_count := number_of_hosts } }

/-- A server record. -/
def sample_server (hostname : String) (port weight : Nat) (next_retry : Int) : Instance :=
  { hostname := hostname, port := port, weight := weight, next_retry := next_retry }

/-- Three servers on the default port with weights 1, 2, 1, none ejected. -/
def sample_fleet : List Instance :=
  [sample_server "10.0.1.1" 11211 1 0, sample_server "10.0.1.2" 11211 2 0,
   sample_server "10.0.1.3" 11211 1 0]

/-- An unweighted ketama selector over `sample_fleet` before its first rebuild. -/
def sample_ketama_fleet : memcached_st ℚ :=
  { sample_st with
    distribution := MEMCACHED_DISTRIBUTION_CONSISTENT_KETAMA
    number_of_hosts := 3
    servers := sample_fleet }

/-- A weighted ketama selector over `sample_fleet` before its first rebuild. -/
def sample_weighted_fleet : memcached_st ℚ :=
  { sample_ketama_fleet with ketama := { sample_st.ketama with weighted_ := true } }

/-- An auto ejecting ketama selector with one server, ejected until second
`2000`, whose ring still holds the 160 points built while the server was live. -/
def sample_ejected : memcached_st ℚ :=
  { sample_st with
    distribution := MEMCACHED_DISTRIBUTION_CONSISTENT_KETAMA
    flags := { sample_st.flags with auto_eject_hosts := true }
    number_of_hosts := 1
    servers := [sample_server "10.0.1.1" 11211 1 2000]
    ketama := { sample_st.ketama with
      continuum := List.replicate 160 (sample_point 5 0)
      continuum_count := 11
      continuum_points_counter := 160 } }

/-- A dynamic selector over `sample_fleet` before its first build. -/
def sample_dynamic_fleet : memcached_st ℚ :=
  { sample_st with
    distribution := MEMCACHED_DISTRIBUTION_DYNAMIC
    number_of_hosts := 3
    servers := sample_fleet }

/-- The dynamic selector after its initial build over three servers. -/
def sample_dynamic_built : memcached_st ℚ :=
  (update_dynamic sample_externals sample_dynamic_fleet).2

/-- The built dynamic selector after a fourth server joined the fleet, before
the rebuild. -/
def sample_dynamic_grown : memcached_st ℚ :=
  { sample_dynamic_built with
    number_of_hosts := 4
    servers := sample_fleet ++ [sample_server "10.0.1.4" 11211 1 0] }

/-- The built dynamic selector after the server at position 1 left the fleet,
before the rebuild. -/
def sample_dynamic_shrunk : memcached_st ℚ :=
  { sample_dynamic_built with
    number_of_hosts := 2
    servers := [sample_server "10.0.1.1" 11211 1 0, sample_server "10.0.1.3" 11211 1 0]
    dynamic := { sample_dynamic_built.dynamic with removing_idx := 1 } }

/-- An auto ejecting unweighted ketama selector with two servers, the second
ejected until second `2000`, before its rebuild. -/
def sample_half_ejected : memcached_st ℚ :=
  { sample_st with
    distribution := MEMCACHED_DISTRIBUTION_CONSISTENT_KETAMA
    flags := { sample_st.flags with auto_eject_hosts := true }
    number_of_hosts := 2
    servers := [sample_server "10.0.1.1" 11211 1 0, sample_server "10.0.1.2" 11211 1 2000] }

/-- An auto ejecting ketama selector with two servers whose first server was
ejected until second `1000`: `next_distribution_rebuild = 1000` and the ring
holds two points, both of server 1. -/
def sample_rebuild_due : memcached_st ℚ :=
  { sample_st with
    distribution := MEMCACHED_DISTRIBUTION_CONSISTENT_KETAMA
    flags := { sample_st.flags with auto_eject_hosts := true }
    number_of_hosts := 2
    servers := [sample_server "10.0.1.1" 11211 1 1000, sample_server "10.0.1.2" 11211 1 0]
    ketama := { sample_st.ketama with
      continuum := [sample_point 5 1, sample_point 9 1]
      continuum_count := 11
      continuum_points_counter := 2
      next_distribution_rebuild := 1000 } }

/-- The sample externals with the clock at second `1001`. -/
def later_externals : Externals ℚ :=
  { sample_externals with gettimeofday := some 1001 }

/-- The sample externals with `MEMCACHED_DYNAMIC_SET_REPETITION = 2`. -/
def double_repetition_externals : Externals ℚ :=
  { sample_externals with MEMCACHED_DYNAMIC_SET_REPETITION := 2 }

/-- A dynamic selector with one server before its first build. -/
def sample_dynamic_single : memcached_st ℚ :=
  { sample_st with
    distribution := MEMCACHED_DISTRIBUTION_DYNAMIC
    number_of_hosts := 1
    servers := [sample_server "10.0.1.1" 11211 1 0] }

/-- A removal list with one entry. -/
def sample_removal (hostname : String) : Option (List memcached_server_st) :=
  some [{ hostname := hostname, port := 11211, weight := 1, number_of_hosts := 1 }]

/-- A removal list of two entries; the count in its first entry is 2. -/
def sample_removal_two : Option (List memcached_server_st) :=
  some [{ hostname := "10.0.1.1", port := 11211, weight := 1, number_of_hosts := 2 },
        { hostname := "10.0.1.2", port := 11211, weight := 1, number_of_hosts := 0 }]

/-- A Modulo selector with the one server `10.0.1.1`. -/
def sample_modula_single : memcached_st ℚ :=
  { sample_st with
    number_of_hosts := 1
    servers := [sample_server "10.0.1.1" 11211 1 0] }

/-- A dynamic selector over four servers before its first build. -/
def sample_dynamic_four : memcached_st ℚ :=
  { sample_st with
    distribution := MEMCACHED_DISTRIBUTION_DYNAMIC
    number_of_hosts := 4
    servers := sample_fleet ++ [sample_server "10.0.1.4" 11211 1 0] }

/-- The dynamic selector built over four servers after the server at
position 2 left the fleet, before the rebuild. -/
def sample_dynamic_four_shrunk : memcached_st ℚ :=
  { (update_dynamic sample_externals sample_dynamic_four).2 with
    number_of_hosts := 3
    servers := [sample_server "10.0.1.1" 11211 1 0, sample_server "10.0.1.2" 11211 2 0,
                sample_server "10.0.1.4" 11211 1 0]
    dynamic := { (update_dynamic sample_externals sample_dynamic_four).2.dynamic with
      removing_idx := 2 } }


/-- The dynamic selector built over one server after a second server joined
the fleet, before the rebuild: its ring has the one point `(2^32 - 1, 0)`. -/
def sample_dynamic_single_grown : memcached_st ℚ :=
  { (update_dynamic sample_externals sample_dynamic_single).2 with
    number_of_hosts := 2
    servers := [sample_server "10.0.1.1" 11211 1 0, sample_server "10.0.1.2" 11211 1 0] }


/-- An auto ejecting unweighted ketama selector with two servers, the first
ejected until second `2000`, with a statistics block whose `servers` array is
not allocated yet. -/
def sample_first_ejected : memcached_st ℚ :=
  { sample_st with
    distribution := MEMCACHED_DISTRIBUTION_CONSISTENT_KETAMA
    flags := { sample_st.flags with auto_eject_hosts := true }
    number_of_hosts := 2
    servers := [sample_server "10.0.1.1" 11211 1 2000, sample_server "10.0.1.2" 11211 1 0]
    ketama_stat := some { continuum_count := 0, max := 0, maxid := 0, servers := none,
                          continuum_points_counter := 0 } }


/-- A Modulo selector over three servers, the first two on the same host
`10.0.1.1` with different ports. -/
def sample_shared_host : memcached_st ℚ :=
  { sample_st with
    number_of_hosts := 3
    servers := [sample_server "10.0.1.1" 11211 1 0, sample_server "10.0.1.1" 11212 1 0,
                sample_server "10.0.1.2" 11211 1 0] }


/-- A dynamic selector over the two point ring `[(10, server 0), (20, server 1)]`
with a zeroed counter block for each of its two servers. -/
def sample_dynamic_pair : memcached_st ℚ :=
  { sample_st with
    distribution := MEMCACHED_DISTRIBUTION_DYNAMIC
    number_of_hosts := 2
    dynamic := { sample_st.dynamic with
      continuum := [sample_point 10 0, sample_point 20 1]
      continuum_points_counter := 2
      continuum_count := 2
      servers := [sched_zero 0, sched_zero 0] } }


/-- A ketama selector over the ring `[(10, server 0), (20, server 1)]` with a
statistics block that has recorded three gets and one set. -/
def sample_ketama_stat : memcached_st ℚ :=
  { sample_ketama 2 [sample_point 10 0, sample_point 20 1] with
    ketama_stat := some
      { continuum_count := 2, max := 2, maxid := 0,
        servers := some [{ sched_zero 0 with get := 2, set := 1 }, { sched_zero 0 with get := 1 }],
        continuum_points_counter := 2 } }


/-- The built dynamic selector over three servers after two get commands whose
hash `2500000000` selects point 3, a point of server 0. -/
def sample_dynamic_hit_twice : memcached_st ℚ :=
  (dispatch_host sample_externals
    (dispatch_host sample_externals sample_dynamic_built 2500000000 1).1 2500000000 1).1

/-- The built dynamic selector over three servers after one get command whose
hash `1` selects point 0. -/
def sample_dynamic_hit_first : memcached_st ℚ :=
  (dispatch_host sample_externals sample_dynamic_built 1 1).1


/-- A dynamic ring of two points of two servers with a gap of more than `2^31`
across the wrap: the point of server 0 at `1000000000` has served two gets and
has usage rate 1, the point of server 1 at `2000000000` one get and usage
rate `1/2`. -/
def sample_tick_pair : sched_dynamic ℚ :=
  { sample_st.dynamic with
    continuum :=
      [{ index := 0, value := 1000000000,
         sched := { sched_zero 0 with get := 2, sum := 2, usagerate := 1 } },
       { index := 1, value := 2000000000,
         sched := { sched_zero 0 with get := 1, sum := 1, usagerate := 1 / 2 } }]
    continuum_points_counter := 2
    continuum_count := 2
    servers := [sched_zero 0, sched_zero 0]
    max := 2 }

/-- The ring of `sample_tick_pair` with both points owned by the only server. -/
def sample_tick_single : sched_dynamic ℚ :=
  { sample_tick_pair with
    continuum :=
      [{ index := 0, value := 1000000000,
         sched := { sched_zero 0 with get := 2, sum := 2, usagerate := 1 } },
       { index := 0, value := 2000000000,
         sched := { sched_zero 0 with get := 1, sum := 1, usagerate := 1 / 2 } }]
    continuum_count := 1
    servers := [sched_zero 0] }


/-- A server list of one entry with the given port and weight. -/
def sample_list_one (hostname : String) (port weight : Nat) : List memcached_server_st :=
  [{ hostname := hostname, port := port, weight := weight, number_of_hosts := 1 }]

/-- A server list of two entries on the default port with weight 1. -/
def sample_list_two : List memcached_server_st :=
  [{ hostname := "10.0.1.1", port := 11211, weight := 1, number_of_hosts := 2 },
   { hostname := "10.0.1.2", port := 11211, weight := 1, number_of_hosts := 0 }]

/-- A dynamic selector with no server. -/
def sample_dynamic_empty : memcached_st ℚ :=
  { sample_st with distribution := MEMCACHED_DISTRIBUTION_DYNAMIC }

/-- A ketama selector with no server. -/
def sample_ketama_empty : memcached_st ℚ :=
  { sample_st with distribution := MEMCACHED_DISTRIBUTION_CONSISTENT_KETAMA }

/-- The sample externals with host names of at most 8 characters valid. -/
def short_name_externals : Externals ℚ :=
  { sample_externals with
    memcached_is_valid_servername := fun hostname => decide (hostname.length ≤ 8) }


/-! # Theorems -/

/-! ## The binary search -/

theorem search_loop_fuel (c : List (memcached_continuum_item_st D)) (hash : Nat) :
    ∀ (f1 f2 left right : Nat), right - left ≤ f1 → right - left ≤ f2 →
      search_loop c hash f1 left right = search_loop c hash f2 left right := by
  intro f1
  induction f1 with
  | zero =>
    intro f2 left right h1 _
    have hle : ¬ left < right := by omega
    cases f2 with
    | zero => rfl
    | succ f2 => simp [search_loop, hle]
  | succ f1 ih =>
    intro f2 left right h1 h2
    cases f2 with
    | zero =>
      have hle : ¬ left < right := by omega
      simp [search_loop, hle]
    | succ f2 =>
      by_cases hlt : left < right
      · simp only [search_loop, hlt, if_true]
        split
        · apply ih <;> omega
        · apply ih <;> omega
      · simp [search_loop, hlt]

/-- The loop equation of `while (left < right)`: the search is total and each
call is one iteration of the source loop. -/
theorem bsearch_unfold (c : List (memcached_continuum_item_st D)) (hash left right : Nat) :
    bsearch c hash left right =
      if left < right then
        if value_at c (left + (right - left) / 2) < hash then
          bsearch c hash (left + (right - left) / 2 + 1) right
        else bsearch c hash left (left + (right - left) / 2)
      else right := by
  unfold bsearch
  by_cases hlt : left < right
  · rw [search_loop_fuel c hash (right - left) (right - left - 1 + 1) left right
      (le_refl _) (by omega)]
    simp only [search_loop, hlt, if_true]
    split
    · apply search_loop_fuel <;> omega
    · apply search_loop_fuel <;> omega
  · have h0 : right - left = 0 := by omega
    rw [h0]
    simp [search_loop, hlt]

theorem bsearch_spec (c : List (memcached_continuum_item_st D)) (hash num : Nat)
    (hs : ring_sorted c num) :
    ∀ (n left right : Nat), right - left ≤ n → left ≤ right → right ≤ num →
      (∀ j < left, value_at c j < hash) →
      (∀ j, right ≤ j → j < num → hash ≤ value_at c j) →
      left ≤ bsearch c hash left right ∧ bsearch c hash left right ≤ right ∧
      (∀ j < bsearch c hash left right, value_at c j < hash) ∧
      (∀ j, bsearch c hash left right ≤ j → j < num → hash ≤ value_at c j) := by
  intro n
  induction n with
  | zero =>
    intro left right h1 h2 _ hl hr
    have hle : ¬ left < right := by omega
    rw [bsearch_unfold]
    simp only [hle, if_false]
    have : left = right := by omega
    subst this
    exact ⟨le_refl _, le_refl _, hl, hr⟩
  | succ n ih =>
    intro left right h1 h2 h3 hl hr
    rw [bsearch_unfold]
    by_cases hlt : left < right
    · simp only [hlt, if_true]
      have hm1 : left ≤ left + (right - left) / 2 := by omega
      have hm2 : left + (right - left) / 2 < right := by omega
      by_cases hv : value_at c (left + (right - left) / 2) < hash
      · simp only [hv, if_true]
        have key := ih (left + (right - left) / 2 + 1) right (by omega) (by omega) h3
          (by
            intro j hj
            have hj2 : j ≤ left + (right - left) / 2 := by omega
            exact lt_of_le_of_lt (hs _ (by omega) j hj2) hv)
          hr
        exact ⟨by omega, key.2.1, key.2.2.1, key.2.2.2⟩
      · simp only [hv, if_false]
        have hv2 : hash ≤ value_at c (left + (right - left) / 2) := by omega
        have key := ih left (left + (right - left) / 2) (by omega) hm1 (by omega) hl
          (by
            intro j hj hjn
            exact le_trans hv2 (hs j hjn _ hj))
        exact ⟨key.1, by omega, key.2.2.1, key.2.2.2⟩
    · simp only [hlt, if_false]
      have : left = right := by omega
      subst this
      exact ⟨le_refl _, le_refl _, hl, hr⟩

theorem dispatch_position_eq (c : List (memcached_continuum_item_st D)) (P hash : Nat) :
    dispatch_position c P hash =
      if bsearch c hash 0 (u32 (P + 4294967295)) = u32 (P + 4294967295) then 0
      else bsearch c hash 0 (u32 (P + 4294967295)) := by
  simp [dispatch_position, bsearch]

theorem u32_pred (P : Nat) (h1 : 1 ≤ P) (h2 : P < 4294967296) :
    u32 (P + 4294967295) = P - 1 := by
  unfold u32; omega

/-! ## Reads and in place updates -/

theorem value_at_points (ring : List (memcached_continuum_item_st D)) (i : Nat) :
    value_at ring i = (((points_of ring)[i]?).map Prod.fst).getD 0 := by
  simp only [value_at, points_of, List.getElem?_map]
  generalize ring[i]? = o
  cases o <;> rfl

theorem index_at_points (ring : List (memcached_continuum_item_st D)) (i : Nat) :
    index_at ring i = (((points_of ring)[i]?).map Prod.snd).getD 0 := by
  simp only [index_at, points_of, List.getElem?_map]
  generalize ring[i]? = o
  cases o <;> rfl

theorem value_at_congr {D1 D2 : Type} (c1 : List (memcached_continuum_item_st D1))
    (c2 : List (memcached_continuum_item_st D2)) (h : points_of c1 = points_of c2) (i : Nat) :
    value_at c1 i = value_at c2 i := by
  rw [value_at_points, value_at_points, h]

theorem index_at_congr {D1 D2 : Type} (c1 : List (memcached_continuum_item_st D1))
    (c2 : List (memcached_continuum_item_st D2)) (h : points_of c1 = points_of c2) (i : Nat) :
    index_at c1 i = index_at c2 i := by
  rw [index_at_points, index_at_points, h]

theorem points_of_modify_at (f : memcached_continuum_item_st D → memcached_continuum_item_st D)
    (hf : ∀ p, (f p).value = p.value ∧ (f p).index = p.index) :
    ∀ (c : List (memcached_continuum_item_st D)) (i : Nat),
      points_of (modify_at f c i) = points_of c := by
  intro c
  induction c with
  | nil => intro i; rfl
  | cons x xs ih =>
    intro i
    cases i with
    | zero => simp [modify_at, points_of, hf x]
    | succ n =>
      have := ih n
      simp only [points_of] at this
      simp [modify_at, points_of, this]

theorem length_modify_at {α : Type} (f : α → α) :
    ∀ (c : List α) (i : Nat), (modify_at f c i).length = c.length := by
  intro c
  induction c with
  | nil => intro i; rfl
  | cons x xs ih =>
    intro i
    cases i with
    | zero => simp [modify_at]
    | succ n => simp [modify_at, ih n]

theorem points_of_refresh_usagerate (E : Externals D) (num max : Nat)
    (c : List (memcached_continuum_item_st D)) :
    points_of (refresh_usagerate E num max c) = points_of c := by
  unfold refresh_usagerate
  induction num with
  | zero => simp
  | succ n ih =>
    rw [List.range_succ, List.foldl_append]
    simp only [List.foldl_cons, List.foldl_nil]
    exact (points_of_modify_at (set_usagerate E max) (fun p => ⟨rfl, rfl⟩) _ _).trans ih

theorem search_loop_congr {D1 D2 : Type} (c1 : List (memcached_continuum_item_st D1))
    (c2 : List (memcached_continuum_item_st D2)) (hash : Nat)
    (h : ∀ i, value_at c1 i = value_at c2 i) :
    ∀ (fuel left right : Nat),
      search_loop c1 hash fuel left right = search_loop c2 hash fuel left right := by
  intro fuel
  induction fuel with
  | zero => intro left right; rfl
  | succ n ih =>
    intro left right
    simp only [search_loop, h, ih]

theorem dispatch_position_congr {D1 D2 : Type} (c1 : List (memcached_continuum_item_st D1))
    (c2 : List (memcached_continuum_item_st D2)) (P hash : Nat)
    (h : points_of c1 = points_of c2) :
    dispatch_position c1 P hash = dispatch_position c2 P hash := by
  simp only [dispatch_position, search_loop_congr c1 c2 hash (value_at_congr c1 c2 h)]

/-! ## What `dispatch_host` returns and what it leaves alone -/

theorem dispatch_ketama_snd (E : Externals D) (ptr : memcached_st D) (hash cmd : Nat) :
    (dispatch_ketama E ptr hash cmd).2 =
      index_at ptr.ketama.continuum
        (dispatch_position ptr.ketama.continuum ptr.ketama.continuum_points_counter hash) := by
  unfold dispatch_ketama
  cases ptr.ketama_stat <;> rfl

theorem dispatch_ketama_frame (E : Externals D) (ptr : memcached_st D) (hash cmd : Nat) :
    same_selection_state (dispatch_ketama E ptr hash cmd).1 ptr := by
  unfold dispatch_ketama same_selection_state
  cases ptr.ketama_stat <;> exact ⟨rfl, rfl, rfl, rfl, rfl, rfl, rfl, rfl, rfl⟩

theorem dynamic_hit_frame (E : Externals D) (cmd : Nat) (p : memcached_continuum_item_st D) :
    (dynamic_hit E cmd p).value = p.value ∧ (dynamic_hit E cmd p).index = p.index := by
  unfold dynamic_hit
  exact ⟨rfl, rfl⟩

theorem dispatch_dynamic_frame (E : Externals D) (ptr : memcached_st D) (hash cmd : Nat) :
    same_selection_state (dispatch_dynamic E ptr hash cmd).1 ptr := by
  refine ⟨rfl, rfl, rfl, rfl, rfl, rfl, rfl, ?_, rfl⟩
  unfold dispatch_dynamic
  dsimp only
  split
  · exact (points_of_refresh_usagerate E _ _ _).trans
      (points_of_modify_at _ (dynamic_hit_frame E cmd) _ _)
  · exact points_of_modify_at _ (dynamic_hit_frame E cmd) _ _

theorem dispatch_dynamic_snd (E : Externals D) (ptr : memcached_st D) (hash cmd : Nat) :
    (dispatch_dynamic E ptr hash cmd).2 =
      index_at ptr.dynamic.continuum
        (dispatch_position ptr.dynamic.continuum ptr.dynamic.continuum_points_counter hash) := by
  unfold dispatch_dynamic
  dsimp only
  split
  · exact index_at_congr _ _ ((points_of_refresh_usagerate E _ _ _).trans
      (points_of_modify_at _ (dynamic_hit_frame E cmd) _ _)) _
  · exact index_at_congr _ _ (points_of_modify_at _ (dynamic_hit_frame E cmd) _ _) _

/-- On a ring strategy `dispatch_host` returns the index stored at the
position the binary search selects. -/
theorem dispatch_host_ring (E : Externals D) (ptr : memcached_st D) (hash cmd : Nat)
    (c : List (memcached_continuum_item_st D)) (P : Nat)
    (hr : active_ring ptr = some (c, P)) :
    (dispatch_host E ptr hash cmd).2 = index_at c (dispatch_position c P hash) := by
  unfold active_ring at hr
  unfold dispatch_host
  split at hr <;> simp_all [dispatch_ketama_snd, dispatch_dynamic_snd]

/-! ## Claims about the binary search (C1, C2) -/

/-- C1 (evaluation of the code where it departs from the claim): on the sorted
two point ring `[(10, server 0), (20, server 1)]` the leftmost point whose value
is at least `15` is the last point, owned by server 1, yet `dispatch_host`
returns server 0 for hash `15` and also for hash `20`, the value of the last
point itself; the same holds for the dynamic branch. -/
theorem dispatch_host_skips_last_point :
    ring_sorted [sample_point 10 0, sample_point 20 1] 2 ∧
    value_at [sample_point 10 0, sample_point 20 1] 0 < 15 ∧
    15 ≤ value_at [sample_point 10 0, sample_point 20 1] 1 ∧
    index_at [sample_point 10 0, sample_point 20 1] 1 = 1 ∧
    (dispatch_host sample_externals
      (sample_ketama 2 [sample_point 10 0, sample_point 20 1]) 15 1).2 = 0 ∧
    (dispatch_host sample_externals
      (sample_ketama 2 [sample_point 10 0, sample_point 20 1]) 20 1).2 = 0 ∧
    (dispatch_host sample_externals
      (sample_dynamic 2 [sample_point 10 0, sample_point 20 1]) 15 1).2 = 0 ∧
    (dispatch_host sample_externals
      (sample_dynamic 2 [sample_point 10 0, sample_point 20 1]) 20 1).2 = 0 := by
  decide

/-- C2: for a ring strategy whose ring `c` has `P >= 2` points in ascending
order, the search of `dispatch_host` (total, satisfying the loop equation
`bsearch_unfold`) selects a position below `P - 1`, returns the index stored
there, selects the least position `i < P - 1` with `value >= hash`, and selects
position 0 when no position below `P - 1` has `value >= hash`; so the point at
`P - 1` is never selected and a hash above every value returns `points[0].index`. -/
theorem dispatch_host_least_position (E : Externals D) (ptr : memcached_st D)
    (c : List (memcached_continuum_item_st D)) (P hash cmd : Nat)
    (hr : active_ring ptr = some (c, P)) (hP : 2 ≤ P) (hP32 : P < 4294967296)
    (hs : ring_sorted c P) :
    dispatch_position c P hash < P - 1 ∧
    (dispatch_host E ptr hash cmd).2 = index_at c (dispatch_position c P hash) ∧
    (∀ i, i < P - 1 → hash ≤ value_at c i → (∀ j < i, value_at c j < hash) →
      dispatch_position c P hash = i) ∧
    ((∀ i, i < P - 1 → value_at c i < hash) → dispatch_position c P hash = 0) ∧
    ((∀ i, i < P → value_at c i < hash) →
      (dispatch_host E ptr hash cmd).2 = index_at c 0) := by
  have hs1 : ring_sorted c (P - 1) := fun j hj i hi => hs j (by omega) i hi
  have key := bsearch_spec c hash (P - 1) hs1 (P - 1) 0 (P - 1) (by omega) (by omega)
    (le_refl _) (by intro j hj; omega) (by intro j h1 h2; omega)
  obtain ⟨-, k2, k3, k4⟩ := key
  have hpos := dispatch_position_eq c P hash
  rw [u32_pred P (by omega) hP32] at hpos
  have hring := dispatch_host_ring E ptr hash cmd c P hr
  have hb : (∀ i, i < P - 1 → value_at c i < hash) → dispatch_position c P hash = 0 := by
    intro hall
    by_cases he : bsearch c hash 0 (P - 1) = P - 1
    · rw [hpos, if_pos he]
    · have hlt : bsearch c hash 0 (P - 1) < P - 1 := by omega
      have h1 := k4 _ (le_refl _) hlt
      have h2 := hall _ hlt
      omega
  refine ⟨?_, hring, ?_, hb, ?_⟩
  · rw [hpos]
    split <;> omega
  · intro i hi hv hall
    have h1 : bsearch c hash 0 (P - 1) ≤ i := by
      by_contra hcon
      have := k3 i (by omega)
      omega
    have h2 : i ≤ bsearch c hash 0 (P - 1) := by
      by_contra hcon
      have h3 := hall _ (by omega : bsearch c hash 0 (P - 1) < i)
      have h4 := k4 _ (le_refl _) (by omega)
      omega
    have he : bsearch c hash 0 (P - 1) = i := by omega
    rw [hpos, he, if_neg (by omega)]
  · intro hall
    rw [hring, hb (fun i hi => hall i (by omega))]

/-- Witness of C2 on the ring `[(10, server 0), (20, server 1), (30, server 2)]`
with hash `15`. -/
theorem dispatch_host_least_position_witness :
    dispatch_position [sample_point 10 0, sample_point 20 1, sample_point 30 2] 3 15 < 3 - 1 ∧
    (dispatch_host sample_externals
      (sample_ketama 3 [sample_point 10 0, sample_point 20 1, sample_point 30 2]) 15 1).2 =
      index_at [sample_point 10 0, sample_point 20 1, sample_point 30 2]
        (dispatch_position [sample_point 10 0, sample_point 20 1, sample_point 30 2] 3 15) :=
  let h := dispatch_host_least_position sample_externals
    (sample_ketama 3 [sample_point 10 0, sample_point 20 1, sample_point 30 2])
    [sample_point 10 0, sample_point 20 1, sample_point 30 2] 3 15 1 rfl (by decide) (by decide)
    (by decide)
  ⟨h.1, h.2.1⟩

theorem dispatch_host_frame (E : Externals D) (ptr : memcached_st D) (hash cmd : Nat) :
    same_selection_state (dispatch_host E ptr hash cmd).1 ptr := by
  unfold dispatch_host
  split
  any_goals exact dispatch_ketama_frame E ptr hash cmd
  any_goals exact dispatch_dynamic_frame E ptr hash cmd
  all_goals exact ⟨rfl, rfl, rfl, rfl, rfl, rfl, rfl, rfl, rfl⟩

/-- The index `dispatch_host` returns depends on the selection state only. -/
theorem dispatch_host_congr {D1 D2 : Type} (E1 : Externals D1) (E2 : Externals D2)
    (s1 : memcached_st D1) (s2 : memcached_st D2) (hash cmd1 cmd2 : Nat)
    (h : same_selection_state s1 s2)
    (hd : s1.distribution ≠ MEMCACHED_DISTRIBUTION_RANDOM ∧
          s1.distribution ≠ MEMCACHED_DISTRIBUTION_VIRTUAL_BUCKET) :
    (dispatch_host E1 s1 hash cmd1).2 = (dispatch_host E2 s2 hash cmd2).2 := by
  obtain ⟨h1, h2, -, -, -, h6, h7, h8, h9⟩ := h
  obtain ⟨hd1, hd2⟩ := hd
  unfold dispatch_host
  rw [← h1]
  split
  any_goals
    rw [dispatch_ketama_snd, dispatch_ketama_snd, ← h7, dispatch_position_congr _ _ _ _ h6]
    exact index_at_congr _ _ h6 _
  any_goals
    rw [dispatch_dynamic_snd, dispatch_dynamic_snd, ← h9, dispatch_position_congr _ _ _ _ h8]
    exact index_at_congr _ _ h8 _
  any_goals simp only [memcached_server_count, h2]
  all_goals simp_all

theorem _generate_hash_wrapper_congr {D1 D2 : Type} (E : Externals D1) (E2 : Externals D2)
    (s1 : memcached_st D1) (s2 : memcached_st D2) (key : List Nat)
    (h : same_selection_state s1 s2) (hk : E.MEMCACHED_MAX_KEY = E2.MEMCACHED_MAX_KEY) :
    _generate_hash_wrapper E s1 key = _generate_hash_wrapper E2 s2 key := by
  obtain ⟨-, h2, h3, h4, h5, -⟩ := h
  simp only [_generate_hash_wrapper, memcached_server_count, generate_hash, h2, h3, h4, h5, hk]

/-! ## Claims about the selector front door (C3, C4, C5, C6) -/

theorem search_loop_hash_zero (c : List (memcached_continuum_item_st D)) :
    ∀ (fuel right : Nat), right ≤ fuel → search_loop c 0 fuel 0 right = 0 := by
  intro fuel
  induction fuel with
  | zero => intro right h; simp only [search_loop]; omega
  | succ n ih =>
    intro right h
    by_cases hr : 0 < right
    · simp only [search_loop, hr, if_true, Nat.not_lt_zero, if_false]
      apply ih
      omega
    · simp only [search_loop, hr, if_false]
      omega

theorem dispatch_position_hash_zero (c : List (memcached_continuum_item_st D)) (P : Nat) :
    dispatch_position c P 0 = 0 := by
  simp [dispatch_position, search_loop_hash_zero c _ _ (le_refl _)]

/-- What `dispatch_host` returns for hash `0`: server 0 under Modulo and the
index of `points[0]` under the ring strategies. -/
theorem dispatch_host_hash_zero (E : Externals D) (ptr : memcached_st D) (cmd : Nat) :
    (ptr.distribution = MEMCACHED_DISTRIBUTION_MODULA → (dispatch_host E ptr 0 cmd).2 = 0) ∧
    (∀ c P, active_ring ptr = some (c, P) → (dispatch_host E ptr 0 cmd).2 = index_at c 0) := by
  constructor
  · intro hd
    simp [dispatch_host, hd]
  · intro c P hr
    rw [dispatch_host_ring E ptr 0 cmd c P hr, dispatch_position_hash_zero]

theorem strncpy_self (s : List Nat) (h : ∀ b ∈ s, b ≠ 0) : strncpy s s.length = s := by
  have h1 : (s.take s.length).takeWhile (fun b => decide (b ≠ 0)) = s := by
    rw [List.take_length, List.takeWhile_eq_self_iff]
    intro b hb
    simpa using h b hb
  simp only [strncpy, h1, Nat.sub_self, List.replicate_zero, List.append_nil]

/-- C3 (the claim fails as stated): with one server, a ketama ring whose only
point carries index 7 makes `memcached_generate_hash` return 7; the ring is
consulted. -/
theorem memcached_generate_hash_single_server_reads_ring :
    memcached_server_count (sample_ketama 1 [sample_point 5 7]) = 1 ∧
    (memcached_generate_hash sample_externals (sample_ketama 1 [sample_point 5 7])
      [107, 101, 121] 1).2 = 7 := by
  decide

/-- C3 (amended): with exactly one server `_generate_hash_wrapper` yields the
hash `0` for every key, and `memcached_generate_hash` returns server 0 under
Modulo and the index of `points[0]` under the ring strategies, for every key
and command; so it returns 0 whenever `points[0].index = 0`. -/
theorem memcached_generate_hash_single_server (E : Externals D) (ptr : memcached_st D)
    (key : List Nat) (cmd : Nat) (h1 : memcached_server_count ptr = 1) :
    _generate_hash_wrapper E ptr key = 0 ∧
    (ptr.distribution = MEMCACHED_DISTRIBUTION_MODULA →
      (memcached_generate_hash E ptr key cmd).2 = 0) ∧
    (∀ c P, active_ring ptr = some (c, P) →
      (memcached_generate_hash E ptr key cmd).2 = index_at c 0) ∧
    (∀ c P, active_ring ptr = some (c, P) → index_at c 0 = 0 →
      (memcached_generate_hash E ptr key cmd).2 = 0) := by
  have hw : _generate_hash_wrapper E ptr key = 0 := by
    simp [_generate_hash_wrapper, h1]
  have hz := dispatch_host_hash_zero E ptr cmd
  refine ⟨hw, ?_, ?_, ?_⟩
  · intro hd
    rw [memcached_generate_hash, hw]
    exact hz.1 hd
  · intro c P hr
    rw [memcached_generate_hash, hw]
    exact hz.2 c P hr
  · intro c P hr h0
    rw [memcached_generate_hash, hw, hz.2 c P hr, h0]

/-- Witness of C3 (amended) on a one server ketama ring. -/
theorem memcached_generate_hash_single_server_witness :
    _generate_hash_wrapper sample_externals (sample_ketama 1 [sample_point 5 0]) [107] = 0 ∧
    (memcached_generate_hash sample_externals (sample_ketama 1 [sample_point 5 0])
      [107] 1).2 = 0 :=
  let h := memcached_generate_hash_single_server sample_externals
    (sample_ketama 1 [sample_point 5 0]) [107] 1 rfl
  ⟨h.1, h.2.2.2 _ _ rfl rfl⟩

/-- C4 (the claim fails as stated): with the namespace flag set, two servers
and a namespace plus key longer than `MEMCACHED_MAX_KEY - 1`, a ketama ring
whose first point belongs to server 1 makes `memcached_generate_hash` return 1. -/
theorem memcached_generate_hash_long_key_reads_ring :
    ({ sample_ketama 2 [sample_point 5 1, sample_point 9 0] with
        flags := { sample_st.flags with hash_with_namespace := true },
        _namespace := [110, 115, 58] } : memcached_st ℚ).flags.hash_with_namespace
      = true ∧
    ([110, 115, 58]).length + [107].length > short_key_externals.MEMCACHED_MAX_KEY - 1 ∧
    (memcached_generate_hash short_key_externals
      { sample_ketama 2 [sample_point 5 1, sample_point 9 0] with
        flags := { sample_st.flags with hash_with_namespace := true },
        _namespace := [110, 115, 58] } [107] 1).2 = 1 := by
  refine ⟨rfl, by decide, ?_⟩
  decide

/-- C4 (amended): with the namespace flag set and at least two servers, a
namespace plus key longer than `MEMCACHED_MAX_KEY - 1` makes
`_generate_hash_wrapper` yield the hash `0`, and `memcached_generate_hash`
returns server 0 under Modulo and the index of `points[0]` under the ring
strategies. -/
theorem memcached_generate_hash_long_key (E : Externals D) (ptr : memcached_st D)
    (key : List Nat) (cmd : Nat) (hf : ptr.flags.hash_with_namespace = true)
    (hL : 2 ≤ memcached_server_count ptr)
    (hlen : ptr._namespace.length + key.length > E.MEMCACHED_MAX_KEY - 1) :
    _generate_hash_wrapper E ptr key = 0 ∧
    (ptr.distribution = MEMCACHED_DISTRIBUTION_MODULA →
      (memcached_generate_hash E ptr key cmd).2 = 0) ∧
    (∀ c P, active_ring ptr = some (c, P) →
      (memcached_generate_hash E ptr key cmd).2 = index_at c 0) := by
  have hw : _generate_hash_wrapper E ptr key = 0 := by
    have h1 : memcached_server_count ptr ≠ 1 := by omega
    simp [_generate_hash_wrapper, h1, hf, hlen]
  have hz := dispatch_host_hash_zero E ptr cmd
  refine ⟨hw, ?_, ?_⟩
  · intro hd
    rw [memcached_generate_hash, hw]
    exact hz.1 hd
  · intro c P hr
    rw [memcached_generate_hash, hw]
    exact hz.2 c P hr

/-- Witness of C4 (amended) under Modulo with three servers. -/
theorem memcached_generate_hash_long_key_witness :
    _generate_hash_wrapper short_key_externals
      { sample_st with number_of_hosts := 3,
                       flags := { sample_st.flags with hash_with_namespace := true },
                       _namespace := [110, 115, 58] } [107] = 0 ∧
    (memcached_generate_hash short_key_externals
      { sample_st with number_of_hosts := 3,
                       flags := { sample_st.flags with hash_with_namespace := true },
                       _namespace := [110, 115, 58] } [107] 1).2 = 0 :=
  let h := memcached_generate_hash_long_key short_key_externals
    { sample_st with number_of_hosts := 3,
                     flags := { sample_st.flags with hash_with_namespace := true },
                     _namespace := [110, 115, 58] } [107] 1 rfl (by decide) (by decide)
  ⟨h.1, h.2.1 rfl⟩

/-- C5 (the claim fails as stated): with the namespace flag set, two servers,
namespace `n` and the three byte key `a`, NUL, `b` (total length 4, below
`MEMCACHED_MAX_KEY - 1 = 250`), `_generate_hash_wrapper` hashes `n`, `a`, NUL,
NUL, because `strncpy` stops at the NUL byte and pads; with the byte sum as
hash function the result is 207, while the hash of namespace followed by key
is 305. -/
theorem _generate_hash_wrapper_nul_byte :
    ({ sample_st with number_of_hosts := 2,
                      flags := { sample_st.flags with hash_with_namespace := true },
                      _namespace := [110] } : memcached_st ℚ).flags.hash_with_namespace = true ∧
    [110].length + [97, 0, 98].length ≤ sample_externals.MEMCACHED_MAX_KEY - 1 ∧
    _generate_hash_wrapper sample_externals
      { sample_st with number_of_hosts := 2,
                       flags := { sample_st.flags with hash_with_namespace := true },
                       _namespace := [110] } [97, 0, 98] = 207 ∧
    sample_st.hashkit ([110] ++ [97, 0, 98]) = 305 := by
  decide

/-- C5 (amended): with at least two servers and the namespace flag set,
`_generate_hash_wrapper` returns the hash of the `strncpy` images of namespace
and key, which is `hash(namespace ++ key)` when neither holds a NUL byte, if
`|namespace| + |key| <= MEMCACHED_MAX_KEY - 1`, and returns 0, whatever the
hash function, if `|namespace| + |key| >= MEMCACHED_MAX_KEY`; without the flag
it returns `hash(key)` for every key. -/
theorem _generate_hash_wrapper_cases (E : Externals D) (ptr : memcached_st D) (key : List Nat)
    (hL : 2 ≤ memcached_server_count ptr) (hK : 1 ≤ E.MEMCACHED_MAX_KEY) :
    (ptr.flags.hash_with_namespace = true →
      ptr._namespace.length + key.length ≤ E.MEMCACHED_MAX_KEY - 1 →
      _generate_hash_wrapper E ptr key =
        ptr.hashkit (strncpy ptr._namespace ptr._namespace.length ++ strncpy key key.length)) ∧
    (ptr.flags.hash_with_namespace = true →
      ptr._namespace.length + key.length ≤ E.MEMCACHED_MAX_KEY - 1 →
      (∀ b ∈ ptr._namespace, b ≠ 0) → (∀ b ∈ key, b ≠ 0) →
      _generate_hash_wrapper E ptr key = ptr.hashkit (ptr._namespace ++ key)) ∧
    (ptr.flags.hash_with_namespace = true →
      E.MEMCACHED_MAX_KEY ≤ ptr._namespace.length + key.length →
      _generate_hash_wrapper E ptr key = 0) ∧
    (ptr.flags.hash_with_namespace = false →
      _generate_hash_wrapper E ptr key = ptr.hashkit key) := by
  have h1 : memcached_server_count ptr ≠ 1 := by omega
  have ha : ptr.flags.hash_with_namespace = true →
      ptr._namespace.length + key.length ≤ E.MEMCACHED_MAX_KEY - 1 →
      _generate_hash_wrapper E ptr key =
        ptr.hashkit (strncpy ptr._namespace ptr._namespace.length ++ strncpy key key.length) := by
    intro hf hlen
    have hn : ¬ ptr._namespace.length + key.length > E.MEMCACHED_MAX_KEY - 1 := by omega
    simp only [_generate_hash_wrapper, h1, hf, hn, if_false, if_true, generate_hash]
  refine ⟨ha, ?_, ?_, ?_⟩
  · intro hf hlen hns hkey
    rw [ha hf hlen, strncpy_self _ hns, strncpy_self _ hkey]
  · intro hf hlen
    have hn : ptr._namespace.length + key.length > E.MEMCACHED_MAX_KEY - 1 := by omega
    simp only [_generate_hash_wrapper, h1, hf, hn, if_false, if_true]
  · intro hf
    simp [_generate_hash_wrapper, h1, hf, generate_hash]

/-- Witness of C5 (amended): namespace `ns:` and key `k` under the byte sum
hash. -/
theorem _generate_hash_wrapper_cases_witness :
    _generate_hash_wrapper sample_externals
      { sample_st with number_of_hosts := 2,
                       flags := { sample_st.flags with hash_with_namespace := true },
                       _namespace := [110, 115, 58] } [107] =
      sample_st.hashkit ([110, 115, 58] ++ [107]) :=
  (_generate_hash_wrapper_cases sample_externals
    { sample_st with number_of_hosts := 2,
                     flags := { sample_st.flags with hash_with_namespace := true },
                     _namespace := [110, 115, 58] } [107] (by decide) (by decide)).2.1
    rfl (by decide) (by decide) (by decide)

/-- C6: two selectors with the same strategy (Modulo, Ketama or Dynamic family),
fleet size and `(value, index)` pairs and counters of their rings, whatever
their statistics (`get`, `set`, `sum`, `hitrate`, `usagerate`, `max`, `maxid`,
`ketama_stat`) and externals, get the same index from `dispatch_host` for every
hash and command; `dispatch_host` changes no point's value or index, nor the
counters, fleet size, flags, hash function or namespace; and selecting the same
hash or the same key twice in a row yields the same index. -/
theorem dispatch_host_deterministic (E1 E2 : Externals D) (s1 s2 : memcached_st D)
    (hash cmd : Nat) (key : List Nat)
    (h : same_selection_state s1 s2)
    (hd : s1.distribution ≠ MEMCACHED_DISTRIBUTION_RANDOM ∧
          s1.distribution ≠ MEMCACHED_DISTRIBUTION_VIRTUAL_BUCKET) :
    (dispatch_host E1 s1 hash cmd).2 = (dispatch_host E2 s2 hash cmd).2 ∧
    same_selection_state (dispatch_host E1 s1 hash cmd).1 s1 ∧
    (dispatch_host E1 (dispatch_host E1 s1 hash cmd).1 hash cmd).2 =
      (dispatch_host E1 s1 hash cmd).2 ∧
    (memcached_generate_hash E1 (memcached_generate_hash E1 s1 key cmd).1 key cmd).2 =
      (memcached_generate_hash E1 s1 key cmd).2 := by
  have hf := dispatch_host_frame E1 s1 hash cmd
  refine ⟨dispatch_host_congr E1 E2 s1 s2 hash cmd cmd h hd, hf, ?_, ?_⟩
  · exact dispatch_host_congr E1 E1 _ s1 hash cmd cmd hf (by rw [hf.1]; exact hd)
  · have hg := dispatch_host_frame E1 s1 (_generate_hash_wrapper E1 s1 key) cmd
    unfold memcached_generate_hash
    rw [_generate_hash_wrapper_congr E1 E1 _ s1 key hg rfl]
    exact dispatch_host_congr E1 E1 _ s1 _ cmd cmd hg (by rw [hg.1]; exact hd)

/-- Witness of C6: two dynamic selectors over the same points, one with used
counters, at hash `15`. -/
theorem dispatch_host_deterministic_witness :
    (dispatch_host sample_externals
      (sample_dynamic 3 [sample_point 10 0, sample_point 20 1, sample_point 30 2]) 15 1).2 =
    (dispatch_host short_key_externals
      (sample_dynamic 3
        [sample_point 10 0,
         { sample_point 20 1 with sched := { sched_zero 0 with get := 7, set := 2, sum := 9 } },
         sample_point 30 2]) 15 1).2 :=
  (dispatch_host_deterministic sample_externals short_key_externals
    (sample_dynamic 3 [sample_point 10 0, sample_point 20 1, sample_point 30 2])
    (sample_dynamic 3
      [sample_point 10 0,
       { sample_point 20 1 with sched := { sched_zero 0 with get := 7, set := 2, sum := 9 } },
       sample_point 30 2]) 15 1 [107]
    ⟨rfl, rfl, rfl, rfl, rfl, rfl, rfl, rfl, rfl⟩ (by decide)).1

/-! ## Buffers, `qsort` and reads -/

theorem continuum_item_cmp_le (a b : memcached_continuum_item_st D) :
    continuum_item_cmp a b ≤ 0 ↔ a.value ≤ b.value := by
  unfold continuum_item_cmp
  split_ifs <;> omega

theorem value_at_take (ring : List (memcached_continuum_item_st D)) (n k : Nat) (h : k < n) :
    value_at (ring.take n) k = value_at ring k := by
  simp only [value_at, List.getElem?_take_of_lt h]

theorem index_at_take (ring : List (memcached_continuum_item_st D)) (n k : Nat) (h : k < n) :
    index_at (ring.take n) k = index_at ring k := by
  simp only [index_at, List.getElem?_take_of_lt h]

theorem read_of_lt (ring : List (memcached_continuum_item_st D)) (j : Nat)
    (h : j < ring.length) :
    ∃ p ∈ ring, index_at ring j = p.index ∧ value_at ring j = p.value := by
  refine ⟨ring[j], List.getElem_mem h, ?_, ?_⟩
  · simp [index_at, List.getElem?_eq_getElem h]
  · simp [value_at, List.getElem?_eq_getElem h]

theorem read_of_lt_take (ring : List (memcached_continuum_item_st D)) (n j : Nat)
    (hj : j < n) (hn : n ≤ ring.length) :
    ∃ p ∈ ring.take n, index_at ring j = p.index ∧ value_at ring j = p.value := by
  have h := read_of_lt (ring.take n) j (by rw [List.length_take]; omega)
  rw [index_at_take _ _ _ hj, value_at_take _ _ _ hj] at h
  exact h

theorem slot_index (E : Externals D) (ring : List (memcached_continuum_item_st D)) (j : Nat) :
    (slot E ring j).index = index_at ring j := by
  simp only [slot, index_at, List.getD_eq_getElem?_getD]
  generalize ring[j]? = o
  cases o <;> rfl

theorem slot_value (E : Externals D) (ring : List (memcached_continuum_item_st D)) (j : Nat) :
    (slot E ring j).value = value_at ring j := by
  simp only [slot, value_at, List.getD_eq_getElem?_getD]
  generalize ring[j]? = o
  cases o <;> rfl

theorem length_write_points
    (upd : memcached_continuum_item_st D → Nat × Nat → memcached_continuum_item_st D)
    (fresh : memcached_continuum_item_st D) :
    ∀ (pts : List (Nat × Nat)) (buf : List (memcached_continuum_item_st D)),
      pts.length ≤ (write_points upd fresh pts buf).length := by
  intro pts
  induction pts with
  | nil => intro buf; simp [write_points]
  | cons p ps ih =>
    intro buf
    cases buf with
    | nil => simpa [write_points] using ih []
    | cons b bs => simpa [write_points] using ih bs

theorem points_of_write_points
    (upd : memcached_continuum_item_st D → Nat × Nat → memcached_continuum_item_st D)
    (fresh : memcached_continuum_item_st D)
    (hupd : ∀ b p, (upd b p).value = p.1 ∧ (upd b p).index = p.2) :
    ∀ (pts : List (Nat × Nat)) (buf : List (memcached_continuum_item_st D)),
      points_of ((write_points upd fresh pts buf).take pts.length) = pts := by
  intro pts
  induction pts with
  | nil => intro buf; simp [points_of]
  | cons p ps ih =>
    intro buf
    cases buf with
    | nil =>
      have h := ih []
      simp only [points_of] at h
      simp [write_points, points_of, hupd, h]
    | cons b bs =>
      have h := ih bs
      simp only [points_of] at h
      simp [write_points, points_of, hupd, h]

/-- Every point among the first `k <= |pts|` slots after the writes is one of
the written pairs. -/
theorem mem_take_write_points
    (upd : memcached_continuum_item_st D → Nat × Nat → memcached_continuum_item_st D)
    (fresh : memcached_continuum_item_st D)
    (hupd : ∀ b p, (upd b p).value = p.1 ∧ (upd b p).index = p.2)
    (pts : List (Nat × Nat)) (buf : List (memcached_continuum_item_st D)) (k : Nat)
    (hk : k ≤ pts.length) (p : memcached_continuum_item_st D)
    (hp : p ∈ (write_points upd fresh pts buf).take k) :
    (p.value, p.index) ∈ pts := by
  have h1 : p ∈ (write_points upd fresh pts buf).take pts.length := by
    have h2 : (write_points upd fresh pts buf).take k =
        ((write_points upd fresh pts buf).take pts.length).take k := by
      rw [List.take_take, Nat.min_eq_left hk]
    rw [h2] at hp
    exact List.mem_of_mem_take hp
  have h3 := points_of_write_points upd fresh hupd pts buf
  rw [← h3]
  exact List.mem_map.mpr ⟨p, h1, rfl⟩

theorem qsort_perm {α : Type} (compar : α → α → Int) (base : List α) (n : Nat) :
    List.Perm (qsort compar base n) base := by
  unfold qsort
  have h1 := List.perm_insertionSort (fun a b => compar a b ≤ 0) (base.take n)
  have h2 := List.Perm.append_right (base.drop n) h1
  rwa [List.take_append_drop] at h2

theorem length_qsort {α : Type} (compar : α → α → Int) (base : List α) (n : Nat) :
    (qsort compar base n).length = base.length :=
  (qsort_perm compar base n).length_eq

theorem qsort_take {α : Type} (compar : α → α → Int) (base : List α) (n : Nat)
    (hn : n ≤ base.length) :
    (qsort compar base n).take n = (base.take n).insertionSort (fun a b => compar a b ≤ 0) := by
  unfold qsort
  have hl : ((base.take n).insertionSort (fun a b => compar a b ≤ 0)).length = n := by
    rw [List.length_insertionSort, List.length_take]
    omega
  rw [List.take_append_eq_append_take, hl, Nat.sub_self, List.take_zero, List.append_nil,
    List.take_of_length_le (by omega)]

/-- A point among the first `n` after `qsort` is a point among the first `n`
before it. -/
theorem mem_take_qsort {α : Type} (compar : α → α → Int) (base : List α) (n : Nat)
    (hn : n ≤ base.length) (p : α) (hp : p ∈ (qsort compar base n).take n) :
    p ∈ base.take n := by
  rw [qsort_take compar base n hn] at hp
  exact (List.perm_insertionSort _ _).mem_iff.mp hp

/-- After `qsort` with `continuum_item_cmp` the first `n` points ascend. -/
theorem ring_sorted_qsort (base : List (memcached_continuum_item_st D)) (n : Nat)
    (hn : n ≤ base.length) :
    ring_sorted (qsort continuum_item_cmp base n) n := by
  intro j hj i hi
  have hs : List.Sorted (fun a b : memcached_continuum_item_st D => continuum_item_cmp a b ≤ 0)
      ((qsort continuum_item_cmp base n).take n) := by
    rw [qsort_take _ _ _ hn]
    exact List.sorted_insertionSort _ _
  have hlen : ((qsort continuum_item_cmp base n).take n).length = n := by
    rw [List.length_take, length_qsort]
    omega
  rw [← value_at_take _ n i (by omega), ← value_at_take _ n j hj]
  generalize (qsort continuum_item_cmp base n).take n = l at hs hlen
  have hi2 : i < l.length := by omega
  have hj2 : j < l.length := by omega
  simp only [value_at, List.getElem?_eq_getElem hi2, List.getElem?_eq_getElem hj2]
  rcases Nat.lt_or_eq_of_le hi with hlt | heq
  · have := List.pairwise_iff_getElem.mp hs i j hi2 hj2 hlt
    exact (continuum_item_cmp_le _ _).mp this
  · subst heq
    exact le_refl _

/-! ## The server loop of `update_continuum` -/

theorem label_points_spec (E : Externals D) (ptr : memcached_st D) (host_index : Nat)
    (label : String) (pointer_per_hash : Nat) :
    (∀ p ∈ label_points E ptr host_index label pointer_per_hash, p.2 = host_index) ∧
    (label_points E ptr host_index label pointer_per_hash).length =
      if memcached_is_weighted_ketama ptr then pointer_per_hash else 1 := by
  unfold label_points
  split
  · refine ⟨?_, by simp⟩
    intro p hp
    obtain ⟨x, -, hx⟩ := List.mem_map.mp hp
    rw [← hx]
  · refine ⟨?_, by simp⟩
    intro p hp
    rw [List.mem_singleton.mp hp]

theorem emit_label_spec (E : Externals D) (ptr : memcached_st D)
    (host_index pointer_per_hash : Nat) (st : List (Nat × Nat) × Bool) (k : Nat) :
    (∀ p ∈ (emit_label E ptr host_index pointer_per_hash st k).1,
      p ∈ st.1 ∨ p.2 = host_index) ∧
    ((emit_label E ptr host_index pointer_per_hash st k).2 = false →
      st.2 = false ∧ ∃ lp,
        (emit_label E ptr host_index pointer_per_hash st k).1 = st.1 ++ lp ∧
        (∀ p ∈ lp, p.2 = host_index) ∧
        lp.length = if memcached_is_weighted_ketama ptr then pointer_per_hash else 1) := by
  unfold emit_label
  by_cases hf : st.2 = true
  · rw [if_pos hf]
    exact ⟨fun p hp => Or.inl hp, fun h => by rw [hf] at h; cases h⟩
  · rw [if_neg hf]
    by_cases hlen : (label_of E ptr host_index k).length ≥
        sizeof_sort_host E
          (decide (ptr.distribution = MEMCACHED_DISTRIBUTION_CONSISTENT_KETAMA_SPY))
    · rw [if_pos hlen]
      exact ⟨fun p hp => Or.inl hp, fun h => by cases h⟩
    · rw [if_neg hlen]
      have hl := label_points_spec E ptr host_index (label_of E ptr host_index k)
        pointer_per_hash
      constructor
      · intro p hp
        rcases List.mem_append.mp hp with h | h
        · exact Or.inl h
        · exact Or.inr (hl.1 p h)
      · intro _
        exact ⟨by simpa using hf, _, rfl, hl.1, hl.2⟩

theorem emit_host_spec (E : Externals D) (ptr : memcached_st D) (host_index : Nat)
    (pointer_per_server pointer_per_hash : Nat) (written : List (Nat × Nat)) :
    (∀ p ∈ (emit_host E ptr host_index pointer_per_server pointer_per_hash written).1,
      p ∈ written ∨ p.2 = host_index) ∧
    ((emit_host E ptr host_index pointer_per_server pointer_per_hash written).2 = false →
      ∃ extra,
        (emit_host E ptr host_index pointer_per_server pointer_per_hash written).1
          = written ++ extra ∧
        (∀ p ∈ extra, p.2 = host_index) ∧
        extra.length = pointer_per_server / pointer_per_hash *
          (if memcached_is_weighted_ketama ptr then pointer_per_hash else 1)) := by
  unfold emit_host
  generalize pointer_per_server / pointer_per_hash = m
  induction m with
  | zero =>
    refine ⟨fun p hp => Or.inl (by simpa using hp), fun _ => ⟨[], by simp, by simp, by simp⟩⟩
  | succ m ih =>
    rw [List.range_succ, List.foldl_append]
    simp only [List.foldl_cons, List.foldl_nil]
    obtain ⟨ih1, ih2⟩ := ih
    have hs := emit_label_spec E ptr host_index pointer_per_hash
      (List.foldl (emit_label E ptr host_index pointer_per_hash) (written, false) (List.range m)) m
    obtain ⟨hs1, hs2⟩ := hs
    constructor
    · intro p hp
      rcases hs1 p hp with h | h
      · exact ih1 p h
      · exact Or.inr h
    · intro hok
      obtain ⟨hprev, lp, l1, l2, l3⟩ := hs2 hok
      obtain ⟨extra, e1, e2, e3⟩ := ih2 hprev
      refine ⟨extra ++ lp, ?_, ?_, ?_⟩
      · rw [l1, e1, List.append_assoc]
      · intro p hp
        rcases List.mem_append.mp hp with h | h
        · exact e2 p h
        · exact l2 p h
      · rw [List.length_append, e3, l3, Nat.succ_mul]

theorem host_live_false_iff (ptr : memcached_st D) (now : Int) (i : Nat) :
    host_live ptr now i = false ↔
      ((_is_auto_eject_host ptr = true) ∧ (instance_at ptr i).next_retry > now) := by
  simp [host_live]

theorem points_expected_succ (E : Externals D) (ptr : memcached_st D) (now : Int) (n : Nat) :
    points_expected E ptr now (n + 1) =
      points_expected E ptr now n +
        (if host_live ptr now n = true then pointer_per_server_of E ptr now n else 0) := by
  unfold points_expected
  rw [List.range_succ, List.filter_append]
  by_cases h : host_live ptr now n = true
  · simp [h]
  · simp [h]

theorem step_pointer_facts (E : Externals D) (ptr : memcached_st D) (now : Int)
    (b : continuum_build) (n : Nat)
    (h2 : memcached_is_weighted_ketama ptr = false →
      b.pointer_per_hash = 1 ∧ b.pointer_per_server = E.MEMCACHED_POINTS_PER_SERVER) :
    step_pointer_per_server E ptr now b n = pointer_per_server_of E ptr now n ∧
    step_pointer_per_server E ptr now b n / step_pointer_per_hash ptr b *
        (if memcached_is_weighted_ketama ptr then step_pointer_per_hash ptr b else 1)
      = step_pointer_per_server E ptr now b n ∧
    (memcached_is_weighted_ketama ptr = false →
      step_pointer_per_hash ptr b = 1 ∧
      step_pointer_per_server E ptr now b n = E.MEMCACHED_POINTS_PER_SERVER) := by
  unfold step_pointer_per_server step_pointer_per_hash pointer_per_server_of
  cases hw : memcached_is_weighted_ketama ptr
  · obtain ⟨a1, a2⟩ := h2 hw
    simp [a1, a2]
  · refine ⟨by simp, ?_, by simp⟩
    simp only [if_true]
    unfold u32
    omega

theorem filter_snd_eq_of_all (l : List (Nat × Nat)) (n i : Nat) (h : ∀ p ∈ l, p.2 = n) :
    (l.filter (fun p => p.2 = i)).length = if i = n then l.length else 0 := by
  induction l with
  | nil => simp
  | cons x xs ih =>
    have hx := h x (List.mem_cons_self _ _)
    have ih2 := ih (fun p hp => h p (List.mem_cons_of_mem _ hp))
    by_cases hi : i = n
    · subst hi
      simp only [if_true] at ih2 ⊢
      simp [List.filter_cons, hx, ih2]
    · simp only [hi, if_false] at ih2 ⊢
      have : ¬ x.2 = i := by rw [hx]; exact fun e => hi e.symm
      simp [List.filter_cons, this, ih2]

theorem filter_snd_eq_of_lt (l : List (Nat × Nat)) (n i : Nat) (h : ∀ p ∈ l, p.2 < n)
    (hi : n ≤ i) : (l.filter (fun p => p.2 = i)).length = 0 := by
  rw [List.length_eq_zero, List.filter_eq_nil_iff]
  intro p hp
  have := h p hp
  simp only [decide_eq_true_eq]
  omega

theorem continuum_step_inv (E : Externals D) (ptr : memcached_st D) (now : Int) (n : Nat)
    (b : continuum_build) (h : continuum_inv E ptr now n b) :
    continuum_inv E ptr now (n + 1) (continuum_step E ptr now b n) := by
  obtain ⟨h1, h2, h3⟩ := h
  unfold continuum_step
  by_cases hf : b.failed = true
  · rw [if_pos hf]
    exact ⟨fun p hp => by have := h1 p hp; omega, h2, fun hc => by rw [hf] at hc; cases hc⟩
  · rw [if_neg hf]
    have hf2 : b.failed = false := by simpa using hf
    obtain ⟨c1, c2, c3⟩ := h3 hf2
    by_cases hl : (_is_auto_eject_host ptr = true ∧ (instance_at ptr n).next_retry > now)
    · rw [if_pos hl]
      have hlive : host_live ptr now n = false := (host_live_false_iff ptr now n).mpr hl
      refine ⟨fun p hp => by have := h1 p hp; omega, h2, fun _ => ⟨c1, ?_, ?_⟩⟩
      · rw [points_expected_succ, hlive]
        simpa using c2
      · intro i
        rw [c3 i]
        by_cases hi : i = n
        · subst hi
          simp [hlive]
        · have hiff : (i < n + 1) ↔ (i < n) := by omega
          simp only [hiff]
    · rw [if_neg hl]
      have hlive : host_live ptr now n = true := by
        cases hh : host_live ptr now n
        · exact absurd ((host_live_false_iff ptr now n).mp hh) hl
        · rfl
      obtain ⟨f1, f2, f3⟩ := step_pointer_facts E ptr now b n h2
      obtain ⟨e1, e2⟩ := emit_host_spec E ptr n (step_pointer_per_server E ptr now b n)
        (step_pointer_per_hash ptr b) b.points
      have hmem : ∀ p ∈ (emit_host E ptr n (step_pointer_per_server E ptr now b n)
          (step_pointer_per_hash ptr b) b.points).1, p.2 < n + 1 := by
        intro p hp
        rcases e1 p hp with h | h
        · have := h1 p h
          omega
        · omega
      by_cases hr : (emit_host E ptr n (step_pointer_per_server E ptr now b n)
          (step_pointer_per_hash ptr b) b.points).2 = true
      · rw [if_pos hr]
        exact ⟨hmem, f3, fun hc => by cases hc⟩
      · rw [if_neg hr]
        obtain ⟨extra, x1, x2, x3⟩ := e2 (by simpa using hr)
        rw [f2] at x3
        refine ⟨hmem, f3, fun _ => ⟨?_, ?_, ?_⟩⟩
        · show u32 (b.pointer_counter + step_pointer_per_server E ptr now b n) = u32 (List.length _)
          rw [x1, List.length_append, x3, c1]
          unfold u32
          omega
        · show List.length _ = _
          rw [x1, List.length_append, x3, points_expected_succ, hlive, c2, f1]
          simp
        · intro i
          show (List.filter _ _).length = _
          rw [x1, List.filter_append, List.length_append, c3 i,
            filter_snd_eq_of_all extra n i x2, x3, f1]
          by_cases hi : i = n
          · subst hi
            simp [hlive]
          · have hiff : (i < n + 1) ↔ (i < n) := by omega
            simp only [hiff, hi, if_false, Nat.add_zero]

theorem continuum_loop_inv (E : Externals D) (ptr : memcached_st D) (now : Int) :
    ∀ n, continuum_inv E ptr now n (continuum_loop E ptr now n) := by
  intro n
  induction n with
  | zero =>
    refine ⟨by simp [continuum_loop], by simp [continuum_loop], fun _ => ?_⟩
    simp [continuum_loop, points_expected, u32]
  | succ n ih =>
    have h := continuum_step_inv E ptr now n _ ih
    unfold continuum_loop at h ⊢
    rw [List.range_succ, List.foldl_append]
    exact h

/-! ## What `update_continuum` leaves -/

theorem update_continuum_no_live (E : Externals D) (ptr : memcached_st D) (now : Int)
    (hnow : E.gettimeofday = some now) (h0 : live_servers_of ptr now = 0) :
    (update_continuum E ptr).1 = MEMCACHED_SUCCESS ∧
    (update_continuum E ptr).2.ketama.continuum = ptr.ketama.continuum ∧
    (update_continuum E ptr).2.ketama.continuum_points_counter =
      ptr.ketama.continuum_points_counter := by
  unfold update_continuum
  rw [hnow]
  simp only [h0, if_true]
  exact ⟨trivial, trivial, trivial⟩

theorem update_continuum_rebuild (E : Externals D) (ptr : memcached_st D) (now : Int)
    (hnow : E.gettimeofday = some now)
    (hok : (update_continuum E ptr).1 = MEMCACHED_SUCCESS)
    (hlive : live_servers_of ptr now ≠ 0) :
    (continuum_loop E ptr now (memcached_server_count ptr)).failed = false ∧
    (update_continuum E ptr).2.ketama.continuum_points_counter =
      (continuum_loop E ptr now (memcached_server_count ptr)).pointer_counter ∧
    (update_continuum E ptr).2.ketama.continuum =
      qsort continuum_item_cmp
        (write_points set_point (fresh_item E)
          (continuum_loop E ptr now (memcached_server_count ptr)).points ptr.ketama.continuum)
        (continuum_loop E ptr now (memcached_server_count ptr)).pointer_counter := by
  unfold update_continuum at hok ⊢
  rw [hnow] at hok ⊢
  simp only [hlive, if_false] at hok ⊢
  by_cases ha : live_servers_of ptr now > ptr.ketama.continuum_count ∧ E.alloc_ok = false
  · rw [if_pos ha] at hok
    cases hok
  · rw [if_neg ha] at hok ⊢
    by_cases hf : (continuum_loop E ptr now (memcached_server_count ptr)).failed = true
    · rw [if_pos hf] at hok
      cases hok
    · rw [if_neg hf]
      exact ⟨by simpa using hf, rfl, rfl⟩

/-- After a rebuild by `update_continuum` the counter is the number of
points written (in `uint32_t`), and each of the first `counter` points is a
written pair. -/
theorem update_continuum_ring (E : Externals D) (ptr : memcached_st D) (now : Int)
    (hnow : E.gettimeofday = some now)
    (hok : (update_continuum E ptr).1 = MEMCACHED_SUCCESS)
    (hlive : live_servers_of ptr now ≠ 0) :
    (update_continuum E ptr).2.ketama.continuum_points_counter =
      u32 (continuum_loop E ptr now (memcached_server_count ptr)).points.length ∧
    (update_continuum E ptr).2.ketama.continuum_points_counter ≤
      (update_continuum E ptr).2.ketama.continuum.length ∧
    ring_sorted (update_continuum E ptr).2.ketama.continuum
      (update_continuum E ptr).2.ketama.continuum_points_counter ∧
    (∀ p ∈ (update_continuum E ptr).2.ketama.continuum.take
        (update_continuum E ptr).2.ketama.continuum_points_counter,
      (p.value, p.index) ∈ (continuum_loop E ptr now (memcached_server_count ptr)).points) := by
  obtain ⟨r1, r2, r3⟩ := update_continuum_rebuild E ptr now hnow hok hlive
  obtain ⟨-, -, i3⟩ := continuum_loop_inv E ptr now (memcached_server_count ptr)
  obtain ⟨c1, -, -⟩ := i3 r1
  have hlen := length_write_points set_point (fresh_item E)
    (continuum_loop E ptr now (memcached_server_count ptr)).points ptr.ketama.continuum
  have hle : (continuum_loop E ptr now (memcached_server_count ptr)).pointer_counter ≤
      (continuum_loop E ptr now (memcached_server_count ptr)).points.length := by
    rw [c1]
    unfold u32
    exact Nat.mod_le _ _
  rw [r2, r3]
  refine ⟨c1, ?_, ring_sorted_qsort _ _ (by omega), ?_⟩
  · rw [length_qsort]
    omega
  · intro p hp
    have hp2 := mem_take_qsort _ _ _ (by omega) p hp
    exact mem_take_write_points set_point (fresh_item E) (fun b q => ⟨rfl, rfl⟩) _ _ _ hle p hp2

/-! ## The live servers -/

theorem count_range_getD {α : Type} (d : α) (P : α → Bool) :
    ∀ l : List α, ((List.range l.length).filter (fun i => P (l.getD i d))).length =
      l.countP P := by
  intro l
  induction l with
  | nil => simp
  | cons x xs ih =>
    rw [List.length_cons, List.range_succ_eq_map, List.filter_cons, List.filter_map,
      List.countP_cons]
    have h2 : ((List.range xs.length).filter
        ((fun i => P ((x :: xs).getD i d)) ∘ Nat.succ)).length = xs.countP P := by
      rw [← ih]
      rfl
    by_cases hx : P x = true
    · simp only [List.getD_cons_zero, hx, if_true, List.length_cons, List.length_map, h2]
    · simp only [List.getD_cons_zero, hx, Bool.false_eq_true, if_false, List.length_map, h2,
        Nat.add_zero]

theorem count_live_servers_fst (ptr : memcached_st D) (now : Int) :
    ∀ n, ((List.range n).foldl
      (fun (acc : Nat × Int) host_index =>
        if (instance_at ptr host_index).next_retry ≤ now then (acc.1 + 1, acc.2)
        else if acc.2 = 0 ∨ (instance_at ptr host_index).next_retry < acc.2 then
          (acc.1, (instance_at ptr host_index).next_retry)
        else acc)
      (0, 0)).1 =
      ((List.range n).filter (fun i => decide ((instance_at ptr i).next_retry ≤ now))).length := by
  intro n
  induction n with
  | zero => simp
  | succ n ih =>
    rw [List.range_succ, List.foldl_append, List.filter_append, List.length_append, ← ih]
    simp only [List.foldl_cons, List.foldl_nil]
    by_cases h : (instance_at ptr n).next_retry ≤ now
    · simp [h]
    · simp only [h, if_false]
      split <;> simp [h]

/-- The variable `live_servers` counts the servers that pass the test of the
server loop. -/
theorem live_servers_of_eq (ptr : memcached_st D) (now : Int) :
    live_servers_of ptr now =
      ((List.range (memcached_server_count ptr)).filter (host_live ptr now)).length := by
  unfold live_servers_of
  cases ha : _is_auto_eject_host ptr
  · have hall : (List.range (memcached_server_count ptr)).filter (host_live ptr now) =
        List.range (memcached_server_count ptr) := by
      rw [List.filter_eq_self]
      intro i _
      simp [host_live, ha]
    simp [hall]
  · simp only [if_true]
    unfold count_live_servers
    rw [count_live_servers_fst]
    congr 1
    apply List.filter_congr
    intro i _
    by_cases h : (instance_at ptr i).next_retry ≤ now
    · simp [host_live, ha, h, not_lt.mpr h]
    · simp [host_live, ha, h, not_le.mp h]

/-- On a fleet whose `number_of_hosts` is the length of the instance array,
`live_servers` is the number of servers with `next_retry <= now` under auto
eject and the number of all servers otherwise. -/
theorem live_servers_of_fleet (ptr : memcached_st D) (now : Int)
    (hwf : ptr.number_of_hosts = ptr.servers.length) :
    live_servers_of ptr now =
      if ptr.flags.auto_eject_hosts then
        ptr.servers.countP (fun s => decide (s.next_retry ≤ now))
      else ptr.servers.length := by
  unfold live_servers_of
  cases ha : _is_auto_eject_host ptr
  · have ha2 : ptr.flags.auto_eject_hosts = false := ha
    simp [ha2, memcached_server_count, hwf]
  · have ha2 : ptr.flags.auto_eject_hosts = true := ha
    simp only [ha2, if_true]
    unfold count_live_servers
    rw [count_live_servers_fst, memcached_server_count, hwf]
    exact count_range_getD default (fun s => decide (s.next_retry ≤ now)) ptr.servers

theorem points_expected_unweighted (E : Externals D) (ptr : memcached_st D) (now : Int)
    (hw : memcached_is_weighted_ketama ptr = false) (n : Nat) :
    points_expected E ptr now n =
      E.MEMCACHED_POINTS_PER_SERVER * ((List.range n).filter (host_live ptr now)).length := by
  induction n with
  | zero => simp [points_expected]
  | succ n ih =>
    rw [points_expected_succ, ih, List.range_succ, List.filter_append, List.length_append]
    by_cases h : host_live ptr now n = true
    · simp [h, pointer_per_server_of, hw, Nat.mul_add]
    · simp [h]

/-! ## Claims about the size of the ketama ring (C9, C10) -/

theorem ring_count_points (l : List (memcached_continuum_item_st D)) (i : Nat) :
    (l.filter (fun p => decide (p.index = i))).length =
      ((points_of l).filter (fun q => decide (q.2 = i))).length := by
  induction l with
  | nil => rfl
  | cons x xs ih =>
    simp only [points_of, List.map_cons, List.filter_cons] at ih ⊢
    split <;> simp [ih]

/-- C9 (the claim fails as stated): an auto ejecting unweighted ketama
selector whose only server is ejected (`next_retry = 2000 > now = 1000`) has
no live server; `update_continuum` returns success and leaves
`continuum_points_counter` at 160, not at `160 * 0`. -/
theorem update_continuum_keeps_counter_without_live_server :
    sample_externals.gettimeofday = some 1000 ∧
    memcached_is_weighted_ketama sample_ejected = false ∧
    live_servers_of sample_ejected 1000 = 0 ∧
    (update_continuum sample_externals sample_ejected).1 = MEMCACHED_SUCCESS ∧
    (update_continuum sample_externals sample_ejected).2.ketama.continuum_points_counter
      = 160 := by
  decide

/-- C9 (amended): after `update_continuum` returns success on an unweighted
ketama fleet with at least one live server, `continuum_points_counter` is
`MEMCACHED_POINTS_PER_SERVER` times the number of live servers (in `uint32_t`,
so exactly that product when it fits), hence 160 times that number when the
constant is 160; the live servers are those with `next_retry <= now` under
auto eject and all servers otherwise; with no live server the call returns
success and leaves the ring and its counter as they were. -/
theorem update_continuum_unweighted_count (E : Externals D) (ptr : memcached_st D) (now : Int)
    (hnow : E.gettimeofday = some now)
    (hw : memcached_is_weighted_ketama ptr = false)
    (hok : (update_continuum E ptr).1 = MEMCACHED_SUCCESS) :
    (live_servers_of ptr now ≠ 0 →
      (update_continuum E ptr).2.ketama.continuum_points_counter =
        u32 (E.MEMCACHED_POINTS_PER_SERVER * live_servers_of ptr now)) ∧
    (live_servers_of ptr now ≠ 0 →
      E.MEMCACHED_POINTS_PER_SERVER * live_servers_of ptr now < 4294967296 →
      (update_continuum E ptr).2.ketama.continuum_points_counter =
        E.MEMCACHED_POINTS_PER_SERVER * live_servers_of ptr now) ∧
    (live_servers_of ptr now ≠ 0 → E.MEMCACHED_POINTS_PER_SERVER = 160 →
      160 * live_servers_of ptr now < 4294967296 →
      (update_continuum E ptr).2.ketama.continuum_points_counter =
        160 * live_servers_of ptr now) ∧
    (ptr.number_of_hosts = ptr.servers.length →
      live_servers_of ptr now =
        if ptr.flags.auto_eject_hosts then
          ptr.servers.countP (fun s => decide (s.next_retry ≤ now))
        else ptr.servers.length) ∧
    (live_servers_of ptr now = 0 →
      (update_continuum E ptr).2.ketama.continuum_points_counter =
        ptr.ketama.continuum_points_counter ∧
      (update_continuum E ptr).2.ketama.continuum = ptr.ketama.continuum) := by
  have hmain : live_servers_of ptr now ≠ 0 →
      (update_continuum E ptr).2.ketama.continuum_points_counter =
        u32 (E.MEMCACHED_POINTS_PER_SERVER * live_servers_of ptr now) := by
    intro hlive
    obtain ⟨r1, -, -, -⟩ := update_continuum_ring E ptr now hnow hok hlive
    obtain ⟨q1, -, -⟩ := update_continuum_rebuild E ptr now hnow hok hlive
    obtain ⟨-, -, i3⟩ := continuum_loop_inv E ptr now (memcached_server_count ptr)
    obtain ⟨-, c2, -⟩ := i3 q1
    rw [r1, c2, points_expected_unweighted E ptr now hw, ← live_servers_of_eq]
  refine ⟨hmain, ?_, ?_, fun hwf => live_servers_of_fleet ptr now hwf, ?_⟩
  · intro hlive hfit
    rw [hmain hlive]
    exact Nat.mod_eq_of_lt hfit
  · intro hlive h160 hfit
    rw [hmain hlive, h160]
    exact Nat.mod_eq_of_lt hfit
  · intro h0
    obtain ⟨-, n2, n3⟩ := update_continuum_no_live E ptr now hnow h0
    exact ⟨n3, n2⟩

set_option maxRecDepth 100000 in
/-- Witness of C9 (amended): three live servers give 480 points. -/
theorem update_continuum_unweighted_count_witness :
    (update_continuum sample_externals sample_ketama_fleet).2.ketama.continuum_points_counter
      = 160 * live_servers_of sample_ketama_fleet 1000 ∧
    live_servers_of sample_ketama_fleet 1000 = 3 :=
  ⟨(update_continuum_unweighted_count sample_externals sample_ketama_fleet 1000 rfl rfl
      (by decide)).2.2.1 (by decide) rfl (by decide),
   by decide⟩

/-- C10: after `update_continuum` returns success on a weighted ketama fleet
with a live server, where the number of points written fits `uint32_t`: for
every live server the number of ring points (the first
`continuum_points_counter` points) carrying its index is the
`pointer_per_server` computed for it and a multiple of 4; no ring point
carries another index; and `continuum_points_counter`, the sum of
`pointer_per_server` over the live servers, is the number of points written. -/
theorem update_continuum_weighted_counts (E : Externals D) (ptr : memcached_st D) (now : Int)
    (hnow : E.gettimeofday = some now)
    (hw : memcached_is_weighted_ketama ptr = true)
    (hok : (update_continuum E ptr).1 = MEMCACHED_SUCCESS)
    (hlive : live_servers_of ptr now ≠ 0)
    (hfit : (continuum_loop E ptr now (memcached_server_count ptr)).points.length
      < 4294967296) :
    (∀ i, i < memcached_server_count ptr → host_live ptr now i = true →
      ring_count (update_continuum E ptr).2.ketama.continuum
        (update_continuum E ptr).2.ketama.continuum_points_counter i
        = pointer_per_server_of E ptr now i ∧
      4 ∣ pointer_per_server_of E ptr now i) ∧
    (∀ i, ¬ (i < memcached_server_count ptr ∧ host_live ptr now i = true) →
      ring_count (update_continuum E ptr).2.ketama.continuum
        (update_continuum E ptr).2.ketama.continuum_points_counter i = 0) ∧
    (update_continuum E ptr).2.ketama.continuum_points_counter =
      points_expected E ptr now (memcached_server_count ptr) ∧
    (update_continuum E ptr).2.ketama.continuum_points_counter =
      (continuum_loop E ptr now (memcached_server_count ptr)).points.length := by
  obtain ⟨q1, q2, q3⟩ := update_continuum_rebuild E ptr now hnow hok hlive
  obtain ⟨-, -, i3⟩ := continuum_loop_inv E ptr now (memcached_server_count ptr)
  obtain ⟨c1, c2, c3⟩ := i3 q1
  have hcnt : (continuum_loop E ptr now (memcached_server_count ptr)).pointer_counter =
      (continuum_loop E ptr now (memcached_server_count ptr)).points.length := by
    rw [c1]
    exact Nat.mod_eq_of_lt hfit
  have hlen := length_write_points set_point (fresh_item E)
    (continuum_loop E ptr now (memcached_server_count ptr)).points ptr.ketama.continuum
  have hcount : ∀ i, ring_count (update_continuum E ptr).2.ketama.continuum
      (update_continuum E ptr).2.ketama.continuum_points_counter i =
      if i < memcached_server_count ptr ∧ host_live ptr now i = true then
        pointer_per_server_of E ptr now i else 0 := by
    intro i
    unfold ring_count
    rw [q2, q3, hcnt, qsort_take _ _ _ hlen,
      ((List.perm_insertionSort _ _).filter _).length_eq, ring_count_points,
      points_of_write_points set_point (fresh_item E) (fun b q => ⟨rfl, rfl⟩)]
    exact c3 i
  refine ⟨?_, ?_, ?_, ?_⟩
  · intro i hi hl
    refine ⟨by rw [hcount i, if_pos ⟨hi, hl⟩], ?_⟩
    simp only [pointer_per_server_of, hw, if_true]
    unfold u32
    omega
  · intro i hi
    rw [hcount i, if_neg hi]
  · rw [q2, hcnt, c2]
  · rw [q2, hcnt]

set_option maxRecDepth 100000 in
/-- Witness of C10: weights 1, 2, 1 give 240 ring points to server 1. -/
theorem update_continuum_weighted_counts_witness :
    ring_count (update_continuum sample_externals sample_weighted_fleet).2.ketama.continuum
      (update_continuum sample_externals sample_weighted_fleet).2.ketama.continuum_points_counter
      1 = pointer_per_server_of sample_externals sample_weighted_fleet 1000 1 ∧
    pointer_per_server_of sample_externals sample_weighted_fleet 1000 1 = 240 :=
  ⟨((update_continuum_weighted_counts sample_externals sample_weighted_fleet 1000 rfl rfl
      (by decide) (by decide) (by decide)).1 1 (by decide) (by decide)).1,
   by decide⟩

/-! ## The initial dynamic build -/

theorem read_write_points
    (upd : memcached_continuum_item_st D → Nat × Nat → memcached_continuum_item_st D)
    (fresh : memcached_continuum_item_st D)
    (hupd : ∀ b p, (upd b p).value = p.1 ∧ (upd b p).index = p.2)
    (pts : List (Nat × Nat)) (buf : List (memcached_continuum_item_st D)) (k : Nat)
    (hk : k < pts.length) :
    value_at (write_points upd fresh pts buf) k = ((pts[k]?).map Prod.fst).getD 0 ∧
    index_at (write_points upd fresh pts buf) k = ((pts[k]?).map Prod.snd).getD 0 := by
  have h := points_of_write_points upd fresh hupd pts buf
  rw [← value_at_take _ pts.length k hk, ← index_at_take _ pts.length k hk,
    value_at_points, index_at_points, h]
  exact ⟨rfl, rfl⟩

theorem incipient_step_bound (live_servers : Nat) (hl : 0 < live_servers)
    (st : incipient_state) (h : ∀ x ∈ st.set, x < live_servers) :
    ∀ x ∈ (incipient_step live_servers st).set, x < live_servers := by
  unfold incipient_step
  split
  · exact h
  · intro x hx
    rcases List.mem_or_eq_of_mem_set hx with h1 | h1
    · exact h x h1
    · rw [h1]
      exact Nat.mod_lt _ hl

/-- Every entry of the array `set` is a server index. -/
theorem incipient_set_bound (live_servers set_size : Nat) (hl : 0 < live_servers) :
    ∀ x ∈ incipient_set live_servers set_size, x < live_servers := by
  unfold incipient_set
  generalize set_size - 1 = n
  induction n with
  | zero =>
    intro x hx
    simp only [List.range_zero, List.foldl_nil, incipient_init] at hx
    rw [List.eq_of_mem_replicate hx]
    exact hl
  | succ n ih =>
    rw [List.range_succ, List.foldl_append]
    simp only [List.foldl_cons, List.foldl_nil]
    exact incipient_step_bound live_servers hl _ ih

theorem length_initial_points (live_servers set_size total_points : Nat) :
    (initial_points live_servers set_size total_points).length = total_points := by
  simp [initial_points]

theorem initial_ring_reads (E : Externals D) (dyn : sched_dynamic D) (live_servers k : Nat)
    (hk : k < initial_total_points E live_servers) :
    value_at (initial_ring E dyn live_servers) k =
      u32 (4294967295 / initial_total_points E live_servers * (k + 1)) ∧
    index_at (initial_ring E dyn live_servers) k =
      (incipient_set live_servers (initial_set_size live_servers)).getD
        (k % initial_set_size live_servers) 0 := by
  have h := read_write_points (init_point E) (fresh_item E) (fun b p => ⟨rfl, rfl⟩)
    (initial_points live_servers (initial_set_size live_servers)
      (initial_total_points E live_servers)) dyn.continuum k
    (by rw [length_initial_points]; exact hk)
  unfold initial_ring
  rw [h.1, h.2]
  simp [initial_points, List.getElem?_range hk]

theorem initial_ring_sorted (E : Externals D) (dyn : sched_dynamic D) (live_servers : Nat) :
    ring_sorted (initial_ring E dyn live_servers) (initial_total_points E live_servers) := by
  intro j hj i hi
  rw [(initial_ring_reads E dyn live_servers i (by omega)).1,
    (initial_ring_reads E dyn live_servers j hj).1]
  have hdiv : 4294967295 / initial_total_points E live_servers *
      initial_total_points E live_servers ≤ 4294967295 := Nat.div_mul_le_self _ _
  have hj2 : 4294967295 / initial_total_points E live_servers * (j + 1) ≤
      4294967295 / initial_total_points E live_servers * initial_total_points E live_servers :=
    Nat.mul_le_mul_left _ (by omega)
  have hi2 : 4294967295 / initial_total_points E live_servers * (i + 1) ≤
      4294967295 / initial_total_points E live_servers * (j + 1) :=
    Nat.mul_le_mul_left _ (by omega)
  unfold u32
  rw [Nat.mod_eq_of_lt (by omega), Nat.mod_eq_of_lt (by omega)]
  exact hi2

theorem initial_ring_index_bound (E : Externals D) (dyn : sched_dynamic D) (live_servers : Nat)
    (hl : 0 < live_servers) :
    ring_index_bound (initial_ring E dyn live_servers) (initial_total_points E live_servers)
      live_servers := by
  intro j hj
  rw [(initial_ring_reads E dyn live_servers j hj).2, List.getD_eq_getElem?_getD]
  cases hg : (incipient_set live_servers (initial_set_size live_servers))[j %
      initial_set_size live_servers]? with
  | none => simpa using hl
  | some x =>
    simp only [Option.getD_some]
    exact incipient_set_bound live_servers _ hl x (List.getElem?_mem hg)

theorem length_initial_ring (E : Externals D) (dyn : sched_dynamic D) (live_servers : Nat) :
    initial_total_points E live_servers ≤ (initial_ring E dyn live_servers).length := by
  have h := length_write_points (init_point E) (fresh_item E)
    (initial_points live_servers (initial_set_size live_servers)
      (initial_total_points E live_servers)) dyn.continuum
  rw [length_initial_points] at h
  exact h

theorem ring_sorted_take (ring : List (memcached_continuum_item_st D)) (n : Nat)
    (h : ring_sorted ring n) : ring_sorted (ring.take n) n := by
  intro j hj i hi
  rw [value_at_take _ _ _ (by omega), value_at_take _ _ _ hj]
  exact h j hj i hi

theorem ring_index_bound_take (ring : List (memcached_continuum_item_st D)) (n L : Nat)
    (h : ring_index_bound ring n L) : ring_index_bound (ring.take n) n L := by
  intro j hj
  rw [index_at_take _ _ _ hj]
  exact h j hj

/-! ## Dynamic addition and removal -/

theorem length_flatMap_insert {α : Type} (P : Nat → Prop) [DecidablePred P] (a b : Nat → α) :
    ∀ l : List Nat, (l.flatMap (fun j => if P j then [a j, b j] else [b j])).length =
      l.length + (l.filter (fun j => decide (P j))).length := by
  intro l
  induction l with
  | nil => rfl
  | cons x xs ih =>
    rw [List.flatMap_cons, List.length_append, ih, List.filter_cons]
    by_cases hx : P x
    · simp only [hx, if_true, decide_True, List.length_cons, List.length_nil]
      omega
    · simp only [hx, if_false, decide_False, List.length_cons, List.length_nil]
      simp only [Bool.false_eq_true, if_false]
      omega

theorem length_flatMap_drop {α : Type} (P R : Nat → Prop) [DecidablePred P] [DecidablePred R]
    (a b : Nat → α) :
    ∀ l : List Nat,
      (l.flatMap (fun j => if ¬ P j then (if R j then [a j] else [b j]) else [])).length +
        (l.filter (fun j => decide (P j))).length = l.length := by
  intro l
  induction l with
  | nil => rfl
  | cons x xs ih =>
    rw [List.flatMap_cons, List.length_append, List.filter_cons]
    by_cases hx : P x
    · simp only [hx, not_true_eq_false, if_false, decide_True, if_true, List.length_cons,
        List.length_nil]
      omega
    · have hlen : (if R x then [a x] else [b x]).length = 1 := by split <;> rfl
      simp only [hx, not_false_eq_true, if_true, decide_False, Bool.false_eq_true, if_false, hlen,
        List.length_cons]
      omega

theorem length_addition_ring (E : Externals D) (dyn : sched_dynamic D) (live_servers : Nat) :
    (addition_ring E dyn live_servers).length =
      dyn.continuum_points_counter + addition_srv_num E dyn := by
  unfold addition_ring addition_srv_num
  rw [length_flatMap_insert, List.length_range]

theorem length_removal_ring (E : Externals D) (dyn : sched_dynamic D) :
    (removal_ring E dyn).length + removal_points E dyn = dyn.continuum_points_counter := by
  unfold removal_ring removal_points
  have h := length_flatMap_drop
    (fun index => (slot E dyn.continuum index).index = u32_of_int dyn.removing_idx)
    (fun index => (slot E dyn.continuum index).index > u32_of_int dyn.removing_idx)
    (fun index => { slot E dyn.continuum index with
                      index := (slot E dyn.continuum index).index - 1 })
    (fun index => slot E dyn.continuum index)
    (List.range dyn.continuum_points_counter)
  rw [List.length_range] at h
  exact h

/-- A point of the ring an addition builds is a new point of the new server
or a point of the old ring. -/
theorem mem_addition_ring (E : Externals D) (dyn : sched_dynamic D) (live_servers : Nat)
    (p : memcached_continuum_item_st D) (hp : p ∈ addition_ring E dyn live_servers) :
    p.index = u32 (live_servers + 4294967295) ∨
    ∃ j, j < dyn.continuum_points_counter ∧ p = slot E dyn.continuum j := by
  unfold addition_ring at hp
  obtain ⟨j, hj, hpj⟩ := List.mem_flatMap.mp hp
  have hj2 : j < dyn.continuum_points_counter := List.mem_range.mp hj
  dsimp only at hpj
  split at hpj
  · rcases List.mem_cons.mp hpj with h | h
    · left
      rw [h]
    · right
      exact ⟨j, hj2, List.mem_singleton.mp h⟩
  · right
    exact ⟨j, hj2, List.mem_singleton.mp hpj⟩

/-- A point of the ring a removal builds comes from an old point of another
server, with its index lowered by one if it was above the removed index. -/
theorem mem_removal_ring (E : Externals D) (dyn : sched_dynamic D)
    (p : memcached_continuum_item_st D) (hp : p ∈ removal_ring E dyn) :
    ∃ j, j < dyn.continuum_points_counter ∧
      (slot E dyn.continuum j).index ≠ u32_of_int dyn.removing_idx ∧
      p.value = (slot E dyn.continuum j).value ∧
      p.sched = (slot E dyn.continuum j).sched ∧
      p.index = if (slot E dyn.continuum j).index > u32_of_int dyn.removing_idx then
        (slot E dyn.continuum j).index - 1 else (slot E dyn.continuum j).index := by
  unfold removal_ring at hp
  obtain ⟨j, hj, hpj⟩ := List.mem_flatMap.mp hp
  have hj2 : j < dyn.continuum_points_counter := List.mem_range.mp hj
  by_cases h1 : (slot E dyn.continuum j).index ≠ u32_of_int dyn.removing_idx
  · rw [if_pos h1] at hpj
    by_cases h2 : (slot E dyn.continuum j).index > u32_of_int dyn.removing_idx
    · rw [if_pos h2] at hpj
      rw [List.mem_singleton.mp hpj]
      exact ⟨j, hj2, h1, rfl, rfl, by rw [if_pos h2]⟩
    · rw [if_neg h2] at hpj
      rw [List.mem_singleton.mp hpj]
      exact ⟨j, hj2, h1, rfl, rfl, by rw [if_neg h2]⟩
  · rw [if_neg h1] at hpj
    cases hpj

theorem update_dynamic_rebuild (E : Externals D) (ptr : memcached_st D) (now : Int)
    (hnow : E.gettimeofday = some now)
    (hok : (update_dynamic E ptr).1 = MEMCACHED_SUCCESS)
    (hlive : live_servers_of ptr now ≠ 0)
    (hcc : ptr.dynamic.continuum_count ≠ live_servers_of ptr now) :
    (ptr.dynamic.continuum_points_counter = 0 →
      (update_dynamic E ptr).2.dynamic.continuum_points_counter =
        initial_total_points E (live_servers_of ptr now) ∧
      (update_dynamic E ptr).2.dynamic.continuum =
        if live_servers_of ptr now > ptr.dynamic.continuum_count then
          (initial_ring E ptr.dynamic (live_servers_of ptr now)).take
            (initial_total_points E (live_servers_of ptr now))
        else initial_ring E ptr.dynamic (live_servers_of ptr now)) ∧
    (ptr.dynamic.continuum_points_counter ≠ 0 →
      live_servers_of ptr now > ptr.dynamic.continuum_count →
      (update_dynamic E ptr).2.dynamic.continuum_points_counter =
        u32 (ptr.dynamic.continuum_points_counter + addition_srv_num E ptr.dynamic) ∧
      (update_dynamic E ptr).2.dynamic.continuum =
        qsort continuum_item_cmp (addition_ring E ptr.dynamic (live_servers_of ptr now))
          (u32 (ptr.dynamic.continuum_points_counter + addition_srv_num E ptr.dynamic))) ∧
    (ptr.dynamic.continuum_points_counter ≠ 0 →
      ¬ live_servers_of ptr now > ptr.dynamic.continuum_count →
      (update_dynamic E ptr).2.dynamic.continuum_points_counter =
        u32 (ptr.dynamic.continuum_points_counter + 4294967296 - removal_points E ptr.dynamic) ∧
      (update_dynamic E ptr).2.dynamic.continuum =
        qsort continuum_item_cmp (removal_ring E ptr.dynamic)
          (u32 (ptr.dynamic.continuum_points_counter + 4294967296
            - removal_points E ptr.dynamic))) := by
  have hcond : ¬ (live_servers_of ptr now = 0 ∨
      ptr.dynamic.continuum_count = live_servers_of ptr now) := by
    intro h
    rcases h with h | h
    · exact hlive h
    · exact hcc h
  unfold update_dynamic at hok ⊢
  rw [hnow] at hok ⊢
  dsimp only at hok ⊢
  rw [if_neg hcond] at hok ⊢
  by_cases ha : E.alloc_ok = false
  · rw [if_pos ha] at hok
    cases hok
  · rw [if_neg ha]
    refine ⟨fun h0 => ?_, fun h0 hgt => ?_, fun h0 hgt => ?_⟩
    · rw [if_pos h0]
      exact ⟨rfl, rfl⟩
    · rw [if_neg h0, if_pos hgt]
      exact ⟨rfl, rfl⟩
    · rw [if_neg h0, if_neg hgt]
      exact ⟨rfl, rfl⟩

theorem ring_index_bound_qsort (base : List (memcached_continuum_item_st D)) (n L : Nat)
    (hn : n ≤ base.length) (h : ∀ p ∈ base, p.index < L) :
    ring_index_bound (qsort continuum_item_cmp base n) n L := by
  intro j hj
  obtain ⟨p, hp, hi, -⟩ := read_of_lt (qsort continuum_item_cmp base n) j
    (by rw [length_qsort]; omega)
  rw [hi]
  exact h p ((qsort_perm continuum_item_cmp base n).mem_iff.mp hp)

theorem run_distribution_eq (E : Externals D) (ptr : memcached_st D) :
    (ketama_family (hosts_in_order ptr).distribution →
      run_distribution E ptr = update_continuum E (hosts_in_order ptr)) ∧
    (dynamic_family (hosts_in_order ptr).distribution →
      run_distribution E ptr = update_dynamic E (hosts_in_order ptr)) := by
  unfold run_distribution ketama_family dynamic_family
  constructor
  · intro h
    rcases h with h | h | h | h <;> rw [h]
  · intro h
    rcases h with h | h <;> rw [h]

theorem live_servers_of_le (ptr : memcached_st D) (now : Int) :
    live_servers_of ptr now ≤ memcached_server_count ptr := by
  rw [live_servers_of_eq]
  have h := List.length_filter_le (host_live ptr now) (List.range (memcached_server_count ptr))
  rwa [List.length_range] at h

/-! ## Claims about the ring after a rebuild (C7, C8) -/

/-- C7: after a successful rebuild the first `continuum_points_counter` points
of the ring ascend by `value` (and the counter does not exceed the buffer):
after `update_continuum` whenever a server is live, and after `update_dynamic`
whenever it rebuilds (a server is live and their number differs from
`continuum_count`), be it the initial build, which does not sort, an addition
or a removal; `run_distribution` is one of these two calls on the fleet in
order. -/
theorem rebuild_sorts_ring (E : Externals D) (ptr : memcached_st D) (now : Int)
    (hnow : E.gettimeofday = some now) :
    ((update_continuum E ptr).1 = MEMCACHED_SUCCESS → live_servers_of ptr now ≠ 0 →
      ring_sorted (update_continuum E ptr).2.ketama.continuum
        (update_continuum E ptr).2.ketama.continuum_points_counter ∧
      (update_continuum E ptr).2.ketama.continuum_points_counter ≤
        (update_continuum E ptr).2.ketama.continuum.length) ∧
    ((update_dynamic E ptr).1 = MEMCACHED_SUCCESS → live_servers_of ptr now ≠ 0 →
      ptr.dynamic.continuum_count ≠ live_servers_of ptr now →
      ring_sorted (update_dynamic E ptr).2.dynamic.continuum
        (update_dynamic E ptr).2.dynamic.continuum_points_counter ∧
      (update_dynamic E ptr).2.dynamic.continuum_points_counter ≤
        (update_dynamic E ptr).2.dynamic.continuum.length) ∧
    (ketama_family (hosts_in_order ptr).distribution →
      run_distribution E ptr = update_continuum E (hosts_in_order ptr)) ∧
    (dynamic_family (hosts_in_order ptr).distribution →
      run_distribution E ptr = update_dynamic E (hosts_in_order ptr)) := by
  refine ⟨?_, ?_, (run_distribution_eq E ptr).1, (run_distribution_eq E ptr).2⟩
  · intro hok hlive
    obtain ⟨-, r2, r3, -⟩ := update_continuum_ring E ptr now hnow hok hlive
    exact ⟨r3, r2⟩
  · intro hok hlive hcc
    obtain ⟨d1, d2, d3⟩ := update_dynamic_rebuild E ptr now hnow hok hlive hcc
    by_cases h0 : ptr.dynamic.continuum_points_counter = 0
    · obtain ⟨e1, e2⟩ := d1 h0
      rw [e1, e2]
      have hlen := length_initial_ring E ptr.dynamic (live_servers_of ptr now)
      split
      · refine ⟨ring_sorted_take _ _ (initial_ring_sorted E _ _), ?_⟩
        rw [List.length_take]
        omega
      · exact ⟨initial_ring_sorted E _ _, hlen⟩
    · by_cases hgt : live_servers_of ptr now > ptr.dynamic.continuum_count
      · obtain ⟨e1, e2⟩ := d2 h0 hgt
        rw [e1, e2]
        have hlen := length_addition_ring E ptr.dynamic (live_servers_of ptr now)
        have hle : u32 (ptr.dynamic.continuum_points_counter + addition_srv_num E ptr.dynamic) ≤
            (addition_ring E ptr.dynamic (live_servers_of ptr now)).length := by
          rw [hlen]
          exact Nat.mod_le _ _
        exact ⟨ring_sorted_qsort _ _ hle, by rw [length_qsort]; exact hle⟩
      · obtain ⟨e1, e2⟩ := d3 h0 hgt
        rw [e1, e2]
        have hlen := length_removal_ring E ptr.dynamic
        have hle : u32 (ptr.dynamic.continuum_points_counter + 4294967296
            - removal_points E ptr.dynamic) ≤ (removal_ring E ptr.dynamic).length := by
          unfold u32
          omega
        exact ⟨ring_sorted_qsort _ _ hle, by rw [length_qsort]; exact hle⟩

set_option maxRecDepth 100000 in
/-- Witness of C7: the ketama rebuild of three servers, and the dynamic
initial build, addition and removal. -/
theorem rebuild_sorts_ring_witness :
    ring_sorted (update_continuum sample_externals sample_ketama_fleet).2.ketama.continuum
      (update_continuum sample_externals sample_ketama_fleet).2.ketama.continuum_points_counter ∧
    ring_sorted (update_dynamic sample_externals sample_dynamic_fleet).2.dynamic.continuum
      (update_dynamic sample_externals sample_dynamic_fleet).2.dynamic.continuum_points_counter ∧
    ring_sorted (update_dynamic sample_externals sample_dynamic_grown).2.dynamic.continuum
      (update_dynamic sample_externals sample_dynamic_grown).2.dynamic.continuum_points_counter ∧
    ring_sorted (update_dynamic sample_externals sample_dynamic_shrunk).2.dynamic.continuum
      (update_dynamic sample_externals sample_dynamic_shrunk).2.dynamic.continuum_points_counter :=
  ⟨((rebuild_sorts_ring sample_externals sample_ketama_fleet 1000 rfl).1
      (by decide) (by decide)).1,
   ((rebuild_sorts_ring sample_externals sample_dynamic_fleet 1000 rfl).2.1
      (by decide) (by decide) (by decide)).1,
   ((rebuild_sorts_ring sample_externals sample_dynamic_grown 1000 rfl).2.1
      (by decide) (by decide) (by decide)).1,
   ((rebuild_sorts_ring sample_externals sample_dynamic_shrunk 1000 rfl).2.1
      (by decide) (by decide) (by decide)).1⟩

/-- C8: every one of the first `continuum_points_counter` points of the ring
has an index below the fleet size: after `update_continuum` with a live
server (index below `memcached_server_count`); after the dynamic initial build
for `L >= 1` live servers (index below `L`, itself at most the fleet size);
after a dynamic addition to `L` servers over a ring whose indices were below
the old `continuum_count` (index below `L`); and after a dynamic removal of
`removing_idx < L` from a ring whose indices were below `L` (index below
`L - 1`). -/
theorem rebuild_bounds_indices (E : Externals D) (ptr : memcached_st D) (now : Int)
    (hnow : E.gettimeofday = some now) :
    ((update_continuum E ptr).1 = MEMCACHED_SUCCESS → live_servers_of ptr now ≠ 0 →
      ring_index_bound (update_continuum E ptr).2.ketama.continuum
        (update_continuum E ptr).2.ketama.continuum_points_counter
        (memcached_server_count ptr)) ∧
    ((update_dynamic E ptr).1 = MEMCACHED_SUCCESS → live_servers_of ptr now ≠ 0 →
      ptr.dynamic.continuum_count ≠ live_servers_of ptr now →
      ptr.dynamic.continuum_points_counter = 0 →
      ring_index_bound (update_dynamic E ptr).2.dynamic.continuum
        (update_dynamic E ptr).2.dynamic.continuum_points_counter (live_servers_of ptr now) ∧
      live_servers_of ptr now ≤ memcached_server_count ptr) ∧
    ((update_dynamic E ptr).1 = MEMCACHED_SUCCESS →
      ptr.dynamic.continuum_points_counter ≠ 0 →
      live_servers_of ptr now > ptr.dynamic.continuum_count →
      ring_index_bound ptr.dynamic.continuum ptr.dynamic.continuum_points_counter
        ptr.dynamic.continuum_count →
      ring_index_bound (update_dynamic E ptr).2.dynamic.continuum
        (update_dynamic E ptr).2.dynamic.continuum_points_counter (live_servers_of ptr now)) ∧
    ((update_dynamic E ptr).1 = MEMCACHED_SUCCESS → live_servers_of ptr now ≠ 0 →
      ptr.dynamic.continuum_points_counter ≠ 0 →
      live_servers_of ptr now < ptr.dynamic.continuum_count →
      ∀ L, ring_index_bound ptr.dynamic.continuum ptr.dynamic.continuum_points_counter L →
        u32_of_int ptr.dynamic.removing_idx < L →
        ring_index_bound (update_dynamic E ptr).2.dynamic.continuum
          (update_dynamic E ptr).2.dynamic.continuum_points_counter (L - 1)) := by
  refine ⟨?_, ?_, ?_, ?_⟩
  · intro hok hlive j hj
    obtain ⟨-, r2, -, r4⟩ := update_continuum_ring E ptr now hnow hok hlive
    obtain ⟨i1, -, -⟩ := continuum_loop_inv E ptr now (memcached_server_count ptr)
    obtain ⟨p, hp, hi, -⟩ := read_of_lt_take _ _ j hj r2
    rw [hi]
    exact i1 _ (r4 p hp)
  · intro hok hlive hcc h0
    obtain ⟨d1, -, -⟩ := update_dynamic_rebuild E ptr now hnow hok hlive hcc
    obtain ⟨e1, e2⟩ := d1 h0
    rw [e1, e2]
    have hb := initial_ring_index_bound E ptr.dynamic (live_servers_of ptr now) (by omega)
    refine ⟨?_, live_servers_of_le ptr now⟩
    split
    · exact ring_index_bound_take _ _ _ hb
    · exact hb
  · intro hok h0 hgt hold
    obtain ⟨-, d2, -⟩ := update_dynamic_rebuild E ptr now hnow hok (by omega) (by omega)
    obtain ⟨e1, e2⟩ := d2 h0 hgt
    rw [e1, e2]
    have hlen := length_addition_ring E ptr.dynamic (live_servers_of ptr now)
    apply ring_index_bound_qsort
    · rw [hlen]
      exact Nat.mod_le _ _
    · intro p hp
      rcases mem_addition_ring E ptr.dynamic _ p hp with h | ⟨j, hj, h⟩
      · rw [h]
        unfold u32
        omega
      · rw [h, slot_index]
        have := hold j hj
        omega
  · intro hok hlive h0 hlt L hold hr
    obtain ⟨-, -, d3⟩ := update_dynamic_rebuild E ptr now hnow hok hlive (by omega)
    obtain ⟨e1, e2⟩ := d3 h0 (by omega)
    rw [e1, e2]
    have hlen := length_removal_ring E ptr.dynamic
    apply ring_index_bound_qsort
    · unfold u32
      omega
    · intro p hp
      obtain ⟨j, hj, hne, -, -, hidx⟩ := mem_removal_ring E ptr.dynamic p hp
      have hb := hold j hj
      rw [slot_index] at hne hidx
      rw [hidx]
      split <;> omega

set_option maxRecDepth 100000 in
/-- Witness of C8: the ketama rebuild of three servers, and the dynamic
initial build, addition (three to four servers) and removal (of index 1 of
three). -/
theorem rebuild_bounds_indices_witness :
    ring_index_bound (update_continuum sample_externals sample_ketama_fleet).2.ketama.continuum
      (update_continuum sample_externals sample_ketama_fleet).2.ketama.continuum_points_counter
      3 ∧
    ring_index_bound (update_dynamic sample_externals sample_dynamic_fleet).2.dynamic.continuum
      (update_dynamic sample_externals sample_dynamic_fleet).2.dynamic.continuum_points_counter
      (live_servers_of sample_dynamic_fleet 1000) ∧
    ring_index_bound (update_dynamic sample_externals sample_dynamic_grown).2.dynamic.continuum
      (update_dynamic sample_externals sample_dynamic_grown).2.dynamic.continuum_points_counter
      (live_servers_of sample_dynamic_grown 1000) ∧
    ring_index_bound (update_dynamic sample_externals sample_dynamic_shrunk).2.dynamic.continuum
      (update_dynamic sample_externals sample_dynamic_shrunk).2.dynamic.continuum_points_counter
      (3 - 1) :=
  ⟨(rebuild_bounds_indices sample_externals sample_ketama_fleet 1000 rfl).1
      (by decide) (by decide),
   ((rebuild_bounds_indices sample_externals sample_dynamic_fleet 1000 rfl).2.1
      (by decide) (by decide) (by decide) (by decide)).1,
   (rebuild_bounds_indices sample_externals sample_dynamic_grown 1000 rfl).2.2.1
      (by decide) (by decide) (by decide) (by decide),
   (rebuild_bounds_indices sample_externals sample_dynamic_shrunk 1000 rfl).2.2.2
      (by decide) (by decide) (by decide) (by decide) 3 (by decide) (by decide)⟩

/-! ## Claim about `ketama_server_hash` (C12) -/

theorem or_bytes (b0 b1 b2 b3 : Nat) (h0 : b0 < 256) (h1 : b1 < 256) (h2 : b2 < 256) :
    (b3 <<< 24) ||| (b2 <<< 16) ||| (b1 <<< 8) ||| b0 =
      b0 + 2 ^ 8 * b1 + 2 ^ 16 * b2 + 2 ^ 24 * b3 := by
  have e1 : (b1 <<< 8) ||| b0 = 2 ^ 8 * b1 + b0 := by
    rw [Nat.shiftLeft_eq, Nat.mul_comm]
    exact (Nat.mul_add_lt_is_or (by omega) b1).symm
  have e2 : (b2 <<< 16) ||| (2 ^ 8 * b1 + b0) = 2 ^ 16 * b2 + (2 ^ 8 * b1 + b0) := by
    rw [Nat.shiftLeft_eq, Nat.mul_comm]
    exact (Nat.mul_add_lt_is_or (by omega) b2).symm
  have e3 : (b3 <<< 24) ||| (2 ^ 16 * b2 + (2 ^ 8 * b1 + b0)) =
      2 ^ 24 * b3 + (2 ^ 16 * b2 + (2 ^ 8 * b1 + b0)) := by
    rw [Nat.shiftLeft_eq, Nat.mul_comm]
    exact (Nat.mul_add_lt_is_or (by omega) b3).symm
  rw [Nat.or_assoc, Nat.or_assoc, e1, e2, e3]
  omega

/-- C12: for every label and every alignment `k < 4`, where `md5` is the
16 byte digest of the label, `ketama_server_hash` is
`md5[4k] + 2^8 md5[4k+1] + 2^16 md5[4k+2] + 2^24 md5[4k+3]`, a 32 bit value;
and two labels with the same four values have the same digest. -/
theorem ketama_server_hash_bytes (E : Externals D) (key : List Nat)
    (hlen : (E.libhashkit_md5_signature key).length = 16)
    (hbyte : ∀ b ∈ E.libhashkit_md5_signature key, b < 256) :
    (∀ k, k < 4 →
      ketama_server_hash E key k =
        (E.libhashkit_md5_signature key).getD (4 * k) 0
        + 2 ^ 8 * (E.libhashkit_md5_signature key).getD (4 * k + 1) 0
        + 2 ^ 16 * (E.libhashkit_md5_signature key).getD (4 * k + 2) 0
        + 2 ^ 24 * (E.libhashkit_md5_signature key).getD (4 * k + 3) 0 ∧
      ketama_server_hash E key k < 4294967296) ∧
    (∀ key2, (E.libhashkit_md5_signature key2).length = 16 →
      (∀ b ∈ E.libhashkit_md5_signature key2, b < 256) →
      (∀ k, k < 4 → ketama_server_hash E key k = ketama_server_hash E key2 k) →
      E.libhashkit_md5_signature key = E.libhashkit_md5_signature key2) := by
  have hget : ∀ (key : List Nat), (E.libhashkit_md5_signature key).length = 16 →
      (∀ b ∈ E.libhashkit_md5_signature key, b < 256) →
      ∀ i, i < 16 → (E.libhashkit_md5_signature key).getD i 0 < 256 := by
    intro key hl hb i hi
    rw [List.getD_eq_getElem _ _ (by omega)]
    exact hb _ (List.getElem_mem _)
  have hval : ∀ (key : List Nat), (E.libhashkit_md5_signature key).length = 16 →
      (∀ b ∈ E.libhashkit_md5_signature key, b < 256) → ∀ k, k < 4 →
      ketama_server_hash E key k =
        (E.libhashkit_md5_signature key).getD (4 * k) 0
        + 2 ^ 8 * (E.libhashkit_md5_signature key).getD (4 * k + 1) 0
        + 2 ^ 16 * (E.libhashkit_md5_signature key).getD (4 * k + 2) 0
        + 2 ^ 24 * (E.libhashkit_md5_signature key).getD (4 * k + 3) 0 := by
    intro key hl hb k hk
    have a0 := hget key hl hb (4 * k) (by omega)
    have a1 := hget key hl hb (4 * k + 1) (by omega)
    have a2 := hget key hl hb (4 * k + 2) (by omega)
    have a3 := hget key hl hb (4 * k + 3) (by omega)
    have i0 : 0 + k * 4 = 4 * k := by omega
    have i1 : 1 + k * 4 = 4 * k + 1 := by omega
    have i2 : 2 + k * 4 = 4 * k + 2 := by omega
    have i3 : 3 + k * 4 = 4 * k + 3 := by omega
    have m : ∀ b, b < 256 → b &&& 255 = b := by
      intro b hb2
      have := Nat.and_pow_two_sub_one_eq_mod b 8
      simp only [Nat.reducePow, Nat.add_one_sub_one] at this
      rw [this]
      exact Nat.mod_eq_of_lt hb2
    unfold ketama_server_hash
    simp only [i0, i1, i2, i3, m _ a0, m _ a1, m _ a2, m _ a3]
    exact or_bytes _ _ _ _ a0 a1 a2
  refine ⟨fun k hk => ⟨hval key hlen hbyte k hk, ?_⟩, ?_⟩
  · rw [hval key hlen hbyte k hk]
    have a0 := hget key hlen hbyte (4 * k) (by omega)
    have a1 := hget key hlen hbyte (4 * k + 1) (by omega)
    have a2 := hget key hlen hbyte (4 * k + 2) (by omega)
    have a3 := hget key hlen hbyte (4 * k + 3) (by omega)
    omega
  · intro key2 hlen2 hbyte2 heq
    have hfour : ∀ k, k < 4 →
        (E.libhashkit_md5_signature key).getD (4 * k) 0 =
          (E.libhashkit_md5_signature key2).getD (4 * k) 0 ∧
        (E.libhashkit_md5_signature key).getD (4 * k + 1) 0 =
          (E.libhashkit_md5_signature key2).getD (4 * k + 1) 0 ∧
        (E.libhashkit_md5_signature key).getD (4 * k + 2) 0 =
          (E.libhashkit_md5_signature key2).getD (4 * k + 2) 0 ∧
        (E.libhashkit_md5_signature key).getD (4 * k + 3) 0 =
          (E.libhashkit_md5_signature key2).getD (4 * k + 3) 0 := by
      intro k hk
      have e := heq k hk
      rw [hval key hlen hbyte k hk, hval key2 hlen2 hbyte2 k hk] at e
      have a0 := hget key hlen hbyte (4 * k) (by omega)
      have a1 := hget key hlen hbyte (4 * k + 1) (by omega)
      have a2 := hget key hlen hbyte (4 * k + 2) (by omega)
      have a3 := hget key hlen hbyte (4 * k + 3) (by omega)
      have c0 := hget key2 hlen2 hbyte2 (4 * k) (by omega)
      have c1 := hget key2 hlen2 hbyte2 (4 * k + 1) (by omega)
      have c2 := hget key2 hlen2 hbyte2 (4 * k + 2) (by omega)
      have c3 := hget key2 hlen2 hbyte2 (4 * k + 3) (by omega)
      omega
    apply List.ext_getElem (by rw [hlen, hlen2])
    intro i h1 h2
    have hi : i < 16 := by omega
    have hk := hfour (i / 4) (by omega)
    rw [← List.getD_eq_getElem _ 0 h1, ← List.getD_eq_getElem _ 0 h2]
    have hcase : i = 4 * (i / 4) ∨ i = 4 * (i / 4) + 1 ∨ i = 4 * (i / 4) + 2 ∨
        i = 4 * (i / 4) + 3 := by omega
    rcases hcase with h | h | h | h
    · rw [h]; exact hk.1
    · rw [h]; exact hk.2.1
    · rw [h]; exact hk.2.2.1
    · rw [h]; exact hk.2.2.2

/-- Witness of C12 on a one byte label, whose sample digest is sixteen bytes
of value 1. -/
theorem ketama_server_hash_bytes_witness :
    ketama_server_hash sample_externals [97] 0 =
      (sample_externals.libhashkit_md5_signature [97]).getD (4 * 0) 0
      + 2 ^ 8 * (sample_externals.libhashkit_md5_signature [97]).getD (4 * 0 + 1) 0
      + 2 ^ 16 * (sample_externals.libhashkit_md5_signature [97]).getD (4 * 0 + 2) 0
      + 2 ^ 24 * (sample_externals.libhashkit_md5_signature [97]).getD (4 * 0 + 3) 0 :=
  ((ketama_server_hash_bytes sample_externals [97] (by decide) (by decide)).1 0
    (by decide)).1

/-! ## Claims about the labels (C13, C14) -/

theorem emit_label_ok (E : Externals D) (ptr : memcached_st D)
    (host_index pointer_per_hash : Nat) (st : List (Nat × Nat) × Bool) (k : Nat)
    (h : (emit_label E ptr host_index pointer_per_hash st k).2 = false) :
    st.2 = false ∧
    (emit_label E ptr host_index pointer_per_hash st k).1 =
      st.1 ++ label_points E ptr host_index (label_of E ptr host_index k) pointer_per_hash := by
  unfold emit_label at h ⊢
  by_cases hf : st.2 = true
  · rw [if_pos hf] at h
    rw [hf] at h
    cases h
  · rw [if_neg hf] at h ⊢
    by_cases hlen : (label_of E ptr host_index k).length ≥
        sizeof_sort_host E
          (decide (ptr.distribution = MEMCACHED_DISTRIBUTION_CONSISTENT_KETAMA_SPY))
    · rw [if_pos hlen] at h
      cases h
    · rw [if_neg hlen]
      exact ⟨by simpa using hf, rfl⟩

/-- The points a server writes are those of its labels, label by label. -/
theorem emit_host_labels (E : Externals D) (ptr : memcached_st D) (host_index : Nat)
    (pointer_per_server pointer_per_hash : Nat) (written : List (Nat × Nat))
    (h : (emit_host E ptr host_index pointer_per_server pointer_per_hash written).2 = false) :
    (emit_host E ptr host_index pointer_per_server pointer_per_hash written).1 =
      written ++ (host_labels E ptr host_index pointer_per_server pointer_per_hash).flatMap
        (fun label => label_points E ptr host_index label pointer_per_hash) := by
  unfold emit_host host_labels at *
  generalize pointer_per_server / pointer_per_hash = m at h ⊢
  induction m with
  | zero => simp
  | succ m ih =>
    rw [List.range_succ, List.foldl_append] at h ⊢
    simp only [List.foldl_cons, List.foldl_nil] at h ⊢
    obtain ⟨h1, h2⟩ := emit_label_ok E ptr host_index pointer_per_hash _ m h
    rw [h2, ih h1]
    simp [List.flatMap_append]

/-- C13: the label of the `p`-th source of a server (`p` counted from 0) is
`/host:port-p` for the Spy variant, `host-p` otherwise when the port is
`MEMCACHED_DEFAULT_PORT`, and `host:port-p` otherwise when it is not, with port
and `p` in decimal; the labels hashed for a server are those for
`p = 0 .. pointer_per_server / pointer_per_hash - 1`, in that order, in all
three cases. -/
theorem label_of_format (E : Externals D) (ptr : memcached_st D)
    (host_index pointer_per_server pointer_per_hash : Nat) (written : List (Nat × Nat)) :
    (∀ p, label_of E ptr host_index p =
      if ptr.distribution = MEMCACHED_DISTRIBUTION_CONSISTENT_KETAMA_SPY then
        "/" ++ (instance_at ptr host_index).hostname ++ ":"
          ++ toString (instance_at ptr host_index).port ++ "-" ++ toString p
      else if (instance_at ptr host_index).port = E.MEMCACHED_DEFAULT_PORT then
        (instance_at ptr host_index).hostname ++ "-" ++ toString p
      else
        (instance_at ptr host_index).hostname ++ ":"
          ++ toString (instance_at ptr host_index).port ++ "-" ++ toString p) ∧
    (∀ p : Nat, toString p = String.mk (Nat.toDigits 10 p)) ∧
    host_labels E ptr host_index pointer_per_server pointer_per_hash =
      (List.range (pointer_per_server / pointer_per_hash)).map (label_of E ptr host_index) ∧
    ((emit_host E ptr host_index pointer_per_server pointer_per_hash written).2 = false →
      (emit_host E ptr host_index pointer_per_server pointer_per_hash written).1 =
        written ++ (host_labels E ptr host_index pointer_per_server pointer_per_hash).flatMap
          (fun label => label_points E ptr host_index label pointer_per_hash)) := by
  refine ⟨?_, fun p => rfl, rfl, emit_host_labels E ptr host_index _ _ written⟩
  intro p
  unfold label_of sort_host_label
  by_cases hs : ptr.distribution = MEMCACHED_DISTRIBUTION_CONSISTENT_KETAMA_SPY
  · simp [hs]
  · simp [hs]

set_option maxRecDepth 100000 in
/-- Witness of C13: the first server of the sample fleet, on the default port. -/
theorem label_of_format_witness :
    label_of sample_externals sample_ketama_fleet 0 7 = "10.0.1.1-7" ∧
    (emit_host sample_externals sample_ketama_fleet 0 3 1 []).1 =
      [] ++ (host_labels sample_externals sample_ketama_fleet 0 3 1).flatMap
        (fun label => label_points sample_externals sample_ketama_fleet 0 label 1) :=
  ⟨by decide,
   (label_of_format sample_externals sample_ketama_fleet 0 3 1 []).2.2.2 (by decide)⟩

set_option maxRecDepth 100000 in
/-- C14 (the claim fails as stated): in the non Spy weighted build of the
sample fleet, server 0 gets `pointer_per_server = 120`, so 30 labels, and they
carry the indices 0 to 29: `10.0.1.1-0` is hashed and `10.0.1.1-30` is not. -/
theorem weighted_labels_start_at_zero :
    memcached_is_weighted_ketama sample_weighted_fleet = true ∧
    sample_weighted_fleet.distribution ≠ MEMCACHED_DISTRIBUTION_CONSISTENT_KETAMA_SPY ∧
    pointer_per_server_of sample_externals sample_weighted_fleet 1000 0 = 120 ∧
    "10.0.1.1-0" ∈ host_labels sample_externals sample_weighted_fleet 0 120 4 ∧
    "10.0.1.1-30" ∉ host_labels sample_externals sample_weighted_fleet 0 120 4 := by
  decide

/-- C14 (amended): in the non Spy build, weighted or not, the labels of a
server carry the indices `0 .. perServer/groupSize - 1` after the prefix
`host-` or `host:port-`; the loop variable `pointer_index` runs over
`1 .. perServer/groupSize` and the label shows `pointer_index - 1`; the group
size is 4 in the weighted build and 1 in the unweighted one. -/
theorem non_spy_label_indices (E : Externals D) (ptr : memcached_st D) (now : Int)
    (host_index pointer_per_server pointer_per_hash n : Nat)
    (hspy : ptr.distribution ≠ MEMCACHED_DISTRIBUTION_CONSISTENT_KETAMA_SPY) :
    host_labels E ptr host_index pointer_per_server pointer_per_hash =
      (List.range (pointer_per_server / pointer_per_hash)).map
        (fun i => label_prefix E (instance_at ptr host_index) ++ toString i) ∧
    (∀ k, label_of E ptr host_index k =
      sort_host_label E false (instance_at ptr host_index) (k + 1)) ∧
    step_pointer_per_hash ptr (continuum_loop E ptr now n) =
      (if memcached_is_weighted_ketama ptr then 4 else 1) := by
  have hl : ∀ k, label_of E ptr host_index k =
      sort_host_label E false (instance_at ptr host_index) (k + 1) := by
    intro k
    simp [label_of, hspy]
  refine ⟨?_, hl, ?_⟩
  · unfold host_labels
    apply List.map_congr_left
    intro k _
    rw [hl k]
    unfold sort_host_label label_prefix
    by_cases hp : (instance_at ptr host_index).port = E.MEMCACHED_DEFAULT_PORT
    · simp [hp]
    · simp [hp]
  · obtain ⟨-, i2, -⟩ := continuum_loop_inv E ptr now n
    unfold step_pointer_per_hash
    cases hw : memcached_is_weighted_ketama ptr
    · simp [(i2 hw).1]
    · simp

/-- Witness of C14 (amended): the three labels of index 0, 1, 2 of the first
sample server. -/
theorem non_spy_label_indices_witness :
    host_labels sample_externals sample_weighted_fleet 0 12 4 =
      (List.range (12 / 4)).map
        (fun i => label_prefix sample_externals (instance_at sample_weighted_fleet 0)
          ++ toString i) :=
  (non_spy_label_indices sample_externals sample_weighted_fleet 1000 0 12 4 3
    (by decide)).1

/-! ## Claims about ejected servers (C15, C16) -/

set_option maxRecDepth 100000 in
/-- C15 (the claim fails as stated): the auto ejecting selector whose only
server is ejected keeps, after a successful `update_continuum`, the 160 points
of its old ring, and the point at position 0 carries the index of that
server. -/
theorem update_continuum_keeps_points_of_ejected_server :
    _is_auto_eject_host sample_ejected = true ∧
    (update_continuum sample_externals sample_ejected).1 = MEMCACHED_SUCCESS ∧
    0 < (update_continuum sample_externals sample_ejected).2.ketama.continuum_points_counter ∧
    index_at (update_continuum sample_externals sample_ejected).2.ketama.continuum 0 = 0 ∧
    (instance_at sample_ejected 0).next_retry > 1000 := by
  decide

/-- C15 (amended): after `update_continuum` returns success with at least
one live server, every ring point (position below `continuum_points_counter`)
carries the index of a server that passed the test of the server loop, so
under auto eject of a server with `next_retry <= now`; when no server is live
the call leaves the prior ring, whatever indices it carries. -/
theorem update_continuum_skips_ejected (E : Externals D) (ptr : memcached_st D) (now : Int)
    (hnow : E.gettimeofday = some now)
    (hok : (update_continuum E ptr).1 = MEMCACHED_SUCCESS) :
    (live_servers_of ptr now ≠ 0 →
      ∀ j, j < (update_continuum E ptr).2.ketama.continuum_points_counter →
        host_live ptr now (index_at (update_continuum E ptr).2.ketama.continuum j) = true ∧
        (_is_auto_eject_host ptr = true →
          (instance_at ptr
            (index_at (update_continuum E ptr).2.ketama.continuum j)).next_retry ≤ now)) ∧
    (live_servers_of ptr now = 0 →
      (update_continuum E ptr).2.ketama.continuum = ptr.ketama.continuum ∧
      (update_continuum E ptr).2.ketama.continuum_points_counter =
        ptr.ketama.continuum_points_counter) := by
  constructor
  · intro hlive j hj
    obtain ⟨-, r2, -, r4⟩ := update_continuum_ring E ptr now hnow hok hlive
    obtain ⟨q1, -, -⟩ := update_continuum_rebuild E ptr now hnow hok hlive
    obtain ⟨-, -, i3⟩ := continuum_loop_inv E ptr now (memcached_server_count ptr)
    obtain ⟨-, -, c3⟩ := i3 q1
    obtain ⟨p, hp, hi, -⟩ := read_of_lt_take _ _ j hj r2
    have hmem := r4 p hp
    have hcount := c3 p.index
    have hpos : 0 < ((continuum_loop E ptr now (memcached_server_count ptr)).points.filter
        (fun q => decide (q.2 = p.index))).length := by
      apply List.length_pos_of_mem (a := (p.value, p.index))
      exact List.mem_filter.mpr ⟨hmem, by simp⟩
    have hl : host_live ptr now p.index = true := by
      by_contra hcon
      rw [hcount, if_neg (fun h => hcon h.2)] at hpos
      omega
    rw [hi]
    refine ⟨hl, fun ha => ?_⟩
    by_contra hcon
    have hfalse := (host_live_false_iff ptr now p.index).mpr ⟨ha, not_le.mp hcon⟩
    rw [hl] at hfalse
    cases hfalse
  · intro h0
    obtain ⟨-, n2, n3⟩ := update_continuum_no_live E ptr now hnow h0
    exact ⟨n2, n3⟩

set_option maxRecDepth 100000 in
/-- Witness of C15 (amended): two servers, the second ejected; the point at
position 0 of the rebuilt ring belongs to a live server. -/
theorem update_continuum_skips_ejected_witness :
    host_live sample_half_ejected 1000
      (index_at (update_continuum sample_externals sample_half_ejected).2.ketama.continuum 0)
      = true :=
  (((update_continuum_skips_ejected sample_externals sample_half_ejected 1000 rfl
      (by decide)).1 (by decide)) 0 (by decide)).1

theorem update_continuum_next_distribution_rebuild (E : Externals D) (ptr : memcached_st D)
    (now : Int) (hnow : E.gettimeofday = some now) :
    (update_continuum E ptr).2.ketama.next_distribution_rebuild =
      if _is_auto_eject_host ptr then (count_live_servers ptr now).2
      else ptr.ketama.next_distribution_rebuild := by
  unfold update_continuum
  rw [hnow]
  dsimp only
  split_ifs <;> rfl

theorem count_live_servers_snd (ptr : memcached_st D) (now : Int) (h0 : 0 ≤ now) :
    ∀ n,
      (((List.range n).foldl
        (fun (acc : Nat × Int) host_index =>
          if (instance_at ptr host_index).next_retry ≤ now then (acc.1 + 1, acc.2)
          else if acc.2 = 0 ∨ (instance_at ptr host_index).next_retry < acc.2 then
            (acc.1, (instance_at ptr host_index).next_retry)
          else acc)
        (0, 0)).2 = 0 ↔ ∀ i, i < n → (instance_at ptr i).next_retry ≤ now) ∧
      (∀ i, i < n → (instance_at ptr i).next_retry > now →
        ((List.range n).foldl
          (fun (acc : Nat × Int) host_index =>
            if (instance_at ptr host_index).next_retry ≤ now then (acc.1 + 1, acc.2)
            else if acc.2 = 0 ∨ (instance_at ptr host_index).next_retry < acc.2 then
              (acc.1, (instance_at ptr host_index).next_retry)
            else acc)
          (0, 0)).2 ≤ (instance_at ptr i).next_retry) ∧
      (((List.range n).foldl
        (fun (acc : Nat × Int) host_index =>
          if (instance_at ptr host_index).next_retry ≤ now then (acc.1 + 1, acc.2)
          else if acc.2 = 0 ∨ (instance_at ptr host_index).next_retry < acc.2 then
            (acc.1, (instance_at ptr host_index).next_retry)
          else acc)
        (0, 0)).2 ≠ 0 →
        ∃ i, i < n ∧ (instance_at ptr i).next_retry > now ∧
          (instance_at ptr i).next_retry =
            ((List.range n).foldl
              (fun (acc : Nat × Int) host_index =>
                if (instance_at ptr host_index).next_retry ≤ now then (acc.1 + 1, acc.2)
                else if acc.2 = 0 ∨ (instance_at ptr host_index).next_retry < acc.2 then
                  (acc.1, (instance_at ptr host_index).next_retry)
                else acc)
              (0, 0)).2) := by
  intro n
  induction n with
  | zero => simp
  | succ n ih =>
    rw [List.range_succ, List.foldl_append]
    simp only [List.foldl_cons, List.foldl_nil]
    generalize ((List.range n).foldl
        (fun (acc : Nat × Int) host_index =>
          if (instance_at ptr host_index).next_retry ≤ now then (acc.1 + 1, acc.2)
          else if acc.2 = 0 ∨ (instance_at ptr host_index).next_retry < acc.2 then
            (acc.1, (instance_at ptr host_index).next_retry)
          else acc)
        (0, 0)) = acc at ih ⊢
    obtain ⟨ih1, ih2, ih3⟩ := ih
    have hlt : ∀ i, i < n + 1 → i < n ∨ i = n := by intro i hi; omega
    by_cases hl : (instance_at ptr n).next_retry ≤ now
    · rw [if_pos hl]
      refine ⟨⟨fun h i hi => ?_, fun h => ih1.mpr (fun i hi => h i (by omega))⟩, ?_, ?_⟩
      · rcases hlt i hi with h2 | h2
        · exact ih1.mp h i h2
        · rw [h2]; exact hl
      · intro i hi hgt
        rcases hlt i hi with h2 | h2
        · exact ih2 i h2 hgt
        · rw [h2] at hgt; omega
      · intro hne
        obtain ⟨i, hi, h3, h4⟩ := ih3 hne
        exact ⟨i, by omega, h3, h4⟩
    · rw [if_neg hl]
      have hgt : (instance_at ptr n).next_retry > now := not_le.mp hl
      by_cases hc : acc.2 = 0 ∨ (instance_at ptr n).next_retry < acc.2
      · rw [if_pos hc]
        refine ⟨⟨fun h => ?_, fun h => ?_⟩, ?_, ?_⟩
        · exfalso
          have : (instance_at ptr n).next_retry = 0 := h
          omega
        · exact absurd (h n (by omega)) hl
        · intro i hi hgi
          show (instance_at ptr n).next_retry ≤ _
          rcases hlt i hi with h2 | h2
          · rcases hc with hc | hc
            · exact absurd (ih1.mp hc i h2) (not_le.mpr hgi)
            · have := ih2 i h2 hgi
              omega
          · rw [h2]
        · intro _
          exact ⟨n, by omega, hgt, rfl⟩
      · rw [if_neg hc]
        have hc1 : acc.2 ≠ 0 := fun h => hc (Or.inl h)
        have hc2 : acc.2 ≤ (instance_at ptr n).next_retry := by
          by_contra h
          exact hc (Or.inr (not_le.mp h))
        refine ⟨⟨fun h => absurd h hc1, fun h => absurd (h n (by omega)) hl⟩, ?_, ?_⟩
        · intro i hi hgi
          rcases hlt i hi with h2 | h2
          · exact ih2 i h2 hgi
          · rw [h2]; exact hc2
        · intro hne
          obtain ⟨i, hi, h3, h4⟩ := ih3 hne
          exact ⟨i, by omega, h3, h4⟩

/-- C16: after `update_continuum` with a clock at or after the epoch, whether
or not a server is live and whether or not the call succeeds: under auto eject
`ketama.next_distribution_rebuild` is 0 exactly when no server has
`next_retry > now`, and otherwise is the `next_retry` of such a server and at
most the `next_retry` of every such server (their minimum); without auto
eject it is unchanged. -/
theorem update_continuum_next_rebuild (E : Externals D) (ptr : memcached_st D) (now : Int)
    (hnow : E.gettimeofday = some now) (h0 : 0 ≤ now) :
    (_is_auto_eject_host ptr = true →
      ((update_continuum E ptr).2.ketama.next_distribution_rebuild = 0 ↔
        ∀ i, i < memcached_server_count ptr → (instance_at ptr i).next_retry ≤ now) ∧
      (∀ i, i < memcached_server_count ptr → (instance_at ptr i).next_retry > now →
        (update_continuum E ptr).2.ketama.next_distribution_rebuild
          ≤ (instance_at ptr i).next_retry) ∧
      ((update_continuum E ptr).2.ketama.next_distribution_rebuild ≠ 0 →
        ∃ i, i < memcached_server_count ptr ∧ (instance_at ptr i).next_retry > now ∧
          (instance_at ptr i).next_retry =
            (update_continuum E ptr).2.ketama.next_distribution_rebuild)) ∧
    (_is_auto_eject_host ptr = false →
      (update_continuum E ptr).2.ketama.next_distribution_rebuild =
        ptr.ketama.next_distribution_rebuild) := by
  rw [update_continuum_next_distribution_rebuild E ptr now hnow]
  constructor
  · intro ha
    rw [ha]
    simp only [if_true]
    exact count_live_servers_snd ptr now h0 (memcached_server_count ptr)
  · intro ha
    rw [ha]
    simp

set_option maxRecDepth 100000 in
/-- Witness of C16: two servers, the second ejected until second 2000. -/
theorem update_continuum_next_rebuild_witness :
    (update_continuum sample_externals sample_half_ejected).2.ketama.next_distribution_rebuild
      ≤ (instance_at sample_half_ejected 1).next_retry :=
  ((update_continuum_next_rebuild sample_externals sample_half_ejected 1000 rfl
      (by decide)).1 rfl).2.1 1 (by decide) (by decide)

/-! ## Claims about the rebuild check (C17, C18) -/

theorem _regen_for_auto_eject_cases (E : Externals D) (ptr : memcached_st D) :
    (∀ now, _is_auto_eject_host ptr = true → ptr.ketama.next_distribution_rebuild ≠ 0 →
      E.gettimeofday = some now → now > ptr.ketama.next_distribution_rebuild →
      _regen_for_auto_eject E ptr = (run_distribution E ptr).2) ∧
    (_is_auto_eject_host ptr = false ∨ ptr.ketama.next_distribution_rebuild = 0 ∨
      E.gettimeofday = none ∨
      (∃ now, E.gettimeofday = some now ∧ now ≤ ptr.ketama.next_distribution_rebuild) →
      _regen_for_auto_eject E ptr = ptr) := by
  constructor
  · intro now ha hr hnow hgt
    unfold _regen_for_auto_eject
    rw [if_pos ⟨ha, hr⟩, hnow]
    simp only [hgt, if_true]
  · intro h
    unfold _regen_for_auto_eject
    by_cases hc : _is_auto_eject_host ptr = true ∧ ptr.ketama.next_distribution_rebuild ≠ 0
    · rw [if_pos hc]
      rcases h with h | h | h | ⟨now, h1, h2⟩
      · rw [hc.1] at h; cases h
      · exact absurd h hc.2
      · rw [h]
      · rw [h1]
        simp only [not_lt.mpr h2, if_false]
    · rw [if_neg hc]

set_option maxRecDepth 100000 in
/-- C17 (the claim fails as stated): with auto eject enabled and
`now = next_distribution_rebuild = 1000`,
`memcached_generate_hash_with_redistribution` dispatches on the old ring of two
points; dispatching after `run_distribution` would have met a ring of 320
points. -/
theorem no_rebuild_at_the_rebuild_instant :
    _is_auto_eject_host sample_rebuild_due = true ∧
    sample_externals.gettimeofday = some sample_rebuild_due.ketama.next_distribution_rebuild ∧
    (memcached_generate_hash_with_redistribution sample_externals sample_rebuild_due
      [107] 1).1.ketama.continuum_points_counter = 2 ∧
    (dispatch_host sample_externals (run_distribution sample_externals sample_rebuild_due).2
      (_generate_hash_wrapper sample_externals sample_rebuild_due [107])
      1).1.ketama.continuum_points_counter = 320 := by
  decide

/-- C17 (amended): with auto eject enabled, `next_distribution_rebuild`
nonzero and the clock read, `memcached_generate_hash_with_redistribution` runs
`run_distribution` before dispatching when `now > next_distribution_rebuild`,
and dispatches on the state as it is when `now <= next_distribution_rebuild`,
the instant `now = next_distribution_rebuild` included. -/
theorem memcached_generate_hash_with_redistribution_rebuild (E : Externals D)
    (ptr : memcached_st D) (key : List Nat) (cmd : Nat) (now : Int)
    (ha : _is_auto_eject_host ptr = true) (hr : ptr.ketama.next_distribution_rebuild ≠ 0)
    (hnow : E.gettimeofday = some now) :
    (now > ptr.ketama.next_distribution_rebuild →
      memcached_generate_hash_with_redistribution E ptr key cmd =
        dispatch_host E (run_distribution E ptr).2 (_generate_hash_wrapper E ptr key) cmd) ∧
    (now ≤ ptr.ketama.next_distribution_rebuild →
      memcached_generate_hash_with_redistribution E ptr key cmd =
        dispatch_host E ptr (_generate_hash_wrapper E ptr key) cmd) := by
  obtain ⟨c1, c2⟩ := _regen_for_auto_eject_cases E ptr
  constructor
  · intro hgt
    unfold memcached_generate_hash_with_redistribution
    rw [c1 now ha hr hnow hgt]
  · intro hle
    unfold memcached_generate_hash_with_redistribution
    rw [c2 (Or.inr (Or.inr (Or.inr ⟨now, hnow, hle⟩)))]

set_option maxRecDepth 100000 in
/-- Witness of C17 (amended): one second after the rebuild instant the ring
is rebuilt before the dispatch. -/
theorem memcached_generate_hash_with_redistribution_rebuild_witness :
    memcached_generate_hash_with_redistribution later_externals sample_rebuild_due [107] 1 =
      dispatch_host later_externals (run_distribution later_externals sample_rebuild_due).2
        (_generate_hash_wrapper later_externals sample_rebuild_due [107]) 1 :=
  (memcached_generate_hash_with_redistribution_rebuild later_externals sample_rebuild_due
    [107] 1 1001 rfl (by decide) rfl).1 (by decide)

/-- C18: when auto eject is disabled, or `next_distribution_rebuild = 0`, or
the clock reads `now <= next_distribution_rebuild` (in particular
`now < next_distribution_rebuild`) or cannot be read, `memcached_autoeject`
leaves the whole selector state unchanged and
`memcached_generate_hash_with_redistribution` returns the same index and the
same state as `memcached_generate_hash`. -/
theorem memcached_autoeject_noop (E : Externals D) (ptr : memcached_st D) (key : List Nat)
    (cmd : Nat)
    (h : _is_auto_eject_host ptr = false ∨ ptr.ketama.next_distribution_rebuild = 0 ∨
      E.gettimeofday = none ∨
      (∃ now, E.gettimeofday = some now ∧ now ≤ ptr.ketama.next_distribution_rebuild)) :
    memcached_autoeject E ptr = ptr ∧
    memcached_generate_hash_with_redistribution E ptr key cmd =
      memcached_generate_hash E ptr key cmd := by
  have hreg := (_regen_for_auto_eject_cases E ptr).2 h
  refine ⟨hreg, ?_⟩
  unfold memcached_generate_hash_with_redistribution memcached_generate_hash
  rw [hreg]

/-- Witness of C18: a selector without auto eject. -/
theorem memcached_autoeject_noop_witness :
    memcached_generate_hash_with_redistribution sample_externals sample_ketama_fleet [107] 1 =
      memcached_generate_hash sample_externals sample_ketama_fleet [107] 1 :=
  (memcached_autoeject_noop sample_externals sample_ketama_fleet [107] 1 (Or.inl rfl)).2

/-! ## Claim about the size of the initial dynamic ring (C20) -/

/-- C20 (the claim fails as stated): with one live server and
`MEMCACHED_DYNAMIC_SET_REPETITION = 2` the initial dynamic build sets
`continuum_points_counter` to 2. -/
theorem initial_build_single_server_repeats :
    live_servers_of sample_dynamic_single 1000 = 1 ∧
    sample_dynamic_single.dynamic.continuum_points_counter = 0 ∧
    double_repetition_externals.MEMCACHED_DYNAMIC_SET_REPETITION = 2 ∧
    (update_dynamic double_repetition_externals sample_dynamic_single).1 = MEMCACHED_SUCCESS ∧
    (update_dynamic double_repetition_externals
      sample_dynamic_single).2.dynamic.continuum_points_counter = 2 := by
  decide

/-- C20 (amended): the initial dynamic build (a successful `update_dynamic`
over an empty ring with `L` live servers, `L` different from
`continuum_count`) sets `continuum_points_counter` to `L * (L - 1) * R` for
`L >= 2` and to `R` for `L = 1`, with `R = MEMCACHED_DYNAMIC_SET_REPETITION`
and the products taken in `uint32_t`; for `L = 1` the counter is 1 when
`R = 1`. -/
theorem initial_build_size (E : Externals D) (ptr : memcached_st D) (now : Int)
    (hnow : E.gettimeofday = some now)
    (hok : (update_dynamic E ptr).1 = MEMCACHED_SUCCESS)
    (hlive : live_servers_of ptr now ≠ 0)
    (hcc : ptr.dynamic.continuum_count ≠ live_servers_of ptr now)
    (hempty : ptr.dynamic.continuum_points_counter = 0) :
    (2 ≤ live_servers_of ptr now →
      live_servers_of ptr now * (live_servers_of ptr now - 1)
        * E.MEMCACHED_DYNAMIC_SET_REPETITION < 4294967296 →
      (update_dynamic E ptr).2.dynamic.continuum_points_counter =
        live_servers_of ptr now * (live_servers_of ptr now - 1)
          * E.MEMCACHED_DYNAMIC_SET_REPETITION) ∧
    (live_servers_of ptr now = 1 → E.MEMCACHED_DYNAMIC_SET_REPETITION < 4294967296 →
      (update_dynamic E ptr).2.dynamic.continuum_points_counter =
        E.MEMCACHED_DYNAMIC_SET_REPETITION) ∧
    (live_servers_of ptr now = 1 → E.MEMCACHED_DYNAMIC_SET_REPETITION = 1 →
      (update_dynamic E ptr).2.dynamic.continuum_points_counter = 1) ∧
    (update_dynamic E ptr).2.dynamic.continuum_points_counter =
      u32 (u32 (live_servers_of ptr now *
          (if live_servers_of ptr now = 1 then 1 else live_servers_of ptr now - 1))
        * E.MEMCACHED_DYNAMIC_SET_REPETITION) := by
  obtain ⟨d1, -, -⟩ := update_dynamic_rebuild E ptr now hnow hok hlive hcc
  obtain ⟨e1, -⟩ := d1 hempty
  rw [e1]
  unfold initial_total_points initial_set_size
  refine ⟨?_, ?_, ?_, rfl⟩
  · intro h2 hfit
    have hne : live_servers_of ptr now ≠ 1 := by omega
    rw [if_neg hne]
    by_cases hR : E.MEMCACHED_DYNAMIC_SET_REPETITION = 0
    · rw [hR]
      simp [u32]
    · have hle : live_servers_of ptr now * (live_servers_of ptr now - 1) ≤
          live_servers_of ptr now * (live_servers_of ptr now - 1)
            * E.MEMCACHED_DYNAMIC_SET_REPETITION :=
        Nat.le_mul_of_pos_right _ (Nat.pos_of_ne_zero hR)
      unfold u32
      rw [Nat.mod_eq_of_lt (a := live_servers_of ptr now * (live_servers_of ptr now - 1))
        (by omega), Nat.mod_eq_of_lt hfit]
  · intro h1 hfit
    rw [h1]
    simp only [if_true, Nat.mul_one, Nat.one_mul]
    unfold u32
    rw [Nat.mod_eq_of_lt (by omega : 1 < 4294967296), Nat.one_mul, Nat.mod_eq_of_lt hfit]
  · intro h1 hR
    rw [h1, hR]
    rfl

/-- Witness of C20 (amended): three live servers and `R = 1` give 6 points. -/
theorem initial_build_size_witness :
    (update_dynamic sample_externals sample_dynamic_fleet).2.dynamic.continuum_points_counter =
      live_servers_of sample_dynamic_fleet 1000 * (live_servers_of sample_dynamic_fleet 1000 - 1)
        * sample_externals.MEMCACHED_DYNAMIC_SET_REPETITION :=
  (initial_build_size sample_externals sample_dynamic_fleet 1000 rfl (by decide) (by decide)
    (by decide) rfl).1 (by decide) (by decide)

/-! ## Claim about the weights 1, 2, 1 (C11) -/

/-- After a rebuild whose expected number of points fits `uint32_t`, the
counter is that number and each index occurs `pointer_per_server` times among
the ring points if its server is live, and not at all otherwise. -/
theorem update_continuum_ring_count (E : Externals D) (ptr : memcached_st D) (now : Int)
    (hnow : E.gettimeofday = some now)
    (hok : (update_continuum E ptr).1 = MEMCACHED_SUCCESS)
    (hlive : live_servers_of ptr now ≠ 0)
    (hfit : points_expected E ptr now (memcached_server_count ptr) < 4294967296) :
    (update_continuum E ptr).2.ketama.continuum_points_counter =
      points_expected E ptr now (memcached_server_count ptr) ∧
    ∀ i, ring_count (update_continuum E ptr).2.ketama.continuum
        (update_continuum E ptr).2.ketama.continuum_points_counter i =
      if i < memcached_server_count ptr ∧ host_live ptr now i = true then
        pointer_per_server_of E ptr now i else 0 := by
  obtain ⟨q1, q2, q3⟩ := update_continuum_rebuild E ptr now hnow hok hlive
  obtain ⟨-, -, i3⟩ := continuum_loop_inv E ptr now (memcached_server_count ptr)
  obtain ⟨c1, c2, c3⟩ := i3 q1
  have hcnt : (continuum_loop E ptr now (memcached_server_count ptr)).pointer_counter =
      (continuum_loop E ptr now (memcached_server_count ptr)).points.length := by
    rw [c1]
    exact Nat.mod_eq_of_lt (by rw [c2]; exact hfit)
  have hlen := length_write_points set_point (fresh_item E)
    (continuum_loop E ptr now (memcached_server_count ptr)).points ptr.ketama.continuum
  refine ⟨by rw [q2, hcnt, c2], fun i => ?_⟩
  unfold ring_count
  rw [q2, q3, hcnt, qsort_take _ _ _ hlen,
    ((List.perm_insertionSort _ _).filter _).length_eq, ring_count_points,
    points_of_write_points set_point (fresh_item E) (fun b q => ⟨rfl, rfl⟩)]
  exact c3 i

theorem weighted_floor_exact_values :
    weighted_floor_exact 160 1 4 3 = 30 ∧ weighted_floor_exact 160 2 4 3 = 60 := by
  unfold weighted_floor_exact
  constructor
  · rw [Nat.floor_eq_iff (by norm_num)]
    norm_num
  · rw [Nat.floor_eq_iff (by norm_num)]
    norm_num

/-- C11: on a weighted ketama fleet of three live servers with weights 1, 2, 1,
where the float expression under `floor` takes on these inputs the value exact
arithmetic gives it with `MEMCACHED_POINTS_PER_SERVER_KETAMA = 160` (30 and 60),
a successful `update_continuum` computes `total_weight = 4` and
`live_servers = 3`, assigns `pointer_per_server` 120, 240 and 120, leaves that
many ring points with index 0, 1 and 2, and sets `continuum_points_counter`
to 480. -/
theorem update_continuum_weights_1_2_1 (E : Externals D) (ptr : memcached_st D) (now : Int)
    (hnow : E.gettimeofday = some now)
    (hw : memcached_is_weighted_ketama ptr = true)
    (hn : ptr.number_of_hosts = 3)
    (hweights : ptr.servers.map (fun s => s.weight) = [1, 2, 1])
    (hlive : ∀ i, i < 3 → host_live ptr now i = true)
    (hK : E.MEMCACHED_POINTS_PER_SERVER_KETAMA = 160)
    (hf1 : E.weighted_floor 1 4 3 =
      weighted_floor_exact E.MEMCACHED_POINTS_PER_SERVER_KETAMA 1 4 3)
    (hf2 : E.weighted_floor 2 4 3 =
      weighted_floor_exact E.MEMCACHED_POINTS_PER_SERVER_KETAMA 2 4 3)
    (hok : (update_continuum E ptr).1 = MEMCACHED_SUCCESS) :
    total_weight_of ptr now = 4 ∧ live_servers_of ptr now = 3 ∧
    pointer_per_server_of E ptr now 0 = 120 ∧
    pointer_per_server_of E ptr now 1 = 240 ∧
    pointer_per_server_of E ptr now 2 = 120 ∧
    ring_count (update_continuum E ptr).2.ketama.continuum
      (update_continuum E ptr).2.ketama.continuum_points_counter 0 = 120 ∧
    ring_count (update_continuum E ptr).2.ketama.continuum
      (update_continuum E ptr).2.ketama.continuum_points_counter 1 = 240 ∧
    ring_count (update_continuum E ptr).2.ketama.continuum
      (update_continuum E ptr).2.ketama.continuum_points_counter 2 = 120 ∧
    (update_continuum E ptr).2.ketama.continuum_points_counter = 480 := by
  have hc : memcached_server_count ptr = 3 := hn
  have hr3 : List.range 3 = [0, 1, 2] := by decide
  have hl0 := hlive 0 (by omega)
  have hl1 := hlive 1 (by omega)
  have hl2 := hlive 2 (by omega)
  obtain ⟨a, b, c, hs, wa, wb, wc⟩ : ∃ a b c, ptr.servers = [a, b, c] ∧ a.weight = 1 ∧
      b.weight = 2 ∧ c.weight = 1 := by
    rcases hs : ptr.servers with _ | ⟨a, _ | ⟨b, _ | ⟨c, _ | ⟨d, t⟩⟩⟩⟩ <;>
      rw [hs] at hweights <;> simp at hweights
    exact ⟨a, b, c, rfl, hweights.1, hweights.2.1, hweights.2.2⟩
  have w0 : (instance_at ptr 0).weight = 1 := by simp [instance_at, hs, wa]
  have w1 : (instance_at ptr 1).weight = 2 := by simp [instance_at, hs, wb]
  have w2 : (instance_at ptr 2).weight = 1 := by simp [instance_at, hs, wc]
  have hcond : ∀ i, host_live ptr now i = true →
      (_is_auto_eject_host ptr = false ∨ (instance_at ptr i).next_retry ≤ now) := by
    intro i hi
    by_contra hcon
    have h1 : _is_auto_eject_host ptr = true := by
      cases hh : _is_auto_eject_host ptr
      · exact absurd (Or.inl hh) hcon
      · rfl
    have h2 : (instance_at ptr i).next_retry > now := by
      by_contra h3
      exact hcon (Or.inr (not_lt.mp h3))
    have := (host_live_false_iff ptr now i).mpr ⟨h1, h2⟩
    rw [hi] at this
    cases this
  have htw : total_weight_of ptr now = 4 := by
    unfold total_weight_of
    rw [hw, hc, hr3]
    simp only [if_true, List.foldl_cons, List.foldl_nil, hcond 0 hl0, hcond 1 hl1, hcond 2 hl2,
      w0, w1, w2]
  have hls : live_servers_of ptr now = 3 := by
    rw [live_servers_of_eq, hc, hr3]
    simp [List.filter_cons, hl0, hl1, hl2]
  obtain ⟨x1, x2⟩ := weighted_floor_exact_values
  have p0 : pointer_per_server_of E ptr now 0 = 120 := by
    unfold pointer_per_server_of
    rw [hw, htw, hls, w0, hf1, hK, x1]
    rfl
  have p1 : pointer_per_server_of E ptr now 1 = 240 := by
    unfold pointer_per_server_of
    rw [hw, htw, hls, w1, hf2, hK, x2]
    rfl
  have p2 : pointer_per_server_of E ptr now 2 = 120 := by
    unfold pointer_per_server_of
    rw [hw, htw, hls, w2, hf1, hK, x1]
    rfl
  have hexp : points_expected E ptr now (memcached_server_count ptr) = 480 := by
    unfold points_expected
    rw [hc, hr3]
    simp [List.filter_cons, hl0, hl1, hl2, p0, p1, p2]
  obtain ⟨k1, k2⟩ := update_continuum_ring_count E ptr now hnow hok (by omega)
    (by rw [hexp]; omega)
  refine ⟨htw, hls, p0, p1, p2, ?_, ?_, ?_, by rw [k1, hexp]⟩
  · rw [k2 0, if_pos ⟨by omega, hl0⟩, p0]
  · rw [k2 1, if_pos ⟨by omega, hl1⟩, p1]
  · rw [k2 2, if_pos ⟨by omega, hl2⟩, p2]

set_option maxRecDepth 100000 in
/-- Witness of C11 on the weighted sample fleet. -/
theorem update_continuum_weights_1_2_1_witness :
    (update_continuum sample_externals sample_weighted_fleet).2.ketama.continuum_points_counter
      = 480 :=
  (update_continuum_weights_1_2_1 sample_externals sample_weighted_fleet 1000 rfl rfl rfl
    (by decide) (by decide) rfl
    (Eq.trans (by decide) weighted_floor_exact_values.1.symm)
    (Eq.trans (by decide) weighted_floor_exact_values.2.symm)
    (by decide)).2.2.2.2.2.2.2.2

/-! ## Rebuilding twice (C19) -/

theorem qsort_take_all {α : Type} (compar : α → α → Int) (base : List α) (n : Nat) :
    (qsort compar base n).take n = (base.take n).insertionSort (fun a b => compar a b ≤ 0) ∧
    (qsort compar base n).drop n = base.drop n := by
  unfold qsort
  have hl : ((base.take n).insertionSort (fun a b => compar a b ≤ 0)).length =
      min n base.length := by
    rw [List.length_insertionSort, List.length_take]
  by_cases hn : n ≤ base.length
  · have hl2 : ((base.take n).insertionSort (fun a b => compar a b ≤ 0)).length = n := by
      rw [hl]; omega
    constructor
    · rw [List.take_append_eq_append_take, hl2, Nat.sub_self, List.take_zero, List.append_nil,
        List.take_of_length_le (by omega)]
    · rw [List.drop_append_eq_append_drop, hl2, Nat.sub_self, List.drop_zero,
        List.drop_of_length_le (by omega), List.nil_append]
  · have hd : base.drop n = [] := List.drop_of_length_le (by omega)
    rw [hd, List.append_nil]
    constructor
    · exact List.take_of_length_le (by rw [hl]; omega)
    · exact List.drop_of_length_le (by rw [hl]; omega)

/-- Sorting twice is sorting once. -/
theorem qsort_qsort {α : Type} (compar : α → α → Int)
    [IsTotal α (fun a b => compar a b ≤ 0)] [IsTrans α (fun a b => compar a b ≤ 0)]
    (base : List α) (n : Nat) :
    qsort compar (qsort compar base n) n = qsort compar base n := by
  obtain ⟨h1, h2⟩ := qsort_take_all compar base n
  have hs : ((base.take n).insertionSort (fun a b => compar a b ≤ 0)).insertionSort
      (fun a b => compar a b ≤ 0) = (base.take n).insertionSort (fun a b => compar a b ≤ 0) :=
    List.Sorted.insertionSort_eq (List.sorted_insertionSort _ _)
  show ((qsort compar base n).take n).insertionSort (fun a b => compar a b ≤ 0)
      ++ (qsort compar base n).drop n = qsort compar base n
  rw [h1, h2, hs]
  rfl

theorem hosts_in_order_frame (ptr : memcached_st D) :
    (hosts_in_order ptr).number_of_hosts = ptr.number_of_hosts ∧
    (hosts_in_order ptr).flags = ptr.flags ∧
    (hosts_in_order ptr).distribution = ptr.distribution ∧
    (hosts_in_order ptr).hashkit = ptr.hashkit ∧
    (hosts_in_order ptr).ketama = ptr.ketama ∧
    (hosts_in_order ptr).dynamic = ptr.dynamic ∧
    (hosts_in_order ptr).servers =
      if ptr.flags.use_sort_hosts = true ∧ memcached_server_count ptr ≠ 0 then
        qsort compare_servers ptr.servers (memcached_server_count ptr)
      else ptr.servers := by
  unfold hosts_in_order sort_hosts
  by_cases h1 : ptr.flags.use_sort_hosts = true
  · by_cases h2 : memcached_server_count ptr ≠ 0
    · rw [if_pos h1, if_pos h2, if_pos ⟨h1, h2⟩]
      exact ⟨rfl, rfl, rfl, rfl, rfl, rfl, rfl⟩
    · rw [if_pos h1, if_neg h2, if_neg (fun h => h2 h.2)]
      exact ⟨rfl, rfl, rfl, rfl, rfl, rfl, rfl⟩
  · rw [if_neg h1, if_neg (fun h => h1 h.1)]
    exact ⟨rfl, rfl, rfl, rfl, rfl, rfl, rfl⟩

/-- A selector with the fleet of an ordered selector is itself in order. -/
theorem hosts_in_order_fixed (s1 ptr : memcached_st D)
    (h : same_fleet s1 (hosts_in_order ptr)) : hosts_in_order s1 = s1 := by
  obtain ⟨h1, h2, h3, -, -, -⟩ := h
  obtain ⟨f1, f2, -, -, -, -, f7⟩ := hosts_in_order_frame ptr
  unfold hosts_in_order sort_hosts
  by_cases u : s1.flags.use_sort_hosts = true
  · rw [if_pos u]
    by_cases c : memcached_server_count s1 ≠ 0
    · rw [if_pos c]
      have u2 : ptr.flags.use_sort_hosts = true := by rw [← f2, ← h3]; exact u
      have c2 : memcached_server_count ptr = memcached_server_count s1 := by
        unfold memcached_server_count
        rw [h2, f1]
      have c3 : memcached_server_count ptr ≠ 0 := by rw [c2]; exact c
      rw [if_pos ⟨u2, c3⟩] at f7
      have hq : qsort compare_servers s1.servers (memcached_server_count s1) = s1.servers := by
        rw [h1, f7, ← c2]
        exact qsort_qsort compare_servers _ _
      rw [hq]
    · rw [if_neg c]
  · rw [if_neg u]

theorem same_fleet_reads (s1 s2 : memcached_st D) (h : same_fleet s1 s2) :
    instance_at s1 = instance_at s2 ∧
    _is_auto_eject_host s1 = _is_auto_eject_host s2 ∧
    memcached_is_weighted_ketama s1 = memcached_is_weighted_ketama s2 ∧
    memcached_server_count s1 = memcached_server_count s2 := by
  obtain ⟨h1, h2, h3, -, -, h6⟩ := h
  refine ⟨?_, ?_, h6, h2⟩
  · funext i
    simp only [instance_at, h1]
  · simp only [_is_auto_eject_host, h3]

theorem count_live_servers_congr (s1 s2 : memcached_st D) (now : Int)
    (h : same_fleet s1 s2) : count_live_servers s1 now = count_live_servers s2 now := by
  obtain ⟨r1, -, -, r4⟩ := same_fleet_reads s1 s2 h
  simp only [count_live_servers, r1, r4]

theorem live_servers_of_congr (s1 s2 : memcached_st D) (now : Int)
    (h : same_fleet s1 s2) : live_servers_of s1 now = live_servers_of s2 now := by
  obtain ⟨-, r2, -, r4⟩ := same_fleet_reads s1 s2 h
  simp only [live_servers_of, r2, r4, count_live_servers_congr s1 s2 now h]

theorem total_weight_of_congr (s1 s2 : memcached_st D) (now : Int)
    (h : same_fleet s1 s2) : total_weight_of s1 now = total_weight_of s2 now := by
  obtain ⟨r1, r2, r3, r4⟩ := same_fleet_reads s1 s2 h
  simp only [total_weight_of, r1, r2, r3, r4]

theorem emit_host_congr (E : Externals D) (s1 s2 : memcached_st D) (h : same_fleet s1 s2) :
    emit_host E s1 = emit_host E s2 := by
  obtain ⟨r1, -, r3, -⟩ := same_fleet_reads s1 s2 h
  obtain ⟨-, -, -, h4, h5, -⟩ := h
  have hl : emit_label E s1 = emit_label E s2 := by
    funext host_index pph st k
    simp only [emit_label, label_of, label_points, r1, r3, h4, h5]
  funext host_index pps pph written
  simp only [emit_host, hl]

/-- The server loop reads the selector through its fleet only. -/
theorem continuum_loop_congr (E : Externals D) (s1 s2 : memcached_st D) (now : Int) (n : Nat)
    (h : same_fleet s1 s2) : continuum_loop E s1 now n = continuum_loop E s2 now n := by
  obtain ⟨r1, r2, r3, -⟩ := same_fleet_reads s1 s2 h
  have hstep : continuum_step E s1 now = continuum_step E s2 now := by
    funext b host_index
    simp only [continuum_step, step_pointer_per_server, step_pointer_per_hash, r1, r2, r3,
      emit_host_congr E s1 s2 h, total_weight_of_congr s1 s2 now h,
      live_servers_of_congr s1 s2 now h]
  simp only [continuum_loop, hstep]

theorem update_continuum_same_fleet (E : Externals D) (ptr : memcached_st D) :
    same_fleet (update_continuum E ptr).2 ptr := by
  unfold update_continuum
  cases E.gettimeofday with
  | none => exact ⟨rfl, rfl, rfl, rfl, rfl, rfl⟩
  | some now =>
    dsimp only
    split_ifs <;> exact ⟨rfl, rfl, rfl, rfl, rfl, rfl⟩

theorem update_dynamic_same_fleet (E : Externals D) (ptr : memcached_st D) :
    same_fleet (update_dynamic E ptr).2 ptr := by
  unfold update_dynamic
  cases E.gettimeofday with
  | none => exact ⟨rfl, rfl, rfl, rfl, rfl, rfl⟩
  | some now =>
    dsimp only
    split_ifs <;> exact ⟨rfl, rfl, rfl, rfl, rfl, rfl⟩

/-- What `update_continuum` returns and leaves in the ring fields, branch by
branch. -/
theorem update_continuum_fields (E : Externals D) (ptr : memcached_st D) (now : Int)
    (hnow : E.gettimeofday = some now) :
    (live_servers_of ptr now = 0 →
      (update_continuum E ptr).1 = MEMCACHED_SUCCESS ∧
      (update_continuum E ptr).2.ketama.continuum = ptr.ketama.continuum ∧
      (update_continuum E ptr).2.ketama.continuum_points_counter =
        ptr.ketama.continuum_points_counter ∧
      (update_continuum E ptr).2.ketama.continuum_count = ptr.ketama.continuum_count) ∧
    (live_servers_of ptr now ≠ 0 →
      (live_servers_of ptr now > ptr.ketama.continuum_count ∧ E.alloc_ok = false) →
      (update_continuum E ptr).1 = MEMCACHED_MEMORY_ALLOCATION_FAILURE ∧
      (update_continuum E ptr).2.ketama.continuum = ptr.ketama.continuum ∧
      (update_continuum E ptr).2.ketama.continuum_points_counter =
        ptr.ketama.continuum_points_counter ∧
      (update_continuum E ptr).2.ketama.continuum_count = ptr.ketama.continuum_count) ∧
    (live_servers_of ptr now ≠ 0 →
      ¬ (live_servers_of ptr now > ptr.ketama.continuum_count ∧ E.alloc_ok = false) →
      (update_continuum E ptr).2.ketama.continuum_count =
        (if live_servers_of ptr now > ptr.ketama.continuum_count then
          u32 (live_servers_of ptr now + E.MEMCACHED_CONTINUUM_ADDITION)
        else ptr.ketama.continuum_count) ∧
      ((continuum_loop E ptr now (memcached_server_count ptr)).failed = true →
        (update_continuum E ptr).1 = MEMCACHED_MEMORY_ALLOCATION_FAILURE ∧
        (update_continuum E ptr).2.ketama.continuum =
          write_points set_point (fresh_item E)
            (continuum_loop E ptr now (memcached_server_count ptr)).points
            ptr.ketama.continuum ∧
        (update_continuum E ptr).2.ketama.continuum_points_counter =
          ptr.ketama.continuum_points_counter) ∧
      ((continuum_loop E ptr now (memcached_server_count ptr)).failed = false →
        (update_continuum E ptr).1 = MEMCACHED_SUCCESS ∧
        (update_continuum E ptr).2.ketama.continuum =
          qsort continuum_item_cmp
            (write_points set_point (fresh_item E)
              (continuum_loop E ptr now (memcached_server_count ptr)).points
              ptr.ketama.continuum)
            (continuum_loop E ptr now (memcached_server_count ptr)).pointer_counter ∧
        (update_continuum E ptr).2.ketama.continuum_points_counter =
          (continuum_loop E ptr now (memcached_server_count ptr)).pointer_counter)) := by
  unfold update_continuum
  rw [hnow]
  dsimp only
  refine ⟨fun h0 => ?_, fun h0 ha => ?_, fun h0 ha => ?_⟩
  · rw [if_pos h0]
    exact ⟨rfl, rfl, rfl, rfl⟩
  · rw [if_neg h0, if_pos ha]
    exact ⟨rfl, rfl, rfl, rfl⟩
  · rw [if_neg h0, if_neg ha]
    by_cases hf : (continuum_loop E ptr now (memcached_server_count ptr)).failed = true
    · rw [if_pos hf]
      refine ⟨rfl, fun _ => ⟨rfl, rfl, rfl⟩, fun h => ?_⟩
      rw [hf] at h
      cases h
    · rw [if_neg hf]
      exact ⟨rfl, fun h => absurd h hf, fun _ => ⟨rfl, rfl, rfl⟩⟩

/-- Writing the same pairs a second time changes nothing. -/
theorem write_points_idem (fresh : memcached_continuum_item_st D) :
    ∀ (pts : List (Nat × Nat)) (buf : List (memcached_continuum_item_st D)),
      write_points set_point fresh pts (write_points set_point fresh pts buf) =
        write_points set_point fresh pts buf := by
  intro pts
  induction pts with
  | nil => intro buf; simp [write_points]
  | cons p ps ih =>
    intro buf
    cases buf with
    | nil => simp [write_points, set_point, ih]
    | cons b bs => simp [write_points, set_point, ih]

/-- The `(value, index)` pairs of the ring after the writes and `qsort` are the
first `c` written pairs in ascending order of value, whatever the buffer held. -/
theorem points_of_rebuilt_ring (fresh : memcached_continuum_item_st D)
    (pts : List (Nat × Nat)) (buf : List (memcached_continuum_item_st D)) (c : Nat)
    (hc : c ≤ pts.length) :
    points_of ((qsort continuum_item_cmp (write_points set_point fresh pts buf) c).take c) =
      (pts.take c).insertionSort (fun a b => a.1 ≤ b.1) := by
  have hlen := length_write_points set_point fresh pts buf
  rw [qsort_take _ _ _ (by omega)]
  have hmap := List.map_insertionSort
    (r := fun a b : memcached_continuum_item_st D => continuum_item_cmp a b ≤ 0)
    (s := fun a b : Nat × Nat => a.1 ≤ b.1)
    (fun p : memcached_continuum_item_st D => (p.value, p.index))
    ((write_points set_point fresh pts buf).take c)
    (fun a _ b _ => continuum_item_cmp_le a b)
  unfold points_of
  rw [hmap]
  congr 1
  have h1 := points_of_write_points set_point fresh (fun b q => ⟨rfl, rfl⟩) pts buf
  have h2 : (write_points set_point fresh pts buf).take c =
      ((write_points set_point fresh pts buf).take pts.length).take c := by
    rw [List.take_take, Nat.min_eq_left hc]
  rw [h2, List.map_take]
  unfold points_of at h1
  rw [h1]

/-- A second `update_continuum` returns what the first returned and leaves
the fleet, the counter and the `(value, index)` pairs of the ring as the first
left them. -/
theorem update_continuum_twice (E : Externals D) (ptr : memcached_st D) :
    (update_continuum E (update_continuum E ptr).2).1 = (update_continuum E ptr).1 ∧
    (update_continuum E (update_continuum E ptr).2).2.ketama.continuum_points_counter =
      (update_continuum E ptr).2.ketama.continuum_points_counter ∧
    points_of ((update_continuum E (update_continuum E ptr).2).2.ketama.continuum.take
        (update_continuum E ptr).2.ketama.continuum_points_counter) =
      points_of ((update_continuum E ptr).2.ketama.continuum.take
        (update_continuum E ptr).2.ketama.continuum_points_counter) := by
  cases hnow : E.gettimeofday with
  | none =>
    have hx : ∀ x : memcached_st D, update_continuum E x = (MEMCACHED_ERRNO, x) := by
      intro x
      unfold update_continuum
      rw [hnow]
    rw [hx ptr, hx ptr]
    exact ⟨rfl, rfl, rfl⟩
  | some now =>
    have hsf := update_continuum_same_fleet E ptr
    have hl := live_servers_of_congr _ _ now hsf
    have hb := continuum_loop_congr E _ _ now (memcached_server_count ptr) hsf
    have hn : memcached_server_count (update_continuum E ptr).2 = memcached_server_count ptr :=
      (same_fleet_reads _ _ hsf).2.2.2
    obtain ⟨a1, a2, a3⟩ := update_continuum_fields E ptr now hnow
    obtain ⟨b1, b2, b3⟩ := update_continuum_fields E (update_continuum E ptr).2 now hnow
    rw [hl] at b1 b2 b3
    rw [hn, hb] at b3
    by_cases h0 : live_servers_of ptr now = 0
    · obtain ⟨p1, p2, p3, -⟩ := a1 h0
      obtain ⟨q1, q2, q3, -⟩ := b1 h0
      exact ⟨by rw [q1, p1], q3, by rw [q2]⟩
    · by_cases ha : live_servers_of ptr now > ptr.ketama.continuum_count ∧ E.alloc_ok = false
      · obtain ⟨p1, p2, p3, p4⟩ := a2 h0 ha
        obtain ⟨q1, q2, q3, -⟩ := b2 h0 (by rw [p4]; exact ha)
        exact ⟨by rw [q1, p1], q3, by rw [q2]⟩
      · obtain ⟨p4, pf, ps⟩ := a3 h0 ha
        have ha2 : ¬ (live_servers_of ptr now >
            (update_continuum E ptr).2.ketama.continuum_count ∧ E.alloc_ok = false) := by
          rintro ⟨hgt, hal⟩
          rw [p4] at hgt
          by_cases hc : live_servers_of ptr now > ptr.ketama.continuum_count
          · exact ha ⟨hc, hal⟩
          · rw [if_neg hc] at hgt
            exact hc hgt
        obtain ⟨-, qf, qs⟩ := b3 h0 ha2
        by_cases hf : (continuum_loop E ptr now (memcached_server_count ptr)).failed = true
        · obtain ⟨p1, p2, p3⟩ := pf hf
          obtain ⟨q1, q2, q3⟩ := qf hf
          refine ⟨by rw [q1, p1], q3, ?_⟩
          rw [q2, p2, write_points_idem]
        · have hf2 : (continuum_loop E ptr now (memcached_server_count ptr)).failed = false := by
            simpa using hf
          obtain ⟨p1, p2, p3⟩ := ps hf2
          obtain ⟨q1, q2, q3⟩ := qs hf2
          obtain ⟨-, -, i3⟩ := continuum_loop_inv E ptr now (memcached_server_count ptr)
          obtain ⟨c1, -, -⟩ := i3 hf2
          have hle : (continuum_loop E ptr now (memcached_server_count ptr)).pointer_counter ≤
              (continuum_loop E ptr now (memcached_server_count ptr)).points.length := by
            rw [c1]
            unfold u32
            exact Nat.mod_le _ _
          refine ⟨by rw [q1, p1], by rw [q3, p3], ?_⟩
          rw [q2, p3, points_of_rebuilt_ring _ _ _ _ hle, p2, points_of_rebuilt_ring _ _ _ _ hle]

/-- A dynamic selector that `update_dynamic` finds up to date, or cannot
allocate for, is returned as it is. -/
theorem update_dynamic_fixed (E : Externals D) (s : memcached_st D) (now : Int)
    (hnow : E.gettimeofday = some now)
    (hc : live_servers_of s now = 0 ∨ s.dynamic.continuum_count = live_servers_of s now ∨
      E.alloc_ok = false)
    (hr : (if _is_auto_eject_host s then (count_live_servers s now).2
      else s.dynamic.next_distribution_rebuild) = s.dynamic.next_distribution_rebuild) :
    update_dynamic E s =
      (if live_servers_of s now = 0 ∨ s.dynamic.continuum_count = live_servers_of s now then
        MEMCACHED_SUCCESS else MEMCACHED_MEMORY_ALLOCATION_FAILURE, s) := by
  unfold update_dynamic
  rw [hnow]
  dsimp only
  rw [hr]
  by_cases h1 : live_servers_of s now = 0 ∨ s.dynamic.continuum_count = live_servers_of s now
  · rw [if_pos h1, if_pos h1]
  · have ha : E.alloc_ok = false := by
      rcases hc with h | h | h
      · exact absurd (Or.inl h) h1
      · exact absurd (Or.inr h) h1
      · exact h
    rw [if_neg h1, if_neg h1, if_pos ha]

/-- What `update_dynamic` returns and leaves in `continuum_count` and
`next_distribution_rebuild`, for a scheduler that records no server while it
has no ring. -/
theorem update_dynamic_settled (E : Externals D) (ptr : memcached_st D) (now : Int)
    (hnow : E.gettimeofday = some now)
    (hwf : ptr.dynamic.continuum_points_counter = 0 → ptr.dynamic.continuum_count = 0) :
    (update_dynamic E ptr).2.dynamic.next_distribution_rebuild =
      (if _is_auto_eject_host ptr then (count_live_servers ptr now).2
      else ptr.dynamic.next_distribution_rebuild) ∧
    ((live_servers_of ptr now = 0 ∨ ptr.dynamic.continuum_count = live_servers_of ptr now) →
      (update_dynamic E ptr).1 = MEMCACHED_SUCCESS ∧
      (update_dynamic E ptr).2.dynamic.continuum_count = ptr.dynamic.continuum_count) ∧
    (¬ (live_servers_of ptr now = 0 ∨ ptr.dynamic.continuum_count = live_servers_of ptr now) →
      E.alloc_ok = false →
      (update_dynamic E ptr).1 = MEMCACHED_MEMORY_ALLOCATION_FAILURE ∧
      (update_dynamic E ptr).2.dynamic.continuum_count = ptr.dynamic.continuum_count) ∧
    (¬ (live_servers_of ptr now = 0 ∨ ptr.dynamic.continuum_count = live_servers_of ptr now) →
      ¬ E.alloc_ok = false →
      (update_dynamic E ptr).1 = MEMCACHED_SUCCESS ∧
      (update_dynamic E ptr).2.dynamic.continuum_count = live_servers_of ptr now) := by
  unfold update_dynamic
  rw [hnow]
  dsimp only
  by_cases h1 : live_servers_of ptr now = 0 ∨
      ptr.dynamic.continuum_count = live_servers_of ptr now
  · rw [if_pos h1]
    exact ⟨rfl, fun _ => ⟨rfl, rfl⟩, fun h => absurd h1 h, fun h => absurd h1 h⟩
  · rw [if_neg h1]
    by_cases ha : E.alloc_ok = false
    · rw [if_pos ha]
      exact ⟨rfl, fun h => absurd h h1, fun _ _ => ⟨rfl, rfl⟩, fun _ h => absurd ha h⟩
    · rw [if_neg ha]
      by_cases hp : ptr.dynamic.continuum_points_counter = 0
      · rw [if_pos hp]
        have hgt : live_servers_of ptr now > ptr.dynamic.continuum_count := by
          rw [hwf hp]
          exact Nat.pos_of_ne_zero (fun h => h1 (Or.inl h))
        refine ⟨rfl, fun h => absurd h h1, fun _ h => absurd h ha, fun _ _ => ⟨rfl, ?_⟩⟩
        show (if live_servers_of ptr now > ptr.dynamic.continuum_count then
          live_servers_of ptr now else ptr.dynamic.continuum_count) = live_servers_of ptr now
        rw [if_pos hgt]
      · rw [if_neg hp]
        by_cases hg : live_servers_of ptr now > ptr.dynamic.continuum_count
        · rw [if_pos hg]
          exact ⟨rfl, fun h => absurd h h1, fun _ h => absurd h ha, fun _ _ => ⟨rfl, rfl⟩⟩
        · rw [if_neg hg]
          exact ⟨rfl, fun h => absurd h h1, fun _ h => absurd h ha, fun _ _ => ⟨rfl, rfl⟩⟩

/-- A second `update_dynamic` returns what the first returned and changes
nothing. -/
theorem update_dynamic_twice (E : Externals D) (ptr : memcached_st D)
    (hwf : ptr.dynamic.continuum_points_counter = 0 → ptr.dynamic.continuum_count = 0) :
    update_dynamic E (update_dynamic E ptr).2 =
      ((update_dynamic E ptr).1, (update_dynamic E ptr).2) := by
  cases hnow : E.gettimeofday with
  | none =>
    have hx : ∀ x : memcached_st D, update_dynamic E x = (MEMCACHED_ERRNO, x) := by
      intro x
      unfold update_dynamic
      rw [hnow]
    rw [hx ptr, hx ptr]
  | some now =>
    have hsf := update_dynamic_same_fleet E ptr
    have hl := live_servers_of_congr _ _ now hsf
    have hcl := count_live_servers_congr _ _ now hsf
    have hae := (same_fleet_reads _ _ hsf).2.1
    obtain ⟨r, e1, e2, e3⟩ := update_dynamic_settled E ptr now hnow hwf
    have hr : (if _is_auto_eject_host (update_dynamic E ptr).2 then
        (count_live_servers (update_dynamic E ptr).2 now).2
        else (update_dynamic E ptr).2.dynamic.next_distribution_rebuild) =
        (update_dynamic E ptr).2.dynamic.next_distribution_rebuild := by
      rw [hae, hcl]
      by_cases hx : _is_auto_eject_host ptr = true
      · rw [if_pos hx, r, if_pos hx]
      · rw [if_neg hx]
    by_cases h1 : live_servers_of ptr now = 0 ∨
        ptr.dynamic.continuum_count = live_servers_of ptr now
    · obtain ⟨s1, s2⟩ := e1 h1
      have h2 : live_servers_of (update_dynamic E ptr).2 now = 0 ∨
          (update_dynamic E ptr).2.dynamic.continuum_count =
            live_servers_of (update_dynamic E ptr).2 now := by
        rw [hl, s2]
        exact h1
      rw [update_dynamic_fixed E _ now hnow (by tauto) hr, if_pos h2, s1]
    · by_cases ha : E.alloc_ok = false
      · obtain ⟨s1, s2⟩ := e2 h1 ha
        have h2 : ¬ (live_servers_of (update_dynamic E ptr).2 now = 0 ∨
            (update_dynamic E ptr).2.dynamic.continuum_count =
              live_servers_of (update_dynamic E ptr).2 now) := by
          rw [hl, s2]
          exact h1
        rw [update_dynamic_fixed E _ now hnow (Or.inr (Or.inr ha)) hr, if_neg h2, s1]
      · obtain ⟨s1, s2⟩ := e3 h1 ha
        have h2 : live_servers_of (update_dynamic E ptr).2 now = 0 ∨
            (update_dynamic E ptr).2.dynamic.continuum_count =
              live_servers_of (update_dynamic E ptr).2 now := by
          rw [hl, s2]
          exact Or.inr rfl
        rw [update_dynamic_fixed E _ now hnow (by tauto) hr, if_pos h2, s1]

/-- After `run_distribution` the selector has the fleet, flags, strategy and
hash function of the ordered selector it rebuilt. -/
theorem run_distribution_same_fleet (E : Externals D) (ptr : memcached_st D) :
    same_fleet (run_distribution E ptr).2 (hosts_in_order ptr) := by
  unfold run_distribution
  cases (hosts_in_order ptr).distribution <;>
    first
    | exact update_continuum_same_fleet E _
    | exact update_dynamic_same_fleet E _
    | exact ⟨rfl, rfl, rfl, rfl, rfl, rfl⟩

/-- C19: `run_distribution` is idempotent on an unchanged fleet. With the
clock, the flags, the hash function and the fleet unchanged between the two
calls, the second of two successive calls leaves the fleet in the order the
first left it, whatever the strategy. Under the Ketama strategies the second
call returns the status of the first, leaves the same
`continuum_points_counter`, and the first `continuum_points_counter`
`(value, index)` pairs of the ring it rebuilds are those of the first call, in
the same order. Under the Dynamic strategies the second call returns the status
of the first and changes nothing in the selector. The hypothesis asks that
the scheduler block records no server while its ring is empty, as it is before
the first build (the source notes `live_servers > continuum_count` as "always
the case" there). Equal values keep their order of writing in `qsort` here. -/
theorem run_distribution_idempotent (E : Externals D) (ptr : memcached_st D)
    (hwf : ptr.dynamic.continuum_points_counter = 0 → ptr.dynamic.continuum_count = 0) :
    (run_distribution E (run_distribution E ptr).2).2.servers =
      (run_distribution E ptr).2.servers ∧
    (ketama_family ptr.distribution →
      (run_distribution E (run_distribution E ptr).2).1 = (run_distribution E ptr).1 ∧
      (run_distribution E (run_distribution E ptr).2).2.ketama.continuum_points_counter =
        (run_distribution E ptr).2.ketama.continuum_points_counter ∧
      points_of ((run_distribution E (run_distribution E ptr).2).2.ketama.continuum.take
          (run_distribution E ptr).2.ketama.continuum_points_counter) =
        points_of ((run_distribution E ptr).2.ketama.continuum.take
          (run_distribution E ptr).2.ketama.continuum_points_counter)) ∧
    (dynamic_family ptr.distribution →
      run_distribution E (run_distribution E ptr).2 = run_distribution E ptr) := by
  obtain ⟨-, -, f3, -, -, f6, -⟩ := hosts_in_order_frame ptr
  have hsf := run_distribution_same_fleet E ptr
  have hfix := hosts_in_order_fixed _ ptr hsf
  have hd : (run_distribution E ptr).2.distribution = (hosts_in_order ptr).distribution :=
    hsf.2.2.2.1
  refine ⟨?_, fun hk => ?_, fun hk => ?_⟩
  · have h2 := (run_distribution_same_fleet E (run_distribution E ptr).2).1
    rw [hfix] at h2
    exact h2
  · have hk1 : ketama_family (hosts_in_order ptr).distribution := by rw [f3]; exact hk
    have e1 := (run_distribution_eq E ptr).1 hk1
    have e2 := (run_distribution_eq E (run_distribution E ptr).2).1
      (by rw [hfix, hd]; exact hk1)
    rw [hfix] at e2
    rw [e2, e1]
    exact update_continuum_twice E (hosts_in_order ptr)
  · have hk1 : dynamic_family (hosts_in_order ptr).distribution := by rw [f3]; exact hk
    have e1 := (run_distribution_eq E ptr).2 hk1
    have e2 := (run_distribution_eq E (run_distribution E ptr).2).2
      (by rw [hfix, hd]; exact hk1)
    rw [hfix] at e2
    rw [e2, e1]
    exact update_dynamic_twice E (hosts_in_order ptr) (by rw [f6]; exact hwf)

theorem run_distribution_idempotent_witness :
    (sample_dynamic_fleet.dynamic.continuum_points_counter = 0 →
      sample_dynamic_fleet.dynamic.continuum_count = 0) ∧
    dynamic_family sample_dynamic_fleet.distribution ∧
    run_distribution sample_externals
        (run_distribution sample_externals sample_dynamic_fleet).2 =
      run_distribution sample_externals sample_dynamic_fleet ∧
    ketama_family sample_ketama_fleet.distribution ∧
    (run_distribution sample_externals
        (run_distribution sample_externals sample_ketama_fleet).2).2.ketama.continuum_points_counter
      = (run_distribution sample_externals sample_ketama_fleet).2.ketama.continuum_points_counter ∧
    points_of ((run_distribution sample_externals
        (run_distribution sample_externals sample_ketama_fleet).2).2.ketama.continuum.take
        (run_distribution sample_externals sample_ketama_fleet).2.ketama.continuum_points_counter)
      = points_of ((run_distribution sample_externals sample_ketama_fleet).2.ketama.continuum.take
        (run_distribution sample_externals sample_ketama_fleet).2.ketama.continuum_points_counter) :=
  ⟨fun _ => rfl, Or.inl rfl,
    (run_distribution_idempotent sample_externals sample_dynamic_fleet (fun _ => rfl)).2.2
      (Or.inl rfl),
    Or.inr (Or.inl rfl),
    ((run_distribution_idempotent sample_externals sample_ketama_fleet (fun _ => rfl)).2.1
      (Or.inr (Or.inl rfl))).2⟩

/-! ## Claim about `hs_round` (C26) -/

/-- The function `hs_round` is subtraction modulo `2^32`: the cast to
`int64_t` comes after the subtraction in `uint32_t`, so `diff` is never
negative. -/
theorem hs_round_eq (a b : Nat) (ha : a < 4294967296) (hb : b < 4294967296) :
    hs_round a b = (b + 4294967296 - a) % 4294967296 := by
  unfold hs_round
  have hd : ¬ ((u32 (u32 b + 4294967296 - u32 a) : Nat) : Int) < 0 := by omega
  simp only [hd, if_false]
  unfold u32_of_int u32
  rw [Nat.mod_eq_of_lt ha, Nat.mod_eq_of_lt hb]
  omega

/-- C26 (the claim fails as stated): for `a = b = 5` the claim's arc is
`b - a + 2^32 = 2^32`, and `hs_round 5 5` is 0. -/
theorem hs_round_of_equal_values :
    ¬ (5 > 5) ∧ hs_round 5 5 = 0 ∧ hs_round 5 5 ≠ 5 - 5 + 4294967296 := by
  decide

/-- C26 (amended): for all 32-bit values `a` and `b`, `hs_round a b` is
`b - a` if `b > a`, `b - a + 2^32` if `b < a`, and 0 if `a = b`: the difference
modulo `2^32`, a `uint32_t`. -/
theorem hs_round_arc (a b : Nat) (ha : a < 4294967296) (hb : b < 4294967296) :
    hs_round a b = (if b > a then b - a else if b < a then b + 4294967296 - a else 0) ∧
    hs_round a b = (b + 4294967296 - a) % 4294967296 ∧
    hs_round a b < 4294967296 := by
  rw [hs_round_eq a b ha hb]
  refine ⟨?_, rfl, Nat.mod_lt _ (by decide)⟩
  by_cases h1 : b > a
  · rw [if_pos h1]
    omega
  · rw [if_neg h1]
    by_cases h2 : b < a
    · rw [if_pos h2]
      omega
    · rw [if_neg h2]
      omega

/-- Witness of C26 (amended): the arc from 4294967290 to 10 is 16. -/
theorem hs_round_arc_witness :
    hs_round 4294967290 10 = 16 ∧ hs_round 4294967290 10 < 4294967296 :=
  ⟨(hs_round_arc 4294967290 10 (by decide) (by decide)).1.trans (by decide),
    (hs_round_arc 4294967290 10 (by decide) (by decide)).2.2⟩

/-! ## Claims about `memcached_server_remove` (C29, C30) -/

theorem strcmp_eq_zero (a b : String) : strcmp a b = 0 ↔ a = b := by
  unfold strcmp
  by_cases h1 : a < b
  · rw [if_pos h1]
    constructor
    · intro h
      cases h
    · intro h
      rw [h] at h1
      exact absurd h1 (lt_irrefl b)
  · rw [if_neg h1]
    by_cases h2 : a = b
    · rw [if_pos h2]
      exact ⟨fun _ => h2, fun _ => rfl⟩
    · rw [if_neg h2]
      constructor
      · intro h
        cases h
      · intro h
        exact absurd h h2

/-- The loops of `memcached_server_remove` with the test `strcmp(..) == 0`
read as equality of host names. -/
theorem remove_loops_eq (ptr : memcached_st D) (hostname : String) :
    find_instance ptr hostname =
      (List.range (memcached_server_count ptr)).find?
        (fun i => decide ((instance_at ptr i).hostname = hostname)) ∧
    remove_copy ptr hostname =
      ((List.range ptr.number_of_hosts).map (instance_at ptr)).filter
        (fun inst => decide (inst.hostname ≠ hostname)) ∧
    remove_idx ptr hostname =
      (List.range ptr.number_of_hosts).foldl
        (fun (removing_idx : Int) i =>
          if (instance_at ptr i).hostname ≠ hostname then removing_idx else (i : Int))
        (-1) := by
  unfold find_instance remove_copy remove_idx
  simp only [strcmp_eq_zero, ne_eq]
  exact ⟨trivial, trivial, trivial⟩

/-- The search loop finds nothing exactly when no instance among the first
`memcached_server_count` carries the host name. -/
theorem find_instance_none (ptr : memcached_st D) (hostname : String) :
    find_instance ptr hostname = none ↔
      ∀ i < memcached_server_count ptr, (instance_at ptr i).hostname ≠ hostname := by
  rw [(remove_loops_eq ptr hostname).1, List.find?_eq_none]
  constructor
  · intro h i hi he
    exact h i (List.mem_range.mpr hi) (by simpa using he)
  · intro h i hi hd
    exact h i (List.mem_range.mp hi) (by simpa using hd)

/-- What `memcached_server_remove` does once the host is found. -/
theorem memcached_server_remove_found (E : Externals D) (ptr : memcached_st D)
    (l : List memcached_server_st)
    (hfound : ∃ i, i < memcached_server_count ptr ∧
      (instance_at ptr i).hostname = (l.headD default).hostname) :
    memcached_server_remove E ptr (some l) =
      if u32 (memcached_server_count ptr + 4294967296 - u32 (memcached_server_list_count l)) ≤ 0
      then (MEMCACHED_SOME_ERRORS, ptr)
      else if E.alloc_ok = false then (MEMCACHED_MEMORY_ALLOCATION_FAILURE, ptr)
      else
        run_distribution E
          { ptr with
            servers := remove_copy ptr (l.headD default).hostname
            number_of_hosts :=
              u32 (ptr.number_of_hosts + 4294967296 - u32 (memcached_server_list_count l))
            dynamic := { ptr.dynamic with
              removing_idx := remove_idx ptr (l.headD default).hostname } } := by
  unfold memcached_server_remove
  dsimp only
  cases hf : find_instance ptr (l.headD default).hostname with
  | none =>
    obtain ⟨i, hi, he⟩ := hfound
    exact absurd he ((find_instance_none ptr _).mp hf i hi)
  | some i => rfl

/-- C29: for every fleet and every list whose first host name is the host name
of none of the `memcached_server_count` instances of the fleet,
`memcached_server_remove` returns `MEMCACHED_NOTFOUND` and leaves the whole
selector (fleet, `number_of_hosts`, `removing_idx`, rings) as it was. -/
theorem memcached_server_remove_unknown_host (E : Externals D) (ptr : memcached_st D)
    (l : List memcached_server_st)
    (hno : ∀ i < memcached_server_count ptr,
      (instance_at ptr i).hostname ≠ (l.headD default).hostname) :
    memcached_server_remove E ptr (some l) = (MEMCACHED_NOTFOUND, ptr) := by
  unfold memcached_server_remove
  dsimp only
  rw [(find_instance_none ptr _).mpr hno]

/-- Witness of C29: the host `10.0.9.9` is not in the sample fleet. -/
theorem memcached_server_remove_unknown_host_witness :
    memcached_server_remove sample_externals sample_dynamic_fleet (sample_removal "10.0.9.9") =
      (MEMCACHED_NOTFOUND, sample_dynamic_fleet) :=
  memcached_server_remove_unknown_host sample_externals sample_dynamic_fleet _ (by decide)

/-- C30 (the code departs from the claim): on a fleet of one server and a
removal list of count 2 whose first host name is that server's, the unsigned
difference `1 - 2` is `2^32 - 1`, the test `<= 0` does not hold, and
`memcached_server_remove` goes on: it returns `MEMCACHED_SUCCESS` (not
`MEMCACHED_SOME_ERRORS`), empties the fleet and leaves
`number_of_hosts = 2^32 - 1`. With count equal to the fleet size the test
holds. -/
theorem memcached_server_remove_count_above_fleet :
    memcached_server_count sample_modula_single = 1 ∧
    (memcached_server_remove sample_externals sample_modula_single sample_removal_two).1 =
      MEMCACHED_SUCCESS ∧
    (memcached_server_remove sample_externals sample_modula_single sample_removal_two).2.servers
      = [] ∧
    (memcached_server_remove sample_externals sample_modula_single
      sample_removal_two).2.number_of_hosts = 4294967295 ∧
    (memcached_server_remove sample_externals sample_modula_single
      (sample_removal "10.0.1.1")).1 = MEMCACHED_SOME_ERRORS := by
  have h2 := memcached_server_remove_found sample_externals sample_modula_single
    [{ hostname := "10.0.1.1", port := 11211, weight := 1, number_of_hosts := 2 },
     { hostname := "10.0.1.2", port := 11211, weight := 1, number_of_hosts := 0 }]
    ⟨0, by decide, by decide⟩
  have h1 := memcached_server_remove_found sample_externals sample_modula_single
    [{ hostname := "10.0.1.1", port := 11211, weight := 1, number_of_hosts := 1 }]
    ⟨0, by decide, by decide⟩
  have hc := (remove_loops_eq sample_modula_single "10.0.1.1").2.1
  refine ⟨rfl, ?_, ?_, ?_, ?_⟩
  · unfold sample_removal_two
    rw [h2]
    decide
  · unfold sample_removal_two
    rw [h2]
    show remove_copy sample_modula_single "10.0.1.1" = []
    rw [hc]
    decide
  · unfold sample_removal_two
    rw [h2]
    decide
  · unfold sample_removal
    rw [h1]
    decide

/-! ## Claim about the points of the initial dynamic ring (C21) -/

theorem slot_take (E : Externals D) (ring : List (memcached_continuum_item_st D)) (n k : Nat)
    (h : k < n) : slot E (ring.take n) k = slot E ring k := by
  simp only [slot, List.getD_eq_getElem?_getD, List.getElem?_take_of_lt h]

/-- The slots written by the incipient assignment loop have zeroed `get`,
`set` and `sum`. -/
theorem sched_write_points (E : Externals D) :
    ∀ (pts : List (Nat × Nat)) (buf : List (memcached_continuum_item_st D)) (k : Nat),
      k < pts.length →
      (slot E (write_points (init_point E) (fresh_item E) pts buf) k).sched.get = 0 ∧
      (slot E (write_points (init_point E) (fresh_item E) pts buf) k).sched.set = 0 ∧
      (slot E (write_points (init_point E) (fresh_item E) pts buf) k).sched.sum = 0 := by
  intro pts
  induction pts with
  | nil => intro buf k hk; cases hk
  | cons p ps ih =>
    intro buf k hk
    cases buf with
    | nil =>
      cases k with
      | zero => exact ⟨rfl, rfl, rfl⟩
      | succ k =>
        have h := ih [] k (by simpa using hk)
        simpa [slot, write_points] using h
    | cons b bs =>
      cases k with
      | zero => exact ⟨rfl, rfl, rfl⟩
      | succ k =>
        have h := ih bs k (by simpa using hk)
        simpa [slot, write_points] using h

/-- C21: after the initial dynamic build with `T = total_points >= 1` points
(`T` is a `uint32_t`, so at most `2^32 - 1`), the counter is `T` and for every
`k < T` point `k` has value `(0xFFFFFFFF / T) * (k + 1)`, a product that does
not wrap, index `set[k mod set_size]`, and `get = set = sum = 0`; the values
are strictly increasing in `k` and at most `2^32 - 1`. -/
theorem initial_build_points (E : Externals D) (ptr : memcached_st D) (now : Int)
    (hnow : E.gettimeofday = some now)
    (hok : (update_dynamic E ptr).1 = MEMCACHED_SUCCESS)
    (hlive : live_servers_of ptr now ≠ 0)
    (hcc : ptr.dynamic.continuum_count ≠ live_servers_of ptr now)
    (hempty : ptr.dynamic.continuum_points_counter = 0)
    (htotal : 1 ≤ initial_total_points E (live_servers_of ptr now)) :
    (update_dynamic E ptr).2.dynamic.continuum_points_counter =
      initial_total_points E (live_servers_of ptr now) ∧
    initial_total_points E (live_servers_of ptr now) ≤ 4294967295 ∧
    (∀ k < initial_total_points E (live_servers_of ptr now),
      value_at (update_dynamic E ptr).2.dynamic.continuum k =
        4294967295 / initial_total_points E (live_servers_of ptr now) * (k + 1) ∧
      index_at (update_dynamic E ptr).2.dynamic.continuum k =
        (incipient_set (live_servers_of ptr now)
          (initial_set_size (live_servers_of ptr now))).getD
          (k % initial_set_size (live_servers_of ptr now)) 0 ∧
      (slot E (update_dynamic E ptr).2.dynamic.continuum k).sched.get = 0 ∧
      (slot E (update_dynamic E ptr).2.dynamic.continuum k).sched.set = 0 ∧
      (slot E (update_dynamic E ptr).2.dynamic.continuum k).sched.sum = 0 ∧
      value_at (update_dynamic E ptr).2.dynamic.continuum k ≤ 4294967295) ∧
    (∀ j < initial_total_points E (live_servers_of ptr now), ∀ k < j,
      value_at (update_dynamic E ptr).2.dynamic.continuum k <
        value_at (update_dynamic E ptr).2.dynamic.continuum j) := by
  obtain ⟨d1, -, -⟩ := update_dynamic_rebuild E ptr now hnow hok hlive hcc
  obtain ⟨e1, e2⟩ := d1 hempty
  have hT : initial_total_points E (live_servers_of ptr now) < 4294967296 := by
    unfold initial_total_points u32
    exact Nat.mod_lt _ (by decide)
  have hunit : 1 ≤ 4294967295 / initial_total_points E (live_servers_of ptr now) :=
    (Nat.le_div_iff_mul_le (by omega)).mpr (by omega)
  have hdiv : 4294967295 / initial_total_points E (live_servers_of ptr now) *
      initial_total_points E (live_servers_of ptr now) ≤ 4294967295 := Nat.div_mul_le_self _ _
  have hval : ∀ k < initial_total_points E (live_servers_of ptr now),
      value_at (update_dynamic E ptr).2.dynamic.continuum k =
        4294967295 / initial_total_points E (live_servers_of ptr now) * (k + 1) ∧
      4294967295 / initial_total_points E (live_servers_of ptr now) * (k + 1) ≤ 4294967295 := by
    intro k hk
    have hle : 4294967295 / initial_total_points E (live_servers_of ptr now) * (k + 1) ≤
        4294967295 / initial_total_points E (live_servers_of ptr now) *
          initial_total_points E (live_servers_of ptr now) :=
      Nat.mul_le_mul_left _ (by omega)
    refine ⟨?_, by omega⟩
    have hr := (initial_ring_reads E ptr.dynamic (live_servers_of ptr now) k hk).1
    rw [e2]
    by_cases hg : live_servers_of ptr now > ptr.dynamic.continuum_count
    · rw [if_pos hg, value_at_take _ _ _ hk, hr]
      unfold u32
      exact Nat.mod_eq_of_lt (by omega)
    · rw [if_neg hg, hr]
      unfold u32
      exact Nat.mod_eq_of_lt (by omega)
  have hidx : ∀ k < initial_total_points E (live_servers_of ptr now),
      index_at (update_dynamic E ptr).2.dynamic.continuum k =
        (incipient_set (live_servers_of ptr now)
          (initial_set_size (live_servers_of ptr now))).getD
          (k % initial_set_size (live_servers_of ptr now)) 0 := by
    intro k hk
    have hr := (initial_ring_reads E ptr.dynamic (live_servers_of ptr now) k hk).2
    rw [e2]
    by_cases hg : live_servers_of ptr now > ptr.dynamic.continuum_count
    · rw [if_pos hg, index_at_take _ _ _ hk, hr]
    · rw [if_neg hg, hr]
  have hsched : ∀ k < initial_total_points E (live_servers_of ptr now),
      (slot E (update_dynamic E ptr).2.dynamic.continuum k).sched.get = 0 ∧
      (slot E (update_dynamic E ptr).2.dynamic.continuum k).sched.set = 0 ∧
      (slot E (update_dynamic E ptr).2.dynamic.continuum k).sched.sum = 0 := by
    intro k hk
    have hs := sched_write_points E
      (initial_points (live_servers_of ptr now) (initial_set_size (live_servers_of ptr now))
        (initial_total_points E (live_servers_of ptr now))) ptr.dynamic.continuum k
      (by rw [length_initial_points]; exact hk)
    rw [e2]
    by_cases hg : live_servers_of ptr now > ptr.dynamic.continuum_count
    · rw [if_pos hg, slot_take E _ _ _ hk]
      exact hs
    · rw [if_neg hg]
      exact hs
  refine ⟨e1, by omega, fun k hk => ⟨(hval k hk).1, hidx k hk, (hsched k hk).1,
    (hsched k hk).2.1, (hsched k hk).2.2, ?_⟩, fun j hj k hk => ?_⟩
  · rw [(hval k hk).1]
    exact (hval k hk).2
  · rw [(hval k (by omega)).1, (hval j hj).1]
    exact Nat.mul_lt_mul_of_pos_left (by omega) (by omega)

set_option maxRecDepth 100000 in
/-- Witness of C21: three live servers and `R = 1` give the indices
0, 1, 2, 0, 2, 1 at the values `715827882 * (k + 1)`. -/
theorem initial_build_points_witness :
    (∀ j < 6, ∀ k < j,
      value_at (update_dynamic sample_externals sample_dynamic_fleet).2.dynamic.continuum k <
        value_at (update_dynamic sample_externals sample_dynamic_fleet).2.dynamic.continuum j) ∧
    incipient_set 3 6 = [0, 1, 2, 0, 2, 1] ∧
    4294967295 / 6 = 715827882 ∧
    points_of (update_dynamic sample_externals sample_dynamic_fleet).2.dynamic.continuum =
      [(715827882, 0), (1431655764, 1), (2147483646, 2), (2863311528, 0),
       (3579139410, 2), (4294967292, 1)] :=
  ⟨(initial_build_points sample_externals sample_dynamic_fleet 1000 rfl (by decide) (by decide)
      (by decide) rfl (by decide)).2.2.2,
    by decide, by decide, by decide⟩

/-! ## Claim about the dynamic removal (C25) -/

/-- The ring a removal builds: the old points of the other servers in their
order, renumbered. -/
theorem removal_ring_eq (E : Externals D) (dyn : sched_dynamic D) :
    removal_ring E dyn =
      ((old_points E dyn).filter (fun p => decide (p.index ≠ u32_of_int dyn.removing_idx))).map
        (renumber (u32_of_int dyn.removing_idx)) := by
  unfold removal_ring old_points
  generalize List.range dyn.continuum_points_counter = l
  induction l with
  | nil => rfl
  | cons x xs ih =>
    rw [List.flatMap_cons, ih, List.map_cons, List.filter_cons]
    by_cases h1 : (slot E dyn.continuum x).index ≠ u32_of_int dyn.removing_idx
    · have hd : decide ((slot E dyn.continuum x).index ≠ u32_of_int dyn.removing_idx) = true :=
        decide_eq_true h1
      rw [if_pos h1, if_pos hd, List.map_cons]
      unfold renumber
      by_cases h2 : (slot E dyn.continuum x).index > u32_of_int dyn.removing_idx
      · rw [if_pos h2, if_pos h2]
        rfl
      · rw [if_neg h2, if_neg h2]
        rfl
    · have hd : ¬ decide ((slot E dyn.continuum x).index ≠ u32_of_int dyn.removing_idx) = true :=
        fun h => h1 (of_decide_eq_true h)
      rw [if_neg h1, if_neg hd]
      rfl

theorem removal_points_eq (E : Externals D) (dyn : sched_dynamic D) :
    removal_points E dyn =
      ((old_points E dyn).filter
        (fun p => decide (p.index = u32_of_int dyn.removing_idx))).length := by
  unfold removal_points old_points
  rw [List.filter_map, List.length_map]
  rfl

/-- The old points of a sorted ring are in ascending order of value. -/
theorem old_points_sorted (E : Externals D) (dyn : sched_dynamic D)
    (hs : ring_sorted dyn.continuum dyn.continuum_points_counter) :
    (old_points E dyn).Pairwise (fun a b => a.value ≤ b.value) := by
  unfold old_points
  rw [List.pairwise_map]
  refine List.Pairwise.imp_of_mem ?_ (List.pairwise_lt_range _)
  intro a b _ hb hab
  rw [slot_value, slot_value]
  exact hs b (List.mem_range.mp hb) a (by omega)

/-- On a ring in ascending order `qsort` changes nothing. -/
theorem qsort_of_sorted (ring : List (memcached_continuum_item_st D)) (n : Nat)
    (hs : ring.Pairwise (fun a b => a.value ≤ b.value)) :
    qsort continuum_item_cmp ring n = ring := by
  unfold qsort
  have h1 : List.Sorted (fun a b : memcached_continuum_item_st D => continuum_item_cmp a b ≤ 0)
      (ring.take n) := by
    refine List.Pairwise.imp ?_ (List.Pairwise.sublist (List.take_sublist n ring) hs)
    intro a b hab
    exact (continuum_item_cmp_le a b).mpr hab
  rw [List.Sorted.insertionSort_eq h1, List.take_append_drop]

/-- C25: a dynamic removal with `removing_idx = r` over a sorted ring of `P`
points leaves exactly the old points whose index is not `r`, in their old
order, with their values and counters, each index above `r` lowered by one
and each index below `r` kept; the new `continuum_points_counter` is `P`
minus the number of old points with index `r`. -/
theorem removal_keeps_other_points (E : Externals D) (ptr : memcached_st D) (now : Int)
    (hnow : E.gettimeofday = some now)
    (hok : (update_dynamic E ptr).1 = MEMCACHED_SUCCESS)
    (hlive : live_servers_of ptr now ≠ 0)
    (hlt : live_servers_of ptr now < ptr.dynamic.continuum_count)
    (hP : ptr.dynamic.continuum_points_counter ≠ 0)
    (hP32 : ptr.dynamic.continuum_points_counter < 4294967296)
    (hsorted : ring_sorted ptr.dynamic.continuum ptr.dynamic.continuum_points_counter) :
    (update_dynamic E ptr).2.dynamic.continuum =
      ((old_points E ptr.dynamic).filter
          (fun p => decide (p.index ≠ u32_of_int ptr.dynamic.removing_idx))).map
        (renumber (u32_of_int ptr.dynamic.removing_idx)) ∧
    (update_dynamic E ptr).2.dynamic.continuum_points_counter =
      ptr.dynamic.continuum_points_counter -
        ((old_points E ptr.dynamic).filter
          (fun p => decide (p.index = u32_of_int ptr.dynamic.removing_idx))).length ∧
    (update_dynamic E ptr).2.dynamic.continuum_points_counter =
      (update_dynamic E ptr).2.dynamic.continuum.length ∧
    (∀ p : memcached_continuum_item_st D,
      (renumber (u32_of_int ptr.dynamic.removing_idx) p).value = p.value ∧
      (renumber (u32_of_int ptr.dynamic.removing_idx) p).sched = p.sched ∧
      (p.index > u32_of_int ptr.dynamic.removing_idx →
        (renumber (u32_of_int ptr.dynamic.removing_idx) p).index = p.index - 1) ∧
      (p.index < u32_of_int ptr.dynamic.removing_idx →
        (renumber (u32_of_int ptr.dynamic.removing_idx) p).index = p.index)) := by
  obtain ⟨-, -, d3⟩ := update_dynamic_rebuild E ptr now hnow hok hlive (by omega)
  obtain ⟨e1, e2⟩ := d3 hP (by omega)
  have hlen := length_removal_ring E ptr.dynamic
  have hcnt : u32 (ptr.dynamic.continuum_points_counter + 4294967296
      - removal_points E ptr.dynamic) = (removal_ring E ptr.dynamic).length := by
    unfold u32
    omega
  have hring : (update_dynamic E ptr).2.dynamic.continuum = removal_ring E ptr.dynamic := by
    rw [e2]
    apply qsort_of_sorted
    rw [removal_ring_eq, List.pairwise_map]
    refine List.Pairwise.imp ?_
      (List.Pairwise.sublist (List.filter_sublist _) (old_points_sorted E ptr.dynamic hsorted))
    intro a b hab
    unfold renumber
    split <;> split <;> exact hab
  refine ⟨by rw [hring, removal_ring_eq], ?_, by rw [e1, hcnt, hring], ?_⟩
  · rw [e1, hcnt, ← removal_points_eq]
    omega
  · intro p
    unfold renumber
    refine ⟨?_, ?_, fun h => by rw [if_pos h], fun h => by rw [if_neg (by omega)]⟩
    · split <;> rfl
    · split <;> rfl

set_option maxRecDepth 100000 in
/-- Witness of C25: removing server 2 of the twelve point ring of the servers
0, 1, 2, 3 leaves the nine points of the servers 0, 1 and 3, the last renumbered
to 2. -/
theorem removal_keeps_other_points_witness :
    points_of sample_dynamic_four_shrunk.dynamic.continuum =
      [(357913941, 0), (715827882, 1), (1073741823, 2), (1431655764, 3), (1789569705, 0),
       (2147483646, 2), (2505397587, 0), (2863311528, 3), (3221225469, 1), (3579139410, 3),
       (3937053351, 2), (4294967292, 1)] ∧
    points_of (update_dynamic sample_externals sample_dynamic_four_shrunk).2.dynamic.continuum =
      [(357913941, 0), (715827882, 1), (1431655764, 2), (1789569705, 0), (2505397587, 0),
       (2863311528, 2), (3221225469, 1), (3579139410, 2), (4294967292, 1)] ∧
    (update_dynamic sample_externals sample_dynamic_four_shrunk).2.dynamic.continuum_points_counter
      = 12 - 3 :=
  ⟨by decide, by decide,
    (removal_keeps_other_points sample_externals sample_dynamic_four_shrunk 1000 rfl (by decide)
      (by decide) (by decide) (by decide) (by decide) (by decide)).2.1.trans (by decide)⟩

/-! ## Claims about the dynamic addition (C23, C24) -/

theorem addition_ring_eq (E : Externals D) (dyn : sched_dynamic D) (live_servers : Nat) :
    addition_ring E dyn live_servers =
      (List.range dyn.continuum_points_counter).flatMap
        (fun j =>
          if (slot E dyn.continuum j).index = max_usage_server E dyn then
            [addition_point E dyn live_servers j, slot E dyn.continuum j]
          else [slot E dyn.continuum j]) :=
  rfl

theorem flatMap_insert_perm {α : Type} (P : Nat → Prop) [DecidablePred P] (a b : Nat → α) :
    ∀ l : List Nat,
      List.Perm (l.flatMap (fun j => if P j then [a j, b j] else [b j]))
        (l.map b ++ (l.filter (fun j => decide (P j))).map a) := by
  intro l
  induction l with
  | nil => exact List.Perm.refl _
  | cons x xs ih =>
    rw [List.flatMap_cons, List.map_cons, List.filter_cons]
    by_cases hx : P x
    · rw [if_pos hx, if_pos (decide_eq_true hx), List.map_cons]
      have h1 : List.Perm ([a x, b x] ++ xs.flatMap (fun j => if P j then [a j, b j] else [b j]))
          ([a x, b x] ++ (xs.map b ++ (xs.filter (fun j => decide (P j))).map a)) :=
        List.Perm.append_left _ ih
      refine h1.trans ?_
      have h2 : List.Perm (a x :: (xs.map b ++ (xs.filter (fun j => decide (P j))).map a))
          (xs.map b ++ a x :: (xs.filter (fun j => decide (P j))).map a) :=
        List.perm_middle.symm
      exact (List.Perm.swap (b x) (a x) _).trans (List.Perm.cons (b x) h2)
    · rw [if_neg hx, if_neg (fun h => hx (of_decide_eq_true h))]
      exact List.Perm.cons (b x) ih

/-- The ring an addition builds holds the old points and one new point for
each old point of the chosen server. -/
theorem addition_ring_perm (E : Externals D) (dyn : sched_dynamic D) (live_servers : Nat) :
    List.Perm (addition_ring E dyn live_servers)
      (old_points E dyn ++
        ((List.range dyn.continuum_points_counter).filter
          (fun j => decide ((slot E dyn.continuum j).index = max_usage_server E dyn))).map
          (addition_point E dyn live_servers)) := by
  rw [addition_ring_eq]
  exact flatMap_insert_perm _ _ _ _

theorem addition_srv_num_eq (E : Externals D) (dyn : sched_dynamic D) :
    addition_srv_num E dyn =
      ((old_points E dyn).filter
        (fun p => decide (p.index = max_usage_server E dyn))).length := by
  unfold addition_srv_num old_points
  rw [List.filter_map, List.length_map]
  rfl

/-- The loop over `usagerate`: after `n` servers the pair `(max_cost, max_id)`. -/
theorem max_usage_loop (E : Externals D) (dyn : sched_dynamic D) (hw : dgt_strict_weak E) :
    ∀ n, ∃ best id,
      (List.range n).foldl
        (fun (acc : D × Nat) host_index =>
          if E.dgt (dyn.servers.getD host_index (fresh_item E).sched).usagerate acc.1 then
            ((dyn.servers.getD host_index (fresh_item E).sched).usagerate, host_index)
          else acc)
        (E.dzero, 0) = (best, id) ∧
      ((best = E.dzero ∧ id = 0 ∧ ∀ h < n, E.dgt (usage_of E dyn h) E.dzero = false) ∨
       (id < n ∧ best = usage_of E dyn id ∧ E.dgt (usage_of E dyn id) E.dzero = true ∧
        (∀ h < n, E.dgt (usage_of E dyn h) (usage_of E dyn id) = false) ∧
        (∀ h < id, E.dgt (usage_of E dyn id) (usage_of E dyn h) = true))) := by
  obtain ⟨hirr, htr, hneg⟩ := hw
  intro n
  induction n with
  | zero => exact ⟨E.dzero, 0, rfl, Or.inl ⟨rfl, rfl, fun h hh => by omega⟩⟩
  | succ n ih =>
    obtain ⟨best, id, hfold, hinv⟩ := ih
    rw [List.range_succ, List.foldl_append, hfold]
    simp only [List.foldl_cons, List.foldl_nil]
    change ∃ best2 id2, (if E.dgt (usage_of E dyn n) best = true then (usage_of E dyn n, n)
      else (best, id)) = (best2, id2) ∧ _
    by_cases hg : E.dgt (usage_of E dyn n) best = true
    · rw [if_pos hg]
      refine ⟨_, _, rfl, Or.inr ⟨by omega, rfl, ?_, ?_, ?_⟩⟩
      · rcases hinv with ⟨hb, -, -⟩ | ⟨-, hb, hpos, -, -⟩
        · rw [← hb]; exact hg
        · rw [hb] at hg
          exact htr _ _ _ hg hpos
      · intro h hh
        rcases Nat.lt_succ_iff_lt_or_eq.mp hh with hlt | heq
        · cases hd : E.dgt (usage_of E dyn h) (usage_of E dyn n) with
          | false => rfl
          | true =>
            have h2 := htr _ _ _ hd hg
            rcases hinv with ⟨hb, -, hall⟩ | ⟨-, hb, -, hall, -⟩
            · rw [hb, hall h hlt] at h2
              cases h2
            · rw [hb, hall h hlt] at h2
              cases h2
        · rw [heq]
          exact hirr _
      · intro h hh
        rcases hneg _ (usage_of E dyn h) _ hg with h1 | h1
        · exact h1
        · rcases hinv with ⟨hb, -, hall⟩ | ⟨-, hb, -, hall, -⟩
          · rw [hb, hall h hh] at h1
            cases h1
          · rw [hb, hall h hh] at h1
            cases h1
    · rw [if_neg hg]
      have hg2 : E.dgt (usage_of E dyn n) best = false := by simpa using hg
      refine ⟨_, _, rfl, ?_⟩
      rcases hinv with ⟨hb, hid, hall⟩ | ⟨hid, hb, hpos, hall, hlow⟩
      · refine Or.inl ⟨hb, hid, fun h hh => ?_⟩
        rcases Nat.lt_succ_iff_lt_or_eq.mp hh with hlt | heq
        · exact hall h hlt
        · rw [heq, ← hb]
          exact hg2
      · refine Or.inr ⟨by omega, hb, hpos, fun h hh => ?_, hlow⟩
        rcases Nat.lt_succ_iff_lt_or_eq.mp hh with hlt | heq
        · exact hall h hlt
        · rw [heq, ← hb]
          exact hg2

/-- The server an addition chooses is the lowest numbered among the existing
servers of strictly greatest `usagerate`, and server 0 when no `usagerate` is
above 0. -/
theorem max_usage_server_spec (E : Externals D) (dyn : sched_dynamic D)
    (hw : dgt_strict_weak E) :
    ((∀ h < dyn.continuum_count, E.dgt (usage_of E dyn h) E.dzero = false) →
      max_usage_server E dyn = 0) ∧
    ((∃ h < dyn.continuum_count, E.dgt (usage_of E dyn h) E.dzero = true) →
      max_usage_server E dyn < dyn.continuum_count ∧
      (∀ h < dyn.continuum_count,
        E.dgt (usage_of E dyn h) (usage_of E dyn (max_usage_server E dyn)) = false) ∧
      (∀ h < max_usage_server E dyn,
        E.dgt (usage_of E dyn (max_usage_server E dyn)) (usage_of E dyn h) = true)) := by
  obtain ⟨best, id, hfold, hinv⟩ := max_usage_loop E dyn hw dyn.continuum_count
  have hm : max_usage_server E dyn = id := by
    unfold max_usage_server
    rw [hfold]
  rw [hm]
  constructor
  · intro hall
    rcases hinv with ⟨-, hid, -⟩ | ⟨hid, -, hpos, -, -⟩
    · exact hid
    · rw [hall id hid] at hpos
      cases hpos
  · rintro ⟨h, hh, hpos⟩
    rcases hinv with ⟨-, -, hall⟩ | ⟨hid, -, -, hall, hlow⟩
    · rw [hall h hh] at hpos
      cases hpos
    · exact ⟨hid, hall, hlow⟩


/-- C23: a dynamic addition (the live servers outnumber `continuum_count`)
over a ring of `P >= 1` points yields a ring of exactly `P + n` points, `n`
the number of old points of the chosen server `m`: the ring is a rearrangement
of the `P` old points, kept with their values, indices and counters, and `n`
new points, each with index `live_servers - 1` and `get = set = sum = 0`. The
chosen server `m` is the lowest numbered server below `continuum_count` whose
`usagerate` no other exceeds, and server 0 when no `usagerate` exceeds 0. -/
theorem addition_adds_points (E : Externals D) (ptr : memcached_st D) (now : Int)
    (hnow : E.gettimeofday = some now)
    (hok : (update_dynamic E ptr).1 = MEMCACHED_SUCCESS)
    (hgt : live_servers_of ptr now > ptr.dynamic.continuum_count)
    (hP : ptr.dynamic.continuum_points_counter ≠ 0)
    (hfit : ptr.dynamic.continuum_points_counter + addition_srv_num E ptr.dynamic < 4294967296)
    (hL : live_servers_of ptr now < 4294967296)
    (hw : dgt_strict_weak E) :
    (update_dynamic E ptr).2.dynamic.continuum_points_counter =
      ptr.dynamic.continuum_points_counter +
        ((old_points E ptr.dynamic).filter
          (fun p => decide (p.index = max_usage_server E ptr.dynamic))).length ∧
    (update_dynamic E ptr).2.dynamic.continuum.length =
      (update_dynamic E ptr).2.dynamic.continuum_points_counter ∧
    List.Perm (update_dynamic E ptr).2.dynamic.continuum
      (old_points E ptr.dynamic ++
        ((List.range ptr.dynamic.continuum_points_counter).filter
          (fun j => decide ((slot E ptr.dynamic.continuum j).index =
            max_usage_server E ptr.dynamic))).map
          (addition_point E ptr.dynamic (live_servers_of ptr now))) ∧
    (((List.range ptr.dynamic.continuum_points_counter).filter
          (fun j => decide ((slot E ptr.dynamic.continuum j).index =
            max_usage_server E ptr.dynamic))).map
          (addition_point E ptr.dynamic (live_servers_of ptr now))).length =
      ((old_points E ptr.dynamic).filter
        (fun p => decide (p.index = max_usage_server E ptr.dynamic))).length ∧
    (∀ j, (addition_point E ptr.dynamic (live_servers_of ptr now) j).index =
        live_servers_of ptr now - 1 ∧
      (addition_point E ptr.dynamic (live_servers_of ptr now) j).sched.get = 0 ∧
      (addition_point E ptr.dynamic (live_servers_of ptr now) j).sched.set = 0 ∧
      (addition_point E ptr.dynamic (live_servers_of ptr now) j).sched.sum = 0) ∧
    ((∀ h < ptr.dynamic.continuum_count,
        E.dgt (usage_of E ptr.dynamic h) E.dzero = false) →
      max_usage_server E ptr.dynamic = 0) ∧
    ((∃ h < ptr.dynamic.continuum_count,
        E.dgt (usage_of E ptr.dynamic h) E.dzero = true) →
      max_usage_server E ptr.dynamic < ptr.dynamic.continuum_count ∧
      (∀ h < ptr.dynamic.continuum_count,
        E.dgt (usage_of E ptr.dynamic h)
          (usage_of E ptr.dynamic (max_usage_server E ptr.dynamic)) = false) ∧
      (∀ h < max_usage_server E ptr.dynamic,
        E.dgt (usage_of E ptr.dynamic (max_usage_server E ptr.dynamic))
          (usage_of E ptr.dynamic h) = true)) := by
  obtain ⟨-, d2, -⟩ := update_dynamic_rebuild E ptr now hnow hok (by omega) (by omega)
  obtain ⟨e1, e2⟩ := d2 hP hgt
  have hlen := length_addition_ring E ptr.dynamic (live_servers_of ptr now)
  have hcnt : u32 (ptr.dynamic.continuum_points_counter + addition_srv_num E ptr.dynamic) =
      ptr.dynamic.continuum_points_counter + addition_srv_num E ptr.dynamic :=
    Nat.mod_eq_of_lt hfit
  obtain ⟨m1, m2⟩ := max_usage_server_spec E ptr.dynamic hw
  refine ⟨by rw [e1, hcnt, addition_srv_num_eq], by rw [e1, e2, length_qsort, hlen, hcnt], ?_, ?_,
    ?_, m1, m2⟩
  · rw [e2]
    exact (qsort_perm _ _ _).trans (addition_ring_perm E ptr.dynamic _)
  · unfold old_points
    rw [List.length_map, List.filter_map, List.length_map]
    rfl
  · intro j
    refine ⟨?_, rfl, rfl, rfl⟩
    show u32 (live_servers_of ptr now + 4294967295) = live_servers_of ptr now - 1
    unfold u32
    omega

/-- The comparison of the sample externals is the order of the rationals. -/
theorem sample_externals_dgt : dgt_strict_weak sample_externals := by
  refine ⟨fun a => ?_, fun a b c h1 h2 => ?_, fun a b c h => ?_⟩
  · exact decide_eq_false (lt_irrefl a)
  · exact decide_eq_true (lt_trans (of_decide_eq_true h2) (of_decide_eq_true h1))
  · have hac : c < a := of_decide_eq_true h
    rcases lt_or_le b a with hb | hb
    · exact Or.inl (decide_eq_true hb)
    · exact Or.inr (decide_eq_true (lt_of_lt_of_le hac hb))

set_option maxRecDepth 100000 in
/-- Witness of C23: a fourth server joins the six point ring of three servers
whose `usagerate` is 0; server 0 is chosen, it owns 2 points, and the new ring
has 8 points, 2 of them of server 3. -/
theorem addition_adds_points_witness :
    max_usage_server sample_externals sample_dynamic_grown.dynamic = 0 ∧
    (update_dynamic sample_externals sample_dynamic_grown).2.dynamic.continuum_points_counter =
      6 + 2 ∧
    points_of (update_dynamic sample_externals sample_dynamic_grown).2.dynamic.continuum =
      [(357913939, 3), (715827882, 0), (1431655764, 1), (2147483646, 2), (2505397587, 3),
       (2863311528, 0), (3579139410, 2), (4294967292, 1)] :=
  ⟨by decide,
    (addition_adds_points sample_externals sample_dynamic_grown 1000 rfl (by decide) (by decide)
      (by decide) (by decide) (by decide) sample_externals_dgt).1.trans (by decide),
    by decide⟩


/-- C24 (the claim fails as stated): on the ring of the single point
`(2^32 - 1, 0)` an addition inserts a point of value `2^32 - 1`, the value of
the old point; with an arc of `2^32` the midpoint would be
`2^32 - 1 - 2^31 = 2147483647`. -/
theorem addition_single_point_keeps_value :
    points_of sample_dynamic_single_grown.dynamic.continuum = [(4294967295, 0)] ∧
    (update_dynamic sample_externals sample_dynamic_single_grown).1 = MEMCACHED_SUCCESS ∧
    points_of (update_dynamic sample_externals sample_dynamic_single_grown).2.dynamic.continuum =
      [(4294967295, 1), (4294967295, 0)] ∧
    (4294967295 + 4294967296 - 4294967296 / 2) % 4294967296 = 2147483647 := by
  decide

/-- C24 (amended): in a dynamic addition over a ring of `P >= 1` points, for
every old point at position `j` owned by the chosen server the ring receives a
point whose value is `(v - arc / 2) mod 2^32`, where `v` is the old point's
value, `v_prev` the value at position `(j - 1) mod P` and
`arc = hs_round(v_prev, v)`: `v - v_prev` if `v > v_prev`,
`v - v_prev + 2^32` if `v < v_prev`, and 0 if `v = v_prev` (as when the point is
the only one; the new point then has the value `v`). The new point splits the
arc: from it to the old point are `arc / 2`, from the predecessor to it the
rest, and the two parts differ by at most 1. -/
theorem addition_point_value (E : Externals D) (ptr : memcached_st D) (now : Int)
    (hnow : E.gettimeofday = some now)
    (hok : (update_dynamic E ptr).1 = MEMCACHED_SUCCESS)
    (hgt : live_servers_of ptr now > ptr.dynamic.continuum_count)
    (hP : ptr.dynamic.continuum_points_counter ≠ 0)
    (hfit : ptr.dynamic.continuum_points_counter + addition_srv_num E ptr.dynamic < 4294967296)
    (hv : ∀ k < ptr.dynamic.continuum_points_counter,
      value_at ptr.dynamic.continuum k < 4294967296)
    (j : Nat) (hj : j < ptr.dynamic.continuum_points_counter)
    (hm : (slot E ptr.dynamic.continuum j).index = max_usage_server E ptr.dynamic) :
    addition_point E ptr.dynamic (live_servers_of ptr now) j ∈
      (update_dynamic E ptr).2.dynamic.continuum ∧
    (ptr.dynamic.continuum_points_counter ≤ 2147483648 →
      ring_prev ptr.dynamic.continuum_points_counter j =
        (j + ptr.dynamic.continuum_points_counter - 1) % ptr.dynamic.continuum_points_counter) ∧
    arc_before ptr.dynamic j =
      (if value_at ptr.dynamic.continuum j >
          value_at ptr.dynamic.continuum (ring_prev ptr.dynamic.continuum_points_counter j) then
        value_at ptr.dynamic.continuum j -
          value_at ptr.dynamic.continuum (ring_prev ptr.dynamic.continuum_points_counter j)
      else if value_at ptr.dynamic.continuum j <
          value_at ptr.dynamic.continuum (ring_prev ptr.dynamic.continuum_points_counter j) then
        value_at ptr.dynamic.continuum j + 4294967296 -
          value_at ptr.dynamic.continuum (ring_prev ptr.dynamic.continuum_points_counter j)
      else 0) ∧
    (addition_point E ptr.dynamic (live_servers_of ptr now) j).value =
      (value_at ptr.dynamic.continuum j + 4294967296 - arc_before ptr.dynamic j / 2)
        % 4294967296 ∧
    hs_round (addition_point E ptr.dynamic (live_servers_of ptr now) j).value
      (value_at ptr.dynamic.continuum j) = arc_before ptr.dynamic j / 2 ∧
    hs_round (value_at ptr.dynamic.continuum (ring_prev ptr.dynamic.continuum_points_counter j))
      (addition_point E ptr.dynamic (live_servers_of ptr now) j).value =
        arc_before ptr.dynamic j - arc_before ptr.dynamic j / 2 ∧
    arc_before ptr.dynamic j - arc_before ptr.dynamic j / 2 - arc_before ptr.dynamic j / 2 ≤ 1 ∧
    arc_before ptr.dynamic j / 2 ≤ arc_before ptr.dynamic j - arc_before ptr.dynamic j / 2 := by
  obtain ⟨-, d2, -⟩ := update_dynamic_rebuild E ptr now hnow hok (by omega) (by omega)
  obtain ⟨-, e2⟩ := d2 hP hgt
  have hi : ring_prev ptr.dynamic.continuum_points_counter j <
      ptr.dynamic.continuum_points_counter := by
    unfold ring_prev
    exact Nat.mod_lt _ (by omega)
  have hvi := hv _ hi
  have hvj := hv j hj
  obtain ⟨a1, a2, a3⟩ := hs_round_arc _ _ hvi hvj
  have hval : (addition_point E ptr.dynamic (live_servers_of ptr now) j).value =
      hs_round (arc_before ptr.dynamic j / 2) (value_at ptr.dynamic.continuum j) := rfl
  have harc : arc_before ptr.dynamic j =
      hs_round (value_at ptr.dynamic.continuum (ring_prev ptr.dynamic.continuum_points_counter j))
        (value_at ptr.dynamic.continuum j) := rfl
  have hnv := hs_round_eq (arc_before ptr.dynamic j / 2) (value_at ptr.dynamic.continuum j)
    (by rw [harc]; omega) hvj
  have hnvlt : hs_round (arc_before ptr.dynamic j / 2) (value_at ptr.dynamic.continuum j) <
      4294967296 := by
    rw [hnv]
    exact Nat.mod_lt _ (by decide)
  refine ⟨?_, ?_, a1, ?_, ?_, ?_, by omega, by omega⟩
  · rw [e2]
    apply (qsort_perm _ _ _).mem_iff.mpr
    apply (addition_ring_perm E ptr.dynamic _).mem_iff.mpr
    apply List.mem_append_right
    apply List.mem_map_of_mem
    exact List.mem_filter.mpr ⟨List.mem_range.mpr hj, decide_eq_true hm⟩
  · intro h31
    unfold ring_prev u32
    rcases Nat.eq_zero_or_pos j with h0 | h0
    · rw [h0]
      have e : (0 + 4294967295) % 4294967296 = 4294967295 := by decide
      rw [e]
      have e2 : (4294967295 + ptr.dynamic.continuum_points_counter) % 4294967296 =
          ptr.dynamic.continuum_points_counter - 1 := by omega
      rw [e2, Nat.zero_add]
    · have e : (j + 4294967295) % 4294967296 = j - 1 := by omega
      rw [e]
      have e2 : (j - 1 + ptr.dynamic.continuum_points_counter) % 4294967296 =
          j + ptr.dynamic.continuum_points_counter - 1 := by omega
      rw [e2]
  · rw [hval, hnv]
  · rw [hval, hs_round_eq _ _ hnvlt hvj, hnv]
    rw [harc, a2]
    omega
  · rw [hval, hs_round_eq _ _ hvi hnvlt, hnv]
    rw [harc, a2]
    omega

set_option maxRecDepth 100000 in
/-- Witness of C24 (amended): in the addition to the six point ring of three
servers, the point before `(715827882, 0)` (position 0, predecessor
`4294967292`, arc `715827886`) has the value `715827882 - 357913943`. -/
theorem addition_point_value_witness :
    arc_before sample_dynamic_grown.dynamic 0 = 715827886 ∧
    (addition_point sample_externals sample_dynamic_grown.dynamic 4 0).value = 357913939 ∧
    addition_point sample_externals sample_dynamic_grown.dynamic
        (live_servers_of sample_dynamic_grown 1000) 0 ∈
      (update_dynamic sample_externals sample_dynamic_grown).2.dynamic.continuum :=
  ⟨by decide, by decide,
    (addition_point_value sample_externals sample_dynamic_grown 1000 rfl (by decide) (by decide)
      (by decide) (by decide) (by decide) 0 (by decide) (by decide)).1⟩

/-! ## Claim about the sum of the arcs (C27) -/

theorem getElem?_modify_at {α : Type} (f : α → α) :
    ∀ (l : List α) (i h : Nat),
      (modify_at f l i)[h]? = if h = i then (l[h]?).map f else l[h]? := by
  intro l
  induction l with
  | nil => intro i h; cases i <;> simp [modify_at]
  | cons x xs ih =>
    intro i h
    cases i with
    | zero =>
      cases h with
      | zero => simp [modify_at]
      | succ h => simp [modify_at]
    | succ i =>
      cases h with
      | zero => simp [modify_at]
      | succ h => simp [modify_at, ih i h]

/-- A sum of successive differences of a monotone sequence telescopes. -/
theorem sum_differences (f : Nat → Nat) :
    ∀ m, (∀ j < m, f j ≤ f (j + 1)) →
      f 0 ≤ f m ∧ ((List.range m).map (fun j => f (j + 1) - f j)).sum = f m - f 0 := by
  intro m
  induction m with
  | zero => intro _; exact ⟨le_refl _, by simp⟩
  | succ m ih =>
    intro hmono
    obtain ⟨h1, h2⟩ := ih (fun j hj => hmono j (by omega))
    have h3 := hmono m (by omega)
    refine ⟨by omega, ?_⟩
    rw [List.range_succ, List.map_append, List.sum_append, h2]
    simp only [List.map_cons, List.map_nil, List.sum_cons, List.sum_nil]
    omega

theorem ring_next_lt (P j : Nat) (hP : P < 4294967296) (hj : j + 1 < P) :
    ring_next P j = j + 1 := by
  unfold ring_next u32
  have e : (j + 1) % 4294967296 = j + 1 := Nat.mod_eq_of_lt (by omega)
  rw [e, Nat.mod_eq_of_lt hj]

theorem ring_next_last (P : Nat) (hP : P < 4294967296) (h1 : 1 ≤ P) :
    ring_next P (P - 1) = 0 := by
  unfold ring_next u32
  have h : P - 1 + 1 = P := by omega
  rw [h, Nat.mod_eq_of_lt hP, Nat.mod_self]

/-- The arcs of a ring in ascending order sum to `2^32`, or to 0 when its
first and last values are equal. -/
theorem ring_arc_sum (dyn : sched_dynamic D)
    (hP : 1 ≤ dyn.continuum_points_counter) (hP32 : dyn.continuum_points_counter < 4294967296)
    (hs : ring_sorted dyn.continuum dyn.continuum_points_counter)
    (hv : ∀ k < dyn.continuum_points_counter, value_at dyn.continuum k < 4294967296) :
    ((List.range dyn.continuum_points_counter).map (ring_arc dyn)).sum =
      if value_at dyn.continuum 0 = value_at dyn.continuum (dyn.continuum_points_counter - 1)
      then 0 else 4294967296 := by
  obtain ⟨n, hn⟩ : ∃ n, dyn.continuum_points_counter = n + 1 := ⟨_, (Nat.sub_add_cancel hP).symm⟩
  have hmono : ∀ j < n, value_at dyn.continuum j ≤ value_at dyn.continuum (j + 1) :=
    fun j hj => hs (j + 1) (by omega) j (by omega)
  obtain ⟨t1, t2⟩ := sum_differences (value_at dyn.continuum) n hmono
  have hinner : (List.range n).map (ring_arc dyn) =
      (List.range n).map (fun j => value_at dyn.continuum (j + 1) - value_at dyn.continuum j) := by
    apply List.map_congr_left
    intro j hj
    have hj2 : j < n := List.mem_range.mp hj
    unfold ring_arc
    rw [ring_next_lt _ _ hP32 (by omega),
      hs_round_eq _ _ (hv j (by omega)) (hv (j + 1) (by omega))]
    have := hmono j hj2
    have := hv (j + 1) (by omega)
    omega
  have hlast : ring_arc dyn n =
      (value_at dyn.continuum 0 + 4294967296 - value_at dyn.continuum n) % 4294967296 := by
    unfold ring_arc
    have e : ring_next dyn.continuum_points_counter n = 0 := by
      have := ring_next_last _ hP32 hP
      rw [hn] at this ⊢
      exact this
    rw [e, hs_round_eq _ _ (hv n (by omega)) (hv 0 (by omega))]
  rw [hn, List.range_succ, List.map_append, List.sum_append, hinner, t2]
  simp only [List.map_cons, List.map_nil, List.sum_cons, List.sum_nil, Nat.add_sub_cancel]
  rw [hlast]
  have := hv n (by omega)
  have := hv 0 (by omega)
  split <;> omega

/-- The first loop of the controller tick clears the servers below
`continuum_count` and leaves the others. -/
theorem sched_clear_servers_reads (E : Externals D) (dyn : sched_dynamic D) (h : Nat) :
    (sched_clear_servers E dyn)[h]? =
      if h < dyn.continuum_count then (dyn.servers[h]?).map (sched_clear_host E)
      else dyn.servers[h]? := by
  unfold sched_clear_servers
  generalize dyn.continuum_count = n
  induction n with
  | zero => simp
  | succ n ih =>
    rw [List.range_succ, List.foldl_append]
    simp only [List.foldl_cons, List.foldl_nil]
    rw [getElem?_modify_at, ih]
    by_cases h1 : h = n
    · rw [if_pos h1, if_neg (by omega), if_pos (by omega)]
    · rw [if_neg h1]
      by_cases h2 : h < n
      · rw [if_pos h2, if_pos (by omega)]
      · rw [if_neg h2, if_neg (by omega)]

theorem arcs_of_succ (E : Externals D) (dyn : sched_dynamic D) (n h : Nat) :
    arcs_of E dyn (n + 1) h =
      arcs_of E dyn n h + (if (slot E dyn.continuum n).index = h then ring_arc dyn n else 0) := by
  unfold arcs_of
  rw [List.range_succ, List.filter_append, List.map_append, List.sum_append]
  by_cases hi : (slot E dyn.continuum n).index = h
  · rw [if_pos hi]
    simp [hi]
  · rw [if_neg hi]
    simp [hi]

/-- The second loop of the controller tick adds to the `hashsize` of each
server the arcs of its points, up to the width of the field. -/
theorem sched_accumulate_reads (E : Externals D) (dyn : sched_dynamic D)
    (servers : List (sched_context D)) (h : Nat)
    (hs : ∀ s, servers[h]? = some s → s.hashsize ≤ E.hashsize_max) :
    ∀ n, ((((List.range n).foldl (sched_accumulate_step E dyn) (servers, 0)).1)[h]?).map
        (fun s => s.hashsize) =
      (servers[h]?).map (fun s => (s.hashsize + arcs_of E dyn n h) % (E.hashsize_max + 1)) := by
  have hstep : ∀ (st : List (sched_context D) × Nat) (j : Nat),
      (sched_accumulate_step E dyn st j).1 =
        modify_at (sched_add_point E dyn j (slot E dyn.continuum j)) st.1
          (slot E dyn.continuum j).index := fun _ _ => rfl
  intro n
  induction n with
  | zero =>
    simp only [List.range_zero, List.foldl_nil, arcs_of, List.filter_nil, List.map_nil,
      List.sum_nil, Nat.add_zero]
    cases hsv : servers[h]? with
    | none => rfl
    | some s =>
      simp only [Option.map_some']
      rw [Nat.mod_eq_of_lt (Nat.lt_succ_of_le (hs s hsv))]
  | succ n ih =>
    rw [List.range_succ, List.foldl_append]
    simp only [List.foldl_cons, List.foldl_nil]
    rw [hstep, getElem?_modify_at, arcs_of_succ]
    by_cases hi : h = (slot E dyn.continuum n).index
    · rw [if_pos hi, if_pos hi.symm]
      cases hsv : servers[h]? with
      | none =>
        rw [hsv] at ih
        cases ha : ((List.range n).foldl (sched_accumulate_step E dyn) (servers, 0)).1[h]? with
        | none => rfl
        | some a =>
          rw [ha] at ih
          cases ih
      | some s =>
        rw [hsv] at ih
        cases ha : ((List.range n).foldl (sched_accumulate_step E dyn) (servers, 0)).1[h]? with
        | none =>
          rw [ha] at ih
          cases ih
        | some a =>
          rw [ha] at ih
          simp only [Option.map_some', Option.some.injEq] at ih ⊢
          show (a.hashsize + ring_arc dyn n) % (E.hashsize_max + 1) = _
          rw [ih, Nat.mod_add_mod, Nat.add_assoc]
    · rw [if_neg hi, if_neg (fun e => hi e.symm), ih]
      rfl

theorem sum_ite_range (a i : Nat) :
    ∀ n, ((List.range n).map (fun h => if i = h then a else 0)).sum = if i < n then a else 0 := by
  intro n
  induction n with
  | zero => simp
  | succ n ih =>
    rw [List.range_succ, List.map_append, List.sum_append, ih]
    simp only [List.map_cons, List.map_nil, List.sum_cons, List.sum_nil, Nat.add_zero]
    by_cases h1 : i < n
    · rw [if_pos h1, if_neg (by omega), if_pos (by omega)]
      rfl
    · rw [if_neg h1]
      by_cases h2 : i = n
      · rw [if_pos h2, if_pos (by omega)]
        omega
      · rw [if_neg h2, if_neg (by omega)]

/-- The arcs of the servers below `L` add up to the arcs of the points, when
every point belongs to a server below `L`. -/
theorem arcs_of_partition (E : Externals D) (dyn : sched_dynamic D) (L : Nat) :
    ∀ n, (∀ j < n, (slot E dyn.continuum j).index < L) →
      ((List.range L).map (arcs_of E dyn n)).sum = ((List.range n).map (ring_arc dyn)).sum := by
  intro n
  induction n with
  | zero =>
    intro _
    have h0 : arcs_of E dyn 0 = fun _ => 0 := funext (fun h => rfl)
    rw [h0]
    simp
  | succ n ih =>
    intro hidx
    have e : (List.range L).map (arcs_of E dyn (n + 1)) =
        (List.range L).map (fun h => arcs_of E dyn n h +
          (if (slot E dyn.continuum n).index = h then ring_arc dyn n else 0)) :=
      List.map_congr_left (fun h _ => arcs_of_succ E dyn n h)
    rw [e, List.sum_map_add, ih (fun j hj => hidx j (by omega)), sum_ite_range,
      if_pos (hidx n (by omega)), List.range_succ, List.map_append, List.sum_append]
    simp

/-- After the first two loops of the controller tick the `hashsize` of a
server below `continuum_count` is the sum of the arcs of its points, up to the
width of the field. -/
theorem hashsize_after_eq (E : Externals D) (dyn : sched_dynamic D) (h : Nat)
    (hh : h < dyn.continuum_count) (hlen : dyn.continuum_count ≤ dyn.servers.length) :
    hashsize_after E dyn h =
      arcs_of E dyn dyn.continuum_points_counter h % (E.hashsize_max + 1) := by
  have hlt : h < dyn.servers.length := by omega
  have hc : (sched_clear_servers E dyn)[h]? = some (sched_clear_host E dyn.servers[h]) := by
    rw [sched_clear_servers_reads, if_pos hh, List.getElem?_eq_getElem hlt]
    rfl
  have hr := sched_accumulate_reads E dyn (sched_clear_servers E dyn) h
    (fun s hs => by
      rw [hc] at hs
      cases hs
      exact Nat.zero_le _)
    dyn.continuum_points_counter
  rw [hc] at hr
  unfold hashsize_after sched_accumulate
  rw [List.getD_eq_getElem?_getD]
  cases ha : ((List.range dyn.continuum_points_counter).foldl (sched_accumulate_step E dyn)
      (sched_clear_servers E dyn, 0)).1[h]? with
  | none =>
    rw [ha] at hr
    cases hr
  | some a =>
    rw [ha] at hr
    simp only [Option.map_some', Option.some.injEq] at hr
    simp only [Option.getD_some]
    rw [hr]
    show (0 + _) % _ = _
    rw [Nat.zero_add]

/-- C27 (the claim fails as stated): the ring of the two points
`(2^32 - 1, 1)`, `(2^32 - 1, 0)` that an addition to the one point ring leaves
is in ascending order, its arcs sum to 0 and so do the `hashsize` fields of its
two servers after the accumulation loop. -/
theorem arcs_of_equal_values_sum_to_zero :
    (update_dynamic sample_externals sample_dynamic_single_grown).2.dynamic.continuum_points_counter
      = 2 ∧
    ring_sorted (update_dynamic sample_externals sample_dynamic_single_grown).2.dynamic.continuum
      2 ∧
    ((List.range 2).map
      (ring_arc (update_dynamic sample_externals sample_dynamic_single_grown).2.dynamic)).sum
      = 0 ∧
    (update_dynamic sample_externals sample_dynamic_single_grown).2.dynamic.continuum_count
      = 2 ∧
    ((List.range 2).map (hashsize_after sample_externals
      (update_dynamic sample_externals sample_dynamic_single_grown).2.dynamic)).sum = 0 := by
  decide

/-- C27 (amended): for every ring of `P >= 2` points in ascending order of
value, the arcs `hs_round(points[j].value, points[(j+1) mod P].value)` summed
over all `j < P` equal `2^32` when the first and last values differ, and 0
when all values are equal. After the accumulation loop of the controller tick
the `hashsize` of each server is the sum of the arcs of its points, and the
`hashsize` fields of the servers sum to `2^32` when the first and last values
differ, provided the field `hashsize` holds the value `2^32`. -/
theorem arcs_sum_and_hashsize (E : Externals D) (dyn : sched_dynamic D)
    (hP : 2 ≤ dyn.continuum_points_counter) (hP32 : dyn.continuum_points_counter < 4294967296)
    (hs : ring_sorted dyn.continuum dyn.continuum_points_counter)
    (hv : ∀ k < dyn.continuum_points_counter, value_at dyn.continuum k < 4294967296)
    (hidx : ∀ j < dyn.continuum_points_counter,
      (slot E dyn.continuum j).index < dyn.continuum_count)
    (hlen : dyn.continuum_count ≤ dyn.servers.length)
    (hwide : 4294967296 ≤ E.hashsize_max) :
    ((List.range dyn.continuum_points_counter).map (ring_arc dyn)).sum =
      (if value_at dyn.continuum 0 = value_at dyn.continuum (dyn.continuum_points_counter - 1)
      then 0 else 4294967296) ∧
    (∀ h < dyn.continuum_count,
      hashsize_after E dyn h = arcs_of E dyn dyn.continuum_points_counter h) ∧
    ((List.range dyn.continuum_count).map (arcs_of E dyn dyn.continuum_points_counter)).sum =
      ((List.range dyn.continuum_points_counter).map (ring_arc dyn)).sum ∧
    (value_at dyn.continuum 0 ≠ value_at dyn.continuum (dyn.continuum_points_counter - 1) →
      ((List.range dyn.continuum_count).map (hashsize_after E dyn)).sum = 4294967296) := by
  have hsum := ring_arc_sum dyn (by omega) hP32 hs hv
  have hpart := arcs_of_partition E dyn dyn.continuum_count dyn.continuum_points_counter hidx
  have hle : ∀ h < dyn.continuum_count,
      arcs_of E dyn dyn.continuum_points_counter h ≤ 4294967296 := by
    intro h hh
    have := List.single_le_sum (fun _ _ => Nat.zero_le _) _
      (List.mem_map_of_mem (arcs_of E dyn dyn.continuum_points_counter) (List.mem_range.mpr hh))
    rw [hpart, hsum] at this
    split at this <;> omega
  have hsize : ∀ h < dyn.continuum_count,
      hashsize_after E dyn h = arcs_of E dyn dyn.continuum_points_counter h := by
    intro h hh
    rw [hashsize_after_eq E dyn h hh hlen]
    have := hle h hh
    exact Nat.mod_eq_of_lt (by omega)
  refine ⟨hsum, hsize, hpart, fun hne => ?_⟩
  rw [if_neg hne] at hsum
  have e : (List.range dyn.continuum_count).map (hashsize_after E dyn) =
      (List.range dyn.continuum_count).map (arcs_of E dyn dyn.continuum_points_counter) := by
    apply List.map_congr_left
    intro h hh
    exact hsize h (List.mem_range.mp hh)
  rw [e, hpart, hsum]

set_option maxRecDepth 100000 in
/-- Witness of C27 (amended): the six point ring of the initial build over
three servers. -/
theorem arcs_sum_and_hashsize_witness :
    ((List.range 6).map (ring_arc sample_dynamic_built.dynamic)).sum = 4294967296 ∧
    ((List.range 3).map (hashsize_after sample_externals sample_dynamic_built.dynamic)).sum =
      4294967296 :=
  ⟨(arcs_sum_and_hashsize sample_externals sample_dynamic_built.dynamic (by decide) (by decide)
      (by decide) (by decide) (by decide) (by decide) (by decide)).1.trans (by decide),
    (arcs_sum_and_hashsize sample_externals sample_dynamic_built.dynamic (by decide) (by decide)
      (by decide) (by decide) (by decide) (by decide) (by decide)).2.2.2 (by decide)⟩

/-! ## Claim about the controller move (C28) -/

set_option maxRecDepth 100000 in
/-- C28 (the code departs from the claim): on the six point ring of the
initial build over three servers the last point has value `2^32 - 4` and its
clockwise neighbour is point 0 with value `715827882`. The guard
`abs_int(715827882 - 4294967292) = 715827886 > 10` accepts a clockwise move of
the last point by 10, the sum wraps to 6 in `uint32_t`, and the ring is not in
ascending order any more. The same happens counter-clockwise to point 0 of a
ring whose first value is below `amount`. -/
theorem controller_move_wraps_last_point :
    ring_sorted sample_dynamic_built.dynamic.continuum 6 ∧
    abs_int (i32 (u32 (value_at sample_dynamic_built.dynamic.continuum 0 + 4294967296 -
      value_at sample_dynamic_built.dynamic.continuum 5))) = 715827886 ∧
    points_of (controller_move sample_dynamic_built.dynamic.continuum 4 5 0 true 10) =
      [(715827882, 0), (1431655764, 1), (2147483646, 2), (2863311528, 0),
       (3579139410, 2), (6, 1)] ∧
    ¬ ring_sorted (controller_move sample_dynamic_built.dynamic.continuum 4 5 0 true 10) 6 ∧
    points_of (controller_move [sample_point 5 0, sample_point 1000 1] 1 0 1 false 50) =
      [(4294967251, 0), (1000, 1)] ∧
    ¬ ring_sorted (controller_move [sample_point 5 0, sample_point 1000 1] 1 0 1 false 50) 2 := by
  decide

/-! ## The incipient walk (C22) -/

theorem mod_cases (x L : Nat) (h : x < 2 * L) :
    (x < L ∧ x % L = x) ∨ (L ≤ x ∧ x % L = x - L) := by
  rcases Nat.lt_or_ge x L with h1 | h1
  · exact Or.inl ⟨h1, Nat.mod_eq_of_lt h1⟩
  · refine Or.inr ⟨h1, ?_⟩
    rw [Nat.mod_eq_sub_mod h1, Nat.mod_eq_of_lt (by omega)]

theorem incipient_step_eq (L : Nat) (st : incipient_state) :
    incipient_step L st =
      match incipient_scan L st with
      | none => st
      | some j =>
        { set := st.set.set st.set_id (u32 (st.cur_frow + j) % L)
          bak := fun a b =>
            if a = st.cur_nd ∧ b = u32 (st.cur_frow + j) % L then 1 else st.bak a b
          cur_nd := u32 (st.cur_frow + j) % L
          set_id := u32 (st.set_id + 1)
          cur_frow := u32 (u32 (st.cur_frow + j) % L + 1) % L } :=
  rfl

theorem incipient_walk_succ (L N t : Nat) :
    incipient_walk L N (t + 1) = incipient_step L (incipient_walk L N t) := by
  unfold incipient_walk
  rw [List.range_succ, List.foldl_append]
  rfl

theorem incipient_set_eq_walk (L N : Nat) :
    incipient_set L N = (incipient_walk L N (N - 1)).set :=
  rfl

/-- What the scan returns: the first unmarked row in its order. -/
theorem incipient_scan_some (L : Nat) (st : incipient_state) (j : Nat)
    (h : incipient_scan L st = some j) :
    j < L ∧ st.bak st.cur_nd (u32 (st.cur_frow + j) % L) = 0 ∧
    ∀ k < j, st.bak st.cur_nd (u32 (st.cur_frow + k) % L) ≠ 0 := by
  unfold incipient_scan at h
  rw [List.find?_range_eq_some] at h
  obtain ⟨hp, hj, hbefore⟩ := h
  refine ⟨List.mem_range.mp hj, by simpa using hp, fun k hk => ?_⟩
  have := hbefore k hk
  simpa using this

/-- The scan finds an edge whenever one is unmarked: its rows cover all
servers. -/
theorem incipient_scan_ne_none (L : Nat) (st : incipient_state) (hL : L ≤ 65536)
    (hf : st.cur_frow < L) (w : Nat) (hw : w < L) (h0 : st.bak st.cur_nd w = 0) :
    incipient_scan L st ≠ none := by
  unfold incipient_scan
  intro hn
  rw [List.find?_eq_none] at hn
  rcases Nat.lt_or_ge w st.cur_frow with h1 | h1
  · have hrow : u32 (st.cur_frow + (w + L - st.cur_frow)) % L = w := by
      have e : st.cur_frow + (w + L - st.cur_frow) = w + L := by omega
      have e2 : u32 (w + L) = w + L := Nat.mod_eq_of_lt (by omega)
      rw [e, e2, Nat.add_mod_right, Nat.mod_eq_of_lt hw]
    have := hn (w + L - st.cur_frow) (List.mem_range.mpr (by omega))
    rw [hrow, h0] at this
    exact this rfl
  · have hrow : u32 (st.cur_frow + (w - st.cur_frow)) % L = w := by
      have e : st.cur_frow + (w - st.cur_frow) = w := by omega
      have e2 : u32 w = w := Nat.mod_eq_of_lt (by omega)
      rw [e, e2, Nat.mod_eq_of_lt hw]
    have := hn (w - st.cur_frow) (List.mem_range.mpr (by omega))
    rw [hrow, h0] at this
    exact this rfl

/-- At most `L - 1` marked edges leave a node, and exactly `L - 1` when all
are marked. -/
theorem card_off_diagonal (L v : Nat) (hv : v < L) (p : Nat → Prop) [DecidablePred p] :
    ((Finset.range L).filter (fun w => w ≠ v ∧ p w)).card ≤ L - 1 ∧
    (((Finset.range L).filter (fun w => w ≠ v ∧ p w)).card = L - 1 ↔
      ∀ w < L, w ≠ v → p w) := by
  have hsub : (Finset.range L).filter (fun w => w ≠ v ∧ p w) ⊆ (Finset.range L).erase v := by
    intro w hw
    rw [Finset.mem_filter] at hw
    exact Finset.mem_erase.mpr ⟨hw.2.1, hw.1⟩
  have hcard : ((Finset.range L).erase v).card = L - 1 := by
    rw [Finset.card_erase_of_mem (Finset.mem_range.mpr hv), Finset.card_range]
  refine ⟨by rw [← hcard]; exact Finset.card_le_card hsub, ?_, ?_⟩
  · intro h w hw hne
    have heq := Finset.eq_of_subset_of_card_le hsub (by rw [hcard, h])
    have hm : w ∈ (Finset.range L).erase v := Finset.mem_erase.mpr ⟨hne, Finset.mem_range.mpr hw⟩
    rw [← heq, Finset.mem_filter] at hm
    exact hm.2.2
  · intro h
    rw [← hcard]
    congr 1
    apply Finset.Subset.antisymm hsub
    intro w hw
    rw [Finset.mem_erase] at hw
    exact Finset.mem_filter.mpr ⟨hw.2, hw.1, h w (Finset.mem_range.mp hw.2) hw.1⟩

/-- Marking the edge `c → r` adds `r` to the edges that leave `c`. -/
theorem out_edges_mark (L : Nat) (st st2 : incipient_state) (c r : Nat)
    (hb : ∀ a b, st2.bak a b = if a = c ∧ b = r then 1 else st.bak a b)
    (hr : r < L) (hrc : r ≠ c) (h0 : st.bak c r = 0) (v : Nat) :
    (out_edges L st2 v).card = (out_edges L st v).card + (if v = c then 1 else 0) := by
  by_cases hv : v = c
  · rw [if_pos hv]
    have hins : out_edges L st2 v = insert r (out_edges L st v) := by
      ext w
      simp only [out_edges, Finset.mem_filter, Finset.mem_range, Finset.mem_insert, hb, hv]
      by_cases hw : w = r
      · subst hw
        simp [hr, hrc]
      · simp [hw]
    have hnot : r ∉ out_edges L st v := by
      simp only [out_edges, Finset.mem_filter, Finset.mem_range, hv, h0]
      simp
    rw [hins, Finset.card_insert_of_not_mem hnot]
  · rw [if_neg hv, Nat.add_zero]
    congr 1
    ext w
    simp only [out_edges, Finset.mem_filter, Finset.mem_range, hb, hv, false_and, if_false]

/-- Marking the edge `c → r` adds `c` to the edges that enter `r`. -/
theorem in_edges_mark (L : Nat) (st st2 : incipient_state) (c r : Nat)
    (hb : ∀ a b, st2.bak a b = if a = c ∧ b = r then 1 else st.bak a b)
    (hc : c < L) (hrc : r ≠ c) (h0 : st.bak c r = 0) (v : Nat) :
    (in_edges L st2 v).card = (in_edges L st v).card + (if v = r then 1 else 0) := by
  by_cases hv : v = r
  · rw [if_pos hv]
    have hins : in_edges L st2 v = insert c (in_edges L st v) := by
      ext u
      simp only [in_edges, Finset.mem_filter, Finset.mem_range, Finset.mem_insert, hb, hv]
      by_cases hu : u = c
      · subst hu
        simp [hc, Ne.symm hrc]
      · simp [hu]
    have hnot : c ∉ in_edges L st v := by
      simp only [in_edges, Finset.mem_filter, Finset.mem_range, hv, h0]
      simp
    rw [hins, Finset.card_insert_of_not_mem hnot]
  · rw [if_neg hv, Nat.add_zero]
    congr 1
    ext u
    simp only [in_edges, Finset.mem_filter, Finset.mem_range, hb, hv, and_false, if_false]

theorem pred_mod_ne (L v : Nat) (hL : 2 ≤ L) (hv : v < L) : (v + L - 1) % L ≠ v := by
  rcases mod_cases (v + L - 1) L (by omega) with ⟨h1, h2⟩ | ⟨h1, h2⟩
  · rw [h2]; omega
  · rw [h2]; omega

/-- The invariant holds before the first iteration. -/
theorem walk_inv_init (L N : Nat) (hL : 2 ≤ L) :
    walk_inv L N 0 (incipient_init N) := by
  have hout : ∀ v, out_edges L (incipient_init N) v = ∅ := by
    intro v
    ext w
    simp only [out_edges, incipient_init, Finset.mem_filter, Finset.mem_range,
      Finset.not_mem_empty, iff_false]
    rintro ⟨-, hne, hb⟩
    rw [if_neg (fun e => hne e.symm)] at hb
    exact hb rfl
  have hin : ∀ v, in_edges L (incipient_init N) v = ∅ := by
    intro v
    ext u
    simp only [in_edges, incipient_init, Finset.mem_filter, Finset.mem_range,
      Finset.not_mem_empty, iff_false]
    rintro ⟨-, hne, hb⟩
    rw [if_neg hne] at hb
    exact hb rfl
  refine ⟨by show 0 < L; omega, Or.inl rfl, rfl, by simp [incipient_init], ?_, ?_, ?_, ?_, ?_, ?_,
    fun i hi => by omega, fun i hi => by omega⟩
  · simp only [incipient_init, List.getD_eq_getElem?_getD, List.getElem?_replicate]
    split <;> rfl
  · simp only [incipient_init, List.getD_eq_getElem?_getD, List.getElem?_replicate]
    split <;> rfl
  · intro v
    simp [incipient_init]
  · intro v hv hb
    exfalso
    have hne := pred_mod_ne L v hL hv
    simp only [incipient_init] at hb
    rw [if_neg (fun e => hne e.symm)] at hb
    exact hb rfl
  · intro v _
    rw [hout, hin]
    rfl
  · simp [hout]

/-- While fewer than `L * (L - 1)` edges are marked, an unmarked edge leaves
the current node. -/
theorem walk_not_stuck (L N t : Nat) (st : incipient_state) (hL : 2 ≤ L)
    (hN : N = L * (L - 1)) (ht : t + 1 ≤ N - 1)
    (hinv : walk_inv L N t st) : ∃ w < L, st.bak st.cur_nd w = 0 := by
  obtain ⟨hc, -, -, -, -, -, hdiag, hlast, hbal, htot, -, -⟩ := hinv
  by_contra hall
  have hfull : ∀ w < L, st.bak st.cur_nd w ≠ 0 := by
    intro w hw h0
    exact hall ⟨w, hw, h0⟩
  have hcardc : (out_edges L st st.cur_nd).card = L - 1 :=
    (card_off_diagonal L st.cur_nd hc (fun w => st.bak st.cur_nd w ≠ 0)).2.mpr
      (fun w hw _ => hfull w hw)
  have hb := hbal st.cur_nd hc
  rw [if_pos rfl, hcardc] at hb
  have hin_le := (card_off_diagonal L st.cur_nd hc (fun u => st.bak u st.cur_nd ≠ 0)).1
  have hin_le2 : (in_edges L st st.cur_nd).card ≤ L - 1 := hin_le
  by_cases h0 : st.cur_nd = 0
  · have hevery : ∀ v, v < L → ∀ w < L, st.bak v w ≠ 0 := by
      intro v
      induction v with
      | zero =>
        intro _
        have hf0 := hfull
        rw [h0] at hf0
        exact hf0
      | succ v ih =>
        intro hv
        have hv2 : v < L := by omega
        have hfv := ih hv2
        have hcv : (out_edges L st v).card = L - 1 :=
          (card_off_diagonal L v hv2 (fun w => st.bak v w ≠ 0)).2.mpr (fun w hw _ => hfv w hw)
        have hbv := hbal v hv2
        rw [hcv, h0] at hbv
        have hiv : (in_edges L st v).card = L - 1 := by
          by_cases hz : v = 0
          · rw [if_pos hz] at hbv
            omega
          · rw [if_neg hz] at hbv
            omega
        have hallin := (card_off_diagonal L v hv2 (fun u => st.bak u v ≠ 0)).2.mp hiv
        have hedge : st.bak (v + 1) v ≠ 0 := hallin (v + 1) hv (by omega)
        have hpred : (v + 1 + L - 1) % L = v := by
          have e : v + 1 + L - 1 = v + L := by omega
          rw [e, Nat.add_mod_right, Nat.mod_eq_of_lt hv2]
        apply hlast (v + 1) hv
        rw [hpred]
        exact hedge
    have hsum : (Finset.range L).sum (fun v => (out_edges L st v).card) = L * (L - 1) := by
      have e : ∀ v ∈ Finset.range L, (out_edges L st v).card = L - 1 := by
        intro v hv
        have hv2 := Finset.mem_range.mp hv
        exact (card_off_diagonal L v hv2 (fun w => st.bak v w ≠ 0)).2.mpr
          (fun w hw _ => hevery v hv2 w hw)
      rw [Finset.sum_congr rfl e, Finset.sum_const, Finset.card_range, smul_eq_mul]
    rw [htot] at hsum
    omega
  · rw [if_neg h0] at hb
    omega

theorem getD_set_ne (l : List Nat) (i k a : Nat) (h : k ≠ i) :
    (l.set i a).getD k 0 = l.getD k 0 := by
  rw [List.getD_eq_getElem?_getD, List.getD_eq_getElem?_getD,
    List.getElem?_set_ne (fun e => h e.symm)]

theorem getD_set_self (l : List Nat) (i a : Nat) (h : i < l.length) :
    (l.set i a).getD i 0 = a := by
  rw [List.getD_eq_getElem?_getD, List.getElem?_set_self h]
  rfl

/-- The order of the scan: when it stops at the predecessor of the current
node, every other row came before. -/
theorem scan_order (L cur f j w : Nat) (hL : 2 ≤ L) (hc : cur < L)
    (hf : f = cur ∨ f = (cur + 1) % L) (hj : j < L) (hw : w < L)
    (hr : (f + j) % L = (cur + L - 1) % L) (hwc : w ≠ cur) (hwr : w ≠ (cur + L - 1) % L) :
    ∃ k < j, (f + k) % L = w := by
  have hfL : f < L := by
    rcases hf with h | h
    · omega
    · rw [h]
      exact Nat.mod_lt _ (by omega)
  have hjv : (f = cur ∧ j = L - 1) ∨ (f ≠ cur ∧ j = L - 2 ∧ (f = cur + 1 ∨ (f = 0 ∧ cur = L - 1))) := by
    rcases mod_cases (f + j) L (by omega) with ⟨a1, a2⟩ | ⟨a1, a2⟩ <;>
    rcases mod_cases (cur + L - 1) L (by omega) with ⟨b1, b2⟩ | ⟨b1, b2⟩ <;>
    rcases mod_cases (cur + 1) L (by omega) with ⟨c1, c2⟩ | ⟨c1, c2⟩ <;>
    rcases hf with h | h <;>
    · rw [a2, b2] at hr
      try rw [c2] at h
      omega
  have hpred : (cur + L - 1) % L = if cur = 0 then L - 1 else cur - 1 := by
    rcases mod_cases (cur + L - 1) L (by omega) with ⟨b1, b2⟩ | ⟨b1, b2⟩
    · rw [b2]
      split <;> omega
    · rw [b2]
      split <;> omega
  rw [hpred] at hwr
  rcases Nat.lt_or_ge w f with h1 | h1
  · refine ⟨w + L - f, ?_, ?_⟩
    · split at hwr <;> omega
    · have e : f + (w + L - f) = w + L := by omega
      rw [e, Nat.add_mod_right, Nat.mod_eq_of_lt hw]
  · refine ⟨w - f, ?_, ?_⟩
    · split at hwr <;> omega
    · have e : f + (w - f) = w := by omega
      rw [e, Nat.mod_eq_of_lt hw]

/-- One iteration of the outer loop keeps the invariant. -/
theorem walk_inv_step (L N t j : Nat) (st : incipient_state) (hL : 2 ≤ L) (hL16 : L ≤ 65536)
    (hN : N < 4294967296) (ht : t + 1 ≤ N - 1)
    (hinv : walk_inv L N t st) (hscan : incipient_scan L st = some j) :
    walk_inv L N (t + 1) (incipient_step L st) := by
  obtain ⟨hc, hfrow, hid, hlen, hset0, hsett, hdiag, hlast, hbal, htot, hpairs, hdist⟩ := hinv
  obtain ⟨hj, hzero, hbefore⟩ := incipient_scan_some L st j hscan
  have hfL : st.cur_frow < L := by
    rcases hfrow with h | h
    · omega
    · rw [h]
      exact Nat.mod_lt _ (by omega)
  have hu : ∀ k < L, u32 (st.cur_frow + k) = st.cur_frow + k :=
    fun k hk => Nat.mod_eq_of_lt (by omega)
  have hrL : u32 (st.cur_frow + j) % L < L := Nat.mod_lt _ (by omega)
  have hrc : u32 (st.cur_frow + j) % L ≠ st.cur_nd := by
    intro e
    rw [e] at hzero
    exact hdiag _ hzero
  have hst : incipient_step L st =
      { set := st.set.set st.set_id (u32 (st.cur_frow + j) % L)
        bak := fun a b =>
          if a = st.cur_nd ∧ b = u32 (st.cur_frow + j) % L then 1 else st.bak a b
        cur_nd := u32 (st.cur_frow + j) % L
        set_id := u32 (st.set_id + 1)
        cur_frow := u32 (u32 (st.cur_frow + j) % L + 1) % L } := by
    rw [incipient_step_eq, hscan]
  generalize hr : u32 (st.cur_frow + j) % L = r at hst hrL hrc hzero
  have hbak : ∀ a b, (incipient_step L st).bak a b =
      if a = st.cur_nd ∧ b = r then 1 else st.bak a b := by
    intro a b
    rw [hst]
  have hmono : ∀ a b, st.bak a b ≠ 0 → (incipient_step L st).bak a b ≠ 0 := by
    intro a b h
    rw [hbak]
    split
    · exact Nat.one_ne_zero
    · exact h
  have hsetk : ∀ k, k ≠ t + 1 → (incipient_step L st).set.getD k 0 = st.set.getD k 0 := by
    intro k hk
    rw [hst, hid]
    exact getD_set_ne _ _ _ _ hk
  have hsetn : (incipient_step L st).set.getD (t + 1) 0 = r := by
    rw [hst, hid]
    exact getD_set_self _ _ _ (by omega)
  refine ⟨?_, ?_, ?_, ?_, ?_, ?_, ?_, ?_, ?_, ?_, ?_, ?_⟩
  · rw [hst]
    exact hrL
  · rw [hst]
    right
    show u32 (r + 1) % L = (r + 1) % L
    have e : u32 (r + 1) = r + 1 := Nat.mod_eq_of_lt (by omega)
    rw [e]
  · rw [hst, hid]
    show u32 (t + 1 + 1) = t + 1 + 1
    exact Nat.mod_eq_of_lt (by omega)
  · rw [hst]
    show (st.set.set st.set_id r).length = N
    rw [List.length_set, hlen]
  · rw [hsetk 0 (by omega)]
    exact hset0
  · rw [hsetn, hst]
  · intro v
    exact hmono v v (hdiag v)
  · intro v hv hb w hw
    by_cases hvc : v = st.cur_nd
    · by_cases hold : st.bak v ((v + L - 1) % L) ≠ 0
      · exact hmono v w (hlast v hv hold w hw)
      · have hold0 : st.bak v ((v + L - 1) % L) = 0 := by
          by_contra h
          exact hold h
        rw [hbak] at hb
        have hpr : (v + L - 1) % L = r := by
          by_contra hne
          rw [if_neg (fun h => hne h.2), hold0] at hb
          exact hb rfl
        rw [hbak]
        by_cases hwr : w = r
        · rw [if_pos ⟨hvc, hwr⟩]
          exact Nat.one_ne_zero
        · rw [if_neg (fun h => hwr h.2)]
          by_cases hwc : w = v
          · rw [hwc]
            exact hdiag v
          · have hrow : (st.cur_frow + j) % L = (st.cur_nd + L - 1) % L := by
              rw [← hvc, hpr, ← hr, hu j hj]
            obtain ⟨k, hk, hkw⟩ := scan_order L st.cur_nd st.cur_frow j w hL hc hfrow hj hw hrow
              (by rw [← hvc]; exact hwc) (by rw [← hvc, hpr]; exact hwr)
            have := hbefore k hk
            rw [hu k (by omega), hkw, ← hvc] at this
            exact this
    · have hsame : ∀ x, (incipient_step L st).bak v x = st.bak v x := by
        intro x
        rw [hbak, if_neg (fun h => hvc h.1)]
      rw [hsame] at hb
      rw [hsame]
      exact hlast v hv hb w hw
  · intro v hv
    rw [out_edges_mark L st _ st.cur_nd r hbak hrL hrc hzero v,
      in_edges_mark L st _ st.cur_nd r hbak hc hrc hzero v]
    have hb := hbal v hv
    have hcn : (incipient_step L st).cur_nd = r := by rw [hst]
    rw [hcn]
    generalize (if v = st.cur_nd then 1 else 0) = x at hb ⊢
    generalize (if v = r then 1 else 0) = y
    generalize (if v = 0 then 1 else 0) = z at hb ⊢
    omega
  · have e : ∀ v ∈ Finset.range L, (out_edges L (incipient_step L st) v).card =
        (out_edges L st v).card + (if v = st.cur_nd then 1 else 0) :=
      fun v _ => out_edges_mark L st _ st.cur_nd r hbak hrL hrc hzero v
    rw [Finset.sum_congr rfl e, Finset.sum_add_distrib, htot, Finset.sum_ite_eq',
      if_pos (Finset.mem_range.mpr hc)]
  · intro i hi
    rcases Nat.lt_succ_iff_lt_or_eq.mp hi with hlt | heq
    · obtain ⟨p1, p2, p3, p4⟩ := hpairs i hlt
      rw [hsetk i (by omega), hsetk (i + 1) (by omega)]
      exact ⟨p1, p2, hmono _ _ p3, p4⟩
    · rw [heq, hsetk t (by omega), hsetn, hsett]
      refine ⟨hc, hrL, ?_, fun e => hrc e.symm⟩
      rw [hbak, if_pos ⟨rfl, rfl⟩]
      exact Nat.one_ne_zero
  · intro i hi k hk
    rcases Nat.lt_succ_iff_lt_or_eq.mp hi with hlt | heq
    · rw [hsetk i (by omega), hsetk (i + 1) (by omega), hsetk k (by omega),
        hsetk (k + 1) (by omega)]
      exact hdist i hlt k hk
    · rw [heq] at hk
      rw [heq, hsetk t (by omega), hsetn, hsett, hsetk k (by omega), hsetk (k + 1) (by omega)]
      intro e
      obtain ⟨-, -, p3, -⟩ := hpairs k hk
      have e1 := congrArg Prod.fst e
      have e2 := congrArg Prod.snd e
      simp only at e1 e2
      rw [e1, e2] at p3
      exact p3 hzero

theorem servers_bound (L : Nat) (hfit : L * (L - 1) < 4294967296) : L ≤ 65536 := by
  by_contra h
  have h1 : 65537 ≤ L := by omega
  have h2 : 65536 ≤ L - 1 := by omega
  have := Nat.mul_le_mul h1 h2
  omega

/-- The invariant holds after every iteration, and the scan of the next
iteration finds an edge. -/
theorem walk_inv_all (L : Nat) (hL : 2 ≤ L) (hfit : L * (L - 1) < 4294967296) :
    ∀ t, t ≤ L * (L - 1) - 1 →
      walk_inv L (L * (L - 1)) t (incipient_walk L (L * (L - 1)) t) ∧
      (t + 1 ≤ L * (L - 1) - 1 →
        incipient_scan L (incipient_walk L (L * (L - 1)) t) ≠ none) := by
  have hL16 := servers_bound L hfit
  have hnext : ∀ t, walk_inv L (L * (L - 1)) t (incipient_walk L (L * (L - 1)) t) →
      t + 1 ≤ L * (L - 1) - 1 →
      incipient_scan L (incipient_walk L (L * (L - 1)) t) ≠ none := by
    intro t hinv ht
    obtain ⟨w, hw, h0⟩ := walk_not_stuck L _ t _ hL rfl ht hinv
    obtain ⟨hc, hfrow, -⟩ := hinv
    have hfL : (incipient_walk L (L * (L - 1)) t).cur_frow < L := by
      rcases hfrow with h | h
      · omega
      · rw [h]
        exact Nat.mod_lt _ (by omega)
    exact incipient_scan_ne_none L _ hL16 hfL w hw h0
  intro t
  induction t with
  | zero =>
    intro _
    have h0 : walk_inv L (L * (L - 1)) 0 (incipient_walk L (L * (L - 1)) 0) :=
      walk_inv_init L _ hL
    exact ⟨h0, hnext 0 h0⟩
  | succ t ih =>
    intro ht
    obtain ⟨hinv, hscan⟩ := ih (by omega)
    have hs := hscan (by omega)
    obtain ⟨j, hj⟩ := Option.ne_none_iff_exists'.mp hs
    have hstep := walk_inv_step L _ t j _ hL hL16 hfit (by omega) hinv hj
    rw [← incipient_walk_succ] at hstep
    exact ⟨hstep, hnext (t + 1) hstep⟩

/-- An entry of `set`, once written, stays. -/
theorem walk_set_stable (L : Nat) (hL : 2 ≤ L) (hfit : L * (L - 1) < 4294967296) (t k : Nat)
    (hk : k ≤ t) :
    ∀ d, t + d ≤ L * (L - 1) - 1 →
      (incipient_walk L (L * (L - 1)) (t + d)).set.getD k 0 =
        (incipient_walk L (L * (L - 1)) t).set.getD k 0 := by
  intro d
  induction d with
  | zero => intro _; rfl
  | succ d ih =>
    intro hd
    rw [← ih (by omega), ← Nat.add_assoc, incipient_walk_succ, incipient_step_eq]
    obtain ⟨hinv, -⟩ := walk_inv_all L hL hfit (t + d) (by omega)
    obtain ⟨-, -, hid, -⟩ := hinv
    cases incipient_scan L (incipient_walk L (L * (L - 1)) (t + d)) with
    | none => rfl
    | some j =>
      show ((incipient_walk L (L * (L - 1)) (t + d)).set.set _ _).getD k 0 = _
      rw [hid]
      exact getD_set_ne _ _ _ _ (by omega)

theorem initial_set_size_eq (L : Nat) (hL : 2 ≤ L) (hfit : L * (L - 1) < 4294967296) :
    initial_set_size L = L * (L - 1) := by
  unfold initial_set_size
  rw [if_neg (by omega)]
  exact Nat.mod_eq_of_lt hfit

/-- C22: for every `L >= 2` whose `set_size = L * (L - 1)` fits `uint32_t`,
the array `set[0 .. L * (L - 1))` that the incipient algorithm of
`update_dynamic` builds starts with `set[0] = 0`, has every entry below `L`,
and its `L * (L - 1) - 1` adjacent pairs `(set[j], set[j+1])` are pairwise
distinct with `set[j] != set[j+1]`. In each of the `L * (L - 1) - 1`
iterations of the outer loop the inner scan finds a row whose edge from the
current node is unmarked, and `set[t + 1]` is the row found in iteration
`t`. -/
theorem incipient_set_pairs_distinct (L : Nat) (hL : 2 ≤ L)
    (hfit : L * (L - 1) < 4294967296) :
    initial_set_size L = L * (L - 1) ∧
    (incipient_set L (initial_set_size L)).length = L * (L - 1) ∧
    (incipient_set L (initial_set_size L)).getD 0 0 = 0 ∧
    (∀ x ∈ incipient_set L (initial_set_size L), x < L) ∧
    (∀ j, j + 1 < L * (L - 1) →
      (incipient_set L (initial_set_size L)).getD j 0 ≠
        (incipient_set L (initial_set_size L)).getD (j + 1) 0) ∧
    (∀ j, j + 1 < L * (L - 1) → ∀ i < j,
      ((incipient_set L (initial_set_size L)).getD i 0,
        (incipient_set L (initial_set_size L)).getD (i + 1) 0) ≠
      ((incipient_set L (initial_set_size L)).getD j 0,
        (incipient_set L (initial_set_size L)).getD (j + 1) 0)) ∧
    (∀ t, t + 1 < L * (L - 1) →
      ∃ j, incipient_scan L (incipient_walk L (initial_set_size L) t) = some j ∧
        j < L ∧
        (incipient_walk L (initial_set_size L) t).bak
          (incipient_walk L (initial_set_size L) t).cur_nd
          (u32 ((incipient_walk L (initial_set_size L) t).cur_frow + j) % L) = 0 ∧
        (incipient_set L (initial_set_size L)).getD (t + 1) 0 =
          u32 ((incipient_walk L (initial_set_size L) t).cur_frow + j) % L) := by
  rw [initial_set_size_eq L hL hfit]
  have hN : 1 ≤ L * (L - 1) := Nat.mul_pos (by omega) (by omega)
  obtain ⟨hinv, -⟩ := walk_inv_all L hL hfit (L * (L - 1) - 1) (le_refl _)
  rw [incipient_set_eq_walk]
  obtain ⟨-, -, -, hlen, hset0, -, -, -, -, -, hpairs, hdist⟩ := hinv
  refine ⟨rfl, hlen, hset0, ?_, fun j hj => (hpairs j (by omega)).2.2.2,
    fun j hj i hi => hdist j (by omega) i hi, fun t ht => ?_⟩
  · rw [← incipient_set_eq_walk]
    exact incipient_set_bound L _ (by omega)
  · obtain ⟨hinvt, hscan⟩ := walk_inv_all L hL hfit t (by omega)
    obtain ⟨j, hj⟩ := Option.ne_none_iff_exists'.mp (hscan (by omega))
    obtain ⟨s1, s2, -⟩ := incipient_scan_some L _ j hj
    refine ⟨j, hj, s1, s2, ?_⟩
    have hstable := walk_set_stable L hL hfit (t + 1) (t + 1) (le_refl _)
      (L * (L - 1) - 1 - (t + 1)) (by omega)
    have e : t + 1 + (L * (L - 1) - 1 - (t + 1)) = L * (L - 1) - 1 := by omega
    rw [e] at hstable
    rw [hstable, incipient_walk_succ, incipient_step_eq, hj]
    obtain ⟨-, -, hid, hlent, -⟩ := hinvt
    show ((incipient_walk L (L * (L - 1)) t).set.set _ _).getD (t + 1) 0 = _
    rw [hid]
    exact getD_set_self _ _ _ (by omega)

/-- Witness of C22: for three servers `set` is `0, 1, 2, 0, 2, 1`, with the
five pairs `(0,1)`, `(1,2)`, `(2,0)`, `(0,2)`, `(2,1)`. -/
theorem incipient_set_pairs_distinct_witness :
    incipient_set 3 (initial_set_size 3) = [0, 1, 2, 0, 2, 1] ∧
    (∀ j, j + 1 < 3 * (3 - 1) → ∀ i < j,
      ((incipient_set 3 (initial_set_size 3)).getD i 0,
        (incipient_set 3 (initial_set_size 3)).getD (i + 1) 0) ≠
      ((incipient_set 3 (initial_set_size 3)).getD j 0,
        (incipient_set 3 (initial_set_size 3)).getD (j + 1) 0)) :=
  ⟨by decide, (incipient_set_pairs_distinct 3 (by decide) (by decide)).2.2.2.2.2.1⟩

/-! ## Moves away from the wrap pair (C28) -/

theorem abs_int_i32_le (d : Nat) (hd : d < 4294967296) : abs_int (i32 d) ≤ d := by
  unfold abs_int i32 u32_of_int u32
  rw [Nat.mod_eq_of_lt hd]
  by_cases h : d < 2147483648
  · rw [if_pos h]
    have h2 : ¬ ((d : Int) < 0) := by omega
    rw [if_neg h2]
    omega
  · rw [if_neg h]
    have h2 : (d : Int) - 4294967296 < 0 := by omega
    rw [if_pos h2]
    omega

theorem value_at_move (g : Nat → Nat) (ring : List (memcached_continuum_item_st D)) (j x : Nat)
    (hj : j < ring.length) :
    value_at (modify_at (fun p => { p with value := g p.value }) ring j) x =
      if x = j then g (value_at ring j) else value_at ring x := by
  unfold value_at
  rw [getElem?_modify_at]
  by_cases hx : x = j
  · rw [if_pos hx, if_pos hx, hx, List.getElem?_eq_getElem hj]
    rfl
  · rw [if_neg hx, if_neg hx]

/-- A move accepted by the guard keeps the ring in ascending order when the
point and the neighbour it moves toward are not the wrap pair: clockwise toward
position `j + 1 < P`, counter-clockwise toward position `j - 1 >= 0`. -/
theorem controller_move_keeps_order (ring : List (memcached_continuum_item_st D))
    (P i j k amount : Nat) (cw : Bool)
    (hs : ring_sorted ring P) (hlen : P ≤ ring.length)
    (hv : ∀ x < P, value_at ring x < 4294967296) (hj : j < P)
    (hpair : (cw = true ∧ k = j + 1 ∧ k < P) ∨ (cw = false ∧ i + 1 = j)) :
    ring_sorted (controller_move ring i j k cw amount) P := by
  have hjl : j < ring.length := by omega
  unfold controller_move
  rcases hpair with ⟨hcw, hk, hkP⟩ | ⟨hcw, hi⟩
  · rw [if_pos hcw]
    by_cases hg : abs_int (i32 (u32 (value_at ring k + 4294967296 - value_at ring j))) > amount
    · rw [if_pos hg]
      have hjk : value_at ring j ≤ value_at ring k := hs k hkP j (by omega)
      have hvk := hv k hkP
      have hd : u32 (value_at ring k + 4294967296 - value_at ring j) =
          value_at ring k - value_at ring j := by
        unfold u32
        omega
      have hle := abs_int_i32_le (u32 (value_at ring k + 4294967296 - value_at ring j))
        (Nat.mod_lt _ (by decide))
      rw [hd] at hle hg
      have hnew : u32 (value_at ring j + amount) = value_at ring j + amount :=
        Nat.mod_eq_of_lt (by omega)
      intro a ha b hb
      rw [value_at_move (fun v => u32 (v + amount)) ring j a hjl,
        value_at_move (fun v => u32 (v + amount)) ring j b hjl]
      rw [hnew]
      have hba := hs a ha b hb
      by_cases e1 : a = j
      · rw [if_pos e1]
        by_cases e2 : b = j
        · rw [if_pos e2]
        · rw [if_neg e2]
          have := hs j hj b (by omega)
          omega
      · rw [if_neg e1]
        by_cases e2 : b = j
        · rw [if_pos e2]
          have := hs a ha k (by omega)
          omega
        · rw [if_neg e2]
          exact hba
    · rw [if_neg hg]
      exact hs
  · rw [if_neg (by rw [hcw]; exact Bool.false_ne_true)]
    by_cases hg : abs_int (i32 (u32 (value_at ring j + 4294967296 - value_at ring i))) > amount
    · rw [if_pos hg]
      have hij : value_at ring i ≤ value_at ring j := hs j hj i (by omega)
      have hvj := hv j hj
      have hd : u32 (value_at ring j + 4294967296 - value_at ring i) =
          value_at ring j - value_at ring i := by
        unfold u32
        omega
      have hle := abs_int_i32_le (u32 (value_at ring j + 4294967296 - value_at ring i))
        (Nat.mod_lt _ (by decide))
      rw [hd] at hle hg
      have hnew : u32 (value_at ring j + 4294967296 - amount) = value_at ring j - amount := by
        unfold u32
        omega
      intro a ha b hb
      rw [value_at_move (fun v => u32 (v + 4294967296 - amount)) ring j a hjl,
        value_at_move (fun v => u32 (v + 4294967296 - amount)) ring j b hjl]
      rw [hnew]
      have hba := hs a ha b hb
      by_cases e1 : a = j
      · rw [if_pos e1]
        by_cases e2 : b = j
        · rw [if_pos e2]
        · rw [if_neg e2]
          have := hs i (by omega) b (by omega)
          omega
      · rw [if_neg e1]
        by_cases e2 : b = j
        · rw [if_pos e2]
          have := hs a ha j (by omega)
          omega
        · rw [if_neg e2]
          exact hba
    · rw [if_neg hg]
      exact hs

/-! ## Claim about the hit recorded by `dispatch_host` (C36) -/

theorem hits_record_cmd (E : Externals D) (cmd : Nat) (s : sched_context D) :
    (cmd = E.MEMCACHED_CMD_GET → hits (record_cmd E cmd s) = (u32 (s.get + 1), s.set)) ∧
    (cmd ≠ E.MEMCACHED_CMD_GET → cmd = E.MEMCACHED_CMD_SET →
      hits (record_cmd E cmd s) = (s.get, u32 (s.set + 1))) ∧
    (cmd ≠ E.MEMCACHED_CMD_GET → cmd ≠ E.MEMCACHED_CMD_SET → record_cmd E cmd s = s) := by
  unfold record_cmd
  refine ⟨fun h => ?_, fun h1 h2 => ?_, fun h1 h2 => ?_⟩
  · rw [if_pos h]
    rfl
  · rw [if_neg h1, if_pos h2]
    rfl
  · rw [if_neg h1, if_neg h2]

theorem hits_dynamic_hit (E : Externals D) (cmd : Nat) (p : memcached_continuum_item_st D) :
    hits (dynamic_hit E cmd p).sched = hits (record_cmd E cmd p.sched) := by
  unfold dynamic_hit hits
  dsimp only
  split <;> rfl

theorem hits_refresh_usagerate (E : Externals D) (num max : Nat)
    (ring : List (memcached_continuum_item_st D)) (k : Nat) :
    ((refresh_usagerate E num max ring)[k]?).map (fun p => hits p.sched) =
      (ring[k]?).map (fun p => hits p.sched) := by
  unfold refresh_usagerate
  induction num with
  | zero => rfl
  | succ n ih =>
    rw [List.range_succ, List.foldl_append]
    simp only [List.foldl_cons, List.foldl_nil]
    rw [getElem?_modify_at, ← ih]
    split
    · rw [Option.map_map]
      rfl
    · rfl

/-- The hits of the points after the dynamic branch of `dispatch_host`. -/
theorem hits_dispatch_dynamic (E : Externals D) (ptr : memcached_st D) (hash cmd k : Nat) :
    (((dispatch_dynamic E ptr hash cmd).1.dynamic.continuum)[k]?).map (fun p => hits p.sched) =
      if k = dispatch_position ptr.dynamic.continuum ptr.dynamic.continuum_points_counter hash
      then (ptr.dynamic.continuum[k]?).map (fun p => hits (record_cmd E cmd p.sched))
      else (ptr.dynamic.continuum[k]?).map (fun p => hits p.sched) := by
  have h1 : ((modify_at (dynamic_hit E cmd) ptr.dynamic.continuum
      (dispatch_position ptr.dynamic.continuum ptr.dynamic.continuum_points_counter hash))[k]?).map
        (fun p => hits p.sched) =
      if k = dispatch_position ptr.dynamic.continuum ptr.dynamic.continuum_points_counter hash
      then (ptr.dynamic.continuum[k]?).map (fun p => hits (record_cmd E cmd p.sched))
      else (ptr.dynamic.continuum[k]?).map (fun p => hits p.sched) := by
    rw [getElem?_modify_at]
    split
    · rw [Option.map_map]
      congr 1
      funext p
      exact hits_dynamic_hit E cmd p
    · rfl
  unfold dispatch_dynamic
  dsimp only
  split
  · rw [hits_refresh_usagerate]
    exact h1
  · exact h1
/-- C36: `dispatch_host` records exactly one hit. A get command adds 1 (in 32
bit arithmetic) to the `get` counter of the selected target only, a set command
to its `set` counter only, any other command changes no `get` or `set` counter.
In the Ketama strategies the target is the entry of `ketama_stat.servers` at the
returned index, the ring and the dynamic block are untouched and without a
statistics block the state is unchanged; in the Dynamic strategies the target is
the selected point, and the server entries and the ketama blocks are
untouched. -/
theorem dispatch_host_records_one_hit (E : Externals D) (ptr : memcached_st D)
    (hash cmd : Nat) (hcmd : E.MEMCACHED_CMD_GET ≠ E.MEMCACHED_CMD_SET) :
    (∀ s : sched_context D,
      (cmd = E.MEMCACHED_CMD_GET → hits (record_cmd E cmd s) = (u32 (s.get + 1), s.set)) ∧
      (cmd = E.MEMCACHED_CMD_SET → hits (record_cmd E cmd s) = (s.get, u32 (s.set + 1))) ∧
      (cmd ≠ E.MEMCACHED_CMD_GET → cmd ≠ E.MEMCACHED_CMD_SET →
        hits (record_cmd E cmd s) = hits s)) ∧
    (ketama_family ptr.distribution →
      (dispatch_host E ptr hash cmd).1.ketama = ptr.ketama ∧
      (dispatch_host E ptr hash cmd).1.dynamic = ptr.dynamic ∧
      (ptr.ketama_stat = none → (dispatch_host E ptr hash cmd).1 = ptr) ∧
      ∀ ks l, ptr.ketama_stat = some ks → ks.servers = some l →
        ∃ l', (dispatch_host E ptr hash cmd).1.ketama_stat.bind (fun k => k.servers) = some l' ∧
          ∀ h, (l'[h]?).map hits =
            if h = (dispatch_host E ptr hash cmd).2
            then (l[h]?).map (fun s => hits (record_cmd E cmd s))
            else (l[h]?).map hits) ∧
    (dynamic_family ptr.distribution →
      (dispatch_host E ptr hash cmd).1.dynamic.servers = ptr.dynamic.servers ∧
      (dispatch_host E ptr hash cmd).1.ketama = ptr.ketama ∧
      (dispatch_host E ptr hash cmd).1.ketama_stat = ptr.ketama_stat ∧
      ∀ k, (((dispatch_host E ptr hash cmd).1.dynamic.continuum)[k]?).map
          (fun p => hits p.sched) =
        if k = dispatch_position ptr.dynamic.continuum
                 ptr.dynamic.continuum_points_counter hash
        then (ptr.dynamic.continuum[k]?).map (fun p => hits (record_cmd E cmd p.sched))
        else (ptr.dynamic.continuum[k]?).map (fun p => hits p.sched)) := by
  refine ⟨fun s => ⟨(hits_record_cmd E cmd s).1, fun h => ?_, fun h1 h2 => ?_⟩, fun hk => ?_,
    fun hd => ?_⟩
  · exact (hits_record_cmd E cmd s).2.1 (fun hg => hcmd (hg.symm.trans h)) h
  · rw [(hits_record_cmd E cmd s).2.2 h1 h2]
  · have hdk : dispatch_host E ptr hash cmd = dispatch_ketama E ptr hash cmd := by
      unfold dispatch_host
      rcases hk with h | h | h | h <;> rw [h]
    rw [hdk]
    unfold dispatch_ketama
    dsimp only
    refine ⟨?_, ?_, ?_, ?_⟩
    · cases ptr.ketama_stat <;> rfl
    · cases ptr.ketama_stat <;> rfl
    · intro h
      rw [h]
    · intro ks l hks hl
      rw [hks]
      dsimp only
      rw [hl]
      refine ⟨_, rfl, fun h => ?_⟩
      rw [getElem?_modify_at]
      split
      · rw [Option.map_map]
        rfl
      · rfl
  · have hdd : dispatch_host E ptr hash cmd = dispatch_dynamic E ptr hash cmd := by
      unfold dispatch_host
      rcases hd with h | h <;> rw [h]
    rw [hdd]
    exact ⟨rfl, rfl, rfl, fun k => hits_dispatch_dynamic E ptr hash cmd k⟩

set_option maxRecDepth 100000 in
theorem dispatch_host_records_one_hit_witness :
    sample_externals.MEMCACHED_CMD_GET ≠ sample_externals.MEMCACHED_CMD_SET ∧
    dynamic_family sample_dynamic_built.distribution ∧
    ∀ k, (((dispatch_host sample_externals sample_dynamic_built 7
              sample_externals.MEMCACHED_CMD_GET).1.dynamic.continuum)[k]?).map
          (fun p => hits p.sched) =
        if k = dispatch_position sample_dynamic_built.dynamic.continuum
                 sample_dynamic_built.dynamic.continuum_points_counter 7
        then (sample_dynamic_built.dynamic.continuum[k]?).map
          (fun p => hits (record_cmd sample_externals sample_externals.MEMCACHED_CMD_GET p.sched))
        else (sample_dynamic_built.dynamic.continuum[k]?).map (fun p => hits p.sched) :=
  ⟨by decide, Or.inl rfl,
    ((dispatch_host_records_one_hit sample_externals sample_dynamic_built 7
      sample_externals.MEMCACHED_CMD_GET (by decide)).2.2 (Or.inl rfl)).2.2.2⟩

/-! ## Claim about the bounds of the statistics array (C40) -/

set_option maxRecDepth 100000 in
/-- C40 (the code departs from the claim): with auto eject on and the first of
two servers ejected, `update_continuum` counts one live server, allocates
`ketama_stat.servers` with one entry, and writes 160 points that all carry the
fleet position 1 of the live server; `dispatch_host` then returns index 1,
which is not below the length 1 of `servers`. -/
theorem ketama_stat_servers_shorter_than_index :
    live_servers_of sample_first_ejected 1000 = 1 ∧
    (update_continuum sample_externals sample_first_ejected).1 = MEMCACHED_SUCCESS ∧
    ((update_continuum sample_externals sample_first_ejected).2.ketama_stat.map
      (fun ks => ks.servers.map List.length)) = some (some 1) ∧
    (update_continuum sample_externals sample_first_ejected).2.ketama.continuum_points_counter
      = 160 ∧
    (∀ j < 160,
      index_at (update_continuum sample_externals sample_first_ejected).2.ketama.continuum j
        = 1) ∧
    (dispatch_host sample_externals
      (update_continuum sample_externals sample_first_ejected).2 0 1).2 = 1 := by
  decide

/-! ## Claim about the instance removed by `memcached_server_remove` (C31) -/

/-- C31 (the code departs from the claim): on a fleet of three servers whose
first two instances share the host name `10.0.1.1`, removing `10.0.1.1` succeeds
and drops both instances with that host name, not the first alone: the new fleet
is the single instance `10.0.1.2`, while `number_of_hosts` is `2`, and
`removing_idx` is the position `1` of the last match, not the position `0` of
the first. -/
theorem memcached_server_remove_shared_host :
    (memcached_server_remove sample_externals sample_shared_host (sample_removal "10.0.1.1")).1
      = MEMCACHED_SUCCESS ∧
    (memcached_server_remove sample_externals sample_shared_host
      (sample_removal "10.0.1.1")).2.servers = [sample_server "10.0.1.2" 11211 1 0] ∧
    (memcached_server_remove sample_externals sample_shared_host
      (sample_removal "10.0.1.1")).2.number_of_hosts = 2 ∧
    (memcached_server_remove sample_externals sample_shared_host
      (sample_removal "10.0.1.1")).2.dynamic.removing_idx = 1 := by
  have h1 := memcached_server_remove_found sample_externals sample_shared_host
    [{ hostname := "10.0.1.1", port := 11211, weight := 1, number_of_hosts := 1 }]
    ⟨0, by decide, by decide⟩
  have hc := (remove_loops_eq sample_shared_host "10.0.1.1").2.1
  have hi := (remove_loops_eq sample_shared_host "10.0.1.1").2.2
  unfold sample_removal
  rw [h1]
  refine ⟨by decide, ?_, by decide, ?_⟩
  · show remove_copy sample_shared_host "10.0.1.1" = _
    rw [hc]
    decide
  · show remove_idx sample_shared_host "10.0.1.1" = _
    rw [hi]
    decide

/-! ## Claim about the share of each server in the initial dynamic ring (C37) -/

/-- While fewer than `L * (L - 1)` edges are marked, an edge that leaves the
current node is unmarked. -/
theorem walk_free_edge (L N t : Nat) (st : incipient_state)
    (hN : N = L * (L - 1)) (ht : t < N)
    (hinv : walk_inv L N t st) : ∃ w < L, st.bak st.cur_nd w = 0 := by
  obtain ⟨hc, -, -, -, -, -, hdiag, hlast, hbal, htot, -, -⟩ := hinv
  by_contra hall
  have hfull : ∀ w < L, st.bak st.cur_nd w ≠ 0 := by
    intro w hw h0
    exact hall ⟨w, hw, h0⟩
  have hcardc : (out_edges L st st.cur_nd).card = L - 1 :=
    (card_off_diagonal L st.cur_nd hc (fun w => st.bak st.cur_nd w ≠ 0)).2.mpr
      (fun w hw _ => hfull w hw)
  have hb := hbal st.cur_nd hc
  rw [if_pos rfl, hcardc] at hb
  have hin_le := (card_off_diagonal L st.cur_nd hc (fun u => st.bak u st.cur_nd ≠ 0)).1
  have hin_le2 : (in_edges L st st.cur_nd).card ≤ L - 1 := hin_le
  by_cases h0 : st.cur_nd = 0
  · have hevery : ∀ v, v < L → ∀ w < L, st.bak v w ≠ 0 := by
      intro v
      induction v with
      | zero =>
        intro _
        have hf0 := hfull
        rw [h0] at hf0
        exact hf0
      | succ v ih =>
        intro hv
        have hv2 : v < L := by omega
        have hfv := ih hv2
        have hcv : (out_edges L st v).card = L - 1 :=
          (card_off_diagonal L v hv2 (fun w => st.bak v w ≠ 0)).2.mpr (fun w hw _ => hfv w hw)
        have hbv := hbal v hv2
        rw [hcv, h0] at hbv
        have hiv : (in_edges L st v).card = L - 1 := by
          by_cases hz : v = 0
          · rw [if_pos hz] at hbv
            omega
          · rw [if_neg hz] at hbv
            omega
        have hallin := (card_off_diagonal L v hv2 (fun u => st.bak u v ≠ 0)).2.mp hiv
        have hedge : st.bak (v + 1) v ≠ 0 := hallin (v + 1) hv (by omega)
        have hpred : (v + 1 + L - 1) % L = v := by
          have e : v + 1 + L - 1 = v + L := by omega
          rw [e, Nat.add_mod_right, Nat.mod_eq_of_lt hv2]
        apply hlast (v + 1) hv
        rw [hpred]
        exact hedge
    have hsum : (Finset.range L).sum (fun v => (out_edges L st v).card) = L * (L - 1) := by
      have e : ∀ v ∈ Finset.range L, (out_edges L st v).card = L - 1 := by
        intro v hv
        have hv2 := Finset.mem_range.mp hv
        exact (card_off_diagonal L v hv2 (fun w => st.bak v w ≠ 0)).2.mpr
          (fun w hw _ => hevery v hv2 w hw)
      rw [Finset.sum_congr rfl e, Finset.sum_const, Finset.card_range, smul_eq_mul]
    rw [htot] at hsum
    omega
  · rw [if_neg h0] at hb
    omega

theorem take_set_self (l : List Nat) (a : Nat) : ∀ i, (l.set i a).take i = l.take i := by
  induction l with
  | nil => intro i; simp
  | cons x xs ih =>
    intro i
    cases i with
    | zero => simp
    | succ i => simp [ih i]

theorem take_succ_set (l : List Nat) (i a : Nat) (h : i < l.length) :
    (l.set i a).take (i + 1) = l.take i ++ [a] := by
  rw [List.take_succ, List.getElem?_set_self h, take_set_self]
  rfl

/-- After `t` iterations every node occurs among `set[0 .. t]` once for each
marked edge that leaves it, and the current node once more. -/
theorem walk_count (L : Nat) (hL : 2 ≤ L) (hfit : L * (L - 1) < 4294967296) :
    ∀ t, t ≤ L * (L - 1) - 1 → ∀ v,
      (out_edges L (incipient_walk L (L * (L - 1)) t) v).card +
        (if v = (incipient_walk L (L * (L - 1)) t).cur_nd then 1 else 0) =
      ((incipient_walk L (L * (L - 1)) t).set.take (t + 1)).count v := by
  have hN : 1 ≤ L * (L - 1) := Nat.mul_pos (by omega) (by omega)
  intro t
  induction t with
  | zero =>
    intro _ v
    have hout : out_edges L (incipient_init (L * (L - 1))) v = ∅ := by
      ext w
      simp only [out_edges, incipient_init, Finset.mem_filter, Finset.mem_range,
        Finset.not_mem_empty, iff_false, not_and]
      intro _ hne
      rw [if_neg (Ne.symm hne)]
      simp
    show (out_edges L (incipient_init (L * (L - 1))) v).card +
        (if v = 0 then 1 else 0) = ((List.replicate (L * (L - 1)) 0).take 1).count v
    rw [hout, Finset.card_empty, Nat.zero_add]
    obtain ⟨n, hn⟩ : ∃ n, L * (L - 1) = n + 1 := ⟨L * (L - 1) - 1, by omega⟩
    rw [hn, List.replicate_succ, List.take_succ_cons, List.take_zero, List.count_singleton]
    by_cases hv : v = 0
    · rw [if_pos hv, hv]
      rfl
    · rw [if_neg hv]
      simp [Ne.symm hv]
  | succ t ih =>
    intro ht v
    have h := ih (by omega) v
    obtain ⟨hinv, hscan⟩ := walk_inv_all L hL hfit t (by omega)
    obtain ⟨j, hj⟩ := Option.ne_none_iff_exists'.mp (hscan (by omega))
    obtain ⟨hjL, hzero, -⟩ := incipient_scan_some L _ j hj
    obtain ⟨hc, -, hid, hlen, -, -, hdiag, -⟩ := hinv
    have hrL : u32 ((incipient_walk L (L * (L - 1)) t).cur_frow + j) % L < L :=
      Nat.mod_lt _ (by omega)
    have hrc : u32 ((incipient_walk L (L * (L - 1)) t).cur_frow + j) % L ≠
        (incipient_walk L (L * (L - 1)) t).cur_nd := by
      intro e
      rw [e] at hzero
      exact hdiag _ hzero
    have hst : incipient_walk L (L * (L - 1)) (t + 1) =
        { set := (incipient_walk L (L * (L - 1)) t).set.set
            (incipient_walk L (L * (L - 1)) t).set_id
            (u32 ((incipient_walk L (L * (L - 1)) t).cur_frow + j) % L)
          bak := fun a b =>
            if a = (incipient_walk L (L * (L - 1)) t).cur_nd ∧
                b = u32 ((incipient_walk L (L * (L - 1)) t).cur_frow + j) % L then 1
            else (incipient_walk L (L * (L - 1)) t).bak a b
          cur_nd := u32 ((incipient_walk L (L * (L - 1)) t).cur_frow + j) % L
          set_id := u32 ((incipient_walk L (L * (L - 1)) t).set_id + 1)
          cur_frow := u32 (u32 ((incipient_walk L (L * (L - 1)) t).cur_frow + j) % L + 1) % L } := by
      rw [incipient_walk_succ, incipient_step_eq, hj]
    generalize hr : u32 ((incipient_walk L (L * (L - 1)) t).cur_frow + j) % L = r
      at hst hrL hrc hzero
    generalize incipient_walk L (L * (L - 1)) t = st at h hst hc hid hlen hzero hrc
    have hbak : ∀ a b, (incipient_walk L (L * (L - 1)) (t + 1)).bak a b =
        if a = st.cur_nd ∧ b = r then 1 else st.bak a b := by
      intro a b
      rw [hst]
    rw [out_edges_mark L st _ st.cur_nd r hbak hrL hrc hzero v]
    have hcur : (incipient_walk L (L * (L - 1)) (t + 1)).cur_nd = r := by rw [hst]
    have hset : (incipient_walk L (L * (L - 1)) (t + 1)).set = st.set.set (t + 1) r := by
      rw [hst, hid]
    rw [hcur, hset, take_succ_set _ _ _ (by omega), List.count_append, ← h,
      List.count_singleton]
    by_cases hv : v = r
    · rw [if_pos hv, hv]
      simp
    · rw [if_neg hv]
      have : (r == v) = false := by simpa using Ne.symm hv
      rw [this]
      simp
/-- Every server occurs `L - 1` times in `set`. -/
theorem incipient_set_count (L : Nat) (hL : 2 ≤ L) (hfit : L * (L - 1) < 4294967296)
    (s : Nat) (hs : s < L) :
    (incipient_set L (L * (L - 1))).count s = L - 1 := by
  have hN : 1 ≤ L * (L - 1) := Nat.mul_pos (by omega) (by omega)
  obtain ⟨hinv, -⟩ := walk_inv_all L hL hfit (L * (L - 1) - 1) (le_refl _)
  obtain ⟨w, hw, hw0⟩ := walk_free_edge L _ (L * (L - 1) - 1) _ rfl (by omega) hinv
  have hcount := walk_count L hL hfit (L * (L - 1) - 1) (le_refl _)
  rw [incipient_set_eq_walk]
  generalize incipient_walk L (L * (L - 1)) (L * (L - 1) - 1) = st at hinv hw0 hcount
  obtain ⟨hc, -, -, hlen, -, -, hdiag, -, -, htot, -, -⟩ := hinv
  have hle : ∀ v ∈ Finset.range L,
      (out_edges L st v).card + (if v = st.cur_nd then 1 else 0) ≤ L - 1 := by
    intro v hv
    have hv2 := Finset.mem_range.mp hv
    have h1 := (card_off_diagonal L v hv2 (fun w => st.bak v w ≠ 0)).1
    have h1b : (out_edges L st v).card ≤ L - 1 := h1
    by_cases hvc : v = st.cur_nd
    · rw [if_pos hvc]
      have hne : (out_edges L st v).card ≠ L - 1 := by
        intro hfull
        have hall := (card_off_diagonal L v hv2 (fun w => st.bak v w ≠ 0)).2.mp hfull
        have hwc : w ≠ v := by
          intro e
          rw [e, hvc] at hw0
          exact hdiag _ hw0
        rw [← hvc] at hw0
        exact hall w hw hwc hw0
      omega
    · rw [if_neg hvc]
      omega
  have hsum : (Finset.range L).sum
      (fun v => (out_edges L st v).card + (if v = st.cur_nd then 1 else 0)) =
      (Finset.range L).sum (fun _ => L - 1) := by
    rw [Finset.sum_add_distrib, htot, Finset.sum_ite_eq', if_pos (Finset.mem_range.mpr hc),
      Finset.sum_const, Finset.card_range, smul_eq_mul]
    omega
  have heq := (Finset.sum_eq_sum_iff_of_le hle).mp hsum s (Finset.mem_range.mpr hs)
  have hc2 := hcount s
  rw [heq] at hc2
  have e : L * (L - 1) - 1 + 1 = st.set.length := by omega
  rw [e, List.take_length] at hc2
  exact hc2.symm

/-- The number of positions `k < N * R` with `set[k mod N] = s` is `R` times
the number of occurrences of `s` in `set`. -/
theorem count_repeated (set : List Nat) (s : Nat) :
    ∀ R, (((List.range (set.length * R)).map (fun k => set.getD (k % set.length) 0)).filter
      (fun x => decide (x = s))).length = set.count s * R := by
  intro R
  induction R with
  | zero => simp
  | succ R ih =>
    have e : set.length * (R + 1) = set.length * R + set.length := by ring
    rw [e, List.range_add, List.map_append, List.filter_append, List.length_append, ih,
      List.map_map]
    have hblock : (List.range set.length).map
        ((fun k => set.getD (k % set.length) 0) ∘ fun x => set.length * R + x) = set := by
      apply List.ext_getElem
      · simp
      · intro i h1 h2
        simp only [List.getElem_map, List.getElem_range, Function.comp]
        rw [Nat.mul_add_mod, Nat.mod_eq_of_lt h2, List.getD_eq_getElem?_getD,
          List.getElem?_eq_getElem h2]
        rfl
    have hc : (set.filter (fun x => decide (x = s))).length = set.count s := by
      rw [List.count, List.countP_eq_length_filter]
      congr 2
    rw [hblock, hc]
    ring
/-- C37: after the initial dynamic build over `L >= 2` live servers with
repetition `R >= 1`, when `L * (L - 1) * R` fits `uint32_t`, each server index
`s < L` occurs exactly `L - 1` times in the array `set[0 .. L * (L - 1))` of the
incipient algorithm, and exactly `(L - 1) * R` of the `L * (L - 1) * R` ring
points carry index `s`. -/
theorem initial_build_server_share (E : Externals D) (ptr : memcached_st D) (now : Int)
    (hnow : E.gettimeofday = some now)
    (hok : (update_dynamic E ptr).1 = MEMCACHED_SUCCESS)
    (hL : 2 ≤ live_servers_of ptr now)
    (hcc : ptr.dynamic.continuum_count ≠ live_servers_of ptr now)
    (hempty : ptr.dynamic.continuum_points_counter = 0)
    (hR : 1 ≤ E.MEMCACHED_DYNAMIC_SET_REPETITION)
    (hfit : live_servers_of ptr now * (live_servers_of ptr now - 1) *
      E.MEMCACHED_DYNAMIC_SET_REPETITION < 4294967296) :
    (incipient_set (live_servers_of ptr now) (initial_set_size (live_servers_of ptr now))).length
      = live_servers_of ptr now * (live_servers_of ptr now - 1) ∧
    (update_dynamic E ptr).2.dynamic.continuum_points_counter =
      live_servers_of ptr now * (live_servers_of ptr now - 1) *
        E.MEMCACHED_DYNAMIC_SET_REPETITION ∧
    ∀ s < live_servers_of ptr now,
      (incipient_set (live_servers_of ptr now)
        (initial_set_size (live_servers_of ptr now))).count s = live_servers_of ptr now - 1 ∧
      ring_count (update_dynamic E ptr).2.dynamic.continuum
        (update_dynamic E ptr).2.dynamic.continuum_points_counter s =
        (live_servers_of ptr now - 1) * E.MEMCACHED_DYNAMIC_SET_REPETITION := by
  obtain ⟨d1, -, -⟩ := update_dynamic_rebuild E ptr now hnow hok (by omega) hcc
  obtain ⟨e1, e2⟩ := d1 hempty
  generalize live_servers_of ptr now = L at *
  have hN : L * (L - 1) < 4294967296 :=
    Nat.lt_of_le_of_lt (Nat.le_mul_of_pos_right _ hR) hfit
  have hsize := initial_set_size_eq L hL hN
  have hT : initial_total_points E L = L * (L - 1) * E.MEMCACHED_DYNAMIC_SET_REPETITION := by
    unfold initial_total_points
    rw [hsize]
    exact Nat.mod_eq_of_lt hfit
  have hlen : (incipient_set L (L * (L - 1))).length = L * (L - 1) := by
    have h := (walk_inv_all L hL hN (L * (L - 1) - 1) (le_refl _)).1
    exact h.2.2.2.1
  rw [hsize]
  rw [hT] at e1 e2
  refine ⟨hlen, e1, fun s hs => ⟨incipient_set_count L hL hN s hs, ?_⟩⟩
  have htake : (update_dynamic E ptr).2.dynamic.continuum.take
      (L * (L - 1) * E.MEMCACHED_DYNAMIC_SET_REPETITION) =
      (initial_ring E ptr.dynamic L).take
        (L * (L - 1) * E.MEMCACHED_DYNAMIC_SET_REPETITION) := by
    rw [e2]
    split
    · rw [List.take_take, Nat.min_self]
    · rfl
  have hpts : points_of ((initial_ring E ptr.dynamic L).take
      (L * (L - 1) * E.MEMCACHED_DYNAMIC_SET_REPETITION)) =
      initial_points L (L * (L - 1)) (L * (L - 1) * E.MEMCACHED_DYNAMIC_SET_REPETITION) := by
    have h := points_of_write_points (init_point E) (fresh_item E) (fun b p => ⟨rfl, rfl⟩)
      (initial_points L (initial_set_size L) (initial_total_points E L)) ptr.dynamic.continuum
    rw [length_initial_points, hsize, hT] at h
    unfold initial_ring
    rw [hsize, hT]
    exact h
  have hc := count_repeated (incipient_set L (L * (L - 1))) s
    E.MEMCACHED_DYNAMIC_SET_REPETITION
  rw [hlen, incipient_set_count L hL hN s hs] at hc
  unfold ring_count
  rw [e1, htake, ring_count_points, hpts, ← hc]
  unfold initial_points
  rw [List.filter_map, List.length_map, List.filter_map, List.length_map]
  rfl

/-- Witness of C37: three live servers and `R = 1` give six points, two for
each server. -/
theorem initial_build_server_share_witness :
    sample_externals.gettimeofday = some 1000 ∧
    2 ≤ live_servers_of sample_dynamic_fleet 1000 ∧
    ∀ s < live_servers_of sample_dynamic_fleet 1000,
      (incipient_set (live_servers_of sample_dynamic_fleet 1000)
        (initial_set_size (live_servers_of sample_dynamic_fleet 1000))).count s =
          live_servers_of sample_dynamic_fleet 1000 - 1 ∧
      ring_count (update_dynamic sample_externals sample_dynamic_fleet).2.dynamic.continuum
        (update_dynamic sample_externals sample_dynamic_fleet).2.dynamic.continuum_points_counter s
        = (live_servers_of sample_dynamic_fleet 1000 - 1) *
          sample_externals.MEMCACHED_DYNAMIC_SET_REPETITION :=
  ⟨rfl, by decide,
    (initial_build_server_share sample_externals sample_dynamic_fleet 1000 rfl (by decide)
      (by decide) (by decide) rfl (by decide) (by decide)).2.2⟩

/-! ## Claim about `hashsize` and the share of a server under lookup (C39) -/

/-- C39 (the code departs from the claim): on the sorted ring
`[(10, server 0), (20, server 1)]` with distinct values the first two loops of
the controller tick credit server 0 with `hashsize = 10`, the arc from its point
to the next, and server 1 with `hashsize = 2^32 - 10`, while `dispatch_host`
returns server 0 for every hash and every command, so server 0 owns all `2^32`
hash values under lookup and server 1 none. -/
theorem hashsize_differs_from_lookup_share :
    ring_sorted sample_dynamic_pair.dynamic.continuum 2 ∧
    value_at sample_dynamic_pair.dynamic.continuum 0 ≠
      value_at sample_dynamic_pair.dynamic.continuum 1 ∧
    arcs_of sample_externals sample_dynamic_pair.dynamic 2 0 = 10 ∧
    arcs_of sample_externals sample_dynamic_pair.dynamic 2 1 = 4294967286 ∧
    hashsize_after sample_externals sample_dynamic_pair.dynamic 0 = 10 ∧
    hashsize_after sample_externals sample_dynamic_pair.dynamic 1 = 4294967286 ∧
    ∀ hash cmd, (dispatch_host sample_externals sample_dynamic_pair hash cmd).2 = 0 := by
  refine ⟨by decide, by decide, by decide, by decide, by decide, by decide, fun hash cmd => ?_⟩
  rw [dispatch_host_ring sample_externals sample_dynamic_pair hash cmd
    [sample_point 10 0, sample_point 20 1] 2 rfl]
  have hpos : dispatch_position [sample_point 10 0, sample_point 20 1] 2 hash = 0 := by
    have hnum : u32 (2 + 4294967295) = 1 := by decide
    have hloop : search_loop [sample_point 10 0, sample_point 20 1] hash 1 0 1 =
        if value_at [sample_point 10 0, sample_point 20 1] 0 < hash then 1 else 0 := by
      simp only [search_loop]
      rfl
    unfold dispatch_position
    rw [hnum]
    dsimp only
    rw [hloop]
    split <;> simp
  rw [hpos]
  rfl

/-! ## Claim about the ketama statistics tick (C35) -/

/-- A loop that applies `f` to the entries `0 .. n - 1` of an array. -/
theorem foldl_modify_range {α : Type} (f : α → α) (l : List α) (i : Nat) :
    ∀ n, ((List.range n).foldl (fun s h => modify_at f s h) l)[i]? =
      if i < n then (l[i]?).map f else l[i]? := by
  intro n
  induction n with
  | zero => simp
  | succ n ih =>
    rw [List.range_succ, List.foldl_append]
    simp only [List.foldl_cons, List.foldl_nil]
    rw [getElem?_modify_at, ih]
    by_cases h1 : i = n
    · rw [if_pos h1, if_neg (by omega), if_pos (by omega)]
    · rw [if_neg h1]
      by_cases h2 : i < n
      · rw [if_pos h2, if_pos (by omega)]
      · rw [if_neg h2, if_neg (by omega)]

theorem length_foldl_modify {α β : Type} (f : β → α → α) (g : β → Nat) (xs : List β) :
    ∀ l : List α, (xs.foldl (fun s h => modify_at (f h) s (g h)) l).length = l.length := by
  induction xs with
  | nil => intro l; rfl
  | cons x xs ih =>
    intro l
    rw [List.foldl_cons, ih, length_modify_at]

theorem length_ketama_servers (E : Externals D) (ks : ketama_stat D)
    (continuum : List (memcached_continuum_item_st D)) (servers : List (sched_context D)) :
    (ketama_servers E ks continuum servers).length = servers.length := by
  have hsum : ∀ n (l : List (sched_context D)),
      ((List.range n).foldl (ketama_sum_step E) (l, 0)).1.length = l.length := by
    intro n l
    induction n with
    | zero => rfl
    | succ n ih =>
      rw [List.range_succ, List.foldl_append]
      simp only [List.foldl_cons, List.foldl_nil]
      show (modify_at _ _ n).length = _
      rw [length_modify_at, ih]
  unfold ketama_servers
  rw [length_foldl_modify (fun _ => ketama_report_host E _) (fun i => i)]
  unfold ketama_sums
  rw [hsum]
  unfold ketama_accumulate
  exact length_foldl_modify (fun j => ketama_add_point E continuum ks.continuum_points_counter j)
    (fun j => (slot E continuum j).index) _ _

/-- C35: `mem_hs_sched_ketama` leaves the ketama ring as it was, with its
`(value, index)` points and `continuum_points_counter` (it writes to the
statistics block only), and when the `continuum_points_counter` of the
statistics block is not 1, after the tick `ketama_stat.max` and
`ketama_stat.maxid` are 0, the array `servers` has its length and every server
below `continuum_count` has `get`, `set`, `sum` and `hashsize` equal to 0. -/
theorem mem_hs_sched_ketama_frame (E : Externals D) (ptr : memcached_st D) :
    (mem_hs_sched_ketama E ptr).ketama = ptr.ketama ∧
    points_of (mem_hs_sched_ketama E ptr).ketama.continuum = points_of ptr.ketama.continuum ∧
    (mem_hs_sched_ketama E ptr).ketama.continuum_points_counter =
      ptr.ketama.continuum_points_counter ∧
    (mem_hs_sched_ketama E ptr).dynamic = ptr.dynamic ∧
    (ptr.ketama_stat = none → mem_hs_sched_ketama E ptr = ptr) ∧
    (∀ ks, ptr.ketama_stat = some ks → ks.continuum_points_counter ≠ 1 →
      ∃ ks2, (mem_hs_sched_ketama E ptr).ketama_stat = some ks2 ∧
        ks2.max = 0 ∧ ks2.maxid = 0 ∧
        ks2.continuum_points_counter = ks.continuum_points_counter ∧
        ks2.continuum_count = ks.continuum_count ∧
        ∀ l, ks.servers = some l →
          ∃ l2, ks2.servers = some l2 ∧ l2.length = l.length ∧
            ∀ i < ks.continuum_count, ∀ s, l2[i]? = some s →
              s.get = 0 ∧ s.set = 0 ∧ s.sum = 0 ∧ s.hashsize = 0) := by
  have hk : (mem_hs_sched_ketama E ptr).ketama = ptr.ketama := by
    unfold mem_hs_sched_ketama
    cases ptr.ketama_stat with
    | none => rfl
    | some ks =>
      dsimp only
      split <;> rfl
  have hd : (mem_hs_sched_ketama E ptr).dynamic = ptr.dynamic := by
    unfold mem_hs_sched_ketama
    cases ptr.ketama_stat with
    | none => rfl
    | some ks =>
      dsimp only
      split <;> rfl
  refine ⟨hk, by rw [hk], by rw [hk], hd, fun hn => ?_, fun ks hks h1 => ?_⟩
  · unfold mem_hs_sched_ketama
    rw [hn]
  · unfold mem_hs_sched_ketama
    rw [hks]
    dsimp only
    rw [if_neg h1]
    refine ⟨_, rfl, rfl, rfl, rfl, rfl, fun l hl => ?_⟩
    rw [hl]
    refine ⟨_, rfl, length_ketama_servers E ks _ l, fun i hi s hs => ?_⟩
    unfold ketama_servers at hs
    rw [foldl_modify_range, if_pos hi] at hs
    cases hx : (ketama_sums E ks.continuum_count
        (ketama_accumulate E ptr.ketama.continuum ks.continuum_points_counter l)).1[i]? with
    | none =>
      rw [hx] at hs
      cases hs
    | some x =>
      rw [hx] at hs
      simp only [Option.map_some', Option.some.injEq] at hs
      rw [← hs]
      exact ⟨rfl, rfl, rfl, rfl⟩

/-- Witness of C35: a statistics block over two servers that has recorded
three gets and one set. -/
theorem mem_hs_sched_ketama_frame_witness :
    ∃ ks2, (mem_hs_sched_ketama sample_externals sample_ketama_stat).ketama_stat = some ks2 ∧
      ks2.max = 0 ∧ ks2.maxid = 0 ∧
      ks2.continuum_points_counter = 2 ∧
      ks2.continuum_count = 2 ∧
      ∀ l, some [{ sched_zero (0 : ℚ) with get := 2, set := 1 }, { sched_zero 0 with get := 1 }]
          = some l →
        ∃ l2, ks2.servers = some l2 ∧ l2.length = l.length ∧
          ∀ i < 2, ∀ s, l2[i]? = some s →
            s.get = 0 ∧ s.set = 0 ∧ s.sum = 0 ∧ s.hashsize = 0 :=
  (mem_hs_sched_ketama_frame sample_externals sample_ketama_stat).2.2.2.2.2 _ rfl (by decide)

/-! ## Claims about the dynamic controller tick (C33, C34, C38) -/

/-- A loop whose iterations keep a projection of every entry keeps it. -/
theorem foldl_fst_proj {α σ β : Type} (proj : α → β) (step : List α × σ → Nat → List α × σ)
    (hstep : ∀ (st : List α × σ) (i k : Nat),
      ((step st i).1[k]?).map proj = (st.1[k]?).map proj) :
    ∀ (xs : List Nat) (st : List α × σ) (k : Nat),
      ((xs.foldl step st).1[k]?).map proj = (st.1[k]?).map proj := by
  intro xs
  induction xs with
  | nil => intro st k; rfl
  | cons x xs ih =>
    intro st k
    rw [List.foldl_cons, ih, hstep]

theorem map_modify_at_proj {α β : Type} (proj : α → β) (f : α → α)
    (hf : ∀ a, proj (f a) = proj a) (l : List α) (i k : Nat) :
    ((modify_at f l i)[k]?).map proj = (l[k]?).map proj := by
  rw [getElem?_modify_at]
  split
  · rw [Option.map_map]
    congr 1
    funext a
    exact hf a
  · rfl

/-- The hit rate loop and the normalising loop of the controller tick keep
`get`, `set` and `sum` of every server. -/
theorem sched_servers_counters (E : Externals D) (dyn : sched_dynamic D) (h : Nat) :
    ((sched_servers E dyn)[h]?).map (fun s => (s.get, s.set, s.sum)) =
      (((sched_accumulate E dyn (sched_clear_servers E dyn)).1)[h]?).map
        (fun s => (s.get, s.set, s.sum)) := by
  unfold sched_servers sched_normalise sched_hitrates
  rw [foldl_fst_proj (fun s : sched_context D => (s.get, s.set, s.sum)) _
    (fun st i k => map_modify_at_proj (fun s : sched_context D => (s.get, s.set, s.sum))
      (sched_normalise_host E (sched_accumulate E dyn (sched_clear_servers E dyn)).2
        (sched_max_hr E st.2)) (fun a => rfl) st.1 i k)]
  exact foldl_fst_proj (fun s : sched_context D => (s.get, s.set, s.sum)) (sched_hitrate_step E)
    (fun st i k => map_modify_at_proj (fun s : sched_context D => (s.get, s.set, s.sum))
      (sched_hitrate_host E) (fun a => by
      unfold sched_hitrate_host
      split <;> rfl) st.1 i k) _ _ h

/-- The accumulation loop leaves alone a server that owns no point. -/
theorem sched_accumulate_frame (E : Externals D) (dyn : sched_dynamic D)
    (servers : List (sched_context D)) (h : Nat) :
    ∀ n, (∀ j < n, index_at dyn.continuum j ≠ h) →
      (((List.range n).foldl (sched_accumulate_step E dyn) (servers, 0)).1)[h]? = servers[h]? := by
  intro n
  induction n with
  | zero => intro _; rfl
  | succ n ih =>
    intro hno
    rw [List.range_succ, List.foldl_append]
    simp only [List.foldl_cons, List.foldl_nil]
    show (modify_at _ _ (slot E dyn.continuum n).index)[h]? = _
    rw [getElem?_modify_at, slot_index, if_neg (fun e => hno n (by omega) e.symm)]
    exact ih (fun j hj => hno j (by omega))

/-- The ring part of the reset loop resets the points one by one. -/
theorem sched_reset_fst (E : Externals D) :
    ∀ (n : Nat) (st : List (memcached_continuum_item_st D) × List (sched_context D)),
      ((List.range n).foldl (sched_reset_step E) st).1 =
        (List.range n).foldl (fun c h => modify_at (sched_reset_point E) c h) st.1 := by
  intro n st
  induction n with
  | zero => rfl
  | succ n ih =>
    rw [List.range_succ, List.foldl_append, List.foldl_append]
    simp only [List.foldl_cons, List.foldl_nil]
    rw [← ih]
    rfl

theorem points_of_reset (E : Externals D) (ring : List (memcached_continuum_item_st D)) :
    ∀ n, points_of ((List.range n).foldl (fun c h => modify_at (sched_reset_point E) c h) ring)
      = points_of ring := by
  intro n
  induction n with
  | zero => rfl
  | succ n ih =>
    rw [List.range_succ, List.foldl_append]
    simp only [List.foldl_cons, List.foldl_nil]
    rw [points_of_modify_at (sched_reset_point E) (fun p => ⟨rfl, rfl⟩), ih]

/-- The server part of the reset loop: the servers that own one of the first
`n` points are reset, the others are left alone. -/
theorem sched_reset_snd (E : Externals D) (ring : List (memcached_continuum_item_st D))
    (servers : List (sched_context D)) (h : Nat) :
    ∀ n, ((∃ j < n, index_at ring j = h) →
        (((List.range n).foldl (sched_reset_step E) (ring, servers)).2)[h]? =
          (servers[h]?).map (sched_reset_host E)) ∧
      ((∀ j < n, index_at ring j ≠ h) →
        (((List.range n).foldl (sched_reset_step E) (ring, servers)).2)[h]? = servers[h]?) := by
  intro n
  induction n with
  | zero =>
    refine ⟨fun ⟨j, hj, _⟩ => absurd hj (Nat.not_lt_zero j), fun _ => rfl⟩
  | succ n ih =>
    have hidx : (slot E ((List.range n).foldl (sched_reset_step E) (ring, servers)).1 n).index =
        index_at ring n := by
      rw [slot_index, sched_reset_fst]
      exact index_at_congr _ _ (points_of_reset E ring n) n
    have hstep : ((List.range (n + 1)).foldl (sched_reset_step E) (ring, servers)).2 =
        modify_at (sched_reset_host E)
          ((List.range n).foldl (sched_reset_step E) (ring, servers)).2 (index_at ring n) := by
      rw [List.range_succ, List.foldl_append]
      simp only [List.foldl_cons, List.foldl_nil]
      show modify_at _ _ (slot E _ n).index = _
      rw [hidx]
    rw [hstep, getElem?_modify_at]
    by_cases hn : h = index_at ring n
    · rw [if_pos hn]
      refine ⟨fun _ => ?_, fun hno => absurd hn.symm (hno n (by omega))⟩
      by_cases hex : ∃ j < n, index_at ring j = h
      · rw [ih.1 hex, Option.map_map]
        congr 1
      · rw [ih.2 (fun j hj e => hex ⟨j, hj, e⟩)]
    · rw [if_neg hn]
      refine ⟨fun ⟨j, hj, e⟩ => ih.1 ⟨j, ?_, e⟩, fun hno => ih.2 (fun j hj => hno j (by omega))⟩
      rcases Nat.lt_or_ge j n with h1 | h1
      · exact h1
      · have : j = n := by omega
        rw [this] at e
        exact absurd e.symm hn

/-- The move of the controller tick changes no index and no counter. -/
theorem controller_move_frame (ring : List (memcached_continuum_item_st D))
    (i j k amount : Nat) (cw : Bool) (x : Nat) :
    ((controller_move ring i j k cw amount)[x]?).map (fun p => (p.index, p.sched)) =
      (ring[x]?).map (fun p => (p.index, p.sched)) := by
  unfold controller_move
  split
  · split
    · exact map_modify_at_proj (fun p : memcached_continuum_item_st D => (p.index, p.sched))
        (fun p => { p with value := u32 (p.value + amount) }) (fun a => rfl) ring j x
    · rfl
  · split
    · exact map_modify_at_proj (fun p : memcached_continuum_item_st D => (p.index, p.sched))
        (fun p => { p with value := u32 (p.value + 4294967296 - amount) }) (fun a => rfl)
        ring j x
    · rfl
theorem index_at_controller_move (ring : List (memcached_continuum_item_st D))
    (i j k amount : Nat) (cw : Bool) (x : Nat) :
    index_at (controller_move ring i j k cw amount) x = index_at ring x := by
  have h := controller_move_frame ring i j k amount cw x
  unfold index_at
  cases h1 : (controller_move ring i j k cw amount)[x]? with
  | none =>
    rw [h1] at h
    cases h2 : ring[x]? with
    | none => rfl
    | some q =>
      rw [h2] at h
      cases h
  | some p =>
    rw [h1] at h
    cases h2 : ring[x]? with
    | none =>
      rw [h2] at h
      cases h
    | some q =>
      rw [h2] at h
      simp only [Option.map_some', Option.some.injEq, Prod.mk.injEq] at h
      exact h.1

/-- The state the controller tick leaves when it has chosen a move. -/
theorem mem_hs_sched_dynamic_moved (E : Externals D) (dyn : sched_dynamic D)
    (hP : dyn.continuum_points_counter ≠ 1) (hs : (sched_chosen E dyn).schedulable = true) :
    mem_hs_sched_dynamic E dyn =
      { dyn with
        continuum :=
          (sched_reset E dyn.continuum_points_counter
            (controller_move dyn.continuum (sched_chosen E dyn).max_i (sched_chosen E dyn).max_j
               (sched_chosen E dyn).max_k (sched_chosen E dyn).max_cw
               (sched_amount E dyn.beta dyn.continuum (sched_chosen E dyn)),
             sched_servers E dyn)).1
        servers :=
          (sched_reset E dyn.continuum_points_counter
            (controller_move dyn.continuum (sched_chosen E dyn).max_i (sched_chosen E dyn).max_j
               (sched_chosen E dyn).max_k (sched_chosen E dyn).max_cw
               (sched_amount E dyn.beta dyn.continuum (sched_chosen E dyn)),
             sched_servers E dyn)).2
        max := 0
        maxid := 0 } := by
  unfold mem_hs_sched_dynamic
  rw [if_neg hP, if_pos hs]

/-- The state the controller tick leaves when it has chosen no move. -/
theorem mem_hs_sched_dynamic_idle (E : Externals D) (dyn : sched_dynamic D)
    (hP : dyn.continuum_points_counter ≠ 1) (hs : (sched_chosen E dyn).schedulable = false) :
    mem_hs_sched_dynamic E dyn = { dyn with servers := sched_servers E dyn } := by
  unfold mem_hs_sched_dynamic
  rw [if_neg hP, hs]
  rfl

/-- The points after the reset loop. -/
theorem sched_reset_points (E : Externals D) (P : Nat)
    (st : List (memcached_continuum_item_st D) × List (sched_context D)) (k : Nat) :
    ((sched_reset E P st).1)[k]? =
      if k < P then (st.1[k]?).map (sched_reset_point E) else st.1[k]? := by
  unfold sched_reset
  rw [sched_reset_fst]
  exact foldl_modify_range (sched_reset_point E) st.1 k P

/-- C34 (amended): a dynamic controller tick on a ring of `P >= 2` points that
finds a movable pair leaves `max = maxid = 0`, every point with
`get = set = sum = 0` and its index and `hitrate` as before, every server below
`continuum_count` with `get = set = 0`, and every server with the `sum` and the
`hitrate` that the loops over the servers computed (they are not reset); a tick
that finds no movable pair resets nothing: the ring, `max` and `maxid` are as
before and the servers are as the loops over the servers left them. In both
cases those loops give each server the `get`, `set` and `sum` accumulated from
its points. -/
theorem mem_hs_sched_dynamic_reset (E : Externals D) (dyn : sched_dynamic D)
    (hP : 2 ≤ dyn.continuum_points_counter) :
    ((sched_chosen E dyn).schedulable = true →
      (mem_hs_sched_dynamic E dyn).max = 0 ∧
      (mem_hs_sched_dynamic E dyn).maxid = 0 ∧
      (∀ k < dyn.continuum_points_counter, ∀ p,
        (mem_hs_sched_dynamic E dyn).continuum[k]? = some p →
          p.sched.get = 0 ∧ p.sched.set = 0 ∧ p.sched.sum = 0) ∧
      (∀ k : Nat, ((mem_hs_sched_dynamic E dyn).continuum[k]?).map
          (fun p : memcached_continuum_item_st D => (p.index, p.sched.hitrate)) =
        (dyn.continuum[k]?).map (fun p : memcached_continuum_item_st D => (p.index, p.sched.hitrate))) ∧
      (∀ h < dyn.continuum_count, ∀ s, (mem_hs_sched_dynamic E dyn).servers[h]? = some s →
        s.get = 0 ∧ s.set = 0) ∧
      (∀ h : Nat, ((mem_hs_sched_dynamic E dyn).servers[h]?).map (fun s : sched_context D => (s.sum, s.hitrate)) =
        ((sched_servers E dyn)[h]?).map (fun s : sched_context D => (s.sum, s.hitrate)))) ∧
    ((sched_chosen E dyn).schedulable = false →
      (mem_hs_sched_dynamic E dyn).continuum = dyn.continuum ∧
      (mem_hs_sched_dynamic E dyn).max = dyn.max ∧
      (mem_hs_sched_dynamic E dyn).maxid = dyn.maxid ∧
      (mem_hs_sched_dynamic E dyn).servers = sched_servers E dyn) ∧
    (∀ h : Nat, ((sched_servers E dyn)[h]?).map (fun s : sched_context D => (s.get, s.set, s.sum)) =
      (((sched_accumulate E dyn (sched_clear_servers E dyn)).1)[h]?).map
        (fun s : sched_context D => (s.get, s.set, s.sum))) := by
  have hP1 : dyn.continuum_points_counter ≠ 1 := by omega
  refine ⟨fun hs => ?_, fun hs => ?_, sched_servers_counters E dyn⟩
  · rw [mem_hs_sched_dynamic_moved E dyn hP1 hs]
    dsimp only
    generalize hch : sched_chosen E dyn = ch
    generalize hamt : sched_amount E dyn.beta dyn.continuum ch = amount
    refine ⟨rfl, rfl, fun k hk p hp => ?_, fun k => ?_, fun h hh s hsv => ?_, fun h => ?_⟩
    · rw [sched_reset_points, if_pos hk] at hp
      cases hq : (controller_move dyn.continuum ch.max_i ch.max_j ch.max_k ch.max_cw amount)[k]?
        with
      | none =>
        rw [hq] at hp
        cases hp
      | some q =>
        rw [hq] at hp
        simp only [Option.map_some', Option.some.injEq] at hp
        rw [← hp]
        exact ⟨rfl, rfl, rfl⟩
    · have hframe := congrArg
        (Option.map (fun q : Nat × sched_context D => (q.1, q.2.hitrate)))
        (controller_move_frame dyn.continuum ch.max_i ch.max_j ch.max_k amount ch.max_cw k)
      rw [Option.map_map, Option.map_map] at hframe
      rw [sched_reset_points]
      split
      · rw [Option.map_map]
        exact hframe
      · exact hframe
    · by_cases hex : ∃ j < dyn.continuum_points_counter,
          index_at (controller_move dyn.continuum ch.max_i ch.max_j ch.max_k ch.max_cw amount) j
            = h
      · have hr := (sched_reset_snd E _ (sched_servers E dyn) h dyn.continuum_points_counter).1
          hex
        unfold sched_reset at hsv
        rw [hr] at hsv
        cases hx : (sched_servers E dyn)[h]? with
        | none =>
          rw [hx] at hsv
          cases hsv
        | some x =>
          rw [hx] at hsv
          simp only [Option.map_some', Option.some.injEq] at hsv
          rw [← hsv]
          exact ⟨rfl, rfl⟩
      · have hno : ∀ j < dyn.continuum_points_counter, index_at dyn.continuum j ≠ h := by
          intro j hj e
          exact hex ⟨j, hj, by rw [index_at_controller_move]; exact e⟩
        have hr := (sched_reset_snd E
          (controller_move dyn.continuum ch.max_i ch.max_j ch.max_k ch.max_cw amount)
          (sched_servers E dyn) h dyn.continuum_points_counter).2
          (fun j hj e => hex ⟨j, hj, e⟩)
        unfold sched_reset at hsv
        rw [hr] at hsv
        have hc := sched_servers_counters E dyn h
        unfold sched_accumulate at hc
        rw [sched_accumulate_frame E dyn _ h _ hno, sched_clear_servers_reads, if_pos hh, hsv]
          at hc
        cases hx : dyn.servers[h]? with
        | none =>
          rw [hx] at hc
          cases hc
        | some x =>
          rw [hx] at hc
          simp only [Option.map_some', Option.some.injEq, Prod.mk.injEq] at hc
          exact ⟨hc.1, hc.2.1⟩
    · by_cases hex : ∃ j < dyn.continuum_points_counter,
          index_at (controller_move dyn.continuum ch.max_i ch.max_j ch.max_k ch.max_cw amount) j
            = h
      · have hr := (sched_reset_snd E _ (sched_servers E dyn) h dyn.continuum_points_counter).1
          hex
        unfold sched_reset
        rw [hr, Option.map_map]
        rfl
      · have hr := (sched_reset_snd E
          (controller_move dyn.continuum ch.max_i ch.max_j ch.max_k ch.max_cw amount)
          (sched_servers E dyn) h dyn.continuum_points_counter).2
          (fun j hj e => hex ⟨j, hj, e⟩)
        unfold sched_reset
        rw [hr]
  · rw [mem_hs_sched_dynamic_idle E dyn hP1 hs]
    exact ⟨rfl, rfl, rfl, rfl⟩

unseal Rat.add Rat.mul Rat.inv Rat.sub in
set_option maxRecDepth 100000 in
/-- C34 (the claim fails as stated): after the initial build over three servers
and two get commands that select point 3, the servers of largest and smallest
cost are 0 and 1, the two adjacent pairs of their points have equal costs, and
the controller tick finds no movable pair. It resets nothing: point 3 keeps
`get = 2` and `sum = 2`, server 0 has `get = 2`, and `max` stays 2. -/
theorem mem_hs_sched_dynamic_keeps_counters :
    sample_dynamic_hit_twice.dynamic.continuum_points_counter = 6 ∧
    (sched_chosen sample_externals sample_dynamic_hit_twice.dynamic).schedulable = false ∧
    (mem_hs_sched_dynamic sample_externals sample_dynamic_hit_twice.dynamic).continuum.map
        (fun p => (p.sched.get, p.sched.set, p.sched.sum)) =
      [(0, 0, 0), (0, 0, 0), (0, 0, 0), (2, 0, 2), (0, 0, 0), (0, 0, 0)] ∧
    (mem_hs_sched_dynamic sample_externals sample_dynamic_hit_twice.dynamic).max = 2 ∧
    (mem_hs_sched_dynamic sample_externals sample_dynamic_hit_twice.dynamic).servers.map
        (fun s => (s.get, s.set)) = [(2, 0), (0, 0), (0, 0)] := by
  decide

unseal Rat.add Rat.mul Rat.inv Rat.sub in
set_option maxRecDepth 100000 in
/-- Witness of C34 (amended): after one get command that selects point 0 the
tick finds a movable pair and resets the counters. -/
theorem mem_hs_sched_dynamic_reset_witness :
    2 ≤ sample_dynamic_hit_first.dynamic.continuum_points_counter ∧
    (sched_chosen sample_externals sample_dynamic_hit_first.dynamic).schedulable = true ∧
    (mem_hs_sched_dynamic sample_externals sample_dynamic_hit_first.dynamic).max = 0 ∧
    (mem_hs_sched_dynamic sample_externals sample_dynamic_hit_first.dynamic).maxid = 0 ∧
    (∀ k < sample_dynamic_hit_first.dynamic.continuum_points_counter, ∀ p,
      (mem_hs_sched_dynamic sample_externals sample_dynamic_hit_first.dynamic).continuum[k]?
        = some p → p.sched.get = 0 ∧ p.sched.set = 0 ∧ p.sched.sum = 0) :=
  ⟨by decide, by decide,
    ((mem_hs_sched_dynamic_reset sample_externals sample_dynamic_hit_first.dynamic
      (by decide)).1 (by decide)).1,
    ((mem_hs_sched_dynamic_reset sample_externals sample_dynamic_hit_first.dynamic
      (by decide)).1 (by decide)).2.1,
    ((mem_hs_sched_dynamic_reset sample_externals sample_dynamic_hit_first.dynamic
      (by decide)).1 (by decide)).2.2.1⟩

/-- The distance `abs_int(a - b)` of the controller tick is the shorter of the
two arcs between the values. -/
theorem abs_int_distance (a b : Nat) (ha : a < 4294967296) (hb : b < 4294967296) :
    abs_int (i32 (u32 (a + 4294967296 - b))) = arc_distance a b ∧
    abs_int (i32 (u32 (b + 4294967296 - a))) = arc_distance a b := by
  unfold arc_distance
  rw [hs_round_eq a b ha hb]
  unfold abs_int i32 u32_of_int u32
  rcases Nat.lt_trichotomy a b with h | h | h
  · have e1 : (a + 4294967296 - b) % 4294967296 = a + 4294967296 - b :=
      Nat.mod_eq_of_lt (by omega)
    have e2 : (b + 4294967296 - a) % 4294967296 = b - a := by omega
    rw [e1, e2, Nat.mod_eq_of_lt (by omega : a + 4294967296 - b < 4294967296),
      Nat.mod_eq_of_lt (by omega : b - a < 4294967296)]
    constructor
    · by_cases hc : a + 4294967296 - b < 2147483648
      · rw [if_pos hc, if_neg (by omega), if_neg (by omega)]
        omega
      · rw [if_neg hc, if_pos (by omega), if_pos (by omega)]
        omega
    · by_cases hc : b - a < 2147483648
      · rw [if_pos hc, if_neg (by omega), if_pos (by omega)]
        omega
      · rw [if_neg hc, if_pos (by omega)]
        by_cases hd : b - a ≤ 2147483648
        · rw [if_pos hd]
          omega
        · rw [if_neg hd]
          omega
  · subst h
    have e1 : (a + 4294967296 - a) % 4294967296 = 0 := by
      have : a + 4294967296 - a = 4294967296 := by omega
      rw [this]
    rw [e1]
    simp
  · have e1 : (a + 4294967296 - b) % 4294967296 = a - b := by omega
    have e2 : (b + 4294967296 - a) % 4294967296 = b + 4294967296 - a :=
      Nat.mod_eq_of_lt (by omega)
    rw [e1, e2, Nat.mod_eq_of_lt (by omega : a - b < 4294967296),
      Nat.mod_eq_of_lt (by omega : b + 4294967296 - a < 4294967296)]
    constructor
    · by_cases hc : a - b < 2147483648
      · rw [if_pos hc, if_neg (by omega), if_neg (by omega)]
        omega
      · rw [if_neg hc, if_pos (by omega), if_pos (by omega)]
        omega
    · by_cases hc : b + 4294967296 - a < 2147483648
      · rw [if_pos hc, if_neg (by omega), if_pos (by omega)]
        omega
      · rw [if_neg hc, if_pos (by omega)]
        by_cases hd : b + 4294967296 - a ≤ 2147483648
        · rw [if_pos hd]
          omega
        · rw [if_neg hd]
          omega
/-- The pair loop either leaves its locals as they were initialised or ends with
the assignments made at one position `j` of the ring. -/
theorem sched_choose_spec (E : Externals D) (ring : List (memcached_continuum_item_st D))
    (P : Nat) (mm : sched_min_max_state D)
    (hs : (sched_choose E ring P mm).schedulable = true) :
    ∃ j < P, sched_choose E ring P mm =
      sched_take_pair E ring P
        (abs_double E (E.dsub (point_cost E ring j) (point_cost E ring (ring_next P j))))
        (if mm.srv_max_id = mm.srv_min_id then
          E.dgt E.dzero (E.dsub (point_cost E ring j) (point_cost E ring (ring_next P j)))
         else decide (mm.srv_min_id = index_at ring j)) j := by
  have hinit : (sched_choice_init E).schedulable = false := rfl
  unfold sched_choose at hs ⊢
  by_cases hm : mm.srv_max_id = mm.srv_min_id
  · rw [if_pos hm] at hs ⊢
    simp only [if_pos hm]
    have inv : ∀ n, (List.range n).foldl (sched_any_pair_step E ring P) (sched_choice_init E) =
          sched_choice_init E ∨
        ∃ j < n, (List.range n).foldl (sched_any_pair_step E ring P) (sched_choice_init E) =
          sched_take_pair E ring P
            (abs_double E (E.dsub (point_cost E ring j) (point_cost E ring (ring_next P j))))
            (E.dgt E.dzero (E.dsub (point_cost E ring j) (point_cost E ring (ring_next P j))))
            j := by
      intro n
      induction n with
      | zero => exact Or.inl rfl
      | succ n ih =>
        rw [List.range_succ, List.foldl_append]
        simp only [List.foldl_cons, List.foldl_nil]
        unfold sched_any_pair_step
        split
        · exact Or.inr ⟨n, by omega, rfl⟩
        · rcases ih with h | ⟨j, hj, h⟩
          · exact Or.inl h
          · exact Or.inr ⟨j, by omega, h⟩
    rcases inv P with h | h
    · rw [h, hinit] at hs
      cases hs
    · exact h
  · rw [if_neg hm] at hs ⊢
    simp only [if_neg hm]
    have inv : ∀ n, (List.range n).foldl
          (sched_pair_step E ring P mm.srv_min_id mm.srv_max_id) (sched_choice_init E) =
          sched_choice_init E ∨
        ∃ j < n, (List.range n).foldl
          (sched_pair_step E ring P mm.srv_min_id mm.srv_max_id) (sched_choice_init E) =
          sched_take_pair E ring P
            (abs_double E (E.dsub (point_cost E ring j) (point_cost E ring (ring_next P j))))
            (decide (mm.srv_min_id = index_at ring j)) j := by
      intro n
      induction n with
      | zero => exact Or.inl rfl
      | succ n ih =>
        rw [List.range_succ, List.foldl_append]
        simp only [List.foldl_cons, List.foldl_nil]
        unfold sched_pair_step
        by_cases hc : (mm.srv_max_id = index_at ring n ∧
              mm.srv_min_id = index_at ring (ring_next P n)) ∨
            (mm.srv_min_id = index_at ring n ∧ mm.srv_max_id = index_at ring (ring_next P n))
        · rw [if_pos hc]
          split
          · exact Or.inr ⟨n, by omega, rfl⟩
          · rcases ih with h | ⟨j, hj, h⟩
            · exact Or.inl h
            · exact Or.inr ⟨j, by omega, h⟩
        · rw [if_neg hc]
          rcases ih with h | ⟨j, hj, h⟩
          · exact Or.inl h
          · exact Or.inr ⟨j, by omega, h⟩
    rcases inv P with h | h
    · rw [h, hinit] at hs
      cases hs
    · exact h

/-- The values of the ring after a tick that has chosen a move are those the
move leaves. -/
theorem value_at_tick (E : Externals D) (dyn : sched_dynamic D)
    (hP : dyn.continuum_points_counter ≠ 1) (hs : (sched_chosen E dyn).schedulable = true)
    (x : Nat) :
    value_at (mem_hs_sched_dynamic E dyn).continuum x =
      value_at (controller_move dyn.continuum (sched_chosen E dyn).max_i
        (sched_chosen E dyn).max_j (sched_chosen E dyn).max_k (sched_chosen E dyn).max_cw
        (sched_amount E dyn.beta dyn.continuum (sched_chosen E dyn))) x := by
  rw [mem_hs_sched_dynamic_moved E dyn hP hs]
  dsimp only
  unfold sched_reset
  rw [sched_reset_fst]
  exact value_at_congr _ _ (points_of_reset E _ _) x

/-- C33 (amended): when the dynamic controller tick chooses a move, it is a
move of one point `j < P` with `max_k = (j + 1) mod P`, `max_i = (j - 1) mod P`
and the costs of these three points. The direction is clockwise exactly when the
server of smallest cost owns `points[j]` if the servers of largest and smallest
cost differ, and exactly when `cost(j) - cost(k) < 0` if they are the same
server. The amount is `beta * (1 - rate) * d` converted to `uint32_t`, with
`rate` the quotient of the costs of `points[j]` and of the neighbour it moves
toward, the smaller over the larger, and `d` the shorter of the arc between the
two points and its complement, which is the arc itself when that is at most
`2^31`. The value of `points[j]` goes up (clockwise) or down (counter-clockwise)
by the amount, in `uint32_t`, when `d` exceeds the amount, and no other value
changes. -/
theorem mem_hs_sched_dynamic_move (E : Externals D) (dyn : sched_dynamic D)
    (hP : dyn.continuum_points_counter ≠ 1)
    (hlen : dyn.continuum_points_counter ≤ dyn.continuum.length)
    (hv : ∀ x < dyn.continuum_points_counter, value_at dyn.continuum x < 4294967296)
    (hP32 : dyn.continuum_points_counter < 4294967296)
    (hs : (sched_chosen E dyn).schedulable = true) :
    (sched_chosen E dyn).max_j < dyn.continuum_points_counter ∧
    (sched_chosen E dyn).max_k =
      ring_next dyn.continuum_points_counter (sched_chosen E dyn).max_j ∧
    (sched_chosen E dyn).max_i =
      ring_prev dyn.continuum_points_counter (sched_chosen E dyn).max_j ∧
    (sched_chosen E dyn).max_cost_i = point_cost E dyn.continuum (sched_chosen E dyn).max_i ∧
    (sched_chosen E dyn).max_cost_j = point_cost E dyn.continuum (sched_chosen E dyn).max_j ∧
    (sched_chosen E dyn).max_cost_k = point_cost E dyn.continuum (sched_chosen E dyn).max_k ∧
    ((sched_extremes E dyn).srv_max_id ≠ (sched_extremes E dyn).srv_min_id →
      ((sched_chosen E dyn).max_cw = true ↔
        (sched_extremes E dyn).srv_min_id =
          index_at dyn.continuum (sched_chosen E dyn).max_j)) ∧
    ((sched_extremes E dyn).srv_max_id = (sched_extremes E dyn).srv_min_id →
      (sched_chosen E dyn).max_cw =
        E.dgt E.dzero (E.dsub (point_cost E dyn.continuum (sched_chosen E dyn).max_j)
          (point_cost E dyn.continuum (sched_chosen E dyn).max_k))) ∧
    ((sched_chosen E dyn).max_cw = true →
      sched_amount E dyn.beta dyn.continuum (sched_chosen E dyn) =
        E.move_amount dyn.beta
          (cost_rate E (sched_chosen E dyn).max_cost_j (sched_chosen E dyn).max_cost_k)
          (arc_distance (value_at dyn.continuum (sched_chosen E dyn).max_j)
            (value_at dyn.continuum (sched_chosen E dyn).max_k)) ∧
      value_at (mem_hs_sched_dynamic E dyn).continuum (sched_chosen E dyn).max_j =
        if arc_distance (value_at dyn.continuum (sched_chosen E dyn).max_j)
            (value_at dyn.continuum (sched_chosen E dyn).max_k) >
            sched_amount E dyn.beta dyn.continuum (sched_chosen E dyn)
        then u32 (value_at dyn.continuum (sched_chosen E dyn).max_j +
          sched_amount E dyn.beta dyn.continuum (sched_chosen E dyn))
        else value_at dyn.continuum (sched_chosen E dyn).max_j) ∧
    ((sched_chosen E dyn).max_cw = false →
      sched_amount E dyn.beta dyn.continuum (sched_chosen E dyn) =
        E.move_amount dyn.beta
          (cost_rate E (sched_chosen E dyn).max_cost_i (sched_chosen E dyn).max_cost_j)
          (arc_distance (value_at dyn.continuum (sched_chosen E dyn).max_i)
            (value_at dyn.continuum (sched_chosen E dyn).max_j)) ∧
      value_at (mem_hs_sched_dynamic E dyn).continuum (sched_chosen E dyn).max_j =
        if arc_distance (value_at dyn.continuum (sched_chosen E dyn).max_i)
            (value_at dyn.continuum (sched_chosen E dyn).max_j) >
            sched_amount E dyn.beta dyn.continuum (sched_chosen E dyn)
        then u32 (value_at dyn.continuum (sched_chosen E dyn).max_j + 4294967296 -
          sched_amount E dyn.beta dyn.continuum (sched_chosen E dyn))
        else value_at dyn.continuum (sched_chosen E dyn).max_j) ∧
    (∀ x, x ≠ (sched_chosen E dyn).max_j →
      value_at (mem_hs_sched_dynamic E dyn).continuum x = value_at dyn.continuum x) := by
  have hval := value_at_tick E dyn hP hs
  obtain ⟨j, hj, hch⟩ := sched_choose_spec E dyn.continuum dyn.continuum_points_counter
    (sched_min_max E dyn.continuum_count (sched_servers E dyn)) hs
  have hmm : sched_extremes E dyn = sched_min_max E dyn.continuum_count (sched_servers E dyn) :=
    rfl
  have hch2 : sched_chosen E dyn = sched_take_pair E dyn.continuum dyn.continuum_points_counter
      (abs_double E (E.dsub (point_cost E dyn.continuum j)
        (point_cost E dyn.continuum (ring_next dyn.continuum_points_counter j))))
      (if (sched_extremes E dyn).srv_max_id = (sched_extremes E dyn).srv_min_id then
        E.dgt E.dzero (E.dsub (point_cost E dyn.continuum j)
          (point_cost E dyn.continuum (ring_next dyn.continuum_points_counter j)))
       else decide ((sched_extremes E dyn).srv_min_id = index_at dyn.continuum j)) j := hch
  have hP0 : 0 < dyn.continuum_points_counter := by omega
  have hk : ring_next dyn.continuum_points_counter j < dyn.continuum_points_counter :=
    Nat.mod_lt _ hP0
  have hi : ring_prev dyn.continuum_points_counter j < dyn.continuum_points_counter :=
    Nat.mod_lt _ hP0
  have hjl : j < dyn.continuum.length := by omega
  have hvj := hv j hj
  have hvk := hv _ hk
  have hvi := hv _ hi
  generalize sched_extremes E dyn = mm at hch2 ⊢
  generalize sched_chosen E dyn = ch at hval hch2 ⊢
  subst hch2
  dsimp only [sched_take_pair] at hval ⊢
  refine ⟨hj, rfl, rfl, rfl, rfl, rfl, fun hne => ?_, fun heq => ?_, ?_, ?_, fun x hx => ?_⟩
  · rw [if_neg hne]
    exact decide_eq_true_iff
  · rw [if_pos heq]
  · generalize (if mm.srv_max_id = mm.srv_min_id then
        E.dgt E.dzero (E.dsub (point_cost E dyn.continuum j)
          (point_cost E dyn.continuum (ring_next dyn.continuum_points_counter j)))
       else decide (mm.srv_min_id = index_at dyn.continuum j)) = cw at hval ⊢
    intro hcw
    subst hcw
    have hd := abs_int_distance (value_at dyn.continuum j)
      (value_at dyn.continuum (ring_next dyn.continuum_points_counter j)) hvj hvk
    have ha : sched_amount E dyn.beta dyn.continuum
        (sched_take_pair E dyn.continuum dyn.continuum_points_counter
          (abs_double E (E.dsub (point_cost E dyn.continuum j)
            (point_cost E dyn.continuum (ring_next dyn.continuum_points_counter j)))) true j) =
        E.move_amount dyn.beta
          (cost_rate E (point_cost E dyn.continuum j)
            (point_cost E dyn.continuum (ring_next dyn.continuum_points_counter j)))
          (arc_distance (value_at dyn.continuum j)
            (value_at dyn.continuum (ring_next dyn.continuum_points_counter j))) := by
      rw [← hd.1]
      rfl
    refine ⟨ha, ?_⟩
    rw [hval]
    unfold controller_move
    rw [if_pos rfl, hd.2]
    split
    · rw [value_at_move (fun v => u32 (v + _)) dyn.continuum j j hjl, if_pos rfl]
    · rfl
  · generalize (if mm.srv_max_id = mm.srv_min_id then
        E.dgt E.dzero (E.dsub (point_cost E dyn.continuum j)
          (point_cost E dyn.continuum (ring_next dyn.continuum_points_counter j)))
       else decide (mm.srv_min_id = index_at dyn.continuum j)) = cw at hval ⊢
    intro hcw
    subst hcw
    have hd := abs_int_distance (value_at dyn.continuum (ring_prev dyn.continuum_points_counter j))
      (value_at dyn.continuum j) hvi hvj
    have ha : sched_amount E dyn.beta dyn.continuum
        (sched_take_pair E dyn.continuum dyn.continuum_points_counter
          (abs_double E (E.dsub (point_cost E dyn.continuum j)
            (point_cost E dyn.continuum (ring_next dyn.continuum_points_counter j)))) false j) =
        E.move_amount dyn.beta
          (cost_rate E (point_cost E dyn.continuum (ring_prev dyn.continuum_points_counter j))
            (point_cost E dyn.continuum j))
          (arc_distance (value_at dyn.continuum (ring_prev dyn.continuum_points_counter j))
            (value_at dyn.continuum j)) := by
      rw [← hd.1]
      rfl
    refine ⟨ha, ?_⟩
    rw [hval]
    unfold controller_move
    rw [if_neg (by decide), hd.2]
    split
    · rw [value_at_move (fun v => u32 (v + 4294967296 - _)) dyn.continuum j j hjl, if_pos rfl]
    · rfl
  · rw [hval]
    generalize sched_amount E dyn.beta dyn.continuum _ = amount
    generalize (if mm.srv_max_id = mm.srv_min_id then
        E.dgt E.dzero (E.dsub (point_cost E dyn.continuum j)
          (point_cost E dyn.continuum (ring_next dyn.continuum_points_counter j)))
       else decide (mm.srv_min_id = index_at dyn.continuum j)) = cw
    unfold controller_move
    cases cw
    · rw [if_neg (by decide)]
      split
      · rw [value_at_move (fun v => u32 (v + 4294967296 - amount)) dyn.continuum j x hjl,
          if_neg hx]
      · rfl
    · rw [if_pos rfl]
      split
      · rw [value_at_move (fun v => u32 (v + amount)) dyn.continuum j x hjl, if_neg hx]
      · rfl

unseal Rat.add Rat.mul Rat.inv Rat.sub in
set_option maxRecDepth 100000 in
/-- C33 (the claim fails as stated): on the sorted ring
`[(1000000000, server 0), (2000000000, server 1)]` with server 0 the more
costly, the tick moves point 0 counter-clockwise toward point 1. The arc from
point 1 to point 0 is `3294967296`, for which `beta * (1 - rate) * arc` is
`164748364`; the tick measures the distance `1000000000` and moves by
`50000000`. On the same ring with both points owned by one server, that server
has both the largest and the smallest cost and owns point 0, yet the tick
moves point 0 counter-clockwise, because `cost(0) - cost(1)` is not negative. -/
theorem mem_hs_sched_dynamic_distance_and_direction :
    ring_sorted sample_tick_pair.continuum 2 ∧
    (sched_chosen sample_externals sample_tick_pair).schedulable = true ∧
    (sched_chosen sample_externals sample_tick_pair).max_j = 0 ∧
    (sched_chosen sample_externals sample_tick_pair).max_i = 1 ∧
    (sched_chosen sample_externals sample_tick_pair).max_cw = false ∧
    hs_round (value_at sample_tick_pair.continuum 1) (value_at sample_tick_pair.continuum 0)
      = 3294967296 ∧
    cost_rate sample_externals (sched_chosen sample_externals sample_tick_pair).max_cost_i
      (sched_chosen sample_externals sample_tick_pair).max_cost_j = 1 / 2 ∧
    sample_externals.move_amount sample_tick_pair.beta (1 / 2) 3294967296 = 164748364 ∧
    sched_amount sample_externals sample_tick_pair.beta sample_tick_pair.continuum
      (sched_chosen sample_externals sample_tick_pair) = 50000000 ∧
    points_of (mem_hs_sched_dynamic sample_externals sample_tick_pair).continuum =
      [(950000000, 0), (2000000000, 1)] ∧
    (sched_extremes sample_externals sample_tick_single).srv_min_id = 0 ∧
    (sched_extremes sample_externals sample_tick_single).srv_max_id = 0 ∧
    (sched_chosen sample_externals sample_tick_single).schedulable = true ∧
    (sched_chosen sample_externals sample_tick_single).max_j = 0 ∧
    index_at sample_tick_single.continuum 0 = 0 ∧
    (sched_chosen sample_externals sample_tick_single).max_cw = false ∧
    points_of (mem_hs_sched_dynamic sample_externals sample_tick_single).continuum =
      [(950000000, 0), (2000000000, 0)] := by
  decide

unseal Rat.add Rat.mul Rat.inv Rat.sub in
set_option maxRecDepth 100000 in
/-- Witness of C33 (amended): the counter-clockwise move of point 0 on the two
point ring of two servers. -/
theorem mem_hs_sched_dynamic_move_witness :
    (sched_chosen sample_externals sample_tick_pair).schedulable = true ∧
    (sched_chosen sample_externals sample_tick_pair).max_cw = false ∧
    arc_distance (value_at sample_tick_pair.continuum 1) (value_at sample_tick_pair.continuum 0)
      = 1000000000 ∧
    (sched_amount sample_externals sample_tick_pair.beta sample_tick_pair.continuum
        (sched_chosen sample_externals sample_tick_pair) =
      sample_externals.move_amount sample_tick_pair.beta
        (cost_rate sample_externals (sched_chosen sample_externals sample_tick_pair).max_cost_i
          (sched_chosen sample_externals sample_tick_pair).max_cost_j)
        (arc_distance
          (value_at sample_tick_pair.continuum (sched_chosen sample_externals sample_tick_pair).max_i)
          (value_at sample_tick_pair.continuum
            (sched_chosen sample_externals sample_tick_pair).max_j)) ∧
      value_at (mem_hs_sched_dynamic sample_externals sample_tick_pair).continuum
          (sched_chosen sample_externals sample_tick_pair).max_j =
        if arc_distance
            (value_at sample_tick_pair.continuum
              (sched_chosen sample_externals sample_tick_pair).max_i)
            (value_at sample_tick_pair.continuum
              (sched_chosen sample_externals sample_tick_pair).max_j) >
            sched_amount sample_externals sample_tick_pair.beta sample_tick_pair.continuum
              (sched_chosen sample_externals sample_tick_pair)
        then u32 (value_at sample_tick_pair.continuum
            (sched_chosen sample_externals sample_tick_pair).max_j + 4294967296 -
          sched_amount sample_externals sample_tick_pair.beta sample_tick_pair.continuum
            (sched_chosen sample_externals sample_tick_pair))
        else value_at sample_tick_pair.continuum
          (sched_chosen sample_externals sample_tick_pair).max_j) :=
  ⟨by decide, by decide, by decide,
    (mem_hs_sched_dynamic_move sample_externals sample_tick_pair (by decide) (by decide)
      (by decide) (by decide) (by decide)).2.2.2.2.2.2.2.2.2.1 (by decide)⟩

/-! ### The sums of the ring points (C38) -/

theorem sums_ok_fresh (E : Externals D) : sums_ok (fresh_item E).sched := by
  unfold sums_ok fresh_item
  rfl

theorem slot_cases (E : Externals D) (ring : List (memcached_continuum_item_st D)) (k : Nat) :
    slot E ring k = fresh_item E ∨ slot E ring k ∈ ring := by
  unfold slot
  rw [List.getD_eq_getElem?_getD]
  cases h : ring[k]? with
  | none => exact Or.inl rfl
  | some p => exact Or.inr (List.getElem?_mem h)

theorem sums_ok_of_mem (E : Externals D) (ring : List (memcached_continuum_item_st D))
    (h : ∀ p ∈ ring, sums_ok p.sched) (k : Nat) : sums_ok (slot E ring k).sched := by
  rcases slot_cases E ring k with h1 | h1
  · rw [h1]
    exact sums_ok_fresh E
  · exact h _ h1

/-- An update of one entry that keeps the agreement of the counters keeps it
for every slot. -/
theorem sums_modify_at (E : Externals D)
    (f : memcached_continuum_item_st D → memcached_continuum_item_st D)
    (hf : ∀ p, sums_ok p.sched → sums_ok (f p).sched)
    (ring : List (memcached_continuum_item_st D)) (i k : Nat)
    (h : sums_ok (slot E ring k).sched) :
    sums_ok (slot E (modify_at f ring i) k).sched := by
  unfold slot at h ⊢
  rw [List.getD_eq_getElem?_getD] at h ⊢
  rw [getElem?_modify_at]
  split
  · cases hq : ring[k]? with
    | none => exact sums_ok_fresh E
    | some q =>
      rw [hq] at h
      exact hf q h
  · exact h

theorem sums_dynamic_hit (E : Externals D) (cmd : Nat) (p : memcached_continuum_item_st D) :
    sums_ok (dynamic_hit E cmd p).sched := by
  unfold dynamic_hit sums_ok
  dsimp only
  split <;> rfl

theorem sums_refresh_usagerate (E : Externals D) (num max : Nat)
    (ring : List (memcached_continuum_item_st D)) (k : Nat)
    (h : sums_ok (slot E ring k).sched) :
    sums_ok (slot E (refresh_usagerate E num max ring) k).sched := by
  unfold refresh_usagerate
  induction num with
  | zero => exact h
  | succ n ih =>
    rw [List.range_succ, List.foldl_append]
    simp only [List.foldl_cons, List.foldl_nil]
    exact sums_modify_at E (set_usagerate E max) (fun p hp => hp) _ n k ih

theorem dispatch_host_counter (E : Externals D) (ptr : memcached_st D) (hash cmd : Nat) :
    (dispatch_host E ptr hash cmd).1.dynamic.continuum_points_counter =
      ptr.dynamic.continuum_points_counter := by
  have hk : (dispatch_ketama E ptr hash cmd).1.dynamic = ptr.dynamic := by
    unfold dispatch_ketama
    cases ptr.ketama_stat <;> rfl
  unfold dispatch_host
  cases ptr.distribution
  all_goals first
    | rfl
    | (dsimp only; rw [hk])

/-- The lookup keeps the agreement of the counters of every ring slot. -/
theorem sums_dispatch_host (E : Externals D) (ptr : memcached_st D) (hash cmd k : Nat)
    (h : sums_ok (slot E ptr.dynamic.continuum k).sched) :
    sums_ok (slot E (dispatch_host E ptr hash cmd).1.dynamic.continuum k).sched := by
  have hd : sums_ok (slot E (dispatch_dynamic E ptr hash cmd).1.dynamic.continuum k).sched := by
    have h1 := sums_modify_at E (dynamic_hit E cmd) (fun p _ => sums_dynamic_hit E cmd p)
      ptr.dynamic.continuum
      (dispatch_position ptr.dynamic.continuum ptr.dynamic.continuum_points_counter hash) k h
    unfold dispatch_dynamic
    dsimp only
    split
    · exact sums_refresh_usagerate E _ _ _ k h1
    · exact h1
  have hk : (dispatch_ketama E ptr hash cmd).1.dynamic = ptr.dynamic := by
    unfold dispatch_ketama
    cases ptr.ketama_stat <;> rfl
  unfold dispatch_host
  cases ptr.distribution
  all_goals first
    | exact hd
    | (dsimp only; rw [hk]; exact h)
    | exact h

/-- The controller tick keeps the agreement of the counters of the ring. -/
theorem sums_mem_hs_sched_dynamic (E : Externals D) (dyn : sched_dynamic D)
    (h : ring_sums_ok E dyn.continuum dyn.continuum_points_counter) :
    ring_sums_ok E (mem_hs_sched_dynamic E dyn).continuum
      (mem_hs_sched_dynamic E dyn).continuum_points_counter := by
  by_cases hP : dyn.continuum_points_counter = 1
  · have e : mem_hs_sched_dynamic E dyn = dyn := by
      unfold mem_hs_sched_dynamic
      rw [if_pos hP]
    rw [e]
    exact h
  · cases hs : (sched_chosen E dyn).schedulable with
    | false =>
      rw [mem_hs_sched_dynamic_idle E dyn hP hs]
      exact h
    | true =>
      rw [mem_hs_sched_dynamic_moved E dyn hP hs]
      intro k hk
      dsimp only at hk ⊢
      unfold slot
      rw [List.getD_eq_getElem?_getD, sched_reset_points, if_pos hk]
      generalize (controller_move dyn.continuum (sched_chosen E dyn).max_i
        (sched_chosen E dyn).max_j (sched_chosen E dyn).max_k (sched_chosen E dyn).max_cw
        (sched_amount E dyn.beta dyn.continuum (sched_chosen E dyn)))[k]? = o
      cases o with
      | none => exact sums_ok_fresh E
      | some q => rfl

theorem sums_addition_ring (E : Externals D) (dyn : sched_dynamic D) (live_servers : Nat)
    (h : ring_sums_ok E dyn.continuum dyn.continuum_points_counter)
    (p : memcached_continuum_item_st D) (hp : p ∈ addition_ring E dyn live_servers) :
    sums_ok p.sched := by
  unfold addition_ring at hp
  obtain ⟨j, hj, hpj⟩ := List.mem_flatMap.mp hp
  have hj2 : j < dyn.continuum_points_counter := List.mem_range.mp hj
  dsimp only at hpj
  split at hpj
  · rcases List.mem_cons.mp hpj with e | e
    · rw [e]
      exact sums_ok_fresh E
    · rw [List.mem_singleton.mp e]
      exact h j hj2
  · rw [List.mem_singleton.mp hpj]
    exact h j hj2

theorem sums_removal_ring (E : Externals D) (dyn : sched_dynamic D)
    (h : ring_sums_ok E dyn.continuum dyn.continuum_points_counter)
    (p : memcached_continuum_item_st D) (hp : p ∈ removal_ring E dyn) :
    sums_ok p.sched := by
  obtain ⟨j, hj, -, -, hsched, -⟩ := mem_removal_ring E dyn p hp
  rw [hsched]
  exact h j hj

/-- The rebuild of the dynamic ring keeps the agreement of the counters, and
establishes it when it builds the first ring. -/
theorem sums_update_dynamic (E : Externals D) (ptr : memcached_st D)
    (h : ptr.dynamic.continuum_points_counter ≠ 0 →
      ring_sums_ok E ptr.dynamic.continuum ptr.dynamic.continuum_points_counter) :
    ring_sums_ok E (update_dynamic E ptr).2.dynamic.continuum
      (update_dynamic E ptr).2.dynamic.continuum_points_counter := by
  have h0 : ring_sums_ok E ptr.dynamic.continuum ptr.dynamic.continuum_points_counter := by
    by_cases hc : ptr.dynamic.continuum_points_counter = 0
    · intro k hk
      omega
    · exact h hc
  unfold update_dynamic
  cases E.gettimeofday with
  | none => exact h0
  | some now =>
    dsimp only
    by_cases h1 : live_servers_of ptr now = 0 ∨
        ptr.dynamic.continuum_count = live_servers_of ptr now
    · rw [if_pos h1]
      exact h0
    · rw [if_neg h1]
      by_cases h2 : E.alloc_ok = false
      · rw [if_pos h2]
        exact h0
      · rw [if_neg h2]
        by_cases h3 : ptr.dynamic.continuum_points_counter = 0
        · rw [if_pos h3]
          intro k hk
          dsimp only at hk ⊢
          have hs := sched_write_points E
            (initial_points (live_servers_of ptr now)
              (initial_set_size (live_servers_of ptr now))
              (initial_total_points E (live_servers_of ptr now))) ptr.dynamic.continuum k
            (by rw [length_initial_points]; exact hk)
          have hok : sums_ok (slot E (initial_ring E ptr.dynamic (live_servers_of ptr now))
              k).sched := by
            unfold sums_ok initial_ring
            rw [hs.1, hs.2.1, hs.2.2]
            rfl
          split
          · rw [slot_take E _ _ _ hk]
            exact hok
          · exact hok
        · rw [if_neg h3]
          by_cases h4 : live_servers_of ptr now > ptr.dynamic.continuum_count
          · rw [if_pos h4]
            intro k _
            dsimp only
            exact sums_ok_of_mem E _ (fun p hp =>
              sums_addition_ring E ptr.dynamic _ h0 p
                ((qsort_perm continuum_item_cmp _ _).mem_iff.mp hp)) k
          · rw [if_neg h4]
            intro k _
            dsimp only
            exact sums_ok_of_mem E _ (fun p hp =>
              sums_removal_ring E ptr.dynamic h0 p
                ((qsort_perm continuum_item_cmp _ _).mem_iff.mp hp)) k

/-- C38: in the Dynamic strategies every ring point has `sum = get + set` in
`uint32_t` in every state the operations reach. `update_dynamic` establishes
the property when it builds the first ring and keeps it in an addition, a
removal and when it leaves the ring as it is; `dispatch_host` keeps it for
every hash and command; the controller tick `mem_hs_sched_dynamic` keeps
it. -/
theorem dynamic_ring_sums (E : Externals D) :
    (∀ ptr : memcached_st D,
      (ptr.dynamic.continuum_points_counter ≠ 0 →
        ring_sums_ok E ptr.dynamic.continuum ptr.dynamic.continuum_points_counter) →
      ring_sums_ok E (update_dynamic E ptr).2.dynamic.continuum
        (update_dynamic E ptr).2.dynamic.continuum_points_counter) ∧
    (∀ (ptr : memcached_st D) (hash cmd : Nat),
      ring_sums_ok E ptr.dynamic.continuum ptr.dynamic.continuum_points_counter →
      ring_sums_ok E (dispatch_host E ptr hash cmd).1.dynamic.continuum
        (dispatch_host E ptr hash cmd).1.dynamic.continuum_points_counter) ∧
    (∀ dyn : sched_dynamic D,
      ring_sums_ok E dyn.continuum dyn.continuum_points_counter →
      ring_sums_ok E (mem_hs_sched_dynamic E dyn).continuum
        (mem_hs_sched_dynamic E dyn).continuum_points_counter) := by
  refine ⟨sums_update_dynamic E, fun ptr hash cmd h => ?_, sums_mem_hs_sched_dynamic E⟩
  intro k hk
  rw [dispatch_host_counter] at hk
  exact sums_dispatch_host E ptr hash cmd k (h k hk)

set_option maxRecDepth 100000 in
/-- Witness of C38: the ring of the initial build over three servers, and the
same ring after a get command, have six points with `sum = get + set`. -/
theorem dynamic_ring_sums_witness :
    sample_dynamic_fleet.dynamic.continuum_points_counter = 0 ∧
    ring_sums_ok sample_externals sample_dynamic_built.dynamic.continuum
      sample_dynamic_built.dynamic.continuum_points_counter ∧
    ring_sums_ok sample_externals sample_dynamic_hit_first.dynamic.continuum
      sample_dynamic_hit_first.dynamic.continuum_points_counter ∧
    sample_dynamic_hit_first.dynamic.continuum_points_counter = 6 :=
  ⟨rfl,
    (dynamic_ring_sums sample_externals).1 sample_dynamic_fleet (fun h => absurd rfl h),
    (dynamic_ring_sums sample_externals).2.1 sample_dynamic_built 1 1
      ((dynamic_ring_sums sample_externals).1 sample_dynamic_fleet (fun h => absurd rfl h)),
    by decide⟩

/-! ## Claim about `memcached_server_push` and repeated adds (C32) -/

/-- Inserting two elements of which the first is strictly before the second
gives the same list in either order. -/
theorem orderedInsert_comm {α : Type} (r : α → α → Prop) [DecidableRel r] [IsTrans α r]
    (s x : α) (hsx : r s x) (hxs : ¬ r x s) :
    ∀ U : List α, List.orderedInsert r s (List.orderedInsert r x U) =
      List.orderedInsert r x (List.orderedInsert r s U) := by
  intro U
  induction U with
  | nil => simp [List.orderedInsert, hsx, hxs]
  | cons u U ih =>
    by_cases h1 : r s u
    · by_cases h2 : r x u
      · simp [List.orderedInsert, h1, h2, hsx, hxs]
      · simp [List.orderedInsert, h1, h2, hxs]
    · by_cases h2 : r x u
      · exact absurd (IsTrans.trans s x u hsx h2) h1
      · simp [List.orderedInsert, h1, h2, ih]

theorem insertionSort_append {α : Type} (r : α → α → Prop) [DecidableRel r]
    (xs ys : List α) :
    (xs ++ ys).insertionSort r = xs.foldr (List.orderedInsert r) (ys.insertionSort r) := by
  induction xs with
  | nil => rfl
  | cons x xs ih => simp [List.insertionSort, ih]

/-- Inserting the elements of a list with one more element inserted is
inserting that element last. -/
theorem foldr_orderedInsert {α : Type} (r : α → α → Prop) [DecidableRel r] [IsTrans α r]
    [IsTotal α r] (x : α) (T : List α) :
    ∀ S : List α, (List.orderedInsert r x S).foldr (List.orderedInsert r) T =
      List.orderedInsert r x (S.foldr (List.orderedInsert r) T) := by
  intro S
  induction S with
  | nil => rfl
  | cons s S ih =>
    by_cases h : r x s
    · simp [List.orderedInsert, h]
    · have hsx : r s x := (IsTotal.total s x).resolve_right h
      simp only [List.orderedInsert, if_neg h, List.foldr_cons]
      rw [ih]
      exact orderedInsert_comm r s x hsx h _

/-- Sorting a list whose front part is already sorted by the same stable sort
is sorting the list. -/
theorem insertionSort_sorted_front {α : Type} (r : α → α → Prop) [DecidableRel r]
    [IsTrans α r] [IsTotal α r] (ys : List α) :
    ∀ xs : List α, (xs.insertionSort r ++ ys).insertionSort r = (xs ++ ys).insertionSort r := by
  intro xs
  rw [insertionSort_append, insertionSort_append]
  induction xs with
  | nil => rfl
  | cons x xs ih =>
    rw [List.insertionSort, foldr_orderedInsert, ih]
    rfl
theorem same_fleet_symm (s1 s2 : memcached_st D) (h : same_fleet s1 s2) : same_fleet s2 s1 :=
  ⟨h.1.symm, h.2.1.symm, h.2.2.1.symm, h.2.2.2.1.symm, h.2.2.2.2.1.symm, h.2.2.2.2.2.symm⟩

theorem same_fleet_trans (s1 s2 s3 : memcached_st D) (h : same_fleet s1 s2)
    (g : same_fleet s2 s3) : same_fleet s1 s3 :=
  ⟨h.1.trans g.1, h.2.1.trans g.2.1, h.2.2.1.trans g.2.2.1, h.2.2.2.1.trans g.2.2.2.1,
    h.2.2.2.2.1.trans g.2.2.2.2.1, h.2.2.2.2.2.trans g.2.2.2.2.2⟩

theorem range_map_getD {α : Type} (l : List α) (d : α) :
    (List.range l.length).map (fun i => l.getD i d) = l := by
  apply List.ext_getElem
  · simp
  · intro i h1 h2
    simp only [List.getElem_map, List.getElem_range, List.getD_eq_getElem?_getD,
      List.getElem?_eq_getElem h2, Option.getD_some]

/-- The array after the store: the instances below the count, then the new
one. -/
theorem store_instance_eq (ptr : memcached_st D) (inst : Instance)
    (h : ptr.servers.length = ptr.number_of_hosts) :
    store_instance ptr inst = ptr.servers ++ [inst] := by
  unfold store_instance memcached_server_count
  rw [← h]
  congr 1
  exact range_map_getD ptr.servers default

theorem length_store_instance (ptr : memcached_st D) (inst : Instance) :
    (store_instance ptr inst).length = ptr.number_of_hosts + 1 := by
  unfold store_instance memcached_server_count
  simp

/-- The fleet in order, when the array holds exactly the counted instances. -/
theorem hosts_in_order_servers (ptr : memcached_st D)
    (h : ptr.servers.length = ptr.number_of_hosts) :
    (hosts_in_order ptr).servers =
      if ptr.flags.use_sort_hosts = true then
        ptr.servers.insertionSort (fun a b => compare_servers a b ≤ 0)
      else ptr.servers := by
  rw [(hosts_in_order_frame ptr).2.2.2.2.2.2]
  by_cases hs : ptr.flags.use_sort_hosts = true
  · rw [if_pos hs]
    by_cases hn : memcached_server_count ptr ≠ 0
    · rw [if_pos ⟨hs, hn⟩]
      unfold qsort memcached_server_count
      rw [← h, List.take_length, List.drop_length, List.append_nil]
    · rw [if_neg (fun hh => hn hh.2)]
      have h0 : ptr.servers = [] := by
        apply List.eq_nil_of_length_eq_zero
        unfold memcached_server_count at hn
        omega
      rw [h0]
      rfl
  · rw [if_neg hs, if_neg (fun hh => hs hh.1)]
/-- Two rebuilds of selectors with the same fleet that succeed on a live server
leave the same counter and the same `(value, index)` pairs. -/
theorem update_continuum_congr (E : Externals D) (s1 s2 : memcached_st D) (now : Int)
    (h : same_fleet s1 s2) (hnow : E.gettimeofday = some now) (halloc : E.alloc_ok = true)
    (hlive : live_servers_of s2 now ≠ 0)
    (hok : (update_continuum E s2).1 = MEMCACHED_SUCCESS) :
    (update_continuum E s1).1 = MEMCACHED_SUCCESS ∧
    (update_continuum E s1).2.ketama.continuum_points_counter =
      (update_continuum E s2).2.ketama.continuum_points_counter ∧
    points_of ((update_continuum E s1).2.ketama.continuum.take
        (update_continuum E s1).2.ketama.continuum_points_counter) =
      points_of ((update_continuum E s2).2.ketama.continuum.take
        (update_continuum E s2).2.ketama.continuum_points_counter) := by
  have hl := live_servers_of_congr s1 s2 now h
  have hn : memcached_server_count s1 = memcached_server_count s2 :=
    (same_fleet_reads _ _ h).2.2.2
  have hb := continuum_loop_congr E s1 s2 now (memcached_server_count s2) h
  obtain ⟨-, -, a3⟩ := update_continuum_fields E s1 now hnow
  obtain ⟨-, -, b3⟩ := update_continuum_fields E s2 now hnow
  rw [hl] at a3
  rw [hn, hb] at a3
  have na : ∀ c : Nat, ¬ (live_servers_of s2 now > c ∧ E.alloc_ok = false) := by
    intro c hh
    rw [halloc] at hh
    cases hh.2
  obtain ⟨-, -, ps⟩ := a3 hlive (na _)
  obtain ⟨-, qf, qs⟩ := b3 hlive (na _)
  by_cases hf : (continuum_loop E s2 now (memcached_server_count s2)).failed = true
  · obtain ⟨q1, -, -⟩ := qf hf
    rw [q1] at hok
    cases hok
  · have hf2 : (continuum_loop E s2 now (memcached_server_count s2)).failed = false := by
      simpa using hf
    obtain ⟨p1, p2, p3⟩ := ps hf2
    obtain ⟨q1, q2, q3⟩ := qs hf2
    obtain ⟨-, -, i3⟩ := continuum_loop_inv E s2 now (memcached_server_count s2)
    obtain ⟨c1, -, -⟩ := i3 hf2
    have hle : (continuum_loop E s2 now (memcached_server_count s2)).pointer_counter ≤
        (continuum_loop E s2 now (memcached_server_count s2)).points.length := by
      rw [c1]
      unfold u32
      exact Nat.mod_le _ _
    refine ⟨p1, by rw [p3, q3], ?_⟩
    rw [p3, q3, p2, q2, points_of_rebuilt_ring _ _ _ _ hle, points_of_rebuilt_ring _ _ _ _ hle]

theorem stored_some (E : Externals D) (s : memcached_st D) (e : memcached_server_st)
    (h : (E.__instance_create_with e.hostname e.port e.weight).isSome = true) :
    ∃ inst, E.__instance_create_with e.hostname e.port e.weight = some inst ∧
      stored E s e =
        { s with
          servers := store_instance s inst
          ketama := { s.ketama with
            weighted_ := if e.weight > 1 then true else s.ketama.weighted_ }
          number_of_hosts := u32 (s.number_of_hosts + 1) } := by
  unfold stored
  cases hc : E.__instance_create_with e.hostname e.port e.weight with
  | none =>
    rw [hc] at h
    cases h
  | some inst => exact ⟨inst, rfl, rfl⟩

/-- One call of `memcached_server_add_with_weight` on a plain entry stores the
instance and rebuilds. -/
theorem add_step (E : Externals D) (s : memcached_st D) (e : memcached_server_st)
    (halloc : E.alloc_ok = true) (hp : plain_entry E s.distribution e) :
    memcached_server_add_with_weight E s e.hostname e.port e.weight =
      run_distribution E (stored E s e) := by
  obtain ⟨h1, h2, h3, h4, h5⟩ := hp
  obtain ⟨inst, hc, hs⟩ := stored_some E s e h5
  unfold memcached_server_add_with_weight
  rw [if_neg h2, if_neg h1, h3, if_neg (by decide)]
  unfold server_add
  rw [halloc, if_neg (by decide), hc, hs]
  dsimp only
  by_cases hw : e.weight > 1
  · rw [if_pos ⟨hw, h4 hw⟩, if_pos hw]
  · rw [if_neg (fun hh => hw hh.1), if_neg hw]

/-- The loop of `memcached_server_push` on entries for which
`__instance_create_with` returns an instance. -/
theorem push_loop (E : Externals D) :
    ∀ (es : List memcached_server_st) (s : memcached_st D),
      (∀ e ∈ es, (E.__instance_create_with e.hostname e.port e.weight).isSome = true) →
      es.foldl (push_step E) (false, s) = (false, es.foldl (stored E) s) := by
  intro es
  induction es with
  | nil => intro s _; rfl
  | cons e es ih =>
    intro s h
    obtain ⟨inst, hc, hs⟩ := stored_some E s e (h e (List.mem_cons_self _ _))
    have h1 : push_step E (false, s) e = (false, stored E s e) := by
      unfold push_step
      simp only [Bool.false_eq_true, if_false]
      rw [hc, hs]
    rw [List.foldl_cons, List.foldl_cons, h1]
    exact ih _ (fun e2 he2 => h e2 (List.mem_cons_of_mem _ he2))

theorem push_entries_eq (l : List memcached_server_st)
    (hcount : memcached_server_list_count l = l.length) (hlen : l.length < 4294967296) :
    push_entries l = l := by
  unfold push_entries
  rw [hcount]
  unfold u32
  rw [Nat.mod_eq_of_lt hlen]
  exact range_map_getD l default

/-- What `memcached_server_push` does with a list of plain entries: it stores
them all and rebuilds once. -/
theorem push_eq (E : Externals D) (ptr : memcached_st D) (l : List memcached_server_st)
    (halloc : E.alloc_ok = true)
    (hcount : memcached_server_list_count l = l.length) (hlen : l.length < 4294967296)
    (hp : ∀ e ∈ l, (E.__instance_create_with e.hostname e.port e.weight).isSome = true) :
    memcached_server_push E ptr (some l) = run_distribution E (l.foldl (stored E) ptr) := by
  unfold memcached_server_push
  dsimp only
  rw [halloc, if_neg (by decide), push_entries_eq l hcount hlen, push_loop E l ptr hp]
  rfl

/-- The fields of the selector after an entry is stored. -/
theorem stored_fields (E : Externals D) (s : memcached_st D) (e : memcached_server_st)
    (h : (E.__instance_create_with e.hostname e.port e.weight).isSome = true) :
    (stored E s e).number_of_hosts = u32 (s.number_of_hosts + 1) ∧
    (stored E s e).flags = s.flags ∧
    (stored E s e).distribution = s.distribution ∧
    (stored E s e).hashkit = s.hashkit ∧
    (stored E s e).ketama.weighted_ = (if e.weight > 1 then true else s.ketama.weighted_) ∧
    (stored E s e).servers.length = s.number_of_hosts + 1 ∧
    (s.servers.length = s.number_of_hosts →
      ∃ inst, (stored E s e).servers = s.servers ++ [inst] ∧
        E.__instance_create_with e.hostname e.port e.weight = some inst) := by
  obtain ⟨inst, hc, hs⟩ := stored_some E s e h
  rw [hs]
  exact ⟨rfl, rfl, rfl, rfl, rfl, length_store_instance s inst,
    fun hl => ⟨inst, store_instance_eq s inst hl, hc⟩⟩

/-- Storing the same entry in two selectors of which the first has the ordered
fleet of the second gives two selectors with the same ordered fleet. -/
theorem stored_same_fleet (E : Externals D) (S P : memcached_st D) (e : memcached_server_st)
    (h : (E.__instance_create_with e.hostname e.port e.weight).isSome = true)
    (hn : P.number_of_hosts + 1 < 4294967296)
    (hQ : S = P ∨ (same_fleet S (hosts_in_order P) ∧ P.servers.length = P.number_of_hosts)) :
    same_fleet (hosts_in_order (stored E S e)) (hosts_in_order (stored E P e)) := by
  rcases hQ with hQ | ⟨hsf, hlenP⟩
  · rw [hQ]
    exact ⟨rfl, rfl, rfl, rfl, rfl, rfl⟩
  · obtain ⟨f1, f2, f3, f4, f5, -, -⟩ := hosts_in_order_frame P
    obtain ⟨g1, g2, g3, g4, g5, g6⟩ := hsf
    rw [f1] at g2
    rw [f2] at g3
    rw [f3] at g4
    rw [f4] at g5
    rw [f5] at g6
    have hHP := hosts_in_order_servers P hlenP
    have hlenS : S.servers.length = S.number_of_hosts := by
      rw [g1, g2, hHP]
      split
      · rw [List.length_insertionSort]
        exact hlenP
      · exact hlenP
    obtain ⟨x1, x2, x3, x4, x5, x6, x7⟩ := stored_fields E S e h
    obtain ⟨y1, y2, y3, y4, y5, y6, y7⟩ := stored_fields E P e h
    obtain ⟨instS, x8, cS⟩ := x7 hlenS
    obtain ⟨instP, y8, cP⟩ := y7 hlenP
    have hinst : instS = instP := by
      rw [cS] at cP
      exact Option.some.inj cP
    have hu : u32 (P.number_of_hosts + 1) = P.number_of_hosts + 1 := Nat.mod_eq_of_lt hn
    obtain ⟨a1, a2, a3, a4, a5, -, -⟩ := hosts_in_order_frame (stored E S e)
    obtain ⟨b1, b2, b3, b4, b5, -, -⟩ := hosts_in_order_frame (stored E P e)
    have hXlen : (stored E S e).servers.length = (stored E S e).number_of_hosts := by
      rw [x6, x1, g2, hu]
    have hYlen : (stored E P e).servers.length = (stored E P e).number_of_hosts := by
      rw [y6, y1, hu]
    refine ⟨?_, by rw [a1, b1, x1, y1, g2], by rw [a2, b2, x2, y2, g3],
      by rw [a3, b3, x3, y3, g4], by rw [a4, b4, x4, y4, g5],
      by rw [a5, b5, x5, y5, g6]⟩
    rw [hosts_in_order_servers _ hXlen, hosts_in_order_servers _ hYlen, x2, y2, g3, x8, y8,
      g1, hHP, hinst]
    by_cases hs : P.flags.use_sort_hosts = true
    · simp only [if_pos hs]
      exact insertionSort_sorted_front (fun a b : Instance => compare_servers a b ≤ 0) [instP]
        P.servers
    · simp only [if_neg hs]
/-- The selectors of the two ways after the same entries: the one of the
repeated adds has the ordered fleet of the one of the loop of
`memcached_server_push`. -/
theorem add_each_inv (E : Externals D) (d : memcached_server_distribution_t)
    (halloc : E.alloc_ok = true) :
    ∀ (es : List memcached_server_st) (S P : memcached_st D),
      (∀ e ∈ es, plain_entry E d e) →
      P.number_of_hosts + es.length < 4294967296 →
      S.distribution = d → P.distribution = d →
      (S = P ∨ (same_fleet S (hosts_in_order P) ∧ P.servers.length = P.number_of_hosts)) →
      (es.foldl (stored E) P).number_of_hosts = P.number_of_hosts + es.length ∧
      (add_each E S es).distribution = d ∧
      (es.foldl (stored E) P).distribution = d ∧
      (add_each E S es = es.foldl (stored E) P ∨
        (same_fleet (add_each E S es) (hosts_in_order (es.foldl (stored E) P)) ∧
          (es.foldl (stored E) P).servers.length =
            (es.foldl (stored E) P).number_of_hosts)) := by
  intro es
  induction es with
  | nil =>
    intro S P _ _ hS hP hQ
    exact ⟨rfl, hS, hP, hQ⟩
  | cons e es ih =>
    intro S P hp hn hS hP hQ
    have hpe := hp e (List.mem_cons_self _ _)
    have hsome := hpe.2.2.2.2
    have hadd : (memcached_server_add_with_weight E S e.hostname e.port e.weight).2 =
        (run_distribution E (stored E S e)).2 := by
      rw [add_step E S e halloc (by rw [hS]; exact hpe)]
    obtain ⟨y1, -, y3, -, -, y6, -⟩ := stored_fields E P e hsome
    obtain ⟨-, -, x3, -, -, -, -⟩ := stored_fields E S e hsome
    have hlen : (e :: es).length = es.length + 1 := rfl
    rw [hlen] at hn
    have hu : u32 (P.number_of_hosts + 1) = P.number_of_hosts + 1 :=
      Nat.mod_eq_of_lt (by omega)
    have hsf1 := run_distribution_same_fleet E (stored E S e)
    have hsf2 := stored_same_fleet E S P e hsome (by omega) hQ
    have hsf := same_fleet_trans _ _ _ hsf1 hsf2
    have hd1 : (run_distribution E (stored E S e)).2.distribution = d := by
      rw [hsf1.2.2.2.1, (hosts_in_order_frame _).2.2.1, x3, hS]
    have key := ih (run_distribution E (stored E S e)).2 (stored E P e)
      (fun e2 he2 => hp e2 (List.mem_cons_of_mem _ he2))
      (by rw [y1, hu]; omega) hd1 (by rw [y3, hP])
      (Or.inr ⟨hsf, by rw [y6, y1, hu]⟩)
    unfold add_each at key ⊢
    rw [List.foldl_cons, List.foldl_cons, hadd]
    refine ⟨?_, key.2.1, key.2.2.1, key.2.2.2⟩
    rw [key.1, y1, hu, hlen]
    omega

/-- C32 (amended): for every selector and every non empty list of plain entries
(port not 0, host name not empty and valid, a weight above 1 only under a
consistent distribution), `memcached_server_push` leaves the same fleet, the
same count and the same weighted flag as one call of
`memcached_server_add_with_weight` per element in order, whatever the
distribution; and under the Ketama strategies, when the push succeeds and a
server is live, the same `continuum_points_counter` and the same
`(value, index)` points of the ring. The allocator serves the calls, the count
in the first entry is the length of the list and the new count fits
`uint32_t`. -/
theorem push_as_add_each (E : Externals D) (ptr : memcached_st D)
    (l : List memcached_server_st)
    (halloc : E.alloc_ok = true)
    (hne : l ≠ [])
    (hcount : memcached_server_list_count l = l.length)
    (hfit : ptr.number_of_hosts + l.length < 4294967296)
    (hplain : ∀ e ∈ l, plain_entry E ptr.distribution e) :
    (add_each E ptr l).servers = (memcached_server_push E ptr (some l)).2.servers ∧
    (add_each E ptr l).number_of_hosts =
      (memcached_server_push E ptr (some l)).2.number_of_hosts ∧
    (memcached_server_push E ptr (some l)).2.number_of_hosts = ptr.number_of_hosts + l.length ∧
    (add_each E ptr l).ketama.weighted_ =
      (memcached_server_push E ptr (some l)).2.ketama.weighted_ ∧
    (ketama_family ptr.distribution →
      (memcached_server_push E ptr (some l)).1 = MEMCACHED_SUCCESS →
      (∀ now, E.gettimeofday = some now →
        live_servers_of (memcached_server_push E ptr (some l)).2 now ≠ 0) →
      (add_each E ptr l).ketama.continuum_points_counter =
        (memcached_server_push E ptr (some l)).2.ketama.continuum_points_counter ∧
      points_of ((add_each E ptr l).ketama.continuum.take
          (add_each E ptr l).ketama.continuum_points_counter) =
        points_of ((memcached_server_push E ptr (some l)).2.ketama.continuum.take
          (memcached_server_push E ptr (some l)).2.ketama.continuum_points_counter)) := by
  have hpush := push_eq E ptr l halloc hcount (by omega) (fun e he => (hplain e he).2.2.2.2)
  rw [hpush]
  rcases List.eq_nil_or_concat l with h0 | ⟨es, e, hl⟩
  · exact absurd h0 hne
  rw [List.concat_eq_append] at hl
  subst hl
  have hlen : (es ++ [e]).length = es.length + 1 := by simp
  rw [hlen] at hfit
  obtain ⟨i1, i2, i3, i4⟩ := add_each_inv E ptr.distribution halloc es ptr ptr
    (fun e2 he2 => hplain e2 (List.mem_append_left _ he2)) (by omega) rfl rfl (Or.inl rfl)
  have hpe := hplain e (List.mem_append_right _ (List.mem_singleton_self e))
  have hsome := hpe.2.2.2.2
  have hA : add_each E ptr (es ++ [e]) =
      (run_distribution E (stored E (add_each E ptr es) e)).2 := by
    have h1 : add_each E ptr (es ++ [e]) =
        (memcached_server_add_with_weight E (add_each E ptr es) e.hostname e.port e.weight).2 := by
      unfold add_each
      rw [List.foldl_append]
      rfl
    rw [h1, add_step E _ e halloc (by rw [i2]; exact hpe)]
  have hB : (es ++ [e]).foldl (stored E) ptr = stored E (es.foldl (stored E) ptr) e := by
    rw [List.foldl_append]
    rfl
  rw [hA, hB]
  generalize add_each E ptr es = S at i2 i4 ⊢
  generalize es.foldl (stored E) ptr = P at i1 i3 i4 ⊢
  have hsfXY := stored_same_fleet E S P e hsome (by omega) i4
  have hsfA := run_distribution_same_fleet E (stored E S e)
  have hsfB := run_distribution_same_fleet E (stored E P e)
  have hAB := same_fleet_trans _ _ _ (same_fleet_trans _ _ _ hsfA hsfXY) (same_fleet_symm _ _ hsfB)
  obtain ⟨y1, -, y3, -, -, -, -⟩ := stored_fields E P e hsome
  obtain ⟨-, -, x3, -, -, -, -⟩ := stored_fields E S e hsome
  have hu : u32 (P.number_of_hosts + 1) = P.number_of_hosts + 1 :=
    Nat.mod_eq_of_lt (by omega)
  refine ⟨hAB.1, hAB.2.1, ?_, hAB.2.2.2.2.2, fun hk hok hlive => ?_⟩
  · rw [hsfB.2.1, (hosts_in_order_frame _).1, y1, hu, i1, hlen]
    omega
  · have hkX : ketama_family (hosts_in_order (stored E S e)).distribution := by
      rw [(hosts_in_order_frame _).2.2.1, x3, i2]
      exact hk
    have hkY : ketama_family (hosts_in_order (stored E P e)).distribution := by
      rw [(hosts_in_order_frame _).2.2.1, y3, i3]
      exact hk
    rw [(run_distribution_eq E _).1 hkX]
    rw [(run_distribution_eq E _).1 hkY] at hok hlive ⊢
    cases hnow : E.gettimeofday with
    | none =>
      have hx : (update_continuum E (hosts_in_order (stored E P e))).1 = MEMCACHED_ERRNO := by
        unfold update_continuum
        rw [hnow]
      rw [hx] at hok
      cases hok
    | some now =>
      have hl := hlive now hnow
      rw [live_servers_of_congr _ _ now (update_continuum_same_fleet E _)] at hl
      obtain ⟨-, c2, c3⟩ := update_continuum_congr E _ _ now hsfXY hnow halloc hl hok
      exact ⟨c2, c3⟩

set_option maxRecDepth 100000 in
/-- C32 (the claim fails as stated): for an entry with port 0 the add stores the
default port 11211 and the push stores port 0; for an entry of weight 2 under
the Modulo distribution the push sets the weighted flag and the add does not;
for an entry with an empty host name the add stores `localhost` and the push the
empty name; an entry whose host name is not valid is refused by the add and
stored by the push; and under the Dynamic distribution two adds build the ring of
one server and then insert a point for the second, `(2^32 - 1, 1), (2^32 - 1, 0)`,
while the push builds the ring of two servers,
`(2147483647, 0), (4294967294, 1)`, over the same fleet. -/
theorem push_differs_from_add_each :
    (add_each sample_externals sample_st (sample_list_one "10.0.1.1" 0 1)).servers =
      [sample_server "10.0.1.1" 11211 1 0] ∧
    (memcached_server_push sample_externals sample_st
      (some (sample_list_one "10.0.1.1" 0 1))).2.servers = [sample_server "10.0.1.1" 0 1 0] ∧
    (add_each sample_externals sample_st (sample_list_one "10.0.1.1" 11211 2)).ketama.weighted_
      = false ∧
    (memcached_server_push sample_externals sample_st
      (some (sample_list_one "10.0.1.1" 11211 2))).2.ketama.weighted_ = true ∧
    (add_each sample_externals sample_st (sample_list_one "" 11211 1)).servers =
      [sample_server "localhost" 11211 1 0] ∧
    (memcached_server_push sample_externals sample_st
      (some (sample_list_one "" 11211 1))).2.servers = [sample_server "" 11211 1 0] ∧
    (add_each short_name_externals sample_st (sample_list_one "10.0.1.100" 11211 1)).servers
      = [] ∧
    (memcached_server_push short_name_externals sample_st
      (some (sample_list_one "10.0.1.100" 11211 1))).2.servers =
      [sample_server "10.0.1.100" 11211 1 0] ∧
    (add_each sample_externals sample_dynamic_empty sample_list_two).servers =
      (memcached_server_push sample_externals sample_dynamic_empty
        (some sample_list_two)).2.servers ∧
    (memcached_server_push sample_externals sample_dynamic_empty (some sample_list_two)).1 =
      MEMCACHED_SUCCESS ∧
    points_of (add_each sample_externals sample_dynamic_empty sample_list_two).dynamic.continuum
      = [(4294967295, 1), (4294967295, 0)] ∧
    points_of (memcached_server_push sample_externals sample_dynamic_empty
      (some sample_list_two)).2.dynamic.continuum = [(2147483647, 0), (4294967294, 1)] := by
  decide

set_option maxRecDepth 100000 in
/-- Witness of C32 (amended): two servers pushed to, or added one by one to, an
empty ketama selector give the same fleet and the same ring of 320 points. -/
theorem push_as_add_each_witness :
    (add_each sample_externals sample_ketama_empty sample_list_two).servers =
      (memcached_server_push sample_externals sample_ketama_empty
        (some sample_list_two)).2.servers ∧
    (memcached_server_push sample_externals sample_ketama_empty
      (some sample_list_two)).2.ketama.continuum_points_counter = 320 ∧
    points_of ((add_each sample_externals sample_ketama_empty sample_list_two).ketama.continuum.take
        (add_each sample_externals sample_ketama_empty
          sample_list_two).ketama.continuum_points_counter) =
      points_of ((memcached_server_push sample_externals sample_ketama_empty
          (some sample_list_two)).2.ketama.continuum.take
        (memcached_server_push sample_externals sample_ketama_empty
          (some sample_list_two)).2.ketama.continuum_points_counter) :=
  ⟨(push_as_add_each sample_externals sample_ketama_empty sample_list_two rfl (by decide)
      (by decide) (by decide) (by decide)).1,
    by decide,
    ((push_as_add_each sample_externals sample_ketama_empty sample_list_two rfl (by decide)
      (by decide) (by decide) (by decide)).2.2.2.2 (Or.inr (Or.inl rfl)) (by decide)
      (fun now hnow => by cases hnow; decide)).2⟩

end DhtSched
